import Mathlib

/-!
# copier: a shallow embedding of `copier.go` and its reflective substrate

The program under study is one Go file, `copier.go`, whose functions `Copy`,
`deepFields`, `indirect`, `indirectType`, `set` and `createOptions` are written
entirely against the `reflect` package.  The embedding therefore has two layers.

* A model of the part of `reflect` the program calls: types (`Ty`), values
  (`Value`), the handle `RValue` (a `reflect.Value`: a possibly absent value and
  its addressability flag), kinds, field lookup by name with promotion through
  embedded structs, assignability, convertibility, conversion, method lookup.
* The program itself, function by function, under the names of the source.

Scope of the reflective model.

* Types are finite trees built from `bool`, `int` (64 bit), `int8`, `string`,
  pointers, slices, maps and defined struct types.  Interfaces, arrays, channels,
  functions, floating point, unsigned integers and defined non-struct types are
  outside the embedding, and so are recursive type declarations.
* Values are trees: a pointer owns its pointee.  Two pointers never share a
  pointee, so aliasing between source and destination is not represented.
* Mutation is explicit state passing: a function that writes through a
  `reflect.Value` returns the new contents of the location it was given, and the
  caller stores them back where the location lives.
* A run-time panic raised by `reflect` is an explicit outcome.
* User code called back by the program (methods found by name, `Scan`) is a total
  function supplied by the environment `Env`; its effect is confined to its
  receiver.  Every call is recorded in a trace.
* A field or method name is exported when its first rune is an upper-case letter
  of Unicode (category Lu, version 14.0 of the tables).
-/

namespace Copier

/-! ## Types -/

mutual
/-- Go types of the embedding. A struct type is a defined type: it has a name. -/
inductive Ty where
  | bool
  | int
  | int8
  | string
  | ptr (elem : Ty)
  | slice (elem : Ty)
  | map (key elem : Ty)
  | struct (name : String) (fields : List StructField)
/-- The descriptor `reflect.StructField`: name, type, and whether the field is
embedded (`Anonymous`). -/
inductive StructField where
  | mk (name : String) (type : Ty) (anonymous : Bool)
end

/-- Field `Name` of a struct field descriptor. -/
def StructField.name : StructField → String
  | .mk n _ _ => n

/-- Field `Type` of a struct field descriptor. -/
def StructField.type : StructField → Ty
  | .mk _ t _ => t

/-- Field `Anonymous` of a struct field descriptor. -/
def StructField.anonymous : StructField → Bool
  | .mk _ _ a => a

/-- The kinds of `reflect.Kind` that occur in the embedding. -/
inductive Kind where
  | invalid | bool | int | int8 | string | ptr | slice | map | struct
  deriving DecidableEq

/-- Method `Type.Kind`. -/
def Ty.kind : Ty → Kind
  | .bool => .bool
  | .int => .int
  | .int8 => .int8
  | .string => .string
  | .ptr _ => .ptr
  | .slice _ => .slice
  | .map _ _ => .map
  | .struct _ _ => .struct

mutual
/-- Type identity, as a boolean test. -/
def Ty.beq : Ty → Ty → Bool
  | .bool, .bool => true
  | .int, .int => true
  | .int8, .int8 => true
  | .string, .string => true
  | .ptr a, .ptr b => Ty.beq a b
  | .slice a, .slice b => Ty.beq a b
  | .map a b, .map c d => Ty.beq a c && Ty.beq b d
  | .struct n fs, .struct m gs => n == m && Ty.beqFields fs gs
  | _, _ => false
/-- Identity of two field lists: same names, types and embedding, in order. -/
def Ty.beqFields : List StructField → List StructField → Bool
  | [], [] => true
  | (.mk n t a) :: fs, (.mk m u b) :: gs =>
    n == m && Ty.beq t u && a == b && Ty.beqFields fs gs
  | _, _ => false
end

/-- Method `Type.AssignableTo`. Every type of the embedding is either predeclared,
a defined struct type, or an unnamed pointer, slice or map type; for these Go's
assignability is type identity. -/
def Ty.AssignableTo (t u : Ty) : Bool := Ty.beq t u

/-- The test `haveIdenticalUnderlyingType(T, V, false)` of package reflect: two
struct types have the same underlying type when their field lists are identical,
whatever their names; any other two types when they are identical. -/
def haveIdenticalUnderlyingType : Ty → Ty → Bool
  | .struct _ fs, .struct _ gs => Ty.beqFields fs gs
  | t, u => Ty.beq t u

/-- Whether a kind is one of the signed integer kinds of the embedding. -/
def Kind.isInt : Kind → Bool
  | .int => true
  | .int8 => true
  | _ => false

/-- Method `Type.Elem` for pointer and slice types (the type itself otherwise,
where reflect would panic; the program calls it on pointers and slices only). -/
def Ty.Elem : Ty → Ty
  | .ptr e => e
  | .slice e => e
  | t => t

/-- Method `Type.ConvertibleTo` (reflect `convertOp` is non-nil): integer kinds
convert to integer kinds and to string; types with identical underlying types
convert directly; so do two pointer types whose base types have identical
underlying types. -/
def Ty.ConvertibleTo (src dst : Ty) : Bool :=
  (src.kind.isInt && (dst.kind.isInt || dst.kind == Kind.string))
  || haveIdenticalUnderlyingType dst src
  || (dst.kind == Kind.ptr && src.kind == Kind.ptr
      && haveIdenticalUnderlyingType dst.Elem src.Elem)

mutual
/-- Method `Type.Comparable`: slices and maps are not comparable, a struct is when
all its fields are. -/
def Ty.Comparable : Ty → Bool
  | .slice _ => false
  | .map _ _ => false
  | .struct _ fs => Ty.comparableFields fs
  | _ => true
/-- All field types of the list are comparable. -/
def Ty.comparableFields : List StructField → Bool
  | [] => true
  | (.mk _ t _) :: fs => Ty.Comparable t && Ty.comparableFields fs
end

/-- The upper-case letters of Unicode 14.0 (general category Lu), as ranges
`(lo, hi, stride)` in the manner of the range tables of package `unicode`, in
ascending order and in groups of twelve. -/
def upperRanges : List (List (Nat × Nat × Nat)) :=
  [[(0x41, 0x5A, 1), (0xC0, 0xD6, 1), (0xD8, 0xDE, 1), (0x100, 0x136, 2), (0x139, 0x147, 2),
    (0x14A, 0x178, 2), (0x179, 0x17D, 2), (0x181, 0x182, 1), (0x184, 0x184, 1),
    (0x186, 0x187, 1), (0x189, 0x18B, 1), (0x18E, 0x191, 1)],
   [(0x193, 0x194, 1), (0x196, 0x198, 1), (0x19C, 0x19D, 1), (0x19F, 0x1A0, 1),
    (0x1A2, 0x1A6, 2), (0x1A7, 0x1A7, 1), (0x1A9, 0x1A9, 1), (0x1AC, 0x1AC, 1),
    (0x1AE, 0x1AF, 1), (0x1B1, 0x1B3, 1), (0x1B5, 0x1B5, 1), (0x1B7, 0x1B8, 1)],
   [(0x1BC, 0x1BC, 1), (0x1C4, 0x1CD, 3), (0x1CF, 0x1DB, 2), (0x1DE, 0x1EE, 2),
    (0x1F1, 0x1F1, 1), (0x1F4, 0x1F4, 1), (0x1F6, 0x1F8, 1), (0x1FA, 0x232, 2),
    (0x23A, 0x23B, 1), (0x23D, 0x23E, 1), (0x241, 0x241, 1), (0x243, 0x246, 1)],
   [(0x248, 0x24E, 2), (0x370, 0x370, 1), (0x372, 0x372, 1), (0x376, 0x376, 1),
    (0x37F, 0x37F, 1), (0x386, 0x386, 1), (0x388, 0x38A, 1), (0x38C, 0x38C, 1),
    (0x38E, 0x38F, 1), (0x391, 0x3A1, 1), (0x3A3, 0x3AB, 1), (0x3CF, 0x3CF, 1)],
   [(0x3D2, 0x3D4, 1), (0x3D8, 0x3EE, 2), (0x3F4, 0x3F4, 1), (0x3F7, 0x3F7, 1),
    (0x3F9, 0x3FA, 1), (0x3FD, 0x42F, 1), (0x460, 0x480, 2), (0x48A, 0x4C0, 2),
    (0x4C1, 0x4CD, 2), (0x4D0, 0x52E, 2), (0x531, 0x556, 1), (0x10A0, 0x10C5, 1)],
   [(0x10C7, 0x10C7, 1), (0x10CD, 0x10CD, 1), (0x13A0, 0x13F5, 1), (0x1C90, 0x1CBA, 1),
    (0x1CBD, 0x1CBF, 1), (0x1E00, 0x1E94, 2), (0x1E9E, 0x1EFE, 2), (0x1F08, 0x1F0F, 1),
    (0x1F18, 0x1F1D, 1), (0x1F28, 0x1F2F, 1), (0x1F38, 0x1F3F, 1), (0x1F48, 0x1F4D, 1)],
   [(0x1F59, 0x1F5F, 2), (0x1F68, 0x1F6F, 1), (0x1FB8, 0x1FBB, 1), (0x1FC8, 0x1FCB, 1),
    (0x1FD8, 0x1FDB, 1), (0x1FE8, 0x1FEC, 1), (0x1FF8, 0x1FFB, 1), (0x2102, 0x2102, 1),
    (0x2107, 0x2107, 1), (0x210B, 0x210D, 1), (0x2110, 0x2112, 1), (0x2115, 0x2115, 1)],
   [(0x2119, 0x211D, 1), (0x2124, 0x212A, 2), (0x212B, 0x212D, 1), (0x2130, 0x2133, 1),
    (0x213E, 0x213F, 1), (0x2145, 0x2145, 1), (0x2183, 0x2183, 1), (0x2C00, 0x2C2F, 1),
    (0x2C60, 0x2C60, 1), (0x2C62, 0x2C64, 1), (0x2C67, 0x2C6D, 2), (0x2C6E, 0x2C70, 1)],
   [(0x2C72, 0x2C72, 1), (0x2C75, 0x2C75, 1), (0x2C7E, 0x2C80, 1), (0x2C82, 0x2CE2, 2),
    (0x2CEB, 0x2CEB, 1), (0x2CED, 0x2CED, 1), (0x2CF2, 0x2CF2, 1), (0xA640, 0xA66C, 2),
    (0xA680, 0xA69A, 2), (0xA722, 0xA72E, 2), (0xA732, 0xA76E, 2), (0xA779, 0xA77D, 2)],
   [(0xA77E, 0xA786, 2), (0xA78B, 0xA78B, 1), (0xA78D, 0xA78D, 1), (0xA790, 0xA790, 1),
    (0xA792, 0xA792, 1), (0xA796, 0xA7AA, 2), (0xA7AB, 0xA7AE, 1), (0xA7B0, 0xA7B4, 1),
    (0xA7B6, 0xA7C4, 2), (0xA7C5, 0xA7C7, 1), (0xA7C9, 0xA7C9, 1), (0xA7D0, 0xA7D0, 1)],
   [(0xA7D6, 0xA7D6, 1), (0xA7D8, 0xA7D8, 1), (0xA7F5, 0xA7F5, 1), (0xFF21, 0xFF3A, 1),
    (0x10400, 0x10427, 1), (0x104B0, 0x104D3, 1), (0x10570, 0x1057A, 1), (0x1057C, 0x1058A, 1),
    (0x1058C, 0x10592, 1), (0x10594, 0x10595, 1), (0x10C80, 0x10CB2, 1), (0x118A0, 0x118BF, 1)],
   [(0x16E40, 0x16E5F, 1), (0x1D400, 0x1D419, 1), (0x1D434, 0x1D44D, 1), (0x1D468, 0x1D481, 1),
    (0x1D49C, 0x1D49C, 1), (0x1D49E, 0x1D49F, 1), (0x1D4A2, 0x1D4A2, 1), (0x1D4A5, 0x1D4A6, 1),
    (0x1D4A9, 0x1D4AC, 1), (0x1D4AE, 0x1D4B5, 1), (0x1D4D0, 0x1D4E9, 1), (0x1D504, 0x1D505, 1)],
   [(0x1D507, 0x1D50A, 1), (0x1D50D, 0x1D514, 1), (0x1D516, 0x1D51C, 1), (0x1D538, 0x1D539, 1),
    (0x1D53B, 0x1D53E, 1), (0x1D540, 0x1D544, 1), (0x1D546, 0x1D546, 1), (0x1D54A, 0x1D550, 1),
    (0x1D56C, 0x1D585, 1), (0x1D5A0, 0x1D5B9, 1), (0x1D5D4, 0x1D5ED, 1), (0x1D608, 0x1D621, 1)],
   [(0x1D63C, 0x1D655, 1), (0x1D670, 0x1D689, 1), (0x1D6A8, 0x1D6C0, 1), (0x1D6E2, 0x1D6FA, 1),
    (0x1D71C, 0x1D734, 1), (0x1D756, 0x1D76E, 1), (0x1D790, 0x1D7A8, 1), (0x1D7CA, 0x1D7CA, 1),
    (0x1E900, 0x1E921, 1)]]

/-- The code point `n` lies in the range `(lo, hi, stride)`. -/
def inRange (n : Nat) (t : Nat × Nat × Nat) : Bool :=
  Nat.ble t.1 n && Nat.ble n t.2.1 && (n - t.1) % t.2.2 == 0

/-- Function `unicode.IsUpper`: the rune is an upper-case letter. -/
def IsUpper (r : Char) : Bool :=
  upperRanges.any (fun group => group.any (inRange r.toNat))

/-- A name is exported when its first rune is an upper-case letter
(`token.IsExported`, which the compiler applies to the names that reflect sees). -/
def exported (name : String) : Bool :=
  match name.data with
  | c :: _ => IsUpper c
  | [] => false

/-! ## Values -/

mutual
/-- Go values of the embedding. A pointer, slice or map is nil when its payload is
`none`; pointers, slices and maps record their element types, so that every value
has a type. -/
inductive Value where
  | bool (b : Bool)
  | int (i : Int)
  | int8 (i : Int)
  | string (s : String)
  | ptr (elem : Ty) (target : Option Value)
  | slice (elem : Ty) (elems : Option (List Value))
  | map (key elem : Ty) (entries : Option (List (Value × Value)))
  | struct (name : String) (fields : List FieldValue)
/-- A field of a struct value: its descriptor and its current value. -/
inductive FieldValue where
  | mk (field : StructField) (value : Value)
end

/-- Descriptor of a field of a struct value. -/
def FieldValue.field : FieldValue → StructField
  | .mk f _ => f

/-- Current value of a field of a struct value. -/
def FieldValue.value : FieldValue → Value
  | .mk _ v => v

/-- Method `Value.Type` on a valid value. -/
def typeOf : Value → Ty
  | .bool _ => .bool
  | .int _ => .int
  | .int8 _ => .int8
  | .string _ => .string
  | .ptr e _ => .ptr e
  | .slice e _ => .slice e
  | .map k e _ => .map k e
  | .struct n fvs => .struct n (fvs.map FieldValue.field)

mutual
/-- The zero value of a type: `reflect.Zero(t)`, also the contents of the storage
allocated by `reflect.New(t)`. -/
def zero : Ty → Value
  | .bool => .bool false
  | .int => .int 0
  | .int8 => .int8 0
  | .string => .string ""
  | .ptr e => .ptr e none
  | .slice e => .slice e none
  | .map k e => .map k e none
  | .struct n fs => .struct n (zeroFields fs)
/-- Zero values for a list of fields. -/
def zeroFields : List StructField → List FieldValue
  | [] => []
  | (.mk n t a) :: fs => FieldValue.mk (.mk n t a) (zero t) :: zeroFields fs
end

mutual
/-- Go equality `==` of two interface values holding values of a comparable type:
same dynamic type and equal contents. Two non-nil pointers are equal in Go only
when they are the same pointer; the embedding has no addresses and answers
`false` for them. The program compares against a zero value only, in which
every pointer is nil. -/
def valueEq : Value → Value → Bool
  | .bool a, .bool b => a == b
  | .int a, .int b => a == b
  | .int8 a, .int8 b => a == b
  | .string a, .string b => a == b
  | .ptr e none, .ptr f none => Ty.beq e f
  | .struct n fs, .struct m gs => n == m && valueEqFields fs gs
  | _, _ => false
/-- Field-wise equality of two struct values. -/
def valueEqFields : List FieldValue → List FieldValue → Bool
  | [], [] => true
  | (.mk f v) :: fs, (.mk g w) :: gs =>
    Ty.beqFields [f] [g] && valueEq v w && valueEqFields fs gs
  | _, _ => false
end

/-- Two's-complement wrap of an integer to `bits` bits. -/
def wrapInt (bits : Nat) (x : Int) : Int :=
  (x + 2 ^ (bits - 1)) % 2 ^ bits - 2 ^ (bits - 1)

/-- Conversion of an integer to a string (reflect `cvtIntString`): the UTF-8 text
of the code point, or U+FFFD when the integer is not a valid code point. -/
def runeString (x : Int) : String :=
  if 0 ≤ x ∧ x.toNat.isValidChar then String.singleton (Char.ofNat x.toNat)
  else "\uFFFD"

/-- Re-typing of a pointee under a direct pointer conversion: a struct is seen
under the name of the new base type, its layout being identical. -/
def retype (e : Ty) (v : Value) : Value :=
  match e, v with
  | .struct n _, .struct _ fvs => .struct n fvs
  | _, v => v

/-- Method `Value.Convert`, for a value whose type is convertible to `t`. -/
def convert (v : Value) (t : Ty) : Value :=
  match t, v with
  | .int, .int i => .int (wrapInt 64 i)
  | .int, .int8 i => .int (wrapInt 64 i)
  | .int8, .int i => .int8 (wrapInt 8 i)
  | .int8, .int8 i => .int8 (wrapInt 8 i)
  | .string, .int i => .string (runeString i)
  | .string, .int8 i => .string (runeString i)
  | .struct n _, .struct _ fvs => .struct n fvs
  | .ptr e, .ptr _ tgt => .ptr e (tgt.map (retype e))
  | _, v => v

/-! ## Handles: `reflect.Value` -/

/-- A `reflect.Value`: the value it holds (`none` for the zero Value, which is
what `reflect.ValueOf(nil)` and `Elem` of a nil pointer give) and its
addressability flag. -/
structure RValue where
  val : Option Value
  flagAddr : Bool

/-- Function `reflect.ValueOf` applied to an interface value (`none` is the nil
interface): the result is not addressable. -/
def ValueOf (i : Option Value) : RValue := ⟨i, false⟩

/-- Method `Value.IsValid`. -/
def RValue.IsValid (v : RValue) : Bool := v.val.isSome

/-- Method `Value.CanAddr`. -/
def RValue.CanAddr (v : RValue) : Bool := v.flagAddr

/-- Method `Value.Kind` of a valid value. -/
def Value.kind (v : Value) : Kind := (typeOf v).kind

/-- Method `Value.Kind`: the zero Value has kind `Invalid`. -/
def RValue.Kind (v : RValue) : Kind :=
  match v.val with
  | some x => x.kind
  | none => Kind.invalid

/-- Method `Value.IsNil` of a pointer, map or slice. -/
def Value.IsNil : Value → Bool
  | .ptr _ none => true
  | .slice _ none => true
  | .map _ _ none => true
  | _ => false

/-- Method `Value.Len` of a slice. -/
def Value.Len : Value → Nat
  | .slice _ (some vs) => vs.length
  | _ => 0

/-- Method `Value.Index` of a slice: the element is addressable; `none` is the
panic for an index out of range or a receiver that is not a slice. -/
def Value.Index : Value → Nat → Option RValue
  | .slice _ (some vs), i =>
    match vs.get? i with
    | some v => some ⟨some v, true⟩
    | none => none
  | _, _ => none

/-! ## `indirect` and `indirectType` -/

/-- The loop of `indirect` on a valid value: while the kind is `Ptr`, take `Elem`.
The pointee of a non-nil pointer is addressable; `Elem` of a nil pointer is the
zero Value, whose kind is not `Ptr`. -/
def indirectValue : Value → Bool → RValue
  | .ptr _ (some t), _ => indirectValue t true
  | .ptr _ none, _ => ⟨none, false⟩
  | v, a => ⟨some v, a⟩

/-- Function `indirect` of the source. -/
def indirect (reflectValue : RValue) : RValue :=
  match reflectValue.val with
  | some v => indirectValue v reflectValue.flagAddr
  | none => reflectValue

/-- Function `indirectType` of the source: strip pointer and slice wrapping. -/
def indirectType : Ty → Ty
  | .ptr e => indirectType e
  | .slice e => indirectType e
  | t => t

/-- Write `new` into the location that `indirect` reaches from `root`: the end of
the chain of non-nil pointers. -/
def storeIndirect : Value → Value → Value
  | .ptr e (some t), new => .ptr e (some (storeIndirect t new))
  | .ptr e none, _ => .ptr e none
  | _, new => new

/-! ## `deepFields` -/

mutual
/-- Function `deepFields` of the source. The loop `indirectType` is fused with the
test of the kind: a pointer or slice type is stripped, a struct type is walked,
any other type gives the empty list. -/
def deepFields : Ty → List StructField
  | .ptr e => deepFields e
  | .slice e => deepFields e
  | .struct _ fs => deepFieldsLoop fs
  | _ => []
/-- The loop over `reflectType.Field(i)` in `deepFields`. -/
def deepFieldsLoop : List StructField → List StructField
  | [] => []
  | (.mk n t a) :: fs =>
    (if a then deepFields t else [StructField.mk n t a]) ++ deepFieldsLoop fs
end

/-! ## Field lookup by name -/

mutual
/-- Depth of struct nesting of a type; bounds the breadth-first search below. -/
def Ty.depth : Ty → Nat
  | .ptr e => Ty.depth e
  | .slice e => Ty.depth e
  | .map _ e => Ty.depth e
  | .struct _ fs => Ty.depthFields fs + 1
  | _ => 0
/-- Largest depth among the field types. -/
def Ty.depthFields : List StructField → Nat
  | [] => 0
  | (.mk _ t _) :: fs => max (Ty.depth t) (Ty.depthFields fs)
end

/-- An entry of the breadth-first scan of `FieldByNameFunc`: the index path that
leads to an embedded struct, and the fields of that struct. -/
structure FieldScan where
  index : List Nat
  fields : List StructField

/-- The struct type behind an embedded field of type `T` or `*T`. -/
def embeddedStruct (f : StructField) : Option (List StructField) :=
  if f.anonymous then
    match f.type with
    | .struct _ fs => some fs
    | .ptr (.struct _ fs) => some fs
    | _ => none
  else none

/-- The fields of one scanned struct whose name matches, with their index paths;
`i` is the position of the head of the list in the struct. -/
def scanMatches (name : String) (index : List Nat) :
    List StructField → Nat → List (List Nat × StructField)
  | [], _ => []
  | f :: fs, i =>
    (if f.name == name then [(index ++ [i], f)] else [])
      ++ scanMatches name index fs (i + 1)

/-- The embedded structs of one scanned struct, queued for the next depth. -/
def scanEmbedded (index : List Nat) : List StructField → Nat → List FieldScan
  | [], _ => []
  | f :: fs, i =>
    (match embeddedStruct f with
      | some sub => [FieldScan.mk (index ++ [i]) sub]
      | none => [])
      ++ scanEmbedded index fs (i + 1)

/-- Method `FieldByNameFunc` of a struct type, for the predicate "equals `name`":
breadth first, stopping at the shallowest depth with a match; several matches at
that depth cancel each other. -/
def FieldByNameFunc (name : String) :
    Nat → List FieldScan → Option (List Nat × StructField)
  | 0, _ => none
  | fuel + 1, current =>
    if current.isEmpty then none
    else
      match current.flatMap (fun s => scanMatches name s.index s.fields 0) with
      | [] =>
        FieldByNameFunc name fuel
          (current.flatMap (fun s => scanEmbedded s.index s.fields 0))
      | [m] => some m
      | _ => none

/-- Method `FieldByName` of a struct type with the given fields: a quick pass over
the top-level names, then the breadth-first search when some field is embedded. -/
def structFieldByName (fields : List StructField) (name : String) :
    Option (List Nat × StructField) :=
  if name == "" then none
  else
    match scanMatches name [] fields 0 with
    | m :: _ => some m
    | [] =>
      if fields.any StructField.anonymous then
        FieldByNameFunc name (Ty.depthFields fields + 2) [FieldScan.mk [] fields]
      else none

/-- Method `Value.Field(i)` on a struct value; `none` is the panic. -/
def Value.Field : Value → Nat → Option Value
  | .struct _ fvs, i => (fvs.get? i).map FieldValue.value
  | _, _ => none

/-- The step of `FieldByIndex` between two indices: a pointer to a struct is
followed, and a nil one panics (`none`). -/
def derefEmbedded : Value → Option Value
  | .ptr (.struct _ _) (some t) => some t
  | .ptr (.struct _ _) none => none
  | v => some v

/-- The iterations of `FieldByIndex` after the first. -/
def fieldByIndexRest : Value → List Nat → Option Value
  | v, [] => some v
  | v, x :: rest =>
    match derefEmbedded v with
    | none => none
    | some w =>
      match w.Field x with
      | none => none
      | some u => fieldByIndexRest u rest

/-- Method `Value.FieldByIndex`; `none` is the panic. -/
def Value.FieldByIndex (v : Value) : List Nat → Option Value
  | [] => some v
  | x :: rest =>
    match v.Field x with
    | none => none
    | some u => fieldByIndexRest u rest

/-- Replace the value of field `i` of a struct value. -/
def Value.setField : Value → Nat → Value → Value
  | .struct n fvs, i, new =>
    match fvs.get? i with
    | some fv => .struct n (fvs.set i (FieldValue.mk fv.field new))
    | none => .struct n fvs
  | v, _, _ => v

/-- Store `new` at the location `fieldByIndexRest v index`. -/
def storeByIndexRest : Value → List Nat → Value → Value
  | _, [], new => new
  | v, x :: rest, new =>
    match v with
    | .ptr (.struct n fs) (some t) =>
      match t.Field x with
      | some u => .ptr (.struct n fs) (some (t.setField x (storeByIndexRest u rest new)))
      | none => v
    | _ =>
      match v.Field x with
      | some u => v.setField x (storeByIndexRest u rest new)
      | none => v

/-- Store `new` at the location `v.FieldByIndex index`. -/
def Value.storeByIndex (v : Value) : List Nat → Value → Value
  | [], new => new
  | x :: rest, new =>
    match v.Field x with
    | some u => v.setField x (storeByIndexRest u rest new)
    | none => v

/-- Result of `Value.FieldByName`: a panic, the zero Value, or a field with the
index path of its location, its descriptor and its current value. -/
inductive FieldLookup where
  | panic
  | invalid
  | valid (index : List Nat) (field : StructField) (val : Value)

/-- Method `Value.FieldByName`: panics unless the receiver is a struct; the zero
Value when the type has no such field; otherwise `FieldByIndex` of the path. -/
def RValue.FieldByName (v : RValue) (name : String) : FieldLookup :=
  match v.val with
  | some (.struct n fvs) =>
    match structFieldByName (fvs.map FieldValue.field) name with
    | none => FieldLookup.invalid
    | some (index, f) =>
      match (Value.struct n fvs).FieldByIndex index with
      | some x => FieldLookup.valid index f x
      | none => FieldLookup.panic
  | _ => FieldLookup.panic

/-! ## Options, environment, trace -/

/-- Type `CopyOption` of the source (`type CopyOption int`). -/
abbrev CopyOption := Int

/-- Constant `DisableScanner` of the source (`iota`, that is 0). -/
def DisableScanner : CopyOption := 0

/-- A `map[CopyOption]bool`: a key that is absent reads as `false`. -/
abbrev Options := CopyOption → Bool

/-- The empty map `make(map[CopyOption]bool)`. -/
def emptyOptions : Options := fun _ => false

/-- Function `createOptions` of the source: every flag is set to `true`. -/
def createOptions (flags : List CopyOption) : Options :=
  flags.foldl (fun opt o => fun k => if k == o then true else opt k) emptyOptions

/-- A call into user code made by the program. -/
inductive Event where
  | scan (dst : Ty) (src : Value)
  | call (recv : Ty) (method : String) (args : List Value)

/-- A method found by name: its signature and its body. The body maps the receiver
and the arguments to the receiver after the call and the results. `ptrRecv`
marks a method declared on the pointer type, absent from the method set of the
value. -/
structure Method where
  name : String
  ptrRecv : Bool
  ins : List Ty
  numOut : Nat
  body : Value → List Value → Value × List Value

/-- The user code the program can reach: for each type `T` the method set of `*T`,
and, when `*T` implements `sql.Scanner`, its `Scan` as a map from the destination
and the scanned value to the destination after the call. -/
structure Env where
  methods : Ty → List Method
  scanner : Ty → Option (Value → Value → Value)

/-- Method `Value.MethodByName` for a receiver of type `recv`: through the address
of an addressable value (`viaPointer`) the method set of `*T`, otherwise that of
`T`. Only exported methods are visible to reflect. -/
def methodByName (env : Env) (recv : Ty) (viaPointer : Bool) (name : String) :
    Option Method :=
  if exported name then
    (env.methods recv).find? (fun m => m.name == name && (viaPointer || !m.ptrRecv))
  else none

/-! ## `set` -/

/-- Result of `set`: the boolean it returns, the contents of the destination
location afterwards, and the calls made. -/
structure SetResult where
  ok : Bool
  dst : Value
  trace : List Event

/-- The body of `set` of the source on a valid `from` (`src`); `dst` is the
current contents of the location `to`, which every caller has checked to be
settable, and `retry` is the recursive call `set(to, from.Elem())`.

* `opts` is `options[0]` when an option map was passed, the empty map otherwise.
* When `to` is a pointer: a nil `from` or a zero `from` returns `true` at once;
  otherwise a nil `to` is allocated and `to` becomes its pointee (`inner`);
  `wrap` puts the pointee back under the pointer.
* Then: convert and assign; else scan; else, when `from` is a pointer, retry on
  its pointee; else `false`. -/
def setBody (env : Env) (src dst : Value) (options : List Options)
    (retry : Value → SetResult) : SetResult :=
  let opts : Options :=
    match options with
    | o :: _ => o
    | [] => emptyOptions
  if dst.kind == Kind.ptr
      && (((src.kind == Kind.ptr || src.kind == Kind.map || src.kind == Kind.slice)
            && src.IsNil)
          || ((typeOf src).Comparable && valueEq src (zero (typeOf src)))) then
    ⟨true, dst, []⟩
  else
    let inner : Value :=
      match dst with
      | .ptr e none => zero e
      | .ptr _ (some t) => t
      | d => d
    let wrap : Value → Value := fun x =>
      match dst with
      | .ptr e _ => .ptr e (some x)
      | _ => x
    if (typeOf src).ConvertibleTo (typeOf inner) then
      ⟨true, wrap (convert src (typeOf inner)), []⟩
    else
      match env.scanner (typeOf inner), opts DisableScanner with
      | some scan, false =>
        ⟨true, wrap (scan inner src), [Event.scan (typeOf inner) src]⟩
      | _, _ =>
        if src.kind == Kind.ptr then
          let r := retry inner
          ⟨r.ok, wrap r.dst, r.trace⟩
        else ⟨false, wrap inner, []⟩

/-- Function `set` of the source on a valid `from`. The recursive call
`set(to, from.Elem())` passes no option map; for a nil `from`, `Elem` is the zero
Value, on which `set` returns `true` and does nothing. -/
def setValid (env : Env) : Value → Value → List Options → SetResult
  | .ptr e (some v), dst, options =>
    setBody env (.ptr e (some v)) dst options (fun inner => setValid env v inner [])
  | src, dst, options =>
    setBody env src dst options (fun inner => ⟨true, inner, []⟩)

/-- Function `set` of the source: an invalid `from` returns `true` and does
nothing. -/
def set (env : Env) (dst : Value) (src : RValue) (options : List Options) :
    SetResult :=
  match src.val with
  | some v => setValid env v dst options
  | none => ⟨true, dst, []⟩

/-! ## `Copy` -/

/-- The error value `errors.New("copy to value is unaddressable")`. -/
inductive CopyError where
  | unaddressable

/-- Outcome of a call of `Copy`: a run-time panic, exhaustion of the recursion
budget of the embedding, or a return with the error, the contents of the
`toValue` argument afterwards (what the caller sees through the pointer it
passed), and the calls made into user code. -/
inductive Outcome where
  | panic
  | outOfFuel
  | returned (err : Option CopyError) (toValue : Option Value) (trace : List Event)

/-- The variables of one iteration of the main loop of `Copy`: `dest`, `source`,
and the trace so far. -/
structure ElemState where
  dest : RValue
  source : RValue
  trace : List Event

/-- Outcome of a part of one iteration: a panic, exhaustion of the budget, an
error returned by a nested `Copy` (with the state reached), or completion. -/
inductive ElemOutcome where
  | panic
  | outOfFuel
  | failed (err : CopyError) (st : ElemState)
  | done (st : ElemState)

/-- Store `new` at the location of the field with index path `index` of `dest`. -/
def RValue.store (dest : RValue) (index : List Nat) (new : Value) : RValue :=
  ⟨dest.val.map (fun d => d.storeByIndex index new), dest.flagAddr⟩

/-- The contents of the pointee after a nested `Copy` through `&toField`. -/
def pointeeAfter (toValue : Option Value) (before : Value) : Value :=
  match toValue with
  | some (.ptr _ (some x)) => x
  | _ => before

/-- A `for ... range` loop over field descriptors whose body may end the
function early: the body `step` is run on each descriptor in turn, from the
state the previous one reached, until one does not complete. -/
def forFields (step : StructField → ElemState → ElemOutcome) :
    List StructField → ElemState → ElemOutcome
  | [], st => .done st
  | field :: rest, st =>
    match step field st with
    | .done st1 => forFields step rest st1
    | other => other

/-- The body of the first inner loop of `Copy` ("Copy from field to field or
method") for one descriptor of `deepFields(fromType)`. `nested` is the recursive
call `Copy(toField.Addr().Interface(), fromField.Interface())`, made without
flags. `toField.CanSet()` holds when `dest` is addressable and the field found
is exported. -/
def fieldToField (env : Env) (nested : Value → Value → Outcome) (opts : Options)
    (field : StructField) (st : ElemState) : ElemOutcome :=
  match st.source.FieldByName field.name with
  | .panic => .panic
  | .invalid => .done st
  | .valid _ _ fromField =>
    match st.dest.FieldByName field.name with
    | .panic => .panic
    | .valid index f toField =>
      if st.dest.CanAddr && exported f.name then
        let r := set env toField ⟨some fromField, false⟩ [opts]
        if r.ok then
          .done ⟨st.dest.store index r.dst, st.source, st.trace ++ r.trace⟩
        else
          match nested (.ptr (typeOf r.dst) (some r.dst)) fromField with
          | .panic => .panic
          | .outOfFuel => .outOfFuel
          | .returned err tv tr =>
            let st2 : ElemState :=
              ⟨st.dest.store index (pointeeAfter tv r.dst), st.source,
                st.trace ++ r.trace ++ tr⟩
            match err with
            | some e => .failed e st2
            | none => .done st2
      else .done st
    | .invalid =>
      match st.dest.val with
      | none => .panic
      | some d =>
        match methodByName env (typeOf d) st.dest.CanAddr field.name with
        | some toMethod =>
          match toMethod.ins with
          | [in0] =>
            if (typeOf fromField).AssignableTo in0 then
              .done ⟨⟨some (toMethod.body d [fromField]).1, st.dest.flagAddr⟩, st.source,
                st.trace ++ [Event.call (typeOf d) field.name [fromField]]⟩
            else .done st
          | _ => .done st
        | none => .done st

/-- The body of the second inner loop of `Copy` ("Copy from method to field")
for one descriptor of `deepFields(toType)`. The call `set(toField, values[0])`
passes no option map and its result is ignored. -/
def methodToField (env : Env) (field : StructField) (st : ElemState) : ElemOutcome :=
  match st.source.val with
  | none => .panic
  | some s =>
    match methodByName env (typeOf s) st.source.CanAddr field.name with
    | some fromMethod =>
      if fromMethod.ins.length == 0 && fromMethod.numOut == 1 then
        match st.dest.FieldByName field.name with
        | .panic => .panic
        | .valid index f toField =>
          if st.dest.CanAddr && exported f.name then
            let source2 : RValue := ⟨some (fromMethod.body s []).1, st.source.flagAddr⟩
            let tr := st.trace ++ [Event.call (typeOf s) field.name []]
            match (fromMethod.body s []).2 with
            | v :: _ =>
              let r := set env toField ⟨some v, false⟩ []
              .done ⟨st.dest.store index r.dst, source2, tr ++ r.trace⟩
            | [] => .done ⟨st.dest, source2, tr⟩
          else .done st
        | .invalid => .done st
      else .done st
    | none => .done st

/-- The two inner loops of one iteration of the main loop, in order. -/
def copyElem (env : Env) (nested : Value → Value → Outcome) (opts : Options)
    (fromType toType : Ty) (st : ElemState) : ElemOutcome :=
  match forFields (fieldToField env nested opts) (deepFields fromType) st with
  | .done st1 => forFields (methodToField env) (deepFields toType) st1
  | other => other

/-- Function `reflect.Append` of a slice and one element. -/
def appendValue : Value → Value → Value
  | .slice e (some vs), x => .slice e (some (vs ++ [x]))
  | .slice e none, x => .slice e (some [x])
  | v, _ => v

/-- The end of one iteration in collection mode: append `dest.Addr()` when `*T`
is assignable to the element type, else `dest` when `T` is, else nothing. -/
def appendDest (dst : Value) (d : Value) : Value :=
  if (Ty.ptr (typeOf d)).AssignableTo (typeOf dst).Elem then
    appendValue dst (.ptr (typeOf d) (some d))
  else if (typeOf d).AssignableTo (typeOf dst).Elem then appendValue dst d
  else dst

/-- The variables `source` and `dest` at the start of iteration `i` of the main
loop; `none` is the panic of `from.Index(i)`. In collection mode `dest` is fresh
storage of type `toType`; otherwise it is the location `to`. -/
def elemStart (src : RValue) (toType : Ty) (isSlice : Bool) (i : Nat) (dst : Value)
    (trace : List Event) : Option ElemState :=
  let source : Option RValue :=
    if isSlice then
      if src.Kind == Kind.slice then
        match src.val with
        | some f => (f.Index i).map indirect
        | none => none
      else some (indirect src)
    else some (indirect src)
  let dest : RValue :=
    if isSlice then indirect ⟨some (zero toType), true⟩
    else indirect ⟨some dst, true⟩
  source.map (fun s => ⟨dest, s, trace⟩)

/-- The main loop `for i := 0; i < amount; i++` of `Copy`, over the remaining
indices; `dst` is the current contents of the location `to`. In collection mode
`dest` is appended to `to` at the end of the iteration; otherwise `dest` is the
location `to` itself, so what is written to `dest` is written to `to`, also
when the iteration ends with an error. -/
def copyLoop (env : Env) (nested : Value → Value → Outcome) (opts : Options)
    (src : RValue) (fromType toType : Ty) (isSlice : Bool) :
    List Nat → Value → List Event → Outcome
  | [], dst, trace => .returned none (some dst) trace
  | i :: rest, dst, trace =>
    match elemStart src toType isSlice i dst trace with
    | none => .panic
    | some st0 =>
      match copyElem env nested opts fromType toType st0 with
      | .panic => .panic
      | .outOfFuel => .outOfFuel
      | .failed e st =>
        if isSlice then .returned (some e) (some dst) st.trace
        else
          match st.dest.val with
          | some d => .returned (some e) (some (storeIndirect dst d)) st.trace
          | none => .returned (some e) (some dst) st.trace
      | .done st =>
        match st.dest.val with
        | none =>
          if isSlice then .panic
          else copyLoop env nested opts src fromType toType isSlice rest dst st.trace
        | some d =>
          if isSlice then
            copyLoop env nested opts src fromType toType isSlice rest
              (appendDest dst d) st.trace
          else
            copyLoop env nested opts src fromType toType isSlice rest
              (storeIndirect dst d) st.trace

/-- What the caller of `Copy` sees after the main loop: the contents of the
location `to` are stored at the end of the pointer chain of `root`. -/
def Outcome.rewrap (root : Value) : Outcome → Outcome
  | .returned e (some t2) tr => .returned e (some (storeIndirect root t2)) tr
  | o => o

/-- The body of function `Copy` of the source; `nested` is the recursive call
`Copy(toField.Addr().Interface(), fromField.Interface())`. `root` is the value
behind the interface `toValue`; `dst` and `src` are `to` and `from`. The checks
come in the order of the source: addressability of `to`, validity of `from`,
assignability, struct kinds, collection mode. -/
def copyBody (env : Env) (nested : Value → Value → Outcome)
    (toValue fromValue : Option Value) (flags : List CopyOption) : Outcome :=
  let src := indirect (ValueOf fromValue)
  let dst := indirect (ValueOf toValue)
  let opts := createOptions flags
  if !dst.CanAddr then .returned (some CopyError.unaddressable) toValue []
  else
    match src.val with
    | none => .returned none toValue []
    | some f =>
      match dst.val, toValue with
      | some t, some root =>
        if (typeOf f).AssignableTo (typeOf t) then
          .returned none (some (storeIndirect root f)) []
        else
          let fromType := indirectType (typeOf f)
          let toType := indirectType (typeOf t)
          if fromType.kind != Kind.struct || toType.kind != Kind.struct then
            .returned none toValue []
          else
            let isSlice := t.kind == Kind.slice
            let amount := if isSlice && f.kind == Kind.slice then f.Len else 1
            (copyLoop env nested opts src fromType toType isSlice (List.range amount)
              t []).rewrap root
      | _, _ => .panic

/-- Function `Copy` of the source, with a budget for the depth of nested calls:
a nested call runs with the budget less one and without flags. -/
def CopyFuel (env : Env) :
    Nat → Option Value → Option Value → List CopyOption → Outcome
  | 0, _, _, _ => .outOfFuel
  | fuel + 1, toValue, fromValue, flags =>
    copyBody env (fun tv fv => CopyFuel env fuel (some tv) (some fv) [])
      toValue fromValue flags

mutual
/-- Depth of struct nesting of a value along pointers, slice elements and
fields: the depth that nested calls of `Copy` can reach in the source value. -/
def Value.depth : Value → Nat
  | .ptr _ (some v) => Value.depth v
  | .slice _ (some vs) => Value.depthList vs
  | .struct _ fvs => Value.depthFields fvs + 1
  | _ => 0
/-- Largest depth among the elements. -/
def Value.depthList : List Value → Nat
  | [] => 0
  | v :: vs => max (Value.depth v) (Value.depthList vs)
/-- Largest depth among the field values. -/
def Value.depthFields : List FieldValue → Nat
  | [] => 0
  | (.mk _ v) :: fvs => max (Value.depth v) (Value.depthFields fvs)
end

/-- Budget that covers every nested call `Copy` can make on a source value. -/
def fuelFor : Option Value → Nat
  | some v => v.depth + 1
  | none => 1

/-- Function `Copy` of the source. -/
def Copy (env : Env) (toValue fromValue : Option Value) (flags : List CopyOption) :
    Outcome :=
  CopyFuel env (fuelFor fromValue) toValue fromValue flags

/-! ## Predicates used to state the properties -/

/-- An index path that starts at an embedded top-level field of `fs`; the
entries of the breadth-first search below the top level all have such a path. -/
def UnderEmbedded (fs : List StructField) (index : List Nat) : Prop :=
  ∃ i rest g, index = i :: rest ∧ fs[i]? = some g ∧ g.anonymous = true

/-- The state of an iteration keeps the destination a struct named `dn` with
the field descriptors `fs`, addressable, with the field at position `j`
holding `dfv`; and the source keeps its addressability `a` and its type `sTy`. -/
def FrameInv (dn : String) (fs : List StructField) (j : Nat) (dfv : FieldValue)
    (sTy : Ty) (a : Bool) (st : ElemState) : Prop :=
  (∃ fvs, st.dest = ⟨some (.struct dn fvs), true⟩
      ∧ fvs.map FieldValue.field = fs ∧ fvs[j]? = some dfv)
    ∧ st.source.flagAddr = a
    ∧ ∀ s, st.source.val = some s → typeOf s = sTy

/-- The destination of an iteration is an addressable struct named `dn` with the
field descriptors `fs`. -/
def DestInv (dn : String) (fs : List StructField) (st : ElemState) : Prop :=
  ∃ fvs, st.dest = ⟨some (.struct dn fvs), true⟩ ∧ fvs.map FieldValue.field = fs

/-- The state of an iteration keeps the destination a struct named `dn` with
the field descriptors `fs`, addressable, and the source valid. -/
def ShapeInv (dn : String) (fs : List StructField) (st : ElemState) : Prop :=
  (∃ fvs, st.dest = ⟨some (.struct dn fvs), true⟩ ∧ fvs.map FieldValue.field = fs)
    ∧ st.source.val.isSome = true

/-- The elements of a slice value (none for a nil slice). -/
def Value.elems : Value → List Value
  | .slice _ (some vs) => vs
  | _ => []

/-- The same outcome of an iteration with the events `p` put before its trace. -/
def ElemOutcome.shift (p : List Event) : ElemOutcome → ElemOutcome
  | .failed e st => .failed e ⟨st.dest, st.source, p ++ st.trace⟩
  | .done st => .done ⟨st.dest, st.source, p ++ st.trace⟩
  | o => o

/-- The source of an iteration is absent or has depth at most `bound`. -/
def SourceBound (bound : Nat) (st : ElemState) : Prop :=
  ∀ s, st.source.val = some s → s.depth ≤ bound

/-- Well-formedness of an environment, as Go's typing guarantees it: a method
called on a receiver of the type it belongs to leaves a receiver of that type. -/
def Env.TypePreserving (env : Env) : Prop :=
  ∀ (ty : Ty) (m : Method) (recv : Value) (args : List Value),
    m ∈ env.methods ty → typeOf recv = ty → typeOf (m.body recv args).1 = ty

/-- Allocation along a chain of pointers: the nil pointers met while following
at most `k` links get fresh zero storage (`reflect.New`); pointees that exist
and everything that is not a pointer stay as they are. -/
def allocate : Nat → Value → Value
  | k + 1, .ptr e none => .ptr e (some (allocate k (zero e)))
  | k + 1, .ptr e (some t) => .ptr e (some (allocate k t))
  | _, v => v

/-- A nested copy for the field name `name` that a call of `Copy` made and that
returned the error `e`. The call, with destination `t` and source `f` after
indirection, started iteration `i` of its main loop, ran the first inner loop
over the flattened source fields `pre` to the state `st`, and then, for the next
field, which has the name `name`, found the source field and a settable
destination field of that name, `set` returned false on them, and the recursive
call `nested`, through the address of the destination field, returned `e`. -/
def FailedNestedAt (env : Env) (nested : Value → Value → Outcome)
    (toValue fromValue : Option Value) (flags : List CopyOption) (e : CopyError)
    (name : String) : Prop :=
  ∃ (t f : Value) (a : Bool) (i : Nat) (tr0 : List Event) (st0 : ElemState)
    (pre post : List StructField) (field : StructField) (st : ElemState)
    (i1 : List Nat) (f1 : StructField) (fromField : Value)
    (i2 : List Nat) (f2 : StructField) (toField : Value),
    field.name = name
    ∧ indirect (ValueOf toValue) = ⟨some t, true⟩
    ∧ indirect (ValueOf fromValue) = ⟨some f, a⟩
    ∧ i < (if (t.kind == Kind.slice && f.kind == Kind.slice) = true then f.Len else 1)
    ∧ elemStart ⟨some f, a⟩ (indirectType (typeOf t)) (t.kind == Kind.slice) i t tr0
        = some st0
    ∧ deepFields (indirectType (typeOf f)) = pre ++ field :: post
    ∧ forFields (fieldToField env nested (createOptions flags)) pre st0 = .done st
    ∧ st.source.FieldByName field.name = .valid i1 f1 fromField
    ∧ st.dest.FieldByName field.name = .valid i2 f2 toField
    ∧ (st.dest.CanAddr && exported f2.name) = true
    ∧ (set env toField ⟨some fromField, false⟩ [createOptions flags]).ok = false
    ∧ ∃ tv tr,
        nested
            (.ptr (typeOf (set env toField ⟨some fromField, false⟩ [createOptions flags]).dst)
              (some (set env toField ⟨some fromField, false⟩ [createOptions flags]).dst))
            fromField
          = .returned (some e) tv tr

/-- A nested copy that a call of `Copy` made, for some field name, and that
returned the error `e`. -/
def FailedNested (env : Env) (nested : Value → Value → Outcome)
    (toValue fromValue : Option Value) (flags : List CopyOption) (e : CopyError) : Prop :=
  ∃ name, FailedNestedAt env nested toValue fromValue flags e name

/-- Two index paths part ways: after a common start, possibly empty, they go
on with different indices. A store at one is not seen at the other. -/
def diverge : List Nat → List Nat → Bool
  | i :: q, j :: p => if i == j then diverge q p else true
  | _, _ => false

/-- The fields of the struct that an index path leads to when every index on it
selects an embedded member (of type `T` or `*T`). -/
def embeddedAt : List StructField → List Nat → Option (List StructField)
  | fs, [] => some fs
  | fs, i :: rest =>
    match fs[i]? with
    | some g =>
      match embeddedStruct g with
      | some sub => embeddedAt sub rest
      | none => none
    | none => none

/-- The descriptor of the field at an index path: the last index selects the
field, the indices before it select embedded members. -/
def fieldAt : List StructField → List Nat → Option StructField
  | _, [] => none
  | fs, [i] => fs[i]?
  | fs, i :: j :: rest =>
    match fs[i]? with
    | some g =>
      match embeddedStruct g with
      | some sub => fieldAt sub (j :: rest)
      | none => none
    | none => none

/-- The state of an iteration keeps the destination a struct named `dn` with the
field descriptors `fs`, addressable, in which the index path `p` leads to the
value `x`; and the source keeps its addressability `a` and its type `sTy`. -/
def PathFrame (dn : String) (fs : List StructField) (p : List Nat) (x : Value)
    (sTy : Ty) (a : Bool) (st : ElemState) : Prop :=
  (∃ fvs, st.dest = ⟨some (.struct dn fvs), true⟩ ∧ fvs.map FieldValue.field = fs
      ∧ (Value.struct dn fvs).FieldByIndex p = some x)
    ∧ st.source.flagAddr = a
    ∧ ∀ s, st.source.val = some s → typeOf s = sTy

/-- The state of an iteration keeps the destination a struct named `dn` with the
field descriptors `fs`, addressable, in which every field that is not an
embedded member and that an index path reaches in the value `d0` is still
reached by that path; with `typed`, the value there has the type of the value
that `d0` has there. -/
def FieldsKept (dn : String) (fs : List StructField) (d0 : Value) (typed : Bool)
    (st : ElemState) : Prop :=
  ∃ fvs, st.dest = ⟨some (.struct dn fvs), true⟩ ∧ fvs.map FieldValue.field = fs
    ∧ ∀ (q : List Nat) (h : StructField) (v0 : Value), fieldAt fs q = some h →
        h.anonymous = false → d0.FieldByIndex q = some v0 →
        ∃ v, (Value.struct dn fvs).FieldByIndex q = some v
          ∧ (typed = true → typeOf v = typeOf v0)

/-- Well-formedness of an environment at a field, as Go's typing guarantees it
for a field reached through embedded structs: a method called on a receiver of
the type `ty` in which the index path `p` leads to a value leaves a receiver in
which `p` leads to a value of the same type. -/
def Env.KeepsTypeAt (env : Env) (ty : Ty) (p : List Nat) : Prop :=
  ∀ (m : Method) (recv : Value) (args : List Value) (v : Value),
    m ∈ env.methods ty → typeOf recv = ty → recv.FieldByIndex p = some v →
    ∃ v2, (m.body recv args).1.FieldByIndex p = some v2 ∧ typeOf v2 = typeOf v

/-- The same outcome with the calls made inside it left out of the trace. -/
def Outcome.mute : Outcome → Outcome
  | .returned e t _ => .returned e t []
  | o => o

/-- The nested call `nested` with its own calls left out of the trace: the trace
of a call of `Copy` run with it holds the calls that this call made itself. -/
def muted (nested : Value → Value → Outcome) : Value → Value → Outcome :=
  fun tv fv => (nested tv fv).mute

/-- Function `Copy` with the calls that its nested calls make left out of the
trace: what it returns and what it does to the destination are those of `Copy`,
and the trace holds the calls into user code that this call makes itself. -/
def CopyDirect (env : Env) (toValue fromValue : Option Value)
    (flags : List CopyOption) : Outcome :=
  copyBody env (muted (fun tv fv => Copy env (some tv) (some fv) [])) toValue fromValue
    flags

/-- The same outcome of an iteration without its trace. -/
def ElemOutcome.erase : ElemOutcome → ElemOutcome
  | .failed e st => .failed e ⟨st.dest, st.source, []⟩
  | .done st => .done ⟨st.dest, st.source, []⟩
  | o => o

/-- The event is a call of `Scan`. -/
def isScan : Event → Bool
  | .scan _ _ => true
  | _ => false

/-- The event is a call of the method `name` of the type `recv` with exactly one
argument: what the first inner loop does with a destination setter. -/
def isSetterCall (recv : Ty) (name : String) : Event → Bool
  | .call r n [_] => Ty.beq r recv && n == name
  | _ => false

/-- The number of calls in a trace of the method `name` of the type `recv` with
one argument. -/
def setterCalls (recv : Ty) (name : String) (tr : List Event) : Nat :=
  tr.countP (isSetterCall recv name)

/-- The number of times a name occurs in a list of field descriptors. -/
def occurrences (name : String) (l : List StructField) : Nat :=
  l.countP (fun fd => fd.name == name)

/-! ## Example types, values and environments -/

/-- A plain field descriptor (not embedded). -/
def fld (name : String) (type : Ty) : StructField := StructField.mk name type false

/-- An environment without methods and without scanners. -/
def noEnv : Env := ⟨fun _ => [], fun _ => none⟩

/-- Source record of the scenario of the specification: `{ID int; Name string}`
with an unrelated field. -/
def userType : Ty :=
  .struct "User" [fld "ID" .int, fld "Name" .string, fld "Admin" .bool]

/-- Destination record of the scenario: `{ID int; Name string}` with an unrelated
field. -/
def rowType : Ty :=
  .struct "Row" [fld "ID" .int, fld "Name" .string, fld "Rank" .int8]

/-- The source `{ID: 7, Name: "ann"}`. -/
def userAnn : Value :=
  .struct "User" [.mk (fld "ID" .int) (.int 7), .mk (fld "Name" .string) (.string "ann"),
    .mk (fld "Admin" .bool) (.bool true)]

/-- A destination row with contents of its own. -/
def rowOld : Value :=
  .struct "Row" [.mk (fld "ID" .int) (.int 1), .mk (fld "Name" .string) (.string "old"),
    .mk (fld "Rank" .int8) (.int8 5)]

/-- The row `{ID: 7, Name: "ann"}` with the unrelated field at its default. -/
def rowAnn : Value :=
  .struct "Row" [.mk (fld "ID" .int) (.int 7), .mk (fld "Name" .string) (.string "ann"),
    .mk (fld "Rank" .int8) (.int8 0)]

/-- A struct type with an embedded member that declares a name again:
`type Base struct { A string }`, `type Outer struct { A int; Base }`. -/
def outerType : Ty :=
  .struct "Outer" [fld "A" .int,
    StructField.mk "Base" (.struct "Base" [fld "A" .string]) true]

/-- The type `type Stamp struct { Sec int }`. -/
def stampType : Ty := .struct "Stamp" [fld "Sec" .int]

/-- A type whose pointer implements `sql.Scanner`:
`type NullTime struct { Valid bool }`. -/
def nullTimeType : Ty := .struct "NullTime" [fld "Valid" .bool]

/-- The value `Stamp{Sec: 5}`. -/
def stampFive : Value := .struct "Stamp" [.mk (fld "Sec" .int) (.int 5)]

/-- The value `NullTime{Valid: true}`, what the example `Scan` stores. -/
def nullTimeValid : Value := .struct "NullTime" [.mk (fld "Valid" .bool) (.bool true)]

/-- Source whose field `At` is a pointer to a `Stamp`. -/
def eventPtr : Value :=
  .struct "EventP" [.mk (fld "At" (.ptr stampType)) (.ptr stampType (some stampFive))]

/-- Destination type `type RowP struct { At NullTime }`. -/
def rowScanType : Ty := .struct "RowP" [fld "At" nullTimeType]

/-- Source with a nested struct: `EventN{Inner: InnerS{At: Stamp{5}}}`. -/
def eventNested : Value :=
  .struct "EventN" [.mk (fld "Inner" (.struct "InnerS" [fld "At" stampType]))
    (.struct "InnerS" [.mk (fld "At" stampType) stampFive])]

/-- Destination type with a nested struct: `RowN{Inner InnerD}`,
`InnerD{At NullTime}`. -/
def rowNestedType : Ty :=
  .struct "RowN" [fld "Inner" (.struct "InnerD" [fld "At" nullTimeType])]

/-- Source type without fields and with a method `At() Stamp`. -/
def eventMethodType : Ty := .struct "EventM" []

/-- The method `func (e EventM) At() Stamp`, which returns `Stamp{5}`. -/
def methodAt : Method :=
  ⟨"At", false, [], 1, fun recv _ => (recv, [stampFive])⟩

/-- Environment of the scanner examples: `*NullTime` implements `sql.Scanner` (its
`Scan` stores `NullTime{Valid: true}`) and `EventM` has the method `At`. -/
def scanEnv : Env :=
  ⟨fun t => if Ty.beq t eventMethodType then [methodAt] else [],
   fun t => if Ty.beq t nullTimeType then some (fun _ _ => nullTimeValid) else none⟩

/-- Source of the setter example: `type Employee struct { Role string }`. -/
def employeeType : Ty := .struct "Employee" [fld "Role" .string]

/-- The value `Employee{Role: "admin"}`. -/
def employeeAdmin : Value :=
  .struct "Employee" [.mk (fld "Role" .string) (.string "admin")]

/-- Destination of the setter example: `type Staff struct { SuperRole string }`,
with a method `Role` and no field of that name. -/
def staffType : Ty := .struct "Staff" [fld "SuperRole" .string]

/-- The method `func (s *Staff) Role(role string) { s.SuperRole = "Super " + role }`. -/
def methodRole : Method :=
  ⟨"Role", true, [.string], 0, fun recv args =>
    match recv, args with
    | .struct n [.mk f _], [.string s] => (.struct n [.mk f (.string ("Super " ++ s))], [])
    | r, _ => (r, [])⟩

/-- Environment of the setter example: `*Staff` has the method `Role`. -/
def staffEnv : Env :=
  ⟨fun t => if Ty.beq t staffType then [methodRole] else [], fun _ => none⟩

/-- The type `type T struct { N int }` of the nested-copy examples. -/
def innerType : Ty := .struct "T" [fld "N" .int]

/-- Destination of the nested-copy example: `type Holder struct { B **T; ID int }`. -/
def holderType : Ty :=
  .struct "Holder" [fld "B" (.ptr (.ptr innerType)), fld "ID" .int]

/-- Source of the nested-copy example: `Item{B: U{N: 1}, ID: 7}` with
`type U struct { M string }` and `type Item struct { B U; ID int }`. -/
def itemValue : Value :=
  .struct "Item"
    [.mk (fld "B" (.struct "U" [fld "M" .string]))
        (.struct "U" [.mk (fld "M" .string) (.string "x")]),
      .mk (fld "ID" .int) (.int 7)]

/-- A destination collection that already holds one row. -/
def rowsOne : Value := .slice rowType (some [rowOld])

/-- A source collection of two records. -/
def usersTwo : Value := .slice userType (some [userAnn, userAnn])

/-- A source collection of three records. -/
def usersThree : Value := .slice userType (some [userAnn, userAnn, userAnn])

/-- Source of the addressability example: `type Account struct { Owner string }`,
with a method `Label` declared on `*Account`. -/
def accountType : Ty := .struct "Account" [fld "Owner" .string]

/-- The value `Account{Owner: "ann"}`. -/
def accountAnn : Value :=
  .struct "Account" [.mk (fld "Owner" .string) (.string "ann")]

/-- Destination of the addressability example:
`type Card struct { Owner string; Label string }`. -/
def cardType : Ty := .struct "Card" [fld "Owner" .string, fld "Label" .string]

/-- The method `func (a *Account) Label() string { return "gold" }`. -/
def methodLabel : Method :=
  ⟨"Label", true, [], 1, fun recv _ => (recv, [.string "gold"])⟩

/-- Environment of the addressability example: `*Account` has the method `Label`. -/
def accountEnv : Env :=
  ⟨fun t => if Ty.beq t accountType then [methodLabel] else [], fun _ => none⟩

/-- Destination of the half-done copy example: `type Pair struct { A int; B **T }`. -/
def pairType : Ty :=
  .struct "Pair" [fld "A" .int, fld "B" (.ptr (.ptr innerType))]

/-- Source of the half-done copy example: `PairSrc{A: 1, B: U{M: "x"}}` with
`type U struct { M string }`. -/
def pairSource : Value :=
  .struct "PairSrc"
    [.mk (fld "A" .int) (.int 1),
      .mk (fld "B" (.struct "U" [fld "M" .string]))
        (.struct "U" [.mk (fld "M" .string) (.string "x")])]

/-- The destination of the half-done copy example after the call: `A` written, the
outer pointer of `B` allocated, the inner one still nil. -/
def pairAfter : Value :=
  .struct "Pair"
    [.mk (fld "A" .int) (.int 1),
      .mk (fld "B" (.ptr (.ptr innerType))) (.ptr (.ptr innerType) (some (.ptr innerType none)))]

/-- A source collection of pointers whose only element is nil: `[]*User{nil}`. -/
def usersNil : Value := .slice (.ptr userType) (some [.ptr userType none])

/-- The value `U{M: "x"}` of `type U struct { M string }`. -/
def uRecord : Value := .struct "U" [.mk (fld "M" .string) (.string "x")]

/-- The value `Outer{A: 1, Base: Base{A: "in"}}`: the name `A` is declared by the
struct and by its embedded member. -/
def outerOne : Value :=
  .struct "Outer"
    [.mk (fld "A" .int) (.int 1),
      .mk (StructField.mk "Base" (.struct "Base" [fld "A" .string]) true)
        (.struct "Base" [.mk (fld "A" .string) (.string "in")])]

/-- Destination of the repeated-setter example:
`type Tally struct { Calls int; Sum int }`, with a method `A` and no field `A`. -/
def tallyType : Ty := .struct "Tally" [fld "Calls" .int, fld "Sum" .int]

/-- The method `func (t *Tally) A(x int) { t.Calls++; t.Sum += x }`. -/
def methodA : Method :=
  ⟨"A", true, [.int], 0, fun recv args =>
    match recv, args with
    | .struct n [.mk f (.int c), .mk g (.int s)], [.int x] =>
      (.struct n [.mk f (.int (c + 1)), .mk g (.int (s + x))], [])
    | r, _ => (r, [])⟩

/-- Environment of the repeated-setter example: `*Tally` has the method `A`. -/
def tallyEnv : Env :=
  ⟨fun t => if Ty.beq t tallyType then [methodA] else [], fun _ => none⟩

/-- Source of the getter examples: `type Probe struct { Z string }`, with a
method `Y`. -/
def probeType : Ty := .struct "Probe" [fld "Z" .string]

/-- The value `Probe{Z: "p"}`. -/
def probeValue : Value := .struct "Probe" [.mk (fld "Z" .string) (.string "p")]

/-- The method `func (p Probe) Y() *int { return nil }`. -/
def methodYNil : Method :=
  ⟨"Y", false, [], 1, fun recv _ => (recv, [.ptr .int none])⟩

/-- Environment in which `Probe` has the method `Y() *int` that returns nil. -/
def probeNilEnv : Env :=
  ⟨fun t => if Ty.beq t probeType then [methodYNil] else [], fun _ => none⟩

/-- Destination `Box{Y: &5}` of `type Box struct { Y *int }`. -/
def boxFive : Value :=
  .struct "Box" [.mk (fld "Y" (.ptr .int)) (.ptr .int (some (.int 5)))]

/-- The method `func (p Probe) Y() int8 { return 3 }`. -/
def methodYThree : Method :=
  ⟨"Y", false, [], 1, fun recv _ => (recv, [.int8 3])⟩

/-- Environment in which `Probe` has the method `Y() int8` that returns 3. -/
def probeEnv : Env :=
  ⟨fun t => if Ty.beq t probeType then [methodYThree] else [], fun _ => none⟩

/-- Destination `Gauge{Y: 9, Z: "z"}` of `type Gauge struct { Y int; Z string }`. -/
def gaugeNine : Value :=
  .struct "Gauge" [.mk (fld "Y" .int) (.int 9), .mk (fld "Z" .string) (.string "z")]

/-- The types `type Audit struct { ID int }`,
`type Meta struct { Audit; Tag string }` and
`type Doc struct { Meta; Title string }`: `ID` is promoted through two embedded
members. -/
def auditType : Ty := .struct "Audit" [fld "ID" .int]

/-- See `auditType`. -/
def metaType : Ty := .struct "Meta" [StructField.mk "Audit" auditType true, fld "Tag" .string]

/-- See `auditType`. -/
def docType : Ty := .struct "Doc" [StructField.mk "Meta" metaType true, fld "Title" .string]

/-- The source `Note{ID: 7, Title: "t", Tag: "g"}` of
`type Note struct { ID int8; Title string; Tag string }`. -/
def noteValue : Value :=
  .struct "Note" [.mk (fld "ID" .int8) (.int8 7), .mk (fld "Title" .string) (.string "t"),
    .mk (fld "Tag" .string) (.string "g")]

/-- The value `Doc{Meta{Audit{ID: 7}, Tag: "g"}, Title: "t"}`. -/
def docNote : Value :=
  .struct "Doc"
    [.mk (StructField.mk "Meta" metaType true)
        (.struct "Meta"
          [.mk (StructField.mk "Audit" auditType true)
              (.struct "Audit" [.mk (fld "ID" .int) (.int 7)]),
            .mk (fld "Tag" .string) (.string "g")]),
      .mk (fld "Title" .string) (.string "t")]

/-- The types `type Slot struct { X *int }` and `type Shelf struct { Slot }`. -/
def slotType : Ty := .struct "Slot" [fld "X" (.ptr .int)]

/-- The value `Shelf{Slot{X: &5}}`. -/
def shelfFive : Value :=
  .struct "Shelf"
    [.mk (StructField.mk "Slot" slotType true)
        (.struct "Slot" [.mk (fld "X" (.ptr .int)) (.ptr .int (some (.int 5)))])]

/-- The source `Pick{X: nil}` of `type Pick struct { X *int }`. -/
def pickNil : Value := .struct "Pick" [.mk (fld "X" (.ptr .int)) (.ptr .int none)]

/-- The source `Key{ID: 7}` of `type Key struct { ID int8 }`. -/
def keyValue : Value := .struct "Key" [.mk (fld "ID" .int8) (.int8 7)]

/-- The value `Doc{Meta{Audit{ID: 0}, Tag: "keep"}, Title: "old"}`. -/
def docKeep : Value :=
  .struct "Doc"
    [.mk (StructField.mk "Meta" metaType true)
        (.struct "Meta"
          [.mk (StructField.mk "Audit" auditType true)
              (.struct "Audit" [.mk (fld "ID" .int) (.int 0)]),
            .mk (fld "Tag" .string) (.string "keep")]),
      .mk (fld "Title" .string) (.string "old")]

/-- The value `Doc{Meta{Audit{ID: 7}, Tag: "keep"}, Title: "old"}`. -/
def docKeepSeven : Value :=
  .struct "Doc"
    [.mk (StructField.mk "Meta" metaType true)
        (.struct "Meta"
          [.mk (StructField.mk "Audit" auditType true)
              (.struct "Audit" [.mk (fld "ID" .int) (.int 7)]),
            .mk (fld "Tag" .string) (.string "keep")]),
      .mk (fld "Title" .string) (.string "old")]

/-- The source `Crate{Slot: Slot{X: nil}}` of `type Crate struct { Slot Slot }`:
a declared field with the name of the member that `Shelf` embeds. -/
def crateNil : Value :=
  .struct "Crate"
    [.mk (fld "Slot" slotType) (.struct "Slot" [.mk (fld "X" (.ptr .int)) (.ptr .int none)])]

/-- The value `Shelf{Slot{X: nil}}`. -/
def shelfNil : Value :=
  .struct "Shelf"
    [.mk (StructField.mk "Slot" slotType true)
        (.struct "Slot" [.mk (fld "X" (.ptr .int)) (.ptr .int none)])]

/-- Source of the embedded-field example:
`type Memo struct { ID int8; Title string; Stamp }`, with a method `Tag`. -/
def memoType : Ty :=
  .struct "Memo" [fld "ID" .int8, fld "Title" .string, StructField.mk "Stamp" stampType true]

/-- The value `Memo{ID: 7, Title: "t", Stamp: Stamp{Sec: 5}}`. -/
def memoValue : Value :=
  .struct "Memo"
    [.mk (fld "ID" .int8) (.int8 7), .mk (fld "Title" .string) (.string "t"),
      .mk (StructField.mk "Stamp" stampType true) stampFive]

/-- The method `func (m Memo) Tag() string { return "g" }`; the same body serves
for `func (k Key) Tag() string { return "g" }`. -/
def methodTag : Method :=
  ⟨"Tag", false, [], 1, fun recv _ => (recv, [.string "g"])⟩

/-- Environment in which `Memo` has the method `Tag`. -/
def memoEnv : Env :=
  ⟨fun t => if Ty.beq t memoType then [methodTag] else [], fun _ => none⟩

/-- The method `func (d *Doc) Sec(n int) { d.Title = "s" }`. -/
def methodSec : Method :=
  ⟨"Sec", true, [.int], 0, fun recv _ =>
    match recv with
    | .struct n [m, .mk t _] => (.struct n [m, .mk t (.string "s")], [])
    | r => (r, [])⟩

/-- Environment in which `Memo` has the method `Tag` and `*Doc` the method `Sec`. -/
def memoSecEnv : Env :=
  ⟨fun t => if Ty.beq t memoType then [methodTag]
      else if Ty.beq t docType then [methodSec] else [], fun _ => none⟩

/-- The value `Doc{Meta{Audit{ID: 7}, Tag: "g"}, Title: "s"}`. -/
def docSec : Value :=
  .struct "Doc"
    [.mk (StructField.mk "Meta" metaType true)
        (.struct "Meta"
          [.mk (StructField.mk "Audit" auditType true)
              (.struct "Audit" [.mk (fld "ID" .int) (.int 7)]),
            .mk (fld "Tag" .string) (.string "g")]),
      .mk (fld "Title" .string) (.string "s")]

/-- The source `Wipe{ID: 7, Clear: true}` of `type Wipe struct { ID int8; Clear bool }`. -/
def wipeValue : Value :=
  .struct "Wipe" [.mk (fld "ID" .int8) (.int8 7), .mk (fld "Clear" .bool) (.bool true)]

/-- The method `func (d *Doc) Clear(b bool) { d.ID = -1 }`. -/
def methodClear : Method :=
  ⟨"Clear", true, [.bool], 0, fun recv _ =>
    match recv with
    | .struct n [.mk m (.struct mn [.mk au (.struct an [.mk idf _]), tg]), ti] =>
      (.struct n [.mk m (.struct mn [.mk au (.struct an [.mk idf (.int (-1))]), tg]), ti], [])
    | r => (r, [])⟩

/-- Environment in which `*Doc` has the method `Clear`. -/
def clearEnv : Env :=
  ⟨fun t => if Ty.beq t docType then [methodClear] else [], fun _ => none⟩

/-- The value `Doc{Meta{Audit{ID: -1}, Tag: "keep"}, Title: "old"}`. -/
def docCleared : Value :=
  .struct "Doc"
    [.mk (StructField.mk "Meta" metaType true)
        (.struct "Meta"
          [.mk (StructField.mk "Audit" auditType true)
              (.struct "Audit" [.mk (fld "ID" .int) (.int (-1))]),
            .mk (fld "Tag" .string) (.string "keep")]),
      .mk (fld "Title" .string) (.string "old")]

/-- The source `Swap{ID: 7, Meta: Meta{Audit{ID: 0}, Tag: "m"}}` of
`type Swap struct { ID int8; Meta Meta }`: a declared field with the name of the
member that `Doc` embeds. -/
def swapValue : Value :=
  .struct "Swap"
    [.mk (fld "ID" .int8) (.int8 7),
      .mk (fld "Meta" metaType)
        (.struct "Meta"
          [.mk (StructField.mk "Audit" auditType true)
              (.struct "Audit" [.mk (fld "ID" .int) (.int 0)]),
            .mk (fld "Tag" .string) (.string "m")])]

/-- The value `Doc{Meta{Audit{ID: 0}, Tag: "m"}, Title: "old"}`. -/
def docSwapped : Value :=
  .struct "Doc"
    [.mk (StructField.mk "Meta" metaType true)
        (.struct "Meta"
          [.mk (StructField.mk "Audit" auditType true)
              (.struct "Audit" [.mk (fld "ID" .int) (.int 0)]),
            .mk (fld "Tag" .string) (.string "m")]),
      .mk (fld "Title" .string) (.string "old")]

/-- The types `type Sub struct { Meta string }` and
`type Wrap struct { Meta; Sub }`: the name `Meta` is that of an embedded member
and, one level down, that of a string field. -/
def subType : Ty := .struct "Sub" [fld "Meta" .string]

/-- See `subType`. -/
def wrapType : Ty :=
  .struct "Wrap" [StructField.mk "Meta" metaType true, StructField.mk "Sub" subType true]

/-- The value `Wrap{Meta{Audit{ID: 0}, Tag: "keep"}, Sub{Meta: "s"}}`. -/
def wrapValue : Value :=
  .struct "Wrap"
    [.mk (StructField.mk "Meta" metaType true)
        (.struct "Meta"
          [.mk (StructField.mk "Audit" auditType true)
              (.struct "Audit" [.mk (fld "ID" .int) (.int 0)]),
            .mk (fld "Tag" .string) (.string "keep")]),
      .mk (StructField.mk "Sub" subType true)
        (.struct "Sub" [.mk (fld "Meta" .string) (.string "s")])]

/-- The value `Wrap{Meta{Audit{ID: 0}, Tag: ""}, Sub{Meta: "s"}}`. -/
def wrapReset : Value :=
  .struct "Wrap"
    [.mk (StructField.mk "Meta" metaType true) (zero metaType),
      .mk (StructField.mk "Sub" subType true)
        (.struct "Sub" [.mk (fld "Meta" .string) (.string "s")])]

/-- The method `func (k Key) Meta() Meta { return Meta{} }`. -/
def methodMeta : Method :=
  ⟨"Meta", false, [], 1, fun recv _ => (recv, [zero metaType])⟩

/-- Environment in which `Key` has the methods `Tag` and `Meta`. -/
def keyEnv : Env :=
  ⟨fun t => if Ty.beq t (typeOf keyValue) then [methodTag, methodMeta] else [],
    fun _ => none⟩

/-- The source `Lazy{ID: 7, Stamp: nil}` of `type Lazy struct { ID int8; *Stamp }`:
the embedded pointer is nil. -/
def lazyValue : Value :=
  .struct "Lazy"
    [.mk (fld "ID" .int8) (.int8 7),
      .mk (StructField.mk "Stamp" (.ptr stampType) true) (.ptr stampType none)]

/-- Destination `type Hold struct { Audit; B **T }`. -/
def holdType : Ty :=
  .struct "Hold" [StructField.mk "Audit" auditType true, fld "B" (.ptr (.ptr innerType))]

/-- The source `HoldSrc{ID: 7, B: U{M: "x"}}` of
`type HoldSrc struct { ID int8; B U }` with `type U struct { M string }`. -/
def holdSource : Value :=
  .struct "HoldSrc"
    [.mk (fld "ID" .int8) (.int8 7),
      .mk (fld "B" (.struct "U" [fld "M" .string]))
        (.struct "U" [.mk (fld "M" .string) (.string "x")])]

/-- The value `Hold{Audit{ID: 7}, B: p}` with `p` a pointer to a nil `*T`. -/
def holdAfter : Value :=
  .struct "Hold"
    [.mk (StructField.mk "Audit" auditType true)
        (.struct "Audit" [.mk (fld "ID" .int) (.int 7)]),
      .mk (fld "B" (.ptr (.ptr innerType)))
        (.ptr (.ptr innerType) (some (.ptr innerType none)))]

/-- Environment in which `Key` has the method `Meta` only. -/
def keyMetaEnv : Env :=
  ⟨fun t => if Ty.beq t (typeOf keyValue) then [methodMeta] else [], fun _ => none⟩

/-- The value `Rack{Audit{ID: 0}, nil}` of `type Rack struct { Audit; *Stamp }`:
the embedded pointer is nil. -/
def rackValue : Value :=
  .struct "Rack"
    [.mk (StructField.mk "Audit" auditType true)
        (.struct "Audit" [.mk (fld "ID" .int) (.int 0)]),
      .mk (StructField.mk "Stamp" (.ptr stampType) true) (.ptr stampType none)]

/-- The source `Tick{ID: 7, Sec: 5}` of `type Tick struct { ID int8; Sec int }`. -/
def tickValue : Value :=
  .struct "Tick" [.mk (fld "ID" .int8) (.int8 7), .mk (fld "Sec" .int) (.int 5)]

/-- The value `Doc{Meta{Audit{ID: 7}, Tag: "g"}, Title: "old"}`. -/
def docKeyed : Value :=
  .struct "Doc"
    [.mk (StructField.mk "Meta" metaType true)
        (.struct "Meta"
          [.mk (StructField.mk "Audit" auditType true)
              (.struct "Audit" [.mk (fld "ID" .int) (.int 7)]),
            .mk (fld "Tag" .string) (.string "g")]),
      .mk (fld "Title" .string) (.string "old")]

/-! ## Basic facts about the reflective model -/

mutual
theorem Ty.beq_refl : ∀ t : Ty, Ty.beq t t = true
  | .bool => rfl
  | .int => rfl
  | .int8 => rfl
  | .string => rfl
  | .ptr e => by rw [Ty.beq]; exact Ty.beq_refl e
  | .slice e => by rw [Ty.beq]; exact Ty.beq_refl e
  | .map k e => by rw [Ty.beq, Ty.beq_refl k, Ty.beq_refl e]; rfl
  | .struct n fs => by rw [Ty.beq, Ty.beqFields_refl fs]; simp
theorem Ty.beqFields_refl : ∀ fs : List StructField, Ty.beqFields fs fs = true
  | [] => rfl
  | (.mk n t a) :: fs => by
    rw [Ty.beqFields, Ty.beq_refl t, Ty.beqFields_refl fs]; simp
end

theorem zeroFields_map_field : ∀ fs : List StructField,
    (zeroFields fs).map FieldValue.field = fs
  | [] => rfl
  | (.mk n t a) :: fs => by
    rw [zeroFields, List.map_cons, zeroFields_map_field fs]; rfl

theorem typeOf_zero (t : Ty) : typeOf (zero t) = t := by
  cases t <;> simp [zero, typeOf, zeroFields_map_field]

mutual
theorem valueEq_zero : ∀ t : Ty, t.Comparable = true → valueEq (zero t) (zero t) = true
  | .bool, _ => by simp [zero, valueEq]
  | .int, _ => by simp [zero, valueEq]
  | .int8, _ => by simp [zero, valueEq]
  | .string, _ => by simp [zero, valueEq]
  | .ptr e, _ => by simp [zero, valueEq, Ty.beq_refl]
  | .slice e, h => by simp [Ty.Comparable] at h
  | .map k e, h => by simp [Ty.Comparable] at h
  | .struct n fs, h => by
    rw [Ty.Comparable] at h
    simp [zero, valueEq, valueEqFields_zero fs h]
theorem valueEqFields_zero : ∀ fs : List StructField, Ty.comparableFields fs = true →
    valueEqFields (zeroFields fs) (zeroFields fs) = true
  | [], _ => by simp [zeroFields, valueEqFields]
  | (.mk n t a) :: fs, h => by
    rw [Ty.comparableFields, Bool.and_eq_true] at h
    simp [zeroFields, valueEqFields, Ty.beqFields_refl, valueEq_zero t h.1,
      valueEqFields_zero fs h.2]
end

/-! ## Pointer chains -/

theorem indirectValue_kind (n : Nat) : ∀ (v : Value) (a : Bool) (f : Value) (b : Bool),
    sizeOf v ≤ n → indirectValue v a = ⟨some f, b⟩ → f.kind ≠ Kind.ptr := by
  induction n with
  | zero =>
    intro v a f b hn
    cases v <;> simp at hn
  | succ n ih =>
    intro v a f b hn h
    cases v with
    | ptr e tgt =>
      cases tgt with
      | none => simp [indirectValue] at h
      | some t =>
        rw [indirectValue] at h
        refine ih t true f b ?_ h
        simp at hn
        omega
    | _ =>
      simp [indirectValue] at h
      rw [← h.1]
      simp [Value.kind, typeOf, Ty.kind]

theorem indirect_kind (r : RValue) (f : Value) (b : Bool)
    (h : indirect r = ⟨some f, b⟩) : f.kind ≠ Kind.ptr := by
  unfold indirect at h
  cases hv : r.val with
  | none => rw [hv] at h; simp at h; rw [h] at hv; simp at hv
  | some v =>
    rw [hv] at h
    exact indirectValue_kind (sizeOf v) v r.flagAddr f b (le_refl _) h

theorem indirectValue_of_not_ptr (f : Value) (a : Bool) (h : f.kind ≠ Kind.ptr) :
    indirectValue f a = ⟨some f, a⟩ := by
  cases f with
  | ptr e tgt => simp [Value.kind, typeOf, Ty.kind] at h
  | _ => simp [indirectValue]

theorem indirectValue_storeIndirect (n : Nat) : ∀ (root : Value) (a : Bool) (t f : Value)
    (b : Bool), sizeOf root ≤ n → indirectValue root a = ⟨some t, b⟩ →
    f.kind ≠ Kind.ptr → indirectValue (storeIndirect root f) a = ⟨some f, b⟩ := by
  induction n with
  | zero =>
    intro root a t f b hn
    cases root <;> simp at hn
  | succ n ih =>
    intro root a t f b hn h hf
    cases root with
    | ptr e tgt =>
      cases tgt with
      | none => simp [indirectValue] at h
      | some x =>
        rw [indirectValue] at h
        rw [storeIndirect, indirectValue]
        refine ih x true t f b ?_ h hf
        simp at hn
        omega
    | _ =>
      simp [indirectValue] at h
      simp only [storeIndirect]
      rw [indirectValue_of_not_ptr f a hf, h.2]

theorem indirect_storeIndirect (root t f : Value) (b : Bool)
    (h : indirect (ValueOf (some root)) = ⟨some t, b⟩) (hf : f.kind ≠ Kind.ptr) :
    indirect (ValueOf (some (storeIndirect root f))) = ⟨some f, b⟩ := by
  simp only [indirect, ValueOf] at h ⊢
  exact indirectValue_storeIndirect (sizeOf root) root false t f b (le_refl _) h hf

/-! ## C1, C2: the checks at the entry of `Copy` -/

/-- C1. When the destination, after following pointers, is not addressable (a
value that is not a pointer, a nil pointer, or nil), `Copy` returns the
unaddressable-destination error and leaves the destination as it was, whatever
the source and the flags, also when the source is invalid. -/
theorem Copy_unaddressable (env : Env) (toValue fromValue : Option Value)
    (flags : List CopyOption)
    (h : (indirect (ValueOf toValue)).CanAddr = false) :
    Copy env toValue fromValue flags
      = Outcome.returned (some CopyError.unaddressable) toValue [] := by
  unfold Copy
  cases fromValue <;> simp [fuelFor, CopyFuel, copyBody, h]

theorem Copy_unaddressable_witness :
    (indirect (ValueOf (some (Value.ptr rowType none)))).CanAddr = false
    ∧ Copy noEnv (some (Value.ptr rowType none)) none [DisableScanner]
      = Outcome.returned (some CopyError.unaddressable)
          (some (Value.ptr rowType none)) [] :=
  ⟨rfl, Copy_unaddressable noEnv (some (Value.ptr rowType none)) none [DisableScanner] rfl⟩

/-- C2. When the destination is addressable and the type of the source value
(after indirection of both) is assignable to the type of the destination,
`Copy` returns nil and afterwards the destination, reached from `toValue` by
following pointers, is the source value in full, whatever it held before. -/
theorem Copy_assignable (env : Env) (root : Value) (fromValue : Option Value)
    (flags : List CopyOption) (t f : Value)
    (hto : indirect (ValueOf (some root)) = ⟨some t, true⟩)
    (hfrom : (indirect (ValueOf fromValue)).val = some f)
    (hassign : (typeOf f).AssignableTo (typeOf t) = true) :
    ∃ root2, Copy env (some root) fromValue flags = Outcome.returned none (some root2) []
      ∧ indirect (ValueOf (some root2)) = ⟨some f, true⟩ := by
  refine ⟨storeIndirect root f, ?_, ?_⟩
  · unfold Copy
    cases fromValue with
    | none => simp [indirect, ValueOf] at hfrom
    | some fv =>
      simp only [fuelFor, CopyFuel, copyBody, hto, hfrom, RValue.CanAddr, hassign]
      simp
  · have hk : f.kind ≠ Kind.ptr := by
      cases hr : indirect (ValueOf fromValue) with
      | mk v b =>
        rw [hr] at hfrom
        simp at hfrom
        rw [hfrom] at hr
        exact indirect_kind _ f b hr
    exact indirect_storeIndirect root t f true hto hk

theorem Copy_assignable_witness :
    ∃ root2, Copy noEnv (some (Value.ptr rowType (some rowOld)))
        (some (Value.ptr rowType (some rowAnn))) [] = Outcome.returned none (some root2) []
      ∧ indirect (ValueOf (some root2)) = ⟨some rowAnn, true⟩ :=
  Copy_assignable noEnv (Value.ptr rowType (some rowOld))
    (some (Value.ptr rowType (some rowAnn))) [] rowOld rowAnn rfl rfl rfl


theorem setValid_eq (env : Env) (src dst : Value) (options : List Options) :
    setValid env src dst options
      = setBody env src dst options (fun inner =>
          match src with
          | .ptr _ (some v) => setValid env v inner []
          | _ => ⟨true, inner, []⟩) := by
  cases src with
  | ptr e tgt => cases tgt <;> simp [setValid]
  | _ => simp [setValid]

/-! ## C8: `set` on a pointer destination -/

/-- C8. For a destination field of pointer type and a valid source value that is
a nil pointer, nil map or nil slice, or that is the zero value of its comparable
type, `set` returns true, makes no call, and leaves the destination exactly as
it was: a nil pointer stays nil and a populated one keeps its pointee. -/
theorem set_pointer_keeps (env : Env) (dst src : Value) (addr : Bool)
    (options : List Options)
    (hdst : dst.kind = Kind.ptr)
    (hsrc : ((src.kind = Kind.ptr ∨ src.kind = Kind.map ∨ src.kind = Kind.slice)
              ∧ src.IsNil = true)
            ∨ ((typeOf src).Comparable = true ∧ src = zero (typeOf src))) :
    set env dst ⟨some src, addr⟩ options = ⟨true, dst, []⟩ := by
  have hcond : (dst.kind == Kind.ptr
        && (((src.kind == Kind.ptr || src.kind == Kind.map || src.kind == Kind.slice)
              && src.IsNil)
            || ((typeOf src).Comparable && valueEq src (zero (typeOf src))))) = true := by
    rcases hsrc with ⟨hk, hnil⟩ | ⟨hc, hz⟩
    · rcases hk with hk | hk | hk <;> simp [hdst, hk, hnil]
    · have hv : valueEq src (zero (typeOf src)) = true := by
        generalize hty : typeOf src = ty at hc hz
        subst hz
        exact valueEq_zero ty hc
      simp [hdst, hc, hv]
  have hbody : ∀ retry, setBody env src dst options retry = ⟨true, dst, []⟩ := by
    intro retry
    unfold setBody
    simp only [hcond, if_true]
  unfold set
  simp only
  rw [setValid_eq]
  exact hbody _

theorem set_pointer_keeps_witness :
    set noEnv (Value.ptr rowType (some rowOld)) ⟨some (Value.ptr rowType none), false⟩ []
        = ⟨true, Value.ptr rowType (some rowOld), []⟩
    ∧ set noEnv (Value.ptr Ty.int none) ⟨some (Value.int 0), false⟩ []
        = ⟨true, Value.ptr Ty.int none, []⟩ :=
  ⟨set_pointer_keeps noEnv (Value.ptr rowType (some rowOld)) (Value.ptr rowType none) false []
      rfl (Or.inl ⟨Or.inl rfl, rfl⟩),
   set_pointer_keeps noEnv (Value.ptr Ty.int none) (Value.int 0) false []
      rfl (Or.inr ⟨rfl, rfl⟩)⟩

/-! ## C9, C10: `deepFields` -/

theorem deepFieldsLoop_eq : ∀ fs : List StructField,
    deepFieldsLoop fs
      = fs.flatMap (fun f => if f.anonymous then deepFields f.type else [f])
  | [] => rfl
  | (.mk n t a) :: fs => by
    rw [deepFieldsLoop, List.flatMap_cons, deepFieldsLoop_eq fs]
    rfl

mutual
theorem deepFields_all_named : ∀ t : Ty,
    (deepFields t).all (fun f => !f.anonymous) = true
  | .bool => rfl
  | .int => rfl
  | .int8 => rfl
  | .string => rfl
  | .map _ _ => rfl
  | .ptr e => by rw [deepFields]; exact deepFields_all_named e
  | .slice e => by rw [deepFields]; exact deepFields_all_named e
  | .struct _ fs => by rw [deepFields]; exact deepFieldsLoop_all_named fs
theorem deepFieldsLoop_all_named : ∀ fs : List StructField,
    (deepFieldsLoop fs).all (fun f => !f.anonymous) = true
  | [] => rfl
  | (.mk n t a) :: fs => by
    rw [deepFieldsLoop, List.all_append, deepFieldsLoop_all_named fs, Bool.and_true]
    cases a with
    | true => simpa using deepFields_all_named t
    | false => simp [StructField.anonymous]
end

theorem deepFields_indirectType : ∀ t : Ty, deepFields t = deepFields (indirectType t)
  | .bool => rfl
  | .int => rfl
  | .int8 => rfl
  | .string => rfl
  | .map _ _ => rfl
  | .struct _ _ => rfl
  | .ptr e => by rw [deepFields, indirectType]; exact deepFields_indirectType e
  | .slice e => by rw [deepFields, indirectType]; exact deepFields_indirectType e

theorem indirectType_kind : ∀ t : Ty,
    (indirectType t).kind ≠ Kind.ptr ∧ (indirectType t).kind ≠ Kind.slice
  | .bool => by simp [indirectType, Ty.kind]
  | .int => by simp [indirectType, Ty.kind]
  | .int8 => by simp [indirectType, Ty.kind]
  | .string => by simp [indirectType, Ty.kind]
  | .map _ _ => by simp [indirectType, Ty.kind]
  | .struct _ _ => by simp [indirectType, Ty.kind]
  | .ptr e => by rw [indirectType]; exact indirectType_kind e
  | .slice e => by rw [indirectType]; exact indirectType_kind e

/-- C10. For every type `t`, `deepFields t` is the concatenation, in declaration
order, over the fields of `t` stripped of pointer and slice wrapping, of the
field itself when it is not embedded and of `deepFields` of its type when it
is; it is empty when the stripped type is not a struct; and no descriptor in
it is an embedded field. -/
theorem deepFields_flatten (t : Ty) :
    deepFields t
        = (match indirectType t with
          | .struct _ fs =>
            fs.flatMap (fun f => if f.anonymous then deepFields f.type else [f])
          | _ => [])
      ∧ ((indirectType t).kind == Kind.struct || (deepFields t).isEmpty) = true
      ∧ (deepFields t).all (fun f => !f.anonymous) = true := by
  have hk := indirectType_kind t
  refine ⟨?_, ?_, deepFields_all_named t⟩
  · rw [deepFields_indirectType t]
    cases h : indirectType t with
    | struct n fs => simp only [deepFields]; exact deepFieldsLoop_eq fs
    | ptr e => rw [h] at hk; simp [Ty.kind] at hk
    | slice e => rw [h] at hk; simp [Ty.kind] at hk
    | _ => rfl
  · rw [deepFields_indirectType t]
    cases h : indirectType t <;> simp [deepFields, Ty.kind]
    all_goals (rw [h] at hk; simp [Ty.kind] at hk)

theorem deepFieldsLoop_plain : ∀ fs : List StructField,
    (∀ f ∈ fs, f.anonymous = false) → deepFieldsLoop fs = fs
  | [], _ => rfl
  | (.mk n t a) :: fs, h => by
    have ha : a = false := by simpa [StructField.anonymous] using h (.mk n t a) (by simp)
    subst ha
    rw [deepFieldsLoop, deepFieldsLoop_plain fs (fun f hf => h f (by simp [hf]))]
    rfl

/-- C9, as the code has it. `deepFields` removes nothing. For a struct type without
embedded members it returns the declared fields unchanged, so that its names are
pairwise distinct when the declared names are; and in general the number of
occurrences of a name in the flattened list is the sum, over the declared
fields, of its occurrences in the flattened list of an embedded member, and of
one for a field of that name that is not embedded. -/
theorem deepFields_names (n : String) (fs : List StructField)
    (hplain : ∀ f ∈ fs, f.anonymous = false)
    (hnames : (fs.map StructField.name).Nodup) :
    deepFields (.struct n fs) = fs
      ∧ ((deepFields (.struct n fs)).map StructField.name).Nodup
      ∧ ∀ (m : String) (gs : List StructField) (x : String),
          ((deepFields (.struct m gs)).map StructField.name).count x
            = (gs.map (fun g =>
                if g.anonymous then ((deepFields g.type).map StructField.name).count x
                else if g.name = x then 1 else 0)).sum := by
  have h1 : deepFields (.struct n fs) = fs := by
    rw [deepFields]; exact deepFieldsLoop_plain fs hplain
  refine ⟨h1, by rw [h1]; exact hnames, ?_⟩
  intro m gs x
  rw [deepFields, deepFieldsLoop_eq]
  induction gs with
  | nil => rfl
  | cons g gs ih =>
    rw [List.flatMap_cons, List.map_append, List.count_append, ih, List.map_cons,
      List.sum_cons]
    congr 1
    cases hg : g.anonymous with
    | true => simp
    | false =>
      by_cases hx : g.name = x
      · simp [hx]
      · simp [hx, List.count_cons]

theorem deepFields_names_witness :
    deepFields rowType = [fld "ID" .int, fld "Name" .string, fld "Rank" .int8]
      ∧ ((deepFields rowType).map StructField.name).Nodup
      ∧ ∀ (m : String) (gs : List StructField) (x : String),
          ((deepFields (.struct m gs)).map StructField.name).count x
            = (gs.map (fun g =>
                if g.anonymous then ((deepFields g.type).map StructField.name).count x
                else if g.name = x then 1 else 0)).sum :=
  deepFields_names "Row" [fld "ID" .int, fld "Name" .string, fld "Rank" .int8]
    (by simp [fld, StructField.anonymous]) (by simp [fld, StructField.name])

/-- C9, counterexample. With `type Base struct { A string }` and
`type Outer struct { A int; Base }`, the flattened list of `Outer` has two
descriptors named `A`: the names are not pairwise distinct. -/
theorem deepFields_names_repeat :
    (deepFields outerType).map StructField.name = ["A", "A"]
      ∧ ¬ ((deepFields outerType).map StructField.name).Nodup := by
  have h : (deepFields outerType).map StructField.name = ["A", "A"] := rfl
  refine ⟨h, ?_⟩
  rw [h]
  simp

/-! ## C7: the flag `DisableScanner` -/

/-- C7, evaluated. With the flag `DisableScanner` passed to `Copy`, `Scan` is
still invoked on a destination field of type `NullTime` in three places, each of
which calls `set` or `Copy` without forwarding the options: the retry of `set`
through a source pointer (source field `*Stamp`), the assignment of a method
result to a field (source method `At`), and a nested `Copy` of a struct field.
Each trace holds one `Scan` of `Stamp{5}`. -/
theorem Copy_DisableScanner_still_scans :
    Copy scanEnv (some (.ptr rowScanType (some (zero rowScanType)))) (some eventPtr)
        [DisableScanner]
      = .returned none
          (some (.ptr rowScanType
            (some (.struct "RowP" [.mk (fld "At" nullTimeType) nullTimeValid]))))
          [Event.scan nullTimeType stampFive]
    ∧ Copy scanEnv (some (.ptr rowScanType (some (zero rowScanType))))
        (some (.struct "EventM" [])) [DisableScanner]
      = .returned none
          (some (.ptr rowScanType
            (some (.struct "RowP" [.mk (fld "At" nullTimeType) nullTimeValid]))))
          [Event.call eventMethodType "At" [], Event.scan nullTimeType stampFive]
    ∧ Copy scanEnv (some (.ptr rowNestedType (some (zero rowNestedType))))
        (some eventNested) [DisableScanner]
      = .returned none
          (some (.ptr rowNestedType
            (some (.struct "RowN" [.mk (fld "Inner" (.struct "InnerD" [fld "At" nullTimeType]))
              (.struct "InnerD" [.mk (fld "At" nullTimeType) nullTimeValid])]))))
          [Event.scan nullTimeType stampFive] :=
  ⟨rfl, rfl, rfl⟩

/-- With the flag and a source field that is a plain `Stamp`, the top-level
assignment does skip `Scan`: the field is left alone by `set`. -/
theorem set_DisableScanner_skips :
    set scanEnv (zero nullTimeType) ⟨some stampFive, false⟩ [createOptions [DisableScanner]]
      = ⟨false, zero nullTimeType, []⟩ := rfl

/-! ## Field lookup by name: where the path starts -/

theorem scanMatches_spec (name : String) (index : List Nat) :
    ∀ (fs : List StructField) (k : Nat) (m : List Nat × StructField),
      m ∈ scanMatches name index fs k →
      ∃ i f, m = (index ++ [k + i], f) ∧ fs[i]? = some f ∧ f.name = name
  | [], _, m, h => by simp [scanMatches] at h
  | g :: gs, k, m, h => by
    rw [scanMatches, List.mem_append] at h
    rcases h with h | h
    · by_cases hg : (g.name == name) = true
      · simp only [hg, if_true, List.mem_singleton] at h
        exact ⟨0, g, by simpa using h, by simp, by simpa using hg⟩
      · simp [hg] at h
    · obtain ⟨i, f, hm, hi, hf⟩ := scanMatches_spec name index gs (k + 1) m h
      refine ⟨i + 1, f, ?_, by simpa using hi, hf⟩
      rw [hm]
      congr 3
      omega

theorem scanEmbedded_spec (index : List Nat) :
    ∀ (fs : List StructField) (k : Nat) (s : FieldScan),
      s ∈ scanEmbedded index fs k →
      ∃ i f, s.index = index ++ [k + i] ∧ fs[i]? = some f ∧ f.anonymous = true
  | [], _, s, h => by simp [scanEmbedded] at h
  | g :: gs, k, s, h => by
    rw [scanEmbedded, List.mem_append] at h
    rcases h with h | h
    · cases he : embeddedStruct g with
      | none => simp [he] at h
      | some sub =>
        simp only [he, List.mem_singleton] at h
        refine ⟨0, g, by simp [h], by simp, ?_⟩
        unfold embeddedStruct at he
        by_cases ha : g.anonymous = true
        · exact ha
        · simp [ha] at he
    · obtain ⟨i, f, hm, hi, hf⟩ := scanEmbedded_spec index gs (k + 1) s h
      refine ⟨i + 1, f, ?_, by simpa using hi, hf⟩
      rw [hm]
      congr 2
      omega

theorem UnderEmbedded_append (fs : List StructField) (index : List Nat) (k : Nat)
    (h : UnderEmbedded fs index) : UnderEmbedded fs (index ++ [k]) := by
  obtain ⟨i, rest, g, hi, hg, ha⟩ := h
  exact ⟨i, rest ++ [k], g, by simp [hi], hg, ha⟩

theorem FieldByNameFunc_under (fs : List StructField) (name : String) :
    ∀ (fuel : Nat) (current : List FieldScan) (r : List Nat × StructField),
      (∀ s ∈ current, UnderEmbedded fs s.index) →
      FieldByNameFunc name fuel current = some r → UnderEmbedded fs r.1
  | 0, _, _, _, h => by simp [FieldByNameFunc] at h
  | fuel + 1, current, r, hcur, h => by
    rw [FieldByNameFunc] at h
    split at h
    · simp at h
    · split at h
      · refine FieldByNameFunc_under fs name fuel _ r ?_ h
        intro s hs
        rw [List.mem_flatMap] at hs
        obtain ⟨c, hc, hs⟩ := hs
        obtain ⟨i, f, hidx, _, _⟩ := scanEmbedded_spec c.index c.fields 0 s hs
        rw [hidx]
        exact UnderEmbedded_append fs _ _ (hcur c hc)
      · rename_i m hm
        simp only [Option.some.injEq] at h
        have hmem : m ∈ current.flatMap (fun s => scanMatches name s.index s.fields 0) := by
          rw [hm]; simp
        rw [List.mem_flatMap] at hmem
        obtain ⟨c, hc, hs⟩ := hmem
        obtain ⟨i, f, hidx, _, _⟩ := scanMatches_spec name c.index c.fields 0 m hs
        rw [← h, hidx]
        exact UnderEmbedded_append fs _ _ (hcur c hc)
      · simp at h

/-- Where `FieldByName` of a struct type finds a name: the index path starts at a
top-level field, and when that field is not embedded the path ends there and
the field is the one found, under the name looked up. -/
theorem structFieldByName_head (fs : List StructField) (name : String)
    (index : List Nat) (f : StructField)
    (h : structFieldByName fs name = some (index, f)) :
    ∃ i rest g, index = i :: rest ∧ fs[i]? = some g
      ∧ (g.anonymous = false → rest = [] ∧ g.name = name ∧ f = g) := by
  unfold structFieldByName at h
  split at h
  · simp at h
  · split at h
    · rename_i m ms hm
      simp only [Option.some.injEq] at h
      have hmem : m ∈ scanMatches name [] fs 0 := by rw [hm]; simp
      obtain ⟨i, g, hidx, hi, hg⟩ := scanMatches_spec name [] fs 0 m hmem
      rw [h] at hidx
      simp only [List.nil_append, zero_add, Prod.mk.injEq] at hidx
      exact ⟨i, [], g, hidx.1, hi, fun _ => ⟨rfl, hg, hidx.2⟩⟩
    · rename_i hm
      split at h
      · rw [FieldByNameFunc] at h
        simp only [List.isEmpty_cons, Bool.false_eq_true, if_false, List.flatMap_cons,
          List.flatMap_nil, List.append_nil, hm] at h
        have hu := FieldByNameFunc_under fs name _ _ (index, f) (by
          intro s hs
          obtain ⟨i, g, hidx, hi, ha⟩ := scanEmbedded_spec [] fs 0 s hs
          exact ⟨i, [], g, by simpa using hidx, hi, ha⟩) h
        obtain ⟨i, rest, g, hidx, hi, ha⟩ := hu
        exact ⟨i, rest, g, hidx, hi, fun hna => by rw [ha] at hna; simp at hna⟩
      · simp at h

/-! ## Stores into a struct value -/

theorem setField_struct (n : String) (fvs : List FieldValue) (i : Nat) (new : Value) :
    ∃ fvs2, (Value.struct n fvs).setField i new = .struct n fvs2
      ∧ fvs2.map FieldValue.field = fvs.map FieldValue.field
      ∧ (∀ j, j ≠ i → fvs2[j]? = fvs[j]?)
      ∧ (∀ fv, fvs[i]? = some fv → fvs2[i]? = some (.mk fv.field new)) := by
  cases h : fvs[i]? with
  | none =>
    refine ⟨fvs, by simp [Value.setField, h], rfl, fun _ _ => rfl, ?_⟩
    intro fv hfv
    simp at hfv
  | some fv0 =>
    refine ⟨fvs.set i (.mk fv0.field new), by simp [Value.setField, h], ?_, ?_, ?_⟩
    · apply List.ext_getElem?
      intro k
      by_cases hk : k = i
      · subst hk
        simp only [List.getElem?_map, h, Option.map_some']
        have hlt : k < fvs.length := by
          rcases List.getElem?_eq_some_iff.mp h with ⟨hlt, _⟩
          exact hlt
        rw [List.getElem?_set_self hlt]
        rfl
      · simp only [List.getElem?_map]
        rw [List.getElem?_set_ne (Ne.symm hk)]
    · intro j hj
      exact List.getElem?_set_ne (Ne.symm hj)
    · intro fv hfv
      simp only [Option.some.injEq] at hfv
      have hlt : i < fvs.length := by
        rcases List.getElem?_eq_some_iff.mp h with ⟨hlt, _⟩
        exact hlt
      rw [List.getElem?_set_self hlt, hfv]

theorem storeByIndex_struct (n : String) (fvs : List FieldValue) (i : Nat)
    (rest : List Nat) (new : Value) :
    ∃ fvs2, (Value.struct n fvs).storeByIndex (i :: rest) new = .struct n fvs2
      ∧ fvs2.map FieldValue.field = fvs.map FieldValue.field
      ∧ (∀ j, j ≠ i → fvs2[j]? = fvs[j]?)
      ∧ (rest = [] → ∀ fv, fvs[i]? = some fv → fvs2[i]? = some (.mk fv.field new)) := by
  cases h : (Value.struct n fvs).Field i with
  | none =>
    refine ⟨fvs, by simp [Value.storeByIndex, h], rfl, fun _ _ => rfl, ?_⟩
    intro _ fv hfv
    simp [Value.Field, hfv] at h
  | some u =>
    obtain ⟨fvs2, h1, h2, h3, h4⟩ := setField_struct n fvs i (storeByIndexRest u rest new)
    refine ⟨fvs2, by simp [Value.storeByIndex, h, h1], h2, h3, ?_⟩
    intro hrest fv hfv
    subst hrest
    simpa [storeByIndexRest] using h4 fv hfv

theorem FieldByName_valid (r : RValue) (name : String) (index : List Nat)
    (f : StructField) (x : Value) (h : r.FieldByName name = .valid index f x) :
    ∃ n fvs, r.val = some (.struct n fvs)
      ∧ structFieldByName (fvs.map FieldValue.field) name = some (index, f)
      ∧ (Value.struct n fvs).FieldByIndex index = some x := by
  unfold RValue.FieldByName at h
  split at h
  · rename_i n fvs hv
    refine ⟨n, fvs, hv, ?_⟩
    split at h
    · simp at h
    · rename_i idx g hs
      split at h
      · rename_i y hy
        simp only [FieldLookup.valid.injEq] at h
        obtain ⟨h1, h2, h3⟩ := h
        subst h1 h2 h3
        exact ⟨hs, hy⟩
      · simp at h
  · simp at h

/-! ## Loops over field descriptors -/

theorem forFields_inv (step : StructField → ElemState → ElemOutcome)
    (P : ElemState → Prop) :
    ∀ (l : List StructField),
      (∀ f ∈ l, ∀ st, P st → ∀ st2,
        (step f st = .done st2 ∨ ∃ e, step f st = .failed e st2) → P st2) →
      ∀ st, P st → ∀ st2,
        (forFields step l st = .done st2 ∨ ∃ e, forFields step l st = .failed e st2) →
        P st2
  | [], _, st, hP, st2, h => by
    simp only [forFields, ElemOutcome.done.injEq] at h
    rcases h with h | ⟨e, h⟩
    · rw [← h]; exact hP
    · simp at h
  | f :: l, hstep, st, hP, st2, h => by
    rw [forFields] at h
    cases hs : step f st with
    | panic => rw [hs] at h; simp at h
    | outOfFuel => rw [hs] at h; simp at h
    | failed e st1 =>
      rw [hs] at h
      simp only [ElemOutcome.failed.injEq, false_or, reduceCtorEq] at h
      obtain ⟨e2, h1, h2⟩ := h
      subst h2
      exact hstep f (by simp) st hP st1 (Or.inr ⟨e, hs⟩)
    | done st1 =>
      rw [hs] at h
      simp only at h
      exact forFields_inv step P l (fun g hg => hstep g (by simp [hg])) st1
        (hstep f (by simp) st hP st1 (Or.inl hs)) st2 h

theorem fieldToField_source (env : Env) (nested : Value → Value → Outcome)
    (opts : Options) (field : StructField) (st st2 : ElemState)
    (h : fieldToField env nested opts field st = .done st2
          ∨ ∃ e, fieldToField env nested opts field st = .failed e st2) :
    st2.source = st.source := by
  unfold fieldToField at h
  split at h
  · simp at h
  · simp only [ElemOutcome.done.injEq, reduceCtorEq, exists_false, or_false] at h
    rw [← h]
  · split at h
    · simp at h
    · split at h
      · simp only at h
        split at h
        · simp only [ElemOutcome.done.injEq, reduceCtorEq, exists_false, or_false] at h
          rw [← h]
        · split at h
          · simp at h
          · simp at h
          · split at h
            · simp only [reduceCtorEq, ElemOutcome.failed.injEq, false_or] at h
              obtain ⟨e, _, h⟩ := h
              rw [← h]
            · simp only [ElemOutcome.done.injEq, reduceCtorEq, exists_false, or_false] at h
              rw [← h]
      · simp only [ElemOutcome.done.injEq, reduceCtorEq, exists_false, or_false] at h
        rw [← h]
    · split at h
      · simp at h
      · split at h
        · split at h
          · split at h
            · simp only [ElemOutcome.done.injEq, reduceCtorEq, exists_false, or_false] at h
              rw [← h]
            · simp only [ElemOutcome.done.injEq, reduceCtorEq, exists_false, or_false] at h
              rw [← h]
          · simp only [ElemOutcome.done.injEq, reduceCtorEq, exists_false, or_false] at h
            rw [← h]
        · simp only [ElemOutcome.done.injEq, reduceCtorEq, exists_false, or_false] at h
          rw [← h]

/-! ## C4: what an iteration leaves alone -/

theorem FrameInv_store (dn : String) (fs : List StructField) (j : Nat) (dfv : FieldValue)
    (sTy : Ty) (a : Bool) (st : ElemState) (name : String)
    (hinv : FrameInv dn fs j dfv sTy a st)
    (hna : dfv.field.anonymous = false) (hname : name ≠ dfv.field.name)
    (index : List Nat) (f : StructField)
    (hlook : structFieldByName fs name = some (index, f))
    (v : Value) (tr : List Event) (src2 : RValue) (ha2 : src2.flagAddr = a)
    (hs2 : ∀ s, src2.val = some s → typeOf s = sTy) :
    FrameInv dn fs j dfv sTy a ⟨st.dest.store index v, src2, tr⟩ := by
  obtain ⟨⟨fvs, hd, hmap, hj⟩, _, _⟩ := hinv
  obtain ⟨i, rest, g, hidx, hg, hrest⟩ := structFieldByName_head fs name index f hlook
  have hij : i ≠ j := by
    intro hij
    subst hij
    have hfj : fs[i]? = some dfv.field := by
      rw [← hmap, List.getElem?_map, hj]; rfl
    rw [hfj] at hg
    simp only [Option.some.injEq] at hg
    subst hg
    exact hname (hrest hna).2.1.symm
  obtain ⟨fvs2, h1, h2, h3, _⟩ := storeByIndex_struct dn fvs i rest v
  refine ⟨⟨fvs2, ?_, by rw [h2, hmap], by rw [h3 j (Ne.symm hij), hj]⟩, ha2, hs2⟩
  simp only [RValue.store, hd, Option.map_some', hidx, h1]

theorem fieldToField_frame (env : Env) (nested : Value → Value → Outcome)
    (opts : Options) (dn : String) (fs : List StructField) (j : Nat) (dfv : FieldValue)
    (sTy : Ty) (a : Bool) (field : StructField) (st : ElemState)
    (hinv : FrameInv dn fs j dfv sTy a st)
    (hna : dfv.field.anonymous = false) (hname : field.name ≠ dfv.field.name)
    (hsetter : methodByName env (.struct dn fs) true field.name = none)
    (st2 : ElemState)
    (h : fieldToField env nested opts field st = .done st2
          ∨ ∃ e, fieldToField env nested opts field st = .failed e st2) :
    FrameInv dn fs j dfv sTy a st2 := by
  have hinv0 := hinv
  obtain ⟨⟨fvs, hd, hmap, hj⟩, ha, hs⟩ := hinv
  have hsame : ∀ tr, FrameInv dn fs j dfv sTy a ⟨st.dest, st.source, tr⟩ :=
    fun tr => ⟨⟨fvs, hd, hmap, hj⟩, ha, hs⟩
  unfold fieldToField at h
  split at h
  · simp at h
  · simp only [ElemOutcome.done.injEq, reduceCtorEq, exists_false, or_false] at h
    rw [← h]; exact hinv0
  · split at h
    · simp at h
    · rename_i index f toField hlook
      obtain ⟨n, fvs1, hv, hsf, _⟩ := FieldByName_valid _ _ _ _ _ hlook
      rw [hd] at hv
      simp only [Option.some.injEq, Value.struct.injEq] at hv
      rw [← hv.2, hmap] at hsf
      split at h
      · simp only at h
        split at h
        · simp only [ElemOutcome.done.injEq, reduceCtorEq, exists_false, or_false] at h
          rw [← h]
          exact FrameInv_store dn fs j dfv sTy a st field.name hinv0 hna hname index f hsf _ _
            st.source ha hs
        · split at h
          · simp at h
          · simp at h
          · split at h
            · simp only [reduceCtorEq, ElemOutcome.failed.injEq, false_or] at h
              obtain ⟨e, _, h⟩ := h
              rw [← h]
              exact FrameInv_store dn fs j dfv sTy a st field.name hinv0 hna hname index f
                hsf _ _ st.source ha hs
            · simp only [ElemOutcome.done.injEq, reduceCtorEq, exists_false, or_false] at h
              rw [← h]
              exact FrameInv_store dn fs j dfv sTy a st field.name hinv0 hna hname index f
                hsf _ _ st.source ha hs
      · simp only [ElemOutcome.done.injEq, reduceCtorEq, exists_false, or_false] at h
        rw [← h]; exact hinv0
    · split at h
      · simp at h
      · rename_i d hdv
        rw [hd] at hdv
        simp only [Option.some.injEq] at hdv
        have hty : typeOf d = .struct dn fs := by rw [← hdv, typeOf, hmap]
        have hca : st.dest.CanAddr = true := by rw [hd]; rfl
        rw [hty, hca, hsetter] at h
        simp only [ElemOutcome.done.injEq, reduceCtorEq, exists_false, or_false] at h
        rw [← h]; exact hinv0

theorem methodByName_mem (env : Env) (recv : Ty) (via : Bool) (name : String) (m : Method)
    (h : methodByName env recv via name = some m) : m ∈ env.methods recv := by
  unfold methodByName at h
  split at h
  · exact List.mem_of_find?_eq_some h
  · simp at h

theorem methodToField_frame (env : Env) (hp : env.TypePreserving)
    (dn : String) (fs : List StructField) (j : Nat) (dfv : FieldValue)
    (sTy : Ty) (a : Bool) (field : StructField) (st : ElemState)
    (hinv : FrameInv dn fs j dfv sTy a st)
    (hna : dfv.field.anonymous = false)
    (hget : ∀ m, methodByName env sTy a dfv.field.name = some m →
      ¬ (m.ins.length = 0 ∧ m.numOut = 1))
    (st2 : ElemState)
    (h : methodToField env field st = .done st2
          ∨ ∃ e, methodToField env field st = .failed e st2) :
    FrameInv dn fs j dfv sTy a st2 := by
  have hinv0 := hinv
  obtain ⟨⟨fvs, hd, hmap, hj⟩, ha, hs⟩ := hinv
  unfold methodToField at h
  split at h
  · simp at h
  · rename_i s hsv
    have hsty := hs s hsv
    split at h
    · rename_i m hm
      split at h
      · rename_i hsig
        have hname : field.name ≠ dfv.field.name := by
          intro hn
          rw [hsty, hn] at hm
          have hca : st.source.CanAddr = a := ha
          rw [hca] at hm
          refine hget m hm ?_
          simpa using hsig
        have hm2 : ∀ args, typeOf (m.body s args).1 = sTy := fun args =>
          hsty ▸ hp (typeOf s) m s args (methodByName_mem env _ _ _ m hm) rfl
        split at h
        · simp at h
        · rename_i index f toField hlook
          obtain ⟨n, fvs1, hv, hsf, _⟩ := FieldByName_valid _ _ _ _ _ hlook
          rw [hd] at hv
          simp only [Option.some.injEq, Value.struct.injEq] at hv
          rw [← hv.2, hmap] at hsf
          split at h
          · simp only at h
            split at h
            · simp only [ElemOutcome.done.injEq, reduceCtorEq, exists_false, or_false] at h
              rw [← h]
              refine FrameInv_store dn fs j dfv sTy a st field.name hinv0 hna hname index f
                hsf _ _ _ ha ?_
              intro s2 hs2
              simp only [Option.some.injEq] at hs2
              rw [← hs2]; exact hm2 []
            · simp only [ElemOutcome.done.injEq, reduceCtorEq, exists_false, or_false] at h
              rw [← h]
              refine ⟨⟨fvs, hd, hmap, hj⟩, ha, ?_⟩
              intro s2 hs2
              simp only [Option.some.injEq] at hs2
              rw [← hs2]; exact hm2 []
          · simp only [ElemOutcome.done.injEq, reduceCtorEq, exists_false, or_false] at h
            rw [← h]; exact hinv0
        · simp only [ElemOutcome.done.injEq, reduceCtorEq, exists_false, or_false] at h
          rw [← h]; exact hinv0
      · simp only [ElemOutcome.done.injEq, reduceCtorEq, exists_false, or_false] at h
        rw [← h]; exact hinv0
    · simp only [ElemOutcome.done.injEq, reduceCtorEq, exists_false, or_false] at h
      rw [← h]; exact hinv0

theorem copyElem_frame (env : Env) (hp : env.TypePreserving)
    (nested : Value → Value → Outcome) (opts : Options) (fromType toType : Ty)
    (dn : String) (fs : List StructField) (j : Nat) (dfv : FieldValue)
    (sTy : Ty) (a : Bool) (st : ElemState)
    (hinv : FrameInv dn fs j dfv sTy a st)
    (hna : dfv.field.anonymous = false)
    (hnames : ∀ fd ∈ deepFields fromType, fd.name ≠ dfv.field.name)
    (hsetter : ∀ fd ∈ deepFields fromType,
      methodByName env (.struct dn fs) true fd.name = none)
    (hget : ∀ m, methodByName env sTy a dfv.field.name = some m →
      ¬ (m.ins.length = 0 ∧ m.numOut = 1))
    (st2 : ElemState)
    (h : copyElem env nested opts fromType toType st = .done st2
          ∨ ∃ e, copyElem env nested opts fromType toType st = .failed e st2) :
    FrameInv dn fs j dfv sTy a st2 := by
  have h1 := forFields_inv (fieldToField env nested opts) (FrameInv dn fs j dfv sTy a)
    (deepFields fromType)
    (fun fd hfd s hs s2 hstep =>
      fieldToField_frame env nested opts dn fs j dfv sTy a fd s hs hna (hnames fd hfd)
        (hsetter fd hfd) s2 hstep) st hinv
  have h2 := forFields_inv (methodToField env) (FrameInv dn fs j dfv sTy a)
    (deepFields toType)
    (fun fd _ s hs s2 hstep =>
      methodToField_frame env hp dn fs j dfv sTy a fd s hs hna hget s2 hstep)
  unfold copyElem at h
  cases hf : forFields (fieldToField env nested opts) (deepFields fromType) st with
  | panic => rw [hf] at h; simp at h
  | outOfFuel => rw [hf] at h; simp at h
  | failed e st1 =>
    rw [hf] at h
    simp only [reduceCtorEq, ElemOutcome.failed.injEq, false_or] at h
    obtain ⟨e2, _, h⟩ := h
    rw [← h]
    exact h1 st1 (Or.inr ⟨e, hf⟩)
  | done st1 =>
    rw [hf] at h
    exact h2 st1 (h1 st1 (Or.inl hf)) st2 h

theorem indirect_of_not_ptr (f : Value) (a : Bool) (h : f.kind ≠ Kind.ptr) :
    indirect ⟨some f, a⟩ = ⟨some f, a⟩ := by
  simp only [indirect]
  exact indirectValue_of_not_ptr f a h

theorem storeIndirect_of_not_ptr (t d : Value) (h : t.kind ≠ Kind.ptr) :
    storeIndirect t d = d := by
  cases t with
  | ptr e tgt => simp [Value.kind, typeOf, Ty.kind] at h
  | _ => simp [storeIndirect]

/-- The path of `Copy` past its entry checks: an addressable destination, a valid
source, types that are not assignable and are structs after stripping. -/
theorem CopyFuel_succ (env : Env) (fuel : Nat) (root : Value)
    (fromValue : Option Value) (flags : List CopyOption) (t f : Value) (a : Bool)
    (hto : indirect (ValueOf (some root)) = ⟨some t, true⟩)
    (hfrom : indirect (ValueOf fromValue) = ⟨some f, a⟩)
    (hassign : (typeOf f).AssignableTo (typeOf t) = false)
    (hkf : (indirectType (typeOf f)).kind = Kind.struct)
    (hkt : (indirectType (typeOf t)).kind = Kind.struct) :
    CopyFuel env (fuel + 1) (some root) fromValue flags
      = (copyLoop env (fun tv fv => CopyFuel env fuel (some tv) (some fv) [])
            (createOptions flags) ⟨some f, a⟩ (indirectType (typeOf f))
            (indirectType (typeOf t)) (t.kind == Kind.slice)
            (List.range (if (t.kind == Kind.slice && f.kind == Kind.slice) then f.Len else 1))
            t []).rewrap root := by
  rw [CopyFuel, copyBody]
  simp only [hto, hfrom, RValue.CanAddr, hassign, hkf, hkt]
  simp

/-- The path of `Copy` when a stripped type is not a struct: nil, nothing done. -/
theorem CopyFuel_not_struct (env : Env) (fuel : Nat) (root : Value)
    (fromValue : Option Value) (flags : List CopyOption) (t f : Value) (a : Bool)
    (hto : indirect (ValueOf (some root)) = ⟨some t, true⟩)
    (hfrom : indirect (ValueOf fromValue) = ⟨some f, a⟩)
    (hassign : (typeOf f).AssignableTo (typeOf t) = false)
    (hk : ¬ ((indirectType (typeOf f)).kind = Kind.struct
            ∧ (indirectType (typeOf t)).kind = Kind.struct)) :
    CopyFuel env (fuel + 1) (some root) fromValue flags
      = .returned none (some root) [] := by
  rw [CopyFuel, copyBody]
  simp only [hto, hfrom, RValue.CanAddr, hassign]
  have : ((indirectType (typeOf f)).kind != Kind.struct
      || (indirectType (typeOf t)).kind != Kind.struct) = true := by
    by_cases h1 : (indirectType (typeOf f)).kind = Kind.struct
    · have h2 : ¬ (indirectType (typeOf t)).kind = Kind.struct := fun h2 => hk ⟨h1, h2⟩
      simp [h1, h2]
    · simp [h1]
  simp [this]

theorem fuelFor_pos (v : Option Value) : ∃ n, fuelFor v = n + 1 := by
  cases v with
  | none => exact ⟨0, rfl⟩
  | some x => exact ⟨x.depth, rfl⟩

/-- One iteration of the main loop when the destination is a struct (not a
collection): the outcome of `copyLoop` in terms of that of `copyElem`. -/
theorem copyLoop_single (env : Env) (nested : Value → Value → Outcome) (opts : Options)
    (f t : Value) (a : Bool) (fromType toType : Ty)
    (hf : f.kind ≠ Kind.ptr) (ht : t.kind ≠ Kind.ptr) :
    copyLoop env nested opts ⟨some f, a⟩ fromType toType false [0] t []
      = match copyElem env nested opts fromType toType ⟨⟨some t, true⟩, ⟨some f, a⟩, []⟩ with
        | .panic => .panic
        | .outOfFuel => .outOfFuel
        | .failed e st =>
          match st.dest.val with
          | some d => .returned (some e) (some d) st.trace
          | none => .returned (some e) (some t) st.trace
        | .done st =>
          match st.dest.val with
          | some d => .returned none (some d) st.trace
          | none => .returned none (some t) st.trace := by
  rw [copyLoop]
  simp only [elemStart, Bool.false_eq_true, if_false, indirect_of_not_ptr f a hf,
    indirect_of_not_ptr t true ht, Option.map_some']
  cases copyElem env nested opts fromType toType ⟨⟨some t, true⟩, ⟨some f, a⟩, []⟩ with
  | panic => rfl
  | outOfFuel => rfl
  | failed e st =>
    simp only
    cases st.dest.val with
    | none => rfl
    | some d => simp only [storeIndirect_of_not_ptr t d ht]
  | done st =>
    simp only
    cases st.dest.val with
    | none => simp [copyLoop]
    | some d => simp [copyLoop, storeIndirect_of_not_ptr t d ht]

/-- The frame of a single-struct `Copy` for the fields declared in the destination
struct itself: when no destination method is named after a flattened source
field, a declared field that is not an embedded member and whose name is neither
the name of a flattened source field nor the name of a zero-argument
single-result method of the source holds, after `Copy` returns (with nil or with
an error), exactly the value it held before. -/
theorem structCopy_frame_declared (env : Env) (hp : env.TypePreserving) (root : Value)
    (fromValue : Option Value) (flags : List CopyOption) (dn : String)
    (dfvs : List FieldValue) (f : Value) (a : Bool) (j : Nat) (dfv : FieldValue)
    (hto : indirect (ValueOf (some root)) = ⟨some (.struct dn dfvs), true⟩)
    (hfrom : indirect (ValueOf fromValue) = ⟨some f, a⟩)
    (hassign : (typeOf f).AssignableTo (typeOf (.struct dn dfvs)) = false)
    (hsetter : ∀ fd ∈ deepFields (indirectType (typeOf f)),
      methodByName env (typeOf (.struct dn dfvs)) true fd.name = none)
    (hj : dfvs[j]? = some dfv) (hna : dfv.field.anonymous = false)
    (hnames : ∀ fd ∈ deepFields (indirectType (typeOf f)), fd.name ≠ dfv.field.name)
    (hget : ∀ m, methodByName env (typeOf f) a dfv.field.name = some m →
      ¬ (m.ins.length = 0 ∧ m.numOut = 1))
    (err : Option CopyError) (root2 : Value) (tr : List Event)
    (hres : Copy env (some root) fromValue flags = .returned err (some root2) tr) :
    ∃ dfvs2, indirect (ValueOf (some root2)) = ⟨some (.struct dn dfvs2), true⟩
      ∧ dfvs2.map FieldValue.field = dfvs.map FieldValue.field
      ∧ dfvs2[j]? = some dfv := by
  obtain ⟨n, hn⟩ := fuelFor_pos fromValue
  unfold Copy at hres
  rw [hn] at hres
  have hfk : f.kind ≠ Kind.ptr := indirect_kind _ f a hfrom
  have htk : (Value.struct dn dfvs).kind ≠ Kind.ptr := by
    simp [Value.kind, typeOf, Ty.kind]
  by_cases hk : (indirectType (typeOf f)).kind = Kind.struct
      ∧ (indirectType (typeOf (Value.struct dn dfvs))).kind = Kind.struct
  · rw [CopyFuel_succ env n root fromValue flags _ f a hto hfrom hassign hk.1 hk.2] at hres
    have hsl : ((Value.struct dn dfvs).kind == Kind.slice) = false := by
      simp [Value.kind, typeOf, Ty.kind]
    simp only [hsl, Bool.false_and, Bool.false_eq_true, if_false] at hres
    have hr1 : List.range 1 = [0] := rfl
    rw [hr1, copyLoop_single env _ _ f _ a _ _ hfk htk] at hres
    have hinv : FrameInv dn (dfvs.map FieldValue.field) j dfv (typeOf f) a
        ⟨⟨some (.struct dn dfvs), true⟩, ⟨some f, a⟩, []⟩ :=
      ⟨⟨dfvs, rfl, rfl, hj⟩, rfl, fun s hs => by
        simp only [Option.some.injEq] at hs; rw [← hs]⟩
    have hframe := copyElem_frame env hp
      (fun tv fv => CopyFuel env n (some tv) (some fv) []) (createOptions flags)
      (indirectType (typeOf f)) (indirectType (typeOf (Value.struct dn dfvs)))
      dn (dfvs.map FieldValue.field) j dfv (typeOf f) a _ hinv hna hnames hsetter hget
    have hfin : ∀ st : ElemState, FrameInv dn (dfvs.map FieldValue.field) j dfv (typeOf f) a st →
        ∀ d, st.dest.val = some d → root2 = storeIndirect root d →
        ∃ dfvs2, indirect (ValueOf (some root2)) = ⟨some (.struct dn dfvs2), true⟩
          ∧ dfvs2.map FieldValue.field = dfvs.map FieldValue.field
          ∧ dfvs2[j]? = some dfv := by
      intro st hst d hd hroot
      obtain ⟨⟨fvs, hdest, hmap, hjj⟩, _, _⟩ := hst
      rw [hdest] at hd
      simp only [Option.some.injEq] at hd
      refine ⟨fvs, ?_, hmap, hjj⟩
      rw [hroot, ← hd]
      exact indirect_storeIndirect root _ _ true hto (by simp [Value.kind, typeOf, Ty.kind])
    cases hce : copyElem env (fun tv fv => CopyFuel env n (some tv) (some fv) [])
        (createOptions flags) (indirectType (typeOf f))
        (indirectType (typeOf (Value.struct dn dfvs)))
        ⟨⟨some (.struct dn dfvs), true⟩, ⟨some f, a⟩, []⟩ with
    | panic => rw [hce] at hres; simp [Outcome.rewrap] at hres
    | outOfFuel => rw [hce] at hres; simp [Outcome.rewrap] at hres
    | failed e st =>
      rw [hce] at hres
      have hst := hframe st (Or.inr ⟨e, hce⟩)
      obtain ⟨⟨fvs, hdest, _, _⟩, _, _⟩ := id hst
      simp only [hdest, Outcome.rewrap, Outcome.returned.injEq, Option.some.injEq] at hres
      exact hfin st hst _ (by rw [hdest]) hres.2.1.symm
    | done st =>
      rw [hce] at hres
      have hst := hframe st (Or.inl hce)
      obtain ⟨⟨fvs, hdest, _, _⟩, _, _⟩ := id hst
      simp only [hdest, Outcome.rewrap, Outcome.returned.injEq, Option.some.injEq] at hres
      exact hfin st hst _ (by rw [hdest]) hres.2.1.symm
  · rw [CopyFuel_not_struct env n root fromValue flags _ f a hto hfrom hassign hk] at hres
    simp only [Outcome.returned.injEq, Option.some.injEq] at hres
    refine ⟨dfvs, ?_, rfl, hj⟩
    rw [← hres.2.1]
    exact hto

theorem noEnv_TypePreserving : noEnv.TypePreserving := by
  intro ty m recv args hm
  simp [noEnv] at hm

/-! ## The destination of an iteration keeps its type -/

theorem typeOf_struct_inv (d : Value) (dn : String) (fs : List StructField)
    (h : typeOf d = .struct dn fs) :
    ∃ fvs, d = .struct dn fvs ∧ fvs.map FieldValue.field = fs := by
  cases d <;> simp [typeOf] at h
  rename_i n fvs
  exact ⟨fvs, by rw [h.1], h.2⟩

theorem typeOf_slice_inv (d : Value) (e : Ty) (h : typeOf d = .slice e) :
    ∃ elems, d = .slice e elems := by
  cases d <;> simp [typeOf] at h
  rename_i e2 elems
  exact ⟨elems, by rw [h]⟩

theorem DestInv_store (dn : String) (fs : List StructField) (st : ElemState)
    (name : String) (hinv : DestInv dn fs st) (index : List Nat) (f : StructField)
    (hlook : structFieldByName fs name = some (index, f))
    (v : Value) (tr : List Event) (src2 : RValue) :
    DestInv dn fs ⟨st.dest.store index v, src2, tr⟩ := by
  obtain ⟨fvs, hd, hmap⟩ := hinv
  obtain ⟨i, rest, g, hidx, _, _⟩ := structFieldByName_head fs name index f hlook
  obtain ⟨fvs2, h1, h2, _, _⟩ := storeByIndex_struct dn fvs i rest v
  refine ⟨fvs2, ?_, by rw [h2, hmap]⟩
  simp only [RValue.store, hd, Option.map_some', hidx, h1]

theorem fieldToField_dest (env : Env) (hp : env.TypePreserving)
    (nested : Value → Value → Outcome) (opts : Options) (dn : String)
    (fs : List StructField) (field : StructField) (st : ElemState)
    (hinv : DestInv dn fs st) (st2 : ElemState)
    (h : fieldToField env nested opts field st = .done st2
          ∨ ∃ e, fieldToField env nested opts field st = .failed e st2) :
    DestInv dn fs st2 := by
  have hinv0 := hinv
  obtain ⟨fvs, hd, hmap⟩ := hinv
  unfold fieldToField at h
  split at h
  · simp at h
  · simp only [ElemOutcome.done.injEq, reduceCtorEq, exists_false, or_false] at h
    rw [← h]; exact hinv0
  · rename_i fromField hsrc
    split at h
    · simp at h
    · rename_i index f toField hlook
      obtain ⟨n, fvs1, hv, hsf, _⟩ := FieldByName_valid _ _ _ _ _ hlook
      rw [hd] at hv
      simp only [Option.some.injEq, Value.struct.injEq] at hv
      rw [← hv.2, hmap] at hsf
      split at h
      · simp only at h
        split at h
        · simp only [ElemOutcome.done.injEq, reduceCtorEq, exists_false, or_false] at h
          rw [← h]
          exact DestInv_store dn fs st field.name hinv0 index f hsf _ _ _
        · split at h
          · simp at h
          · simp at h
          · split at h
            · simp only [reduceCtorEq, ElemOutcome.failed.injEq, false_or] at h
              obtain ⟨e, _, h⟩ := h
              rw [← h]
              exact DestInv_store dn fs st field.name hinv0 index f hsf _ _ _
            · simp only [ElemOutcome.done.injEq, reduceCtorEq, exists_false, or_false] at h
              rw [← h]
              exact DestInv_store dn fs st field.name hinv0 index f hsf _ _ _
      · simp only [ElemOutcome.done.injEq, reduceCtorEq, exists_false, or_false] at h
        rw [← h]; exact hinv0
    · split at h
      · simp at h
      · rename_i d hdv
        rw [hd] at hdv
        simp only [Option.some.injEq] at hdv
        have hty : typeOf d = .struct dn fs := by rw [← hdv, typeOf, hmap]
        split at h
        · rename_i m hm
          split at h
          · split at h
            · simp only [ElemOutcome.done.injEq, reduceCtorEq, exists_false, or_false] at h
              rw [← h]
              have hb := hp (typeOf d) m d [fromField] (methodByName_mem env _ _ _ m hm) rfl
              rw [hty] at hb
              obtain ⟨fvs2, hb1, hb2⟩ := typeOf_struct_inv _ dn fs hb
              refine ⟨fvs2, ?_, hb2⟩
              simp only [hb1, hd]
            · simp only [ElemOutcome.done.injEq, reduceCtorEq, exists_false, or_false] at h
              rw [← h]; exact hinv0
          · simp only [ElemOutcome.done.injEq, reduceCtorEq, exists_false, or_false] at h
            rw [← h]; exact hinv0
        · simp only [ElemOutcome.done.injEq, reduceCtorEq, exists_false, or_false] at h
          rw [← h]; exact hinv0

theorem methodToField_dest (env : Env) (dn : String) (fs : List StructField)
    (field : StructField) (st : ElemState) (hinv : DestInv dn fs st) (st2 : ElemState)
    (h : methodToField env field st = .done st2
          ∨ ∃ e, methodToField env field st = .failed e st2) :
    DestInv dn fs st2 := by
  have hinv0 := hinv
  obtain ⟨fvs, hd, hmap⟩ := hinv
  unfold methodToField at h
  split at h
  · simp at h
  · split at h
    · split at h
      · split at h
        · simp at h
        · rename_i index f toField hlook
          obtain ⟨n, fvs1, hv, hsf, _⟩ := FieldByName_valid _ _ _ _ _ hlook
          rw [hd] at hv
          simp only [Option.some.injEq, Value.struct.injEq] at hv
          rw [← hv.2, hmap] at hsf
          split at h
          · simp only at h
            split at h
            · simp only [ElemOutcome.done.injEq, reduceCtorEq, exists_false, or_false] at h
              rw [← h]
              exact DestInv_store dn fs st field.name hinv0 index f hsf _ _ _
            · simp only [ElemOutcome.done.injEq, reduceCtorEq, exists_false, or_false] at h
              rw [← h]
              exact ⟨fvs, hd, hmap⟩
          · simp only [ElemOutcome.done.injEq, reduceCtorEq, exists_false, or_false] at h
            rw [← h]; exact hinv0
        · simp only [ElemOutcome.done.injEq, reduceCtorEq, exists_false, or_false] at h
          rw [← h]; exact hinv0
      · simp only [ElemOutcome.done.injEq, reduceCtorEq, exists_false, or_false] at h
        rw [← h]; exact hinv0
    · simp only [ElemOutcome.done.injEq, reduceCtorEq, exists_false, or_false] at h
      rw [← h]; exact hinv0

theorem copyElem_dest (env : Env) (hp : env.TypePreserving)
    (nested : Value → Value → Outcome) (opts : Options) (fromType toType : Ty)
    (dn : String) (fs : List StructField) (st : ElemState)
    (hinv : DestInv dn fs st) (st2 : ElemState)
    (h : copyElem env nested opts fromType toType st = .done st2
          ∨ ∃ e, copyElem env nested opts fromType toType st = .failed e st2) :
    DestInv dn fs st2 := by
  have h1 := forFields_inv (fieldToField env nested opts) (DestInv dn fs)
    (deepFields fromType)
    (fun fd _ s hs s2 hstep => fieldToField_dest env hp nested opts dn fs fd s hs s2 hstep)
    st hinv
  have h2 := forFields_inv (methodToField env) (DestInv dn fs) (deepFields toType)
    (fun fd _ s hs s2 hstep => methodToField_dest env dn fs fd s hs s2 hstep)
  unfold copyElem at h
  cases hf : forFields (fieldToField env nested opts) (deepFields fromType) st with
  | panic => rw [hf] at h; simp at h
  | outOfFuel => rw [hf] at h; simp at h
  | failed e st1 =>
    rw [hf] at h
    simp only [reduceCtorEq, ElemOutcome.failed.injEq, false_or] at h
    obtain ⟨e2, _, h⟩ := h
    rw [← h]
    exact h1 st1 (Or.inr ⟨e, hf⟩)
  | done st1 =>
    rw [hf] at h
    exact h2 st1 (h1 st1 (Or.inl hf)) st2 h

/-! ## C3: structs without embedded members -/

theorem nodup_names_index (fs : List StructField)
    (h : (fs.map StructField.name).Nodup) (i j : Nat) (f g : StructField)
    (hi : fs[i]? = some f) (hj : fs[j]? = some g) (hn : f.name = g.name) : i = j := by
  rw [List.nodup_iff_getElem?_ne_getElem?] at h
  have hi2 : (fs.map StructField.name)[i]? = some f.name := by simp [hi]
  have hj2 : (fs.map StructField.name)[j]? = some g.name := by simp [hj]
  have hjl : j < (fs.map StructField.name).length := by
    rcases List.getElem?_eq_some_iff.mp hj2 with ⟨hlt, _⟩
    exact hlt
  have hil : i < (fs.map StructField.name).length := by
    rcases List.getElem?_eq_some_iff.mp hi2 with ⟨hlt, _⟩
    exact hlt
  by_contra hne
  rcases Nat.lt_or_gt_of_ne hne with hlt | hgt
  · exact h i j hlt hjl (by rw [hi2, hj2, hn])
  · exact h j i hgt hil (by rw [hi2, hj2, hn])

theorem scanMatches_nonempty (name : String) (index : List Nat) :
    ∀ (fs : List StructField) (k i : Nat) (f : StructField),
      fs[i]? = some f → f.name = name → scanMatches name index fs k ≠ []
  | [], _, i, f, hi, _ => by simp at hi
  | g :: gs, k, 0, f, hi, hn => by
    simp only [List.getElem?_cons_zero, Option.some.injEq] at hi
    subst hi
    simp [scanMatches, hn]
  | g :: gs, k, i + 1, f, hi, hn => by
    simp only [List.getElem?_cons_succ] at hi
    have := scanMatches_nonempty name index gs (k + 1) i f hi hn
    simp [scanMatches, this]

theorem structFieldByName_plain_some (fs : List StructField) (i : Nat) (f : StructField)
    (hnodup : (fs.map StructField.name).Nodup)
    (hi : fs[i]? = some f) (hname : f.name ≠ "") :
    structFieldByName fs f.name = some ([i], f) := by
  unfold structFieldByName
  have hne : (f.name == "") = false := by simpa using hname
  simp only [hne, Bool.false_eq_true, if_false]
  cases hm : scanMatches f.name [] fs 0 with
  | nil => exact absurd hm (scanMatches_nonempty f.name [] fs 0 i f hi rfl)
  | cons m ms =>
    have hmem : m ∈ scanMatches f.name [] fs 0 := by rw [hm]; simp
    obtain ⟨i2, g, hmeq, hi2, hg⟩ := scanMatches_spec f.name [] fs 0 m hmem
    have hii : i2 = i := nodup_names_index fs hnodup i2 i g f hi2 hi hg
    subst hii
    rw [hi] at hi2
    simp only [Option.some.injEq] at hi2
    subst hi2
    simp [hmeq]

theorem scanMatches_none (name : String) (index : List Nat) :
    ∀ (fs : List StructField) (k : Nat), (∀ g ∈ fs, g.name ≠ name) →
      scanMatches name index fs k = []
  | [], _, _ => rfl
  | g :: gs, k, h => by
    have hg : (g.name == name) = false := by simpa using h g (by simp)
    simp [scanMatches, hg, scanMatches_none name index gs (k + 1)
      (fun x hx => h x (by simp [hx]))]

theorem structFieldByName_plain_none (fs : List StructField) (name : String)
    (hplain : ∀ g ∈ fs, g.anonymous = false) (hno : ∀ g ∈ fs, g.name ≠ name) :
    structFieldByName fs name = none := by
  unfold structFieldByName
  split
  · rfl
  · rw [scanMatches_none name [] fs 0 hno]
    have : fs.any StructField.anonymous = false := by
      rw [List.any_eq_false]
      intro g hg
      simp [hplain g hg]
    simp [this]

/-- Lookup by name in a struct value without embedded members whose field names
are pairwise distinct: a field is found at its own position. -/
theorem FieldByName_plain_some (n : String) (fvs : List FieldValue) (b : Bool)
    (i : Nat) (fv : FieldValue)
    (hnodup : ((fvs.map FieldValue.field).map StructField.name).Nodup)
    (hi : fvs[i]? = some fv) (hname : fv.field.name ≠ "") :
    RValue.FieldByName ⟨some (.struct n fvs), b⟩ fv.field.name
      = .valid [i] fv.field fv.value := by
  have hf : (fvs.map FieldValue.field)[i]? = some fv.field := by simp [hi]
  unfold RValue.FieldByName
  simp only [structFieldByName_plain_some _ i fv.field hnodup hf hname,
    Value.FieldByIndex, Value.Field, List.get?_eq_getElem?, hi, Option.map_some',
    fieldByIndexRest]

theorem FieldByName_plain_none (n : String) (fvs : List FieldValue) (b : Bool)
    (name : String)
    (hplain : ∀ fv ∈ fvs, fv.field.anonymous = false)
    (hno : ∀ fv ∈ fvs, fv.field.name ≠ name) :
    RValue.FieldByName ⟨some (.struct n fvs), b⟩ name = .invalid := by
  unfold RValue.FieldByName
  have : structFieldByName (fvs.map FieldValue.field) name = none := by
    apply structFieldByName_plain_none
    · intro g hg
      rw [List.mem_map] at hg
      obtain ⟨fv, hfv, rfl⟩ := hg
      exact hplain fv hfv
    · intro g hg
      rw [List.mem_map] at hg
      obtain ⟨fv, hfv, rfl⟩ := hg
      exact hno fv hfv
  simp only [this]

theorem FieldByName_empty_name (n : String) (fvs : List FieldValue) (b : Bool) :
    RValue.FieldByName ⟨some (.struct n fvs), b⟩ "" = .invalid := by
  unfold RValue.FieldByName
  simp [structFieldByName]

theorem convert_target (src dst : Value) (env : Env) (b : Bool) (options : List Options)
    (hk : dst.kind ≠ Kind.ptr)
    (hc : (typeOf src).ConvertibleTo (typeOf dst) = true) :
    set env dst ⟨some src, b⟩ options = ⟨true, convert src (typeOf dst), []⟩ := by
  unfold set
  simp only
  rw [setValid_eq]
  unfold setBody
  have hk2 : (dst.kind == Kind.ptr) = false := by simpa using hk
  simp only [hk2, Bool.false_and, Bool.false_eq_true, if_false]
  cases dst with
  | ptr e tgt => simp [Value.kind, typeOf, Ty.kind] at hk
  | _ => simp only [hc, if_true]

theorem exported_empty : exported "" = false := rfl

/-- The body of the first loop on structs without embedded members, when the
destination field of the same name, if settable, is not a pointer and has a type
the source value converts to: the field receives the converted value, every
other field keeps its value, no call is made. -/
theorem fieldToField_plain (env : Env) (nested : Value → Value → Outcome)
    (opts : Options) (dn : String) (cur : List FieldValue) (sn : String)
    (sfvs : List FieldValue) (a : Bool) (tr : List Event) (i : Nat) (sfv : FieldValue)
    (hsnodup : ((sfvs.map FieldValue.field).map StructField.name).Nodup)
    (hdplain : ∀ fv ∈ cur, fv.field.anonymous = false)
    (hdnodup : ((cur.map FieldValue.field).map StructField.name).Nodup)
    (hi : sfvs[i]? = some sfv)
    (hsetter : methodByName env (.struct dn (cur.map FieldValue.field)) true
      sfv.field.name = none)
    (hconv : ∀ (j : Nat) (cfv : FieldValue), cur[j]? = some cfv → cfv.field.name = sfv.field.name →
      exported cfv.field.name = true →
      cfv.value.kind ≠ Kind.ptr
        ∧ (typeOf sfv.value).ConvertibleTo (typeOf cfv.value) = true) :
    ∃ cur2,
      fieldToField env nested opts sfv.field
          ⟨⟨some (.struct dn cur), true⟩, ⟨some (.struct sn sfvs), a⟩, tr⟩
        = .done ⟨⟨some (.struct dn cur2), true⟩, ⟨some (.struct sn sfvs), a⟩, tr⟩
      ∧ cur2.map FieldValue.field = cur.map FieldValue.field
      ∧ (∀ (j : Nat) (cfv : FieldValue), cur[j]? = some cfv → cfv.field.name ≠ sfv.field.name →
          cur2[j]? = some cfv)
      ∧ (∀ (j : Nat) (cfv : FieldValue), cur[j]? = some cfv → cfv.field.name = sfv.field.name →
          exported cfv.field.name = true →
          cur2[j]? = some (.mk cfv.field (convert sfv.value (typeOf cfv.value)))) := by
  have hsame : ∃ cur2, (ElemOutcome.done
        ⟨⟨some (.struct dn cur), true⟩, ⟨some (.struct sn sfvs), a⟩, tr⟩ : ElemOutcome)
        = .done ⟨⟨some (.struct dn cur2), true⟩, ⟨some (.struct sn sfvs), a⟩, tr⟩
      ∧ cur2.map FieldValue.field = cur.map FieldValue.field
      ∧ (∀ (j : Nat) (cfv : FieldValue), cur[j]? = some cfv → cfv.field.name ≠ sfv.field.name →
          cur2[j]? = some cfv) := ⟨cur, rfl, rfl, fun _ _ h _ => h⟩
  by_cases hname : sfv.field.name = ""
  · refine ⟨cur, ?_, rfl, fun _ _ h _ => h, ?_⟩
    · unfold fieldToField
      simp only [hname, FieldByName_empty_name]
    · intro j cfv _ hn hex
      rw [hn, hname, exported_empty] at hex
      simp at hex
  · have hsrc := FieldByName_plain_some sn sfvs a i sfv hsnodup hi hname
    by_cases hex : ∃ (k : Nat) (cfv : FieldValue), cur[k]? = some cfv ∧ cfv.field.name = sfv.field.name
    · obtain ⟨k, cfv, hk, hkn⟩ := hex
      have hdst := FieldByName_plain_some dn cur true k cfv hdnodup hk (by rw [hkn]; exact hname)
      rw [hkn] at hdst
      by_cases hexp : exported cfv.field.name = true
      · obtain ⟨hkind, hcv⟩ := hconv k cfv hk hkn hexp
        obtain ⟨cur2, h1, h2, h3, h4⟩ :=
          storeByIndex_struct dn cur k [] (convert sfv.value (typeOf cfv.value))
        refine ⟨cur2, ?_, h2, ?_, ?_⟩
        · unfold fieldToField
          simp only [hsrc, hdst, RValue.CanAddr, hexp, Bool.and_self, if_true,
            convert_target sfv.value cfv.value env false [opts] hkind hcv,
            List.append_nil, RValue.store, Option.map_some', h1]
        · intro j c hj hn
          have hjk : j ≠ k := by
            intro hjk
            subst hjk
            rw [hk] at hj
            simp only [Option.some.injEq] at hj
            subst hj
            exact hn hkn
          rw [h3 j hjk, hj]
        · intro j c hj hn _
          have hjk : j = k := by
            refine nodup_names_index (cur.map FieldValue.field) hdnodup j k c.field cfv.field
              (by simp [hj]) (by simp [hk]) (by rw [hn, hkn])
          subst hjk
          rw [hk] at hj
          simp only [Option.some.injEq] at hj
          subst hj
          exact h4 rfl cfv hk
      · refine ⟨cur, ?_, rfl, fun _ _ h _ => h, ?_⟩
        · unfold fieldToField
          simp only [hsrc, hdst, RValue.CanAddr, hexp, Bool.and_false, Bool.false_eq_true,
            if_false]
        · intro j c hj hn hexp2
          have hjk : j = k := by
            refine nodup_names_index (cur.map FieldValue.field) hdnodup j k c.field cfv.field
              (by simp [hj]) (by simp [hk]) (by rw [hn, hkn])
          subst hjk
          rw [hk] at hj
          simp only [Option.some.injEq] at hj
          subst hj
          exact absurd hexp2 hexp
    · have hno : ∀ fv ∈ cur, fv.field.name ≠ sfv.field.name := by
        intro fv hfv hn
        obtain ⟨k, hk⟩ := List.getElem?_of_mem hfv
        exact hex ⟨k, fv, hk, hn⟩
      have hdst := FieldByName_plain_none dn cur true sfv.field.name hdplain hno
      refine ⟨cur, ?_, rfl, fun _ _ h _ => h, ?_⟩
      · unfold fieldToField
        simp only [hsrc, hdst, typeOf, RValue.CanAddr, hsetter]
      · intro j c hj hn _
        exact absurd hn (hno c (List.getElem?_mem hj))

theorem forFields_done (step : StructField → ElemState → ElemOutcome)
    (P : ElemState → Prop)
    (hstep : ∀ f st, P st → ∃ st2, step f st = .done st2 ∧ P st2) :
    ∀ (l : List StructField) (st : ElemState), P st →
      ∃ st2, forFields step l st = .done st2 ∧ P st2
  | [], st, hP => ⟨st, rfl, hP⟩
  | f :: l, st, hP => by
    obtain ⟨st1, h1, hP1⟩ := hstep f st hP
    obtain ⟨st2, h2, hP2⟩ := forFields_done step P hstep l st1 hP1
    exact ⟨st2, by rw [forFields, h1]; exact h2, hP2⟩

theorem FieldByName_plain_cases (n : String) (fvs : List FieldValue) (b : Bool)
    (name : String)
    (hplain : ∀ fv ∈ fvs, fv.field.anonymous = false)
    (hnodup : ((fvs.map FieldValue.field).map StructField.name).Nodup) :
    RValue.FieldByName ⟨some (.struct n fvs), b⟩ name = .invalid
      ∨ ∃ (k : Nat) (fv : FieldValue), fvs[k]? = some fv
          ∧ RValue.FieldByName ⟨some (.struct n fvs), b⟩ name
              = .valid [k] fv.field fv.value := by
  by_cases hname : name = ""
  · left; rw [hname]; exact FieldByName_empty_name n fvs b
  · by_cases hex : ∃ (k : Nat) (fv : FieldValue), fvs[k]? = some fv ∧ fv.field.name = name
    · obtain ⟨k, fv, hk, hn⟩ := hex
      right
      refine ⟨k, fv, hk, ?_⟩
      rw [← hn]
      exact FieldByName_plain_some n fvs b k fv hnodup hk (by rw [hn]; exact hname)
    · left
      apply FieldByName_plain_none n fvs b name hplain
      intro fv hfv hn
      obtain ⟨k, hk⟩ := List.getElem?_of_mem hfv
      exact hex ⟨k, fv, hk, hn⟩

/-- The body of the second loop on a destination struct without embedded
members completes, and keeps the shape of the destination. -/
theorem methodToField_shape (env : Env) (dn : String) (fs : List StructField)
    (hplain : ∀ g ∈ fs, g.anonymous = false)
    (hnodup : (fs.map StructField.name).Nodup)
    (field : StructField) (st : ElemState) (hinv : ShapeInv dn fs st) :
    ∃ st2, methodToField env field st = .done st2 ∧ ShapeInv dn fs st2 := by
  obtain ⟨⟨fvs, hd, hmap⟩, hsv⟩ := id hinv
  obtain ⟨s, hs⟩ := Option.isSome_iff_exists.mp hsv
  unfold methodToField
  simp only [hs]
  split
  · split
    · have hp2 : ∀ fv ∈ fvs, fv.field.anonymous = false := by
        intro fv hfv
        exact hplain fv.field (by rw [← hmap]; exact List.mem_map_of_mem _ hfv)
      rcases FieldByName_plain_cases dn fvs true field.name hp2 (by rw [hmap]; exact hnodup)
        with hl | ⟨k, fv, hk, hl⟩
      · rw [hd, hl]
        exact ⟨st, rfl, hinv⟩
      · rw [hd, hl]
        simp only
        split
        · split
          · rename_i v vs _
            obtain ⟨fvs2, h1, h2, _, _⟩ := storeByIndex_struct dn fvs k []
              (set env fv.value ⟨some v, false⟩ []).dst
            refine ⟨_, rfl, ⟨fvs2, ?_, by rw [h2, hmap]⟩, rfl⟩
            simp only [RValue.store, Option.map_some', h1]
          · exact ⟨_, rfl, ⟨fvs, rfl, hmap⟩, rfl⟩
        · exact ⟨_, rfl, ⟨fvs, hd.symm ▸ rfl, hmap⟩, hsv⟩
    · exact ⟨st, rfl, hinv⟩
  · exact ⟨st, rfl, hinv⟩

/-- The first loop on structs without embedded members, under the hypotheses of
`fieldToField_plain` for every remaining source field. -/
theorem forFields_plain (env : Env) (nested : Value → Value → Outcome)
    (opts : Options) (dn : String) (fs : List StructField) (sn : String)
    (sfvs : List FieldValue) (a : Bool) (tr : List Event)
    (hsnodup : ((sfvs.map FieldValue.field).map StructField.name).Nodup)
    (hdplain : ∀ g ∈ fs, g.anonymous = false)
    (hdnodup : (fs.map StructField.name).Nodup) :
    ∀ (ss : List FieldValue), (∀ sfv ∈ ss, sfv ∈ sfvs) →
      ((ss.map FieldValue.field).map StructField.name).Nodup →
      (∀ sfv ∈ ss, methodByName env (.struct dn fs) true sfv.field.name = none) →
      ∀ (cur : List FieldValue), cur.map FieldValue.field = fs →
      (∀ sfv ∈ ss, ∀ (j : Nat) (cfv : FieldValue), cur[j]? = some cfv →
        cfv.field.name = sfv.field.name → exported cfv.field.name = true →
        cfv.value.kind ≠ Kind.ptr
          ∧ (typeOf sfv.value).ConvertibleTo (typeOf cfv.value) = true) →
      ∃ cur2,
        forFields (fieldToField env nested opts) (ss.map FieldValue.field)
            ⟨⟨some (.struct dn cur), true⟩, ⟨some (.struct sn sfvs), a⟩, tr⟩
          = .done ⟨⟨some (.struct dn cur2), true⟩, ⟨some (.struct sn sfvs), a⟩, tr⟩
        ∧ cur2.map FieldValue.field = fs
        ∧ (∀ (j : Nat) (cfv : FieldValue), cur[j]? = some cfv →
            (∀ sfv ∈ ss, cfv.field.name ≠ sfv.field.name) → cur2[j]? = some cfv)
        ∧ (∀ sfv ∈ ss, ∀ (j : Nat) (cfv : FieldValue), cur[j]? = some cfv →
            cfv.field.name = sfv.field.name → exported cfv.field.name = true →
            cur2[j]? = some (.mk cfv.field (convert sfv.value (typeOf cfv.value))))
  | [], _, _, _, cur, hmap, _ =>
    ⟨cur, rfl, hmap, fun _ _ h _ => h, fun _ h => by simp at h⟩
  | sfv0 :: ss, hmem, hnd, hsetter, cur, hmap, hconv => by
    obtain ⟨i, hi⟩ := List.getElem?_of_mem (hmem sfv0 (by simp))
    have hdp : ∀ fv ∈ cur, fv.field.anonymous = false := by
      intro fv hfv
      exact hdplain fv.field (by rw [← hmap]; exact List.mem_map_of_mem _ hfv)
    obtain ⟨cur1, hstep, hmap1, hB1, hA1⟩ :=
      fieldToField_plain env nested opts dn cur sn sfvs a tr i sfv0 hsnodup hdp
        (by rw [hmap]; exact hdnodup) hi
        (by rw [hmap]; exact hsetter sfv0 (by simp))
        (hconv sfv0 (by simp))
    simp only [List.map_cons, List.nodup_cons] at hnd
    have hne : ∀ sfv ∈ ss, sfv.field.name ≠ sfv0.field.name := by
      intro sfv hsfv hn
      apply hnd.1
      rw [← hn]
      exact List.mem_map_of_mem _ (List.mem_map_of_mem _ hsfv)
    have hconv1 : ∀ sfv ∈ ss, ∀ (j : Nat) (cfv : FieldValue), cur1[j]? = some cfv →
        cfv.field.name = sfv.field.name → exported cfv.field.name = true →
        cfv.value.kind ≠ Kind.ptr
          ∧ (typeOf sfv.value).ConvertibleTo (typeOf cfv.value) = true := by
      intro sfv hsfv j cfv hj hn hex
      have hfj : (cur.map FieldValue.field)[j]? = some cfv.field := by
        rw [← hmap1]; simp [hj]
      simp only [List.getElem?_map, Option.map_eq_some'] at hfj
      obtain ⟨c0, hc0, hc0f⟩ := hfj
      have hc0n : c0.field.name ≠ sfv0.field.name := by
        rw [hc0f, hn]; exact hne sfv hsfv
      have := hB1 j c0 hc0 hc0n
      rw [hj] at this
      simp only [Option.some.injEq] at this
      subst this
      exact hconv sfv (by simp [hsfv]) j cfv hc0 hn hex
    obtain ⟨cur2, hloop, hmap2, hB2, hA2⟩ :=
      forFields_plain env nested opts dn fs sn sfvs a tr hsnodup hdplain hdnodup ss
        (fun s hs => hmem s (by simp [hs])) hnd.2
        (fun s hs => hsetter s (by simp [hs])) cur1 (by rw [hmap1, hmap]) hconv1
    refine ⟨cur2, ?_, hmap2, ?_, ?_⟩
    · rw [List.map_cons, forFields, hstep]
      exact hloop
    · intro j cfv hj hall
      exact hB2 j cfv (hB1 j cfv hj (hall sfv0 (by simp)))
        (fun s hs => hall s (by simp [hs]))
    · intro sfv hsfv j cfv hj hn hex
      simp only [List.mem_cons] at hsfv
      rcases hsfv with rfl | hsfv
      · have h1 := hA1 j cfv hj hn hex
        exact hB2 j _ h1 (fun s hs => by
          show cfv.field.name ≠ s.field.name
          rw [hn]; exact (hne s hs).symm)
      · have hc : cfv.field.name ≠ sfv0.field.name := by rw [hn]; exact hne sfv hsfv
        exact hA2 sfv hsfv j cfv (hB1 j cfv hj hc) hn hex

/-- The single-struct `Copy` on structs without embedded members when every
settable destination field that has the name of a source field is not a pointer
and has a type the source field converts to: `Copy` returns nil and every such
field holds the converted value. -/
theorem structCopy_all_fields (env : Env) (hp : env.TypePreserving) (root : Value)
    (fromValue : Option Value) (flags : List CopyOption) (dn : String)
    (dfvs : List FieldValue) (sn : String) (sfvs : List FieldValue) (a : Bool)
    (hto : indirect (ValueOf (some root)) = ⟨some (.struct dn dfvs), true⟩)
    (hfrom : indirect (ValueOf fromValue) = ⟨some (.struct sn sfvs), a⟩)
    (hassign : (typeOf (.struct sn sfvs)).AssignableTo (typeOf (.struct dn dfvs)) = false)
    (hsplain : ∀ fv ∈ sfvs, fv.field.anonymous = false)
    (hdplain : ∀ fv ∈ dfvs, fv.field.anonymous = false)
    (hsnodup : ((sfvs.map FieldValue.field).map StructField.name).Nodup)
    (hdnodup : ((dfvs.map FieldValue.field).map StructField.name).Nodup)
    (hsetter : ∀ sfv ∈ sfvs,
      methodByName env (typeOf (.struct dn dfvs)) true sfv.field.name = none)
    (hrule : ∀ sfv ∈ sfvs,
      methodByName env (typeOf (.struct sn sfvs)) a sfv.field.name = none)
    (hconv : ∀ sfv ∈ sfvs, ∀ (j : Nat) (dfv : FieldValue), dfvs[j]? = some dfv →
      dfv.field.name = sfv.field.name → exported dfv.field.name = true →
      dfv.value.kind ≠ Kind.ptr
        ∧ (typeOf sfv.value).ConvertibleTo (typeOf dfv.value) = true) :
    ∃ root2 tr dfvs2,
      Copy env (some root) fromValue flags = .returned none (some root2) tr
      ∧ indirect (ValueOf (some root2)) = ⟨some (.struct dn dfvs2), true⟩
      ∧ dfvs2.map FieldValue.field = dfvs.map FieldValue.field
      ∧ ∀ sfv ∈ sfvs, ∀ (j : Nat) (dfv : FieldValue), dfvs[j]? = some dfv →
          dfv.field.name = sfv.field.name → exported dfv.field.name = true →
          dfvs2[j]? = some (.mk dfv.field (convert sfv.value (typeOf dfv.value))) := by
  obtain ⟨n, hn⟩ := fuelFor_pos fromValue
  have hfk : (Value.struct sn sfvs).kind ≠ Kind.ptr := by simp [Value.kind, typeOf, Ty.kind]
  have htk : (Value.struct dn dfvs).kind ≠ Kind.ptr := by simp [Value.kind, typeOf, Ty.kind]
  have hsl : ((Value.struct dn dfvs).kind == Kind.slice) = false := by
    simp [Value.kind, typeOf, Ty.kind]
  have hdf : deepFields (indirectType (typeOf (Value.struct sn sfvs)))
      = sfvs.map FieldValue.field := by
    simp only [typeOf, indirectType, deepFields]
    apply deepFieldsLoop_plain
    intro g hg
    rw [List.mem_map] at hg
    obtain ⟨fv, hfv, rfl⟩ := hg
    exact hsplain fv hfv
  have hdp : ∀ g ∈ dfvs.map FieldValue.field, g.anonymous = false := by
    intro g hg
    rw [List.mem_map] at hg
    obtain ⟨fv, hfv, rfl⟩ := hg
    exact hdplain fv hfv
  -- the first loop
  obtain ⟨cur1, hloop1, hmap1, _, hA1⟩ :=
    forFields_plain env (fun tv fv => CopyFuel env n (some tv) (some fv) [])
      (createOptions flags) dn (dfvs.map FieldValue.field) sn sfvs a [] hsnodup hdp hdnodup
      sfvs (fun _ h => h) hsnodup hsetter dfvs rfl hconv
  -- the second loop completes and keeps the shape
  obtain ⟨st2, hloop2, ⟨fvs2, hd2, hmap2⟩, _⟩ :=
    forFields_done (methodToField env) (ShapeInv dn (dfvs.map FieldValue.field))
      (fun fd st hst => methodToField_shape env dn _ hdp hdnodup fd st hst)
      (deepFields (indirectType (typeOf (Value.struct dn dfvs))))
      ⟨⟨some (.struct dn cur1), true⟩, ⟨some (.struct sn sfvs), a⟩, []⟩
      ⟨⟨cur1, rfl, hmap1⟩, rfl⟩
  have hcopy : Copy env (some root) fromValue flags
      = .returned none (some (storeIndirect root (.struct dn fvs2))) st2.trace := by
    unfold Copy
    rw [hn, CopyFuel_succ env n root fromValue flags _ _ a hto hfrom hassign rfl rfl]
    simp only [hsl, Bool.false_and, Bool.false_eq_true, if_false]
    have hr1 : List.range 1 = [0] := rfl
    rw [hr1, copyLoop_single env _ _ _ _ a _ _ hfk htk]
    unfold copyElem
    rw [hdf, hloop1]
    simp only
    rw [hloop2]
    simp only [hd2, Outcome.rewrap]
  refine ⟨_, _, fvs2, hcopy, ?_, hmap2, ?_⟩
  · exact indirect_storeIndirect root _ _ true hto (by simp [Value.kind, typeOf, Ty.kind])
  · intro sfv hsfv j dfv hj hname hex
    have hinv : FrameInv dn (dfvs.map FieldValue.field) j
        (.mk dfv.field (convert sfv.value (typeOf dfv.value)))
        (typeOf (Value.struct sn sfvs)) a
        ⟨⟨some (.struct dn cur1), true⟩, ⟨some (.struct sn sfvs), a⟩, []⟩ :=
      ⟨⟨cur1, rfl, hmap1, hA1 sfv hsfv j dfv hj hname hex⟩, rfl, fun s hs => by
        simp only [Option.some.injEq] at hs; rw [← hs]⟩
    have hfr := forFields_inv (methodToField env)
      (FrameInv dn (dfvs.map FieldValue.field) j
        (.mk dfv.field (convert sfv.value (typeOf dfv.value)))
        (typeOf (Value.struct sn sfvs)) a)
      (deepFields (indirectType (typeOf (Value.struct dn dfvs))))
      (fun fd _ s hs s2 hstep =>
        methodToField_frame env hp dn _ j _ _ a fd s hs
          (hdplain dfv (List.getElem?_mem hj))
          (by
            intro m hm
            have hnm : (FieldValue.mk dfv.field
                (convert sfv.value (typeOf dfv.value))).field.name = sfv.field.name := hname
            rw [hnm, hrule sfv hsfv] at hm
            simp at hm)
          s2 hstep)
      _ hinv st2 (Or.inl hloop2)
    obtain ⟨⟨fvs3, hd3, _, hj3⟩, _, _⟩ := hfr
    rw [hd2] at hd3
    simp only [RValue.mk.injEq, Option.some.injEq, Value.struct.injEq, true_and,
      and_true] at hd3
    rw [hd3]
    exact hj3


theorem forFields_append (step : StructField → ElemState → ElemOutcome) :
    ∀ (l1 l2 : List StructField) (st : ElemState),
      forFields step (l1 ++ l2) st
        = match forFields step l1 st with
          | .done st1 => forFields step l2 st1
          | other => other
  | [], _, _ => rfl
  | f :: l1, l2, st => by
    rw [List.cons_append, forFields, forFields]
    cases step f st with
    | done st1 => exact forFields_append step l1 l2 st1
    | _ => rfl

/-- The first loop on structs without embedded members, seen from one
destination field: when the loop completes, a settable field whose type is not
a pointer and to which the type of the source field of the same name converts
holds the converted value, whatever happens to the other fields. -/
theorem forFields_field_value (env : Env) (nested : Value → Value → Outcome)
    (opts : Options) (dn : String) (fs : List StructField) (sn : String)
    (sfvs : List FieldValue) (a : Bool)
    (hsnodup : ((sfvs.map FieldValue.field).map StructField.name).Nodup)
    (hdplain : ∀ g ∈ fs, g.anonymous = false)
    (hdnodup : (fs.map StructField.name).Nodup)
    (hsetter : ∀ sfv ∈ sfvs, methodByName env (.struct dn fs) true sfv.field.name = none)
    (sfv : FieldValue) (hmem : sfv ∈ sfvs) (j : Nat) (dfv : FieldValue)
    (hname : dfv.field.name = sfv.field.name) (hex : exported dfv.field.name = true)
    (hk : dfv.value.kind ≠ Kind.ptr)
    (hc : (typeOf sfv.value).ConvertibleTo (typeOf dfv.value) = true)
    (cur : List FieldValue) (hmap : cur.map FieldValue.field = fs)
    (hj : cur[j]? = some dfv) (tr : List Event) (st2 : ElemState)
    (h : forFields (fieldToField env nested opts) (sfvs.map FieldValue.field)
          ⟨⟨some (.struct dn cur), true⟩, ⟨some (.struct sn sfvs), a⟩, tr⟩ = .done st2) :
    FrameInv dn fs j (.mk dfv.field (convert sfv.value (typeOf dfv.value)))
      (typeOf (Value.struct sn sfvs)) a st2 := by
  obtain ⟨pre, post, hsplit⟩ := List.append_of_mem hmem
  have hl : sfvs.map FieldValue.field
      = pre.map FieldValue.field ++ sfv.field :: post.map FieldValue.field := by
    rw [hsplit]; simp
  have hnd : ((pre.map FieldValue.field).map StructField.name
      ++ sfv.field.name :: (post.map FieldValue.field).map StructField.name).Nodup := by
    have := hsnodup
    rw [hl] at this
    simpa using this
  have hpre : ∀ fd ∈ pre.map FieldValue.field, fd.name ≠ sfv.field.name := by
    intro fd hfd hn
    have hdisj := (List.nodup_append.mp hnd).2.2
    exact hdisj (List.mem_map_of_mem _ hfd) (by rw [hn]; simp)
  have hpost : ∀ fd ∈ post.map FieldValue.field, fd.name ≠ sfv.field.name := by
    intro fd hfd hn
    have h2 := (List.nodup_append.mp hnd).2.1
    rw [List.nodup_cons] at h2
    exact h2.1 (by rw [← hn]; exact List.mem_map_of_mem _ hfd)
  have hset : ∀ fd ∈ sfvs.map FieldValue.field,
      methodByName env (.struct dn fs) true fd.name = none := by
    intro fd hfd
    rw [List.mem_map] at hfd
    obtain ⟨fv, hfv, rfl⟩ := hfd
    exact hsetter fv hfv
  have hdna : dfv.field.anonymous = false :=
    hdplain dfv.field (by rw [← hmap]; exact List.mem_map_of_mem _ (List.getElem?_mem hj))
  -- the fields before the one of that name
  rw [hl, forFields_append] at h
  cases hp : forFields (fieldToField env nested opts) (pre.map FieldValue.field)
      ⟨⟨some (.struct dn cur), true⟩, ⟨some (.struct sn sfvs), a⟩, tr⟩ with
  | panic => rw [hp] at h; simp at h
  | outOfFuel => rw [hp] at h; simp at h
  | failed e s1 => rw [hp] at h; simp at h
  | done st1 =>
    rw [hp] at h
    simp only at h
    have hinv1 := forFields_inv (fieldToField env nested opts)
      (fun st => FrameInv dn fs j dfv (typeOf (Value.struct sn sfvs)) a st
        ∧ st.source = ⟨some (.struct sn sfvs), a⟩)
      (pre.map FieldValue.field)
      (fun fd hfd s hs s2 hstep =>
        ⟨fieldToField_frame env nested opts dn fs j dfv _ a fd s hs.1 hdna
            (by rw [hname]; exact hpre fd hfd)
            (hset fd (by rw [hl]; simp [hfd])) s2 hstep,
          by rw [fieldToField_source env nested opts fd s s2 hstep]; exact hs.2⟩)
      _ ⟨⟨⟨cur, rfl, hmap, hj⟩, rfl, fun s hs => by
          simp only [Option.some.injEq] at hs; rw [← hs]⟩, rfl⟩
      st1 (Or.inl hp)
    obtain ⟨⟨⟨cur1, hd1, hmap1, hj1⟩, _, _⟩, hsrc1⟩ := hinv1
    -- the field of that name
    obtain ⟨i, hi⟩ := List.getElem?_of_mem hmem
    obtain ⟨cur2, hstep, hmap2, _, hA⟩ :=
      fieldToField_plain env nested opts dn cur1 sn sfvs a st1.trace i sfv hsnodup
        (by
          intro fv hfv
          exact hdplain fv.field (by rw [← hmap1]; exact List.mem_map_of_mem _ hfv))
        (by rw [hmap1]; exact hdnodup) hi
        (by rw [hmap1]; exact hsetter sfv hmem)
        (by
          intro j2 cfv hj2 hn2 _
          have hjj : j2 = j :=
            nodup_names_index (cur1.map FieldValue.field) (by rw [hmap1]; exact hdnodup)
              j2 j cfv.field dfv.field (by simp [hj2]) (by simp [hj1]) (by rw [hn2, hname])
          subst hjj
          rw [hj1] at hj2
          simp only [Option.some.injEq] at hj2
          subst hj2
          exact ⟨hk, hc⟩)
    have hst1 : st1 = ⟨⟨some (.struct dn cur1), true⟩, ⟨some (.struct sn sfvs), a⟩,
        st1.trace⟩ := by
      cases st1
      simp only at hd1 hsrc1
      rw [hd1, hsrc1]
    rw [forFields, hst1, hstep] at h
    simp only at h
    -- the fields after it
    exact forFields_inv (fieldToField env nested opts)
      (FrameInv dn fs j (.mk dfv.field (convert sfv.value (typeOf dfv.value)))
        (typeOf (Value.struct sn sfvs)) a)
      (post.map FieldValue.field)
      (fun fd hfd s hs s2 hstep2 =>
        fieldToField_frame env nested opts dn fs j _ _ a fd s hs hdna
          (by
            show fd.name ≠ dfv.field.name
            rw [hname]; exact hpost fd hfd)
          (hset fd (by rw [hl]; simp [hfd])) s2 hstep2)
      _ ⟨⟨cur2, rfl, by rw [hmap2, hmap1], hA j dfv hj1 hname hex⟩, rfl, fun s hs => by
          simp only [Option.some.injEq] at hs; rw [← hs]⟩
      st2 (Or.inl h)

/-- The single-struct `Copy` on structs without embedded members, seen from the
fields: when it returns nil, every settable destination field whose type is not
a pointer and to which the type of the source field of the same name converts
holds the converted value. -/
theorem structCopy_each_field (env : Env) (hp : env.TypePreserving) (root : Value)
    (fromValue : Option Value) (flags : List CopyOption) (dn : String)
    (dfvs : List FieldValue) (sn : String) (sfvs : List FieldValue) (a : Bool)
    (hto : indirect (ValueOf (some root)) = ⟨some (.struct dn dfvs), true⟩)
    (hfrom : indirect (ValueOf fromValue) = ⟨some (.struct sn sfvs), a⟩)
    (hassign : (typeOf (.struct sn sfvs)).AssignableTo (typeOf (.struct dn dfvs)) = false)
    (hsplain : ∀ fv ∈ sfvs, fv.field.anonymous = false)
    (hdplain : ∀ fv ∈ dfvs, fv.field.anonymous = false)
    (hsnodup : ((sfvs.map FieldValue.field).map StructField.name).Nodup)
    (hdnodup : ((dfvs.map FieldValue.field).map StructField.name).Nodup)
    (hsetter : ∀ sfv ∈ sfvs,
      methodByName env (typeOf (.struct dn dfvs)) true sfv.field.name = none)
    (hrule : ∀ sfv ∈ sfvs,
      methodByName env (typeOf (.struct sn sfvs)) a sfv.field.name = none)
    (root2 : Value) (tr : List Event)
    (hres : Copy env (some root) fromValue flags = .returned none (some root2) tr) :
    ∃ dfvs2, indirect (ValueOf (some root2)) = ⟨some (.struct dn dfvs2), true⟩
      ∧ dfvs2.map FieldValue.field = dfvs.map FieldValue.field
      ∧ ∀ sfv ∈ sfvs, ∀ (j : Nat) (dfv : FieldValue), dfvs[j]? = some dfv →
          dfv.field.name = sfv.field.name → exported dfv.field.name = true →
          dfv.value.kind ≠ Kind.ptr →
          (typeOf sfv.value).ConvertibleTo (typeOf dfv.value) = true →
          dfvs2[j]? = some (.mk dfv.field (convert sfv.value (typeOf dfv.value))) := by
  obtain ⟨n, hn⟩ := fuelFor_pos fromValue
  have hfk : (Value.struct sn sfvs).kind ≠ Kind.ptr := by simp [Value.kind, typeOf, Ty.kind]
  have htk : (Value.struct dn dfvs).kind ≠ Kind.ptr := by simp [Value.kind, typeOf, Ty.kind]
  have hsl : ((Value.struct dn dfvs).kind == Kind.slice) = false := by
    simp [Value.kind, typeOf, Ty.kind]
  have hdf : deepFields (indirectType (typeOf (Value.struct sn sfvs)))
      = sfvs.map FieldValue.field := by
    simp only [typeOf, indirectType, deepFields]
    apply deepFieldsLoop_plain
    intro g hg
    rw [List.mem_map] at hg
    obtain ⟨fv, hfv, rfl⟩ := hg
    exact hsplain fv hfv
  have hdp : ∀ g ∈ dfvs.map FieldValue.field, g.anonymous = false := by
    intro g hg
    rw [List.mem_map] at hg
    obtain ⟨fv, hfv, rfl⟩ := hg
    exact hdplain fv hfv
  unfold Copy at hres
  rw [hn, CopyFuel_succ env n root fromValue flags _ _ a hto hfrom hassign rfl rfl] at hres
  simp only [hsl, Bool.false_and, Bool.false_eq_true, if_false] at hres
  have hr1 : List.range 1 = [0] := rfl
  rw [hr1, copyLoop_single env _ _ _ _ a _ _ hfk htk] at hres
  cases hce : copyElem env (fun tv fv => CopyFuel env n (some tv) (some fv) [])
      (createOptions flags) (indirectType (typeOf (Value.struct sn sfvs)))
      (indirectType (typeOf (Value.struct dn dfvs)))
      ⟨⟨some (.struct dn dfvs), true⟩, ⟨some (.struct sn sfvs), a⟩, []⟩ with
  | panic => rw [hce] at hres; simp [Outcome.rewrap] at hres
  | outOfFuel => rw [hce] at hres; simp [Outcome.rewrap] at hres
  | failed e st =>
    rw [hce] at hres
    cases hdv : st.dest.val <;> simp [hdv, Outcome.rewrap] at hres
  | done st =>
    rw [hce] at hres
    obtain ⟨fvs2, hd2, hmap2⟩ := copyElem_dest env hp _ _ _ _ dn
      (dfvs.map FieldValue.field) _ ⟨dfvs, rfl, rfl⟩ st (Or.inl hce)
    simp only [hd2, Outcome.rewrap, Outcome.returned.injEq, Option.some.injEq,
      true_and] at hres
    refine ⟨fvs2, ?_, hmap2, ?_⟩
    · rw [← hres.1]
      exact indirect_storeIndirect root _ _ true hto (by simp [Value.kind, typeOf, Ty.kind])
    · intro sfv hsfv j dfv hj hname hex hk hc
      unfold copyElem at hce
      rw [hdf] at hce
      cases hl1 : forFields
          (fieldToField env (fun tv fv => CopyFuel env n (some tv) (some fv) [])
            (createOptions flags)) (sfvs.map FieldValue.field)
          ⟨⟨some (.struct dn dfvs), true⟩, ⟨some (.struct sn sfvs), a⟩, []⟩ with
      | panic => rw [hl1] at hce; simp at hce
      | outOfFuel => rw [hl1] at hce; simp at hce
      | failed e s1 => rw [hl1] at hce; simp at hce
      | done st1 =>
        rw [hl1] at hce
        simp only at hce
        have hinv1 := forFields_field_value env _ _ dn (dfvs.map FieldValue.field) sn sfvs a
          hsnodup hdp hdnodup hsetter sfv hsfv j dfv hname hex hk hc dfvs rfl hj [] st1 hl1
        have hfr := forFields_inv (methodToField env)
          (FrameInv dn (dfvs.map FieldValue.field) j
            (.mk dfv.field (convert sfv.value (typeOf dfv.value)))
            (typeOf (Value.struct sn sfvs)) a)
          (deepFields (indirectType (typeOf (Value.struct dn dfvs))))
          (fun fd _ s hs s2 hstep =>
            methodToField_frame env hp dn _ j _ _ a fd s hs
              (hdplain dfv (List.getElem?_mem hj))
              (by
                intro m hm
                have hnm : (FieldValue.mk dfv.field
                    (convert sfv.value (typeOf dfv.value))).field.name
                    = sfv.field.name := hname
                rw [hnm, hrule sfv hsfv] at hm
                simp at hm)
              s2 hstep)
          _ hinv1 st (Or.inl hce)
        obtain ⟨⟨fvs3, hd3, _, hj3⟩, _, _⟩ := hfr
        rw [hd2] at hd3
        simp only [RValue.mk.injEq, Option.some.injEq, Value.struct.injEq, true_and,
          and_true] at hd3
        rw [hd3]
        exact hj3

/-- C3, as the code has it. Let `D` and `S` be structs without embedded members,
with pairwise distinct field names and types that are not assignable, such that
the destination has no method named after a source field and the source has no
method named after one of its own fields. Whenever `Copy(&D, S)` returns nil,
the destination is still a `D` and every settable field of `D` whose name is
the name of a field of `S` and whose non-pointer type is convertible from the
type of that source field holds the value of the source field converted to its
type. And `Copy` does return nil when every settable field of `D` that has the
name of a field of `S` is of that kind. -/
theorem Copy_struct_fields (env : Env) (hp : env.TypePreserving) (root : Value)
    (fromValue : Option Value) (flags : List CopyOption) (dn : String)
    (dfvs : List FieldValue) (sn : String) (sfvs : List FieldValue) (a : Bool)
    (hto : indirect (ValueOf (some root)) = ⟨some (.struct dn dfvs), true⟩)
    (hfrom : indirect (ValueOf fromValue) = ⟨some (.struct sn sfvs), a⟩)
    (hassign : (typeOf (.struct sn sfvs)).AssignableTo (typeOf (.struct dn dfvs)) = false)
    (hsplain : ∀ fv ∈ sfvs, fv.field.anonymous = false)
    (hdplain : ∀ fv ∈ dfvs, fv.field.anonymous = false)
    (hsnodup : ((sfvs.map FieldValue.field).map StructField.name).Nodup)
    (hdnodup : ((dfvs.map FieldValue.field).map StructField.name).Nodup)
    (hsetter : ∀ sfv ∈ sfvs,
      methodByName env (typeOf (.struct dn dfvs)) true sfv.field.name = none)
    (hrule : ∀ sfv ∈ sfvs,
      methodByName env (typeOf (.struct sn sfvs)) a sfv.field.name = none) :
    (∀ (root2 : Value) (tr : List Event),
      Copy env (some root) fromValue flags = .returned none (some root2) tr →
      ∃ dfvs2, indirect (ValueOf (some root2)) = ⟨some (.struct dn dfvs2), true⟩
        ∧ dfvs2.map FieldValue.field = dfvs.map FieldValue.field
        ∧ ∀ sfv ∈ sfvs, ∀ (j : Nat) (dfv : FieldValue), dfvs[j]? = some dfv →
            dfv.field.name = sfv.field.name → exported dfv.field.name = true →
            dfv.value.kind ≠ Kind.ptr →
            (typeOf sfv.value).ConvertibleTo (typeOf dfv.value) = true →
            dfvs2[j]? = some (.mk dfv.field (convert sfv.value (typeOf dfv.value))))
    ∧ ((∀ sfv ∈ sfvs, ∀ (j : Nat) (dfv : FieldValue), dfvs[j]? = some dfv →
          dfv.field.name = sfv.field.name → exported dfv.field.name = true →
          dfv.value.kind ≠ Kind.ptr
            ∧ (typeOf sfv.value).ConvertibleTo (typeOf dfv.value) = true) →
        ∃ root2 tr, Copy env (some root) fromValue flags = .returned none (some root2) tr) := by
  refine ⟨fun root2 tr hres =>
    structCopy_each_field env hp root fromValue flags dn dfvs sn sfvs a hto hfrom hassign
      hsplain hdplain hsnodup hdnodup hsetter hrule root2 tr hres, fun hconv => ?_⟩
  obtain ⟨root2, tr, _, h, _⟩ :=
    structCopy_all_fields env hp root fromValue flags dn dfvs sn sfvs a hto hfrom hassign
      hsplain hdplain hsnodup hdnodup hsetter hrule hconv
  exact ⟨root2, tr, h⟩

theorem Copy_struct_fields_witness :
    ((∀ (root2 : Value) (tr : List Event),
        Copy noEnv (some (Value.ptr rowType (some (zero rowType)))) (some userAnn) []
          = .returned none (some root2) tr →
        ∃ dfvs2, indirect (ValueOf (some root2)) = ⟨some (.struct "Row" dfvs2), true⟩
          ∧ dfvs2.map FieldValue.field
            = [fld "ID" .int, fld "Name" .string, fld "Rank" .int8]
          ∧ ∀ sfv ∈ [FieldValue.mk (fld "ID" .int) (.int 7),
                .mk (fld "Name" .string) (.string "ann"),
                .mk (fld "Admin" .bool) (.bool true)],
              ∀ (j : Nat) (dfv : FieldValue),
              [FieldValue.mk (fld "ID" .int) (.int 0), .mk (fld "Name" .string) (.string ""),
                .mk (fld "Rank" .int8) (.int8 0)][j]? = some dfv →
              dfv.field.name = sfv.field.name → exported dfv.field.name = true →
              dfv.value.kind ≠ Kind.ptr →
              (typeOf sfv.value).ConvertibleTo (typeOf dfv.value) = true →
              dfvs2[j]? = some (.mk dfv.field (convert sfv.value (typeOf dfv.value))))
      ∧ ((∀ sfv ∈ [FieldValue.mk (fld "ID" .int) (.int 7),
              .mk (fld "Name" .string) (.string "ann"),
              .mk (fld "Admin" .bool) (.bool true)],
            ∀ (j : Nat) (dfv : FieldValue),
            [FieldValue.mk (fld "ID" .int) (.int 0), .mk (fld "Name" .string) (.string ""),
              .mk (fld "Rank" .int8) (.int8 0)][j]? = some dfv →
            dfv.field.name = sfv.field.name → exported dfv.field.name = true →
            dfv.value.kind ≠ Kind.ptr
              ∧ (typeOf sfv.value).ConvertibleTo (typeOf dfv.value) = true) →
          ∃ root2 tr,
            Copy noEnv (some (Value.ptr rowType (some (zero rowType)))) (some userAnn) []
              = .returned none (some root2) tr))
    ∧ Copy noEnv (some (Value.ptr rowType (some (zero rowType)))) (some userAnn) []
        = .returned none (some (Value.ptr rowType (some rowAnn))) [] :=
  ⟨Copy_struct_fields noEnv noEnv_TypePreserving (Value.ptr rowType (some (zero rowType)))
    (some userAnn) [] "Row"
    [.mk (fld "ID" .int) (.int 0), .mk (fld "Name" .string) (.string ""),
      .mk (fld "Rank" .int8) (.int8 0)]
    "User"
    [.mk (fld "ID" .int) (.int 7), .mk (fld "Name" .string) (.string "ann"),
      .mk (fld "Admin" .bool) (.bool true)]
    false rfl rfl rfl
    (by intro fv hfv; simp at hfv; rcases hfv with rfl | rfl | rfl <;> rfl)
    (by intro fv hfv; simp at hfv; rcases hfv with rfl | rfl | rfl <;> rfl)
    (by decide) (by decide)
    (by intro sfv _; simp [methodByName, noEnv])
    (by intro sfv _; simp [methodByName, noEnv]),
   rfl⟩

/-- C3, counterexample. `Item{B: U{..}, ID: 7}` is copied into a zero
`Holder{B **T; ID int}`. Neither struct has embedded members and the types are
not assignable; `ID` is settable and `int` converts to `int`. The field `B`
comes first: `set` allocates the outer pointer and fails, the nested `Copy`
finds an unaddressable destination, and `Copy` returns that error at once. `ID`
still holds 0, not 7, and the error is not nil. -/
theorem Copy_struct_fields_stops_at_error :
    Copy noEnv (some (.ptr holderType (some (zero holderType)))) (some itemValue) []
      = .returned (some CopyError.unaddressable)
          (some (.ptr holderType (some (.struct "Holder"
            [.mk (fld "B" (.ptr (.ptr innerType)))
                (.ptr (.ptr innerType) (some (.ptr innerType none))),
              .mk (fld "ID" .int) (.int 0)]))))
          [] :=
  rfl

/-! ## C5: the length of a destination collection -/

theorem appendDest_len (dst d : Value) (elemTy : Ty) (un : String)
    (ufs : List StructField)
    (helem : elemTy = .struct un ufs ∨ elemTy = .ptr (.struct un ufs))
    (hdst : typeOf dst = .slice elemTy) (hd : typeOf d = .struct un ufs) :
    typeOf (appendDest dst d) = .slice elemTy
      ∧ (appendDest dst d).Len = dst.Len + 1 := by
  obtain ⟨elems, rfl⟩ := typeOf_slice_inv dst elemTy hdst
  unfold appendDest
  rw [hd]
  simp only [typeOf, Ty.Elem, Ty.AssignableTo]
  rcases helem with rfl | rfl
  · have h1 : Ty.beq (.ptr (.struct un ufs)) (.struct un ufs) = false := by simp [Ty.beq]
    simp only [h1, Bool.false_eq_true, if_false, Ty.beq_refl, if_true]
    cases elems <;> simp [appendValue, typeOf, Value.Len]
  · simp only [Ty.beq_refl, if_true]
    cases elems <;> simp [appendValue, typeOf, Value.Len]

theorem elemStart_slice (src : RValue) (un : String) (ufs : List StructField) (i : Nat)
    (dst : Value) (tr : List Event) (st0 : ElemState)
    (h : elemStart src (.struct un ufs) true i dst tr = some st0) :
    st0.dest = ⟨some (.struct un (zeroFields ufs)), true⟩ ∧ st0.trace = tr := by
  unfold elemStart at h
  simp only [if_true, Option.map_eq_some'] at h
  obtain ⟨s, _, hs⟩ := h
  rw [← hs]
  simp [zero, indirect, indirectValue]

/-- In collection mode with an element type `U` or `*U`, every completed
iteration appends one element. -/
theorem copyLoop_slice_len (env : Env) (hp : env.TypePreserving)
    (nested : Value → Value → Outcome) (opts : Options) (src : RValue) (fromType : Ty)
    (un : String) (ufs : List StructField) (elemTy : Ty)
    (helem : elemTy = .struct un ufs ∨ elemTy = .ptr (.struct un ufs)) :
    ∀ (idxs : List Nat) (dst : Value) (tr : List Event) (e : Option CopyError)
      (dst2 : Value) (tr2 : List Event),
      typeOf dst = .slice elemTy →
      copyLoop env nested opts src fromType (.struct un ufs) true idxs dst tr
        = .returned e (some dst2) tr2 →
      typeOf dst2 = .slice elemTy ∧ (e = none → dst2.Len = dst.Len + idxs.length)
  | [], dst, tr, e, dst2, tr2, hty, h => by
    simp only [copyLoop, Outcome.returned.injEq, Option.some.injEq] at h
    rw [← h.2.1]
    exact ⟨hty, fun _ => rfl⟩
  | i :: rest, dst, tr, e, dst2, tr2, hty, h => by
    rw [copyLoop] at h
    cases hst : elemStart src (.struct un ufs) true i dst tr with
    | none => rw [hst] at h; simp at h
    | some st0 =>
      rw [hst] at h
      simp only at h
      obtain ⟨hd0, _⟩ := elemStart_slice src un ufs i dst tr st0 hst
      have hinv0 : DestInv un ufs st0 := ⟨zeroFields ufs, hd0, zeroFields_map_field ufs⟩
      cases hce : copyElem env nested opts fromType (.struct un ufs) st0 with
      | panic => rw [hce] at h; simp at h
      | outOfFuel => rw [hce] at h; simp at h
      | failed e1 st =>
        rw [hce] at h
        simp only [if_true, Outcome.returned.injEq, Option.some.injEq] at h
        rw [← h.2.1]
        exact ⟨hty, fun he => by rw [he] at h; simp at h⟩
      | done st =>
        rw [hce] at h
        obtain ⟨fvs, hd, hmap⟩ := copyElem_dest env hp nested opts fromType _ un ufs st0
          hinv0 st (Or.inl hce)
        simp only [hd, if_true] at h
        have hdty : typeOf (Value.struct un fvs) = .struct un ufs := by rw [typeOf, hmap]
        obtain ⟨ha1, ha2⟩ := appendDest_len dst _ elemTy un ufs helem hty hdty
        obtain ⟨hr1, hr2⟩ := copyLoop_slice_len env hp nested opts src fromType un ufs elemTy
          helem rest _ st.trace e dst2 tr2 ha1 h
        refine ⟨hr1, fun he => ?_⟩
        rw [hr2 he, ha2, List.length_cons]
        omega

/-- C5, as the code has it. For a source collection of structs of length `N` and
an addressable destination collection whose element type is a struct type `U` or
`*U`, after `Copy` returns nil the destination is a collection whose length is
its prior length plus `N` when the collection types are not assignable (`Copy`
appends; the length is `N` when the destination was empty), and `N` when they
are assignable (the destination becomes the source). -/
theorem Copy_slice_length (env : Env) (hp : env.TypePreserving) (root : Value)
    (fromValue : Option Value) (flags : List CopyOption) (elemTy : Ty) (un : String)
    (ufs : List StructField) (prior : Option (List Value)) (sTy : Ty)
    (selems : Option (List Value)) (a : Bool)
    (hto : indirect (ValueOf (some root)) = ⟨some (.slice elemTy prior), true⟩)
    (hfrom : indirect (ValueOf fromValue) = ⟨some (.slice sTy selems), a⟩)
    (helem : elemTy = .struct un ufs ∨ elemTy = .ptr (.struct un ufs))
    (hsrc : (indirectType sTy).kind = Kind.struct)
    (root2 : Value) (tr : List Event)
    (hres : Copy env (some root) fromValue flags = .returned none (some root2) tr) :
    ∃ t2, indirect (ValueOf (some root2)) = ⟨some t2, true⟩
      ∧ t2.kind = Kind.slice
      ∧ t2.Len = (if (Ty.slice sTy).AssignableTo (.slice elemTy) = true
                  then (Value.slice sTy selems).Len
                  else (Value.slice elemTy prior).Len + (Value.slice sTy selems).Len) := by
  obtain ⟨n, hn⟩ := fuelFor_pos fromValue
  unfold Copy at hres
  rw [hn] at hres
  by_cases hassign : (Ty.slice sTy).AssignableTo (.slice elemTy) = true
  · rw [CopyFuel, copyBody] at hres
    simp only [hto, hfrom, RValue.CanAddr, typeOf, hassign] at hres
    simp only [Bool.not_true, Bool.false_eq_true, if_false, if_true, Outcome.returned.injEq,
      Option.some.injEq, true_and, and_true] at hres
    refine ⟨.slice sTy selems, ?_, rfl, by simp [hassign]⟩
    rw [← hres.1]
    exact indirect_storeIndirect root _ _ true hto (by simp [Value.kind, typeOf, Ty.kind])
  · have hassign2 : (typeOf (Value.slice sTy selems)).AssignableTo
        (typeOf (Value.slice elemTy prior)) = false := by
      simpa [typeOf] using hassign
    have hkt : (indirectType (typeOf (Value.slice elemTy prior))).kind = Kind.struct := by
      rcases helem with rfl | rfl <;> rfl
    have htt : indirectType (typeOf (Value.slice elemTy prior)) = .struct un ufs := by
      rcases helem with rfl | rfl <;> rfl
    rw [CopyFuel_succ env n root fromValue flags _ _ a hto hfrom hassign2 hsrc hkt] at hres
    have hk1 : ((Value.slice elemTy prior).kind == Kind.slice) = true := rfl
    have hk2 : ((Value.slice sTy selems).kind == Kind.slice) = true := rfl
    simp only [hk1, hk2, Bool.and_self, if_true, htt] at hres
    cases hcl : copyLoop env (fun tv fv => CopyFuel env n (some tv) (some fv) [])
        (createOptions flags) ⟨some (.slice sTy selems), a⟩
        (indirectType (typeOf (Value.slice sTy selems))) (.struct un ufs) true
        (List.range (Value.slice sTy selems).Len) (.slice elemTy prior) [] with
    | panic => rw [hcl] at hres; simp [Outcome.rewrap] at hres
    | outOfFuel => rw [hcl] at hres; simp [Outcome.rewrap] at hres
    | returned e tv tr1 =>
      rw [hcl] at hres
      cases tv with
      | none => simp [Outcome.rewrap] at hres
      | some t2 =>
        simp only [Outcome.rewrap, Outcome.returned.injEq, Option.some.injEq] at hres
        obtain ⟨he, hroot, _⟩ := hres
        obtain ⟨hty2, hlen⟩ := copyLoop_slice_len env hp _ _ _ _ un ufs elemTy helem _
          (.slice elemTy prior) _ e t2 tr1 rfl hcl
        have hk : t2.kind = Kind.slice := by rw [Value.kind, hty2]; rfl
        refine ⟨t2, ?_, hk, ?_⟩
        · rw [← hroot]
          exact indirect_storeIndirect root _ _ true hto (by rw [hk]; decide)
        · rw [hlen he, List.length_range]
          simp [hassign]

theorem Copy_slice_length_witness :
    ∃ t2, indirect (ValueOf (some (Value.ptr (.slice rowType)
          (some (.slice rowType (some [rowAnn, rowAnn, rowAnn]))))))
        = ⟨some t2, true⟩
      ∧ t2.kind = Kind.slice
      ∧ t2.Len = 3 :=
  Copy_slice_length noEnv noEnv_TypePreserving
    (Value.ptr (.slice rowType) (some (.slice rowType none))) (some usersThree) []
    rowType "Row" [fld "ID" .int, fld "Name" .string, fld "Rank" .int8] none userType
    (some [userAnn, userAnn, userAnn]) false rfl rfl (Or.inl rfl) rfl
    (Value.ptr (.slice rowType) (some (.slice rowType (some [rowAnn, rowAnn, rowAnn])))) []
    rfl

/-- C5, counterexample. A source collection of 2 records is copied into a
destination collection that already holds 1 row: `Copy` returns nil and the
destination has length 3, not 2. -/
theorem Copy_slice_appends :
    Copy noEnv (some (.ptr (.slice rowType) (some rowsOne))) (some usersTwo) []
      = .returned none
          (some (.ptr (.slice rowType) (some (.slice rowType
            (some [rowOld, rowAnn, rowAnn]))))) []
    ∧ usersTwo.Len = 2
    ∧ (Value.slice rowType (some [rowOld, rowAnn, rowAnn])).Len = 3 :=
  ⟨rfl, rfl, rfl⟩

/-! ## C6: depth of the values reached from the source -/

theorem depthList_mem : ∀ (vs : List Value) (v : Value), v ∈ vs →
    v.depth ≤ Value.depthList vs
  | [], _, h => by simp at h
  | w :: ws, v, h => by
    rw [Value.depthList]
    simp only [List.mem_cons] at h
    rcases h with rfl | h
    · exact le_max_left _ _
    · exact le_trans (depthList_mem ws v h) (le_max_right _ _)

theorem depthFields_mem : ∀ (fvs : List FieldValue) (fv : FieldValue), fv ∈ fvs →
    fv.value.depth ≤ Value.depthFields fvs
  | [], _, h => by simp at h
  | (.mk g w) :: ws, fv, h => by
    rw [Value.depthFields]
    simp only [List.mem_cons] at h
    rcases h with rfl | h
    · exact le_max_left _ _
    · exact le_trans (depthFields_mem ws fv h) (le_max_right _ _)

theorem Field_depth (v : Value) (i : Nat) (x : Value) (h : v.Field i = some x) :
    x.depth < v.depth := by
  cases v with
  | struct n fvs =>
    simp only [Value.Field, List.get?_eq_getElem?, Option.map_eq_some'] at h
    obtain ⟨fv, hfv, rfl⟩ := h
    rw [Value.depth]
    exact Nat.lt_succ_of_le (depthFields_mem fvs fv (List.getElem?_mem hfv))
  | _ => simp [Value.Field] at h

theorem derefEmbedded_depth (v w : Value) (h : derefEmbedded v = some w) :
    w.depth ≤ v.depth := by
  unfold derefEmbedded at h
  split at h
  · simp only [Option.some.injEq] at h
    rw [← h, Value.depth]
  · simp at h
  · simp only [Option.some.injEq] at h
    rw [h]

theorem fieldByIndexRest_depth : ∀ (rest : List Nat) (u x : Value),
    fieldByIndexRest u rest = some x → x.depth ≤ u.depth
  | [], u, x, h => by
    simp only [fieldByIndexRest, Option.some.injEq] at h
    rw [h]
  | i :: rest, u, x, h => by
    rw [fieldByIndexRest] at h
    split at h
    · simp at h
    · rename_i w hw
      split at h
      · simp at h
      · rename_i y hy
        have h1 := fieldByIndexRest_depth rest y x h
        have h2 := Field_depth w i y hy
        have h3 := derefEmbedded_depth u w hw
        omega

theorem FieldByName_depth (r : RValue) (name : String) (index : List Nat)
    (f : StructField) (x s : Value) (h : r.FieldByName name = .valid index f x)
    (hs : r.val = some s) : x.depth < s.depth := by
  obtain ⟨n, fvs, hv, hsf, hfi⟩ := FieldByName_valid r name index f x h
  rw [hs] at hv
  simp only [Option.some.injEq] at hv
  obtain ⟨i, rest, g, hidx, _, _⟩ := structFieldByName_head _ name index f hsf
  rw [hidx, Value.FieldByIndex] at hfi
  split at hfi
  · simp at hfi
  · rename_i u hu
    have h1 := fieldByIndexRest_depth rest u x hfi
    have h2 := Field_depth _ i u hu
    rw [hv]
    omega

theorem indirectValue_depth (n : Nat) : ∀ (v : Value) (a : Bool) (x : Value),
    sizeOf v ≤ n → (indirectValue v a).val = some x → x.depth ≤ v.depth := by
  induction n with
  | zero =>
    intro v a x hn
    cases v <;> simp at hn
  | succ n ih =>
    intro v a x hn h
    cases v with
    | ptr e tgt =>
      cases tgt with
      | none => simp [indirectValue] at h
      | some t =>
        rw [indirectValue] at h
        rw [Value.depth]
        refine ih t true x ?_ h
        simp at hn
        omega
    | _ =>
      simp [indirectValue] at h
      rw [← h]

theorem indirect_depth (r : RValue) (s x : Value) (hs : r.val = some s)
    (h : (indirect r).val = some x) : x.depth ≤ s.depth := by
  unfold indirect at h
  rw [hs] at h
  exact indirectValue_depth (sizeOf s) s r.flagAddr x (le_refl _) h

/-! ## C6: the budget of nested calls does not matter once it is large enough -/

theorem fieldToField_congr (env : Env) (n1 n2 : Value → Value → Outcome)
    (opts : Options) (field : StructField) (st : ElemState) (bound : Nat)
    (hagree : ∀ tv ff, ff.depth < bound → n1 tv ff = n2 tv ff)
    (hsrc : SourceBound bound st) :
    fieldToField env n1 opts field st = fieldToField env n2 opts field st := by
  unfold fieldToField
  cases hl : st.source.FieldByName field.name with
  | panic => rfl
  | invalid => rfl
  | valid index f fromField =>
    have hd : fromField.depth < bound := by
      obtain ⟨n, fvs, hv, _, _⟩ := FieldByName_valid _ _ _ _ _ hl
      have := FieldByName_depth _ _ _ _ _ _ hl hv
      have := hsrc _ hv
      omega
    simp only [fun tv => hagree tv fromField hd]

theorem forFields_congr (step1 step2 : StructField → ElemState → ElemOutcome)
    (P : ElemState → Prop)
    (hkeep : ∀ f st st2, P st → step1 f st = .done st2 → P st2)
    (hagree : ∀ f st, P st → step1 f st = step2 f st) :
    ∀ (l : List StructField) (st : ElemState), P st →
      forFields step1 l st = forFields step2 l st
  | [], _, _ => rfl
  | f :: l, st, hP => by
    rw [forFields, forFields, ← hagree f st hP]
    cases hs : step1 f st with
    | done st1 => exact forFields_congr step1 step2 P hkeep hagree l st1 (hkeep f st st1 hP hs)
    | _ => rfl

theorem copyElem_congr (env : Env) (n1 n2 : Value → Value → Outcome)
    (opts : Options) (fromType toType : Ty) (st : ElemState) (bound : Nat)
    (hagree : ∀ tv ff, ff.depth < bound → n1 tv ff = n2 tv ff)
    (hsrc : SourceBound bound st) :
    copyElem env n1 opts fromType toType st = copyElem env n2 opts fromType toType st := by
  unfold copyElem
  rw [forFields_congr (fieldToField env n1 opts) (fieldToField env n2 opts)
    (SourceBound bound)
    (fun f s s2 hs hstep => by
      intro x hx
      rw [fieldToField_source env n1 opts f s s2 (Or.inl hstep)] at hx
      exact hs x hx)
    (fun f s hs => fieldToField_congr env n1 n2 opts f s bound hagree hs)
    (deepFields fromType) st hsrc]

theorem elemStart_source (src : RValue) (toType : Ty) (isSlice : Bool) (i : Nat)
    (dst : Value) (tr : List Event) (st0 : ElemState) (bound : Nat)
    (hsrc : ∀ f, src.val = some f → f.depth ≤ bound)
    (h : elemStart src toType isSlice i dst tr = some st0) : SourceBound bound st0 := by
  unfold elemStart at h
  simp only [Option.map_eq_some'] at h
  obtain ⟨s, hs, hst⟩ := h
  intro x hx
  rw [← hst] at hx
  simp only at hx
  have hind : ∀ r : RValue, s = indirect r → (∀ f, r.val = some f → f.depth ≤ bound) →
      x.depth ≤ bound := by
    intro r hr hb
    rw [hr] at hx
    cases hrv : r.val with
    | none =>
      simp only [indirect, hrv] at hx
      simp at hx
    | some f => exact le_trans (indirect_depth r f x hrv hx) (hb f hrv)
  split at hs
  · split at hs
    · split at hs
      · rename_i f hf
        simp only [Option.map_eq_some'] at hs
        obtain ⟨r, hr, hrs⟩ := hs
        refine hind r hrs.symm ?_
        intro v hv
        cases f with
        | slice e elems =>
          cases elems with
          | none => simp [Value.Index] at hr
          | some vs =>
            simp only [Value.Index, List.get?_eq_getElem?] at hr
            split at hr
            · rename_i w hw
              simp only [Option.some.injEq] at hr
              rw [← hr] at hv
              simp only [Option.some.injEq] at hv
              rw [← hv]
              have h1 := depthList_mem vs w (List.getElem?_mem hw)
              have h2 := hsrc _ hf
              rw [Value.depth] at h2
              omega
            · simp at hr
        | _ => simp [Value.Index] at hr
      · simp at hs
    · simp only [Option.some.injEq] at hs
      exact hind src hs.symm hsrc
  · simp only [Option.some.injEq] at hs
    exact hind src hs.symm hsrc

theorem copyLoop_congr (env : Env) (n1 n2 : Value → Value → Outcome)
    (opts : Options) (src : RValue) (fromType toType : Ty) (isSlice : Bool) (bound : Nat)
    (hagree : ∀ tv ff, ff.depth < bound → n1 tv ff = n2 tv ff)
    (hsrc : ∀ f, src.val = some f → f.depth ≤ bound) :
    ∀ (idxs : List Nat) (dst : Value) (tr : List Event),
      copyLoop env n1 opts src fromType toType isSlice idxs dst tr
        = copyLoop env n2 opts src fromType toType isSlice idxs dst tr
  | [], _, _ => rfl
  | i :: rest, dst, tr => by
    rw [copyLoop, copyLoop]
    cases hst : elemStart src toType isSlice i dst tr with
    | none => rfl
    | some st0 =>
      simp only
      rw [copyElem_congr env n1 n2 opts fromType toType st0 bound hagree
        (elemStart_source src toType isSlice i dst tr st0 bound hsrc hst)]
      cases copyElem env n2 opts fromType toType st0 with
      | panic => rfl
      | outOfFuel => rfl
      | failed e st => rfl
      | done st =>
        simp only
        cases st.dest.val with
        | none =>
          cases isSlice with
          | true => rfl
          | false =>
            simp only [Bool.false_eq_true, if_false]
            exact copyLoop_congr env n1 n2 opts src fromType toType false bound hagree hsrc
              rest dst st.trace
        | some d =>
          cases isSlice with
          | true =>
            simp only [if_true]
            exact copyLoop_congr env n1 n2 opts src fromType toType true bound hagree hsrc
              rest _ st.trace
          | false =>
            simp only [Bool.false_eq_true, if_false]
            exact copyLoop_congr env n1 n2 opts src fromType toType false bound hagree hsrc
              rest _ st.trace

theorem copyBody_congr (env : Env) (n1 n2 : Value → Value → Outcome)
    (toValue fromValue : Option Value) (flags : List CopyOption) (bound : Nat)
    (hagree : ∀ tv ff, ff.depth < bound → n1 tv ff = n2 tv ff)
    (hsrc : ∀ f, (indirect (ValueOf fromValue)).val = some f → f.depth ≤ bound) :
    copyBody env n1 toValue fromValue flags = copyBody env n2 toValue fromValue flags := by
  unfold copyBody
  simp only [copyLoop_congr env n1 n2 _ (indirect (ValueOf fromValue)) _ _ _ bound hagree hsrc]

/-- Above the depth of the source value the budget does not matter. -/
theorem CopyFuel_fuel (env : Env) : ∀ (k : Nat) (toValue : Option Value) (fv : Value)
    (flags : List CopyOption) (m : Nat), fv.depth ≤ k → k + 1 ≤ m →
    CopyFuel env m toValue (some fv) flags = CopyFuel env (k + 1) toValue (some fv) flags
  | k, toValue, fv, flags, 0, _, hm => by omega
  | 0, toValue, fv, flags, m + 1, hd, _ => by
    rw [CopyFuel, CopyFuel]
    apply copyBody_congr env _ _ toValue (some fv) flags 0
    · intro tv ff hff; omega
    · intro f hf
      exact le_trans (indirect_depth _ fv f rfl hf) hd
  | k + 1, toValue, fv, flags, m + 1, hd, hm => by
    rw [CopyFuel, CopyFuel]
    apply copyBody_congr env _ _ toValue (some fv) flags (k + 1)
    · intro tv ff hff
      exact CopyFuel_fuel env k (some tv) ff [] m (by omega) (by omega)
    · intro f hf
      exact le_trans (indirect_depth _ fv f rfl hf) hd

/-! ## C6: an iteration does not read the trace -/

theorem fieldToField_shift (env : Env) (nested : Value → Value → Outcome)
    (opts : Options) (field : StructField) (d s : RValue) (p tr : List Event) :
    fieldToField env nested opts field ⟨d, s, p ++ tr⟩
      = (fieldToField env nested opts field ⟨d, s, tr⟩).shift p := by
  unfold fieldToField
  simp only
  repeat' split
  all_goals simp_all [ElemOutcome.shift, List.append_assoc]

theorem methodToField_shift (env : Env) (field : StructField) (d s : RValue)
    (p tr : List Event) :
    methodToField env field ⟨d, s, p ++ tr⟩
      = (methodToField env field ⟨d, s, tr⟩).shift p := by
  unfold methodToField
  simp only
  repeat' split
  all_goals simp_all [ElemOutcome.shift, List.append_assoc]

theorem forFields_shift (step : StructField → ElemState → ElemOutcome)
    (hstep : ∀ f d s p tr, step f ⟨d, s, p ++ tr⟩ = (step f ⟨d, s, tr⟩).shift p) :
    ∀ (l : List StructField) (d s : RValue) (p tr : List Event),
      forFields step l ⟨d, s, p ++ tr⟩ = (forFields step l ⟨d, s, tr⟩).shift p
  | [], _, _, _, _ => rfl
  | f :: l, d, s, p, tr => by
    rw [forFields, forFields, hstep f d s p tr]
    cases step f ⟨d, s, tr⟩ with
    | done st1 =>
      simp only [ElemOutcome.shift]
      exact forFields_shift step hstep l st1.dest st1.source p st1.trace
    | _ => rfl

theorem copyElem_shift (env : Env) (nested : Value → Value → Outcome) (opts : Options)
    (fromType toType : Ty) (d s : RValue) (p tr : List Event) :
    copyElem env nested opts fromType toType ⟨d, s, p ++ tr⟩
      = (copyElem env nested opts fromType toType ⟨d, s, tr⟩).shift p := by
  unfold copyElem
  rw [forFields_shift (fieldToField env nested opts)
    (fieldToField_shift env nested opts) (deepFields fromType) d s p tr]
  cases forFields (fieldToField env nested opts) (deepFields fromType) ⟨d, s, tr⟩ with
  | done st1 =>
    simp only [ElemOutcome.shift]
    exact forFields_shift (methodToField env) (methodToField_shift env) (deepFields toType)
      st1.dest st1.source p st1.trace
  | _ => rfl

/-! ## C6: the elements of a destination collection -/

theorem appendDest_elems (dst d : Value) (elemTy : Ty) (un : String)
    (ufs : List StructField)
    (helem : elemTy = .struct un ufs ∨ elemTy = .ptr (.struct un ufs))
    (hdst : typeOf dst = .slice elemTy) (hd : typeOf d = .struct un ufs) :
    ∃ x, (appendDest dst d).elems = dst.elems ++ [x]
      ∧ typeOf (appendDest dst d) = .slice elemTy
      ∧ ((elemTy = .struct un ufs ∧ x = d)
          ∨ (elemTy = .ptr (.struct un ufs) ∧ x = .ptr (.struct un ufs) (some d))) := by
  obtain ⟨elems, rfl⟩ := typeOf_slice_inv dst elemTy hdst
  unfold appendDest
  rw [hd]
  simp only [typeOf, Ty.Elem, Ty.AssignableTo]
  rcases helem with rfl | rfl
  · have h1 : Ty.beq (.ptr (.struct un ufs)) (.struct un ufs) = false := by simp [Ty.beq]
    simp only [h1, Bool.false_eq_true, if_false, Ty.beq_refl, if_true]
    refine ⟨d, ?_, ?_, Or.inl ⟨trivial, rfl⟩⟩ <;>
      cases elems <;> simp [appendValue, typeOf, Value.elems]
  · simp only [Ty.beq_refl, if_true]
    refine ⟨.ptr (.struct un ufs) (some d), ?_, ?_, Or.inr ⟨trivial, rfl⟩⟩ <;>
      cases elems <;> simp [appendValue, typeOf, Value.elems]

theorem elemStart_index (sTy : Ty) (selems : List Value) (a : Bool) (un : String)
    (ufs : List StructField) (k : Nat) (dst : Value) (tr : List Event) :
    elemStart ⟨some (.slice sTy (some selems)), a⟩ (.struct un ufs) true k dst tr
      = (selems[k]?).map (fun v =>
          ⟨⟨some (zero (.struct un ufs)), true⟩, indirect ⟨some v, true⟩, tr⟩) := by
  unfold elemStart
  have hk : ((⟨some (.slice sTy (some selems)), a⟩ : RValue).Kind == Kind.slice) = true := rfl
  simp only [if_true, hk, Value.Index, List.get?_eq_getElem?]
  cases selems[k]? with
  | none => rfl
  | some v => simp [zero, indirect, indirectValue]

/-- In collection mode the iteration for index `i` runs the two inner loops on
a fresh destination and the element `i` of the source, and its result is what
the destination collection holds after its prior contents, at offset `i`. -/
theorem copyLoop_slice_elems (env : Env) (hp : env.TypePreserving)
    (nested : Value → Value → Outcome) (opts : Options) (sTy : Ty)
    (selems : List Value) (a : Bool) (fromType : Ty)
    (un : String) (ufs : List StructField) (elemTy : Ty)
    (helem : elemTy = .struct un ufs ∨ elemTy = .ptr (.struct un ufs)) :
    ∀ (m k : Nat) (dst : Value) (tr : List Event) (dst2 : Value) (tr2 : List Event),
      typeOf dst = .slice elemTy →
      copyLoop env nested opts ⟨some (.slice sTy (some selems)), a⟩ fromType
          (.struct un ufs) true (List.range' k m) dst tr
        = .returned none (some dst2) tr2 →
      dst2.elems.length = dst.elems.length + m
      ∧ (∀ j, j < dst.elems.length → dst2.elems[j]? = dst.elems[j]?)
      ∧ (∀ (i : Nat) (s : Value), k ≤ i → i < k + m → selems[i]? = some s →
          ∃ st d x,
            copyElem env nested opts fromType (.struct un ufs)
                ⟨⟨some (zero (.struct un ufs)), true⟩, indirect ⟨some s, true⟩, []⟩
              = .done st
            ∧ st.dest.val = some d
            ∧ dst2.elems[dst.elems.length + (i - k)]? = some x
            ∧ ((elemTy = .struct un ufs ∧ x = d)
                ∨ (elemTy = .ptr (.struct un ufs)
                    ∧ x = .ptr (.struct un ufs) (some d))))
  | 0, k, dst, tr, dst2, tr2, _, h => by
    simp only [List.range', copyLoop, Outcome.returned.injEq, Option.some.injEq,
      true_and] at h
    rw [← h.1]
    exact ⟨rfl, fun _ _ => rfl, fun i s h1 h2 => by omega⟩
  | m + 1, k, dst, tr, dst2, tr2, hty, h => by
    rw [List.range', copyLoop, elemStart_index] at h
    cases hk : selems[k]? with
    | none => rw [hk] at h; simp at h
    | some v =>
      rw [hk] at h
      simp only [Option.map_some'] at h
      have hinv0 : DestInv un ufs
          ⟨⟨some (zero (.struct un ufs)), true⟩, indirect ⟨some v, true⟩, tr⟩ :=
        ⟨zeroFields ufs, by simp [zero], zeroFields_map_field ufs⟩
      cases hce : copyElem env nested opts fromType (.struct un ufs)
          ⟨⟨some (zero (.struct un ufs)), true⟩, indirect ⟨some v, true⟩, tr⟩ with
      | panic => rw [hce] at h; simp at h
      | outOfFuel => rw [hce] at h; simp at h
      | failed e1 st => rw [hce] at h; simp at h
      | done st =>
        rw [hce] at h
        obtain ⟨fvs, hd, hmap⟩ := copyElem_dest env hp nested opts fromType _ un ufs _
          hinv0 st (Or.inl hce)
        simp only [hd, if_true] at h
        have hdty : typeOf (Value.struct un fvs) = .struct un ufs := by rw [typeOf, hmap]
        obtain ⟨x, hx1, hx2, hx3⟩ := appendDest_elems dst _ elemTy un ufs helem hty hdty
        obtain ⟨hr1, hr2, hr3⟩ := copyLoop_slice_elems env hp nested opts sTy selems a
          fromType un ufs elemTy helem m (k + 1) _ st.trace dst2 tr2 hx2 h
        rw [hx1] at hr1 hr2 hr3
        simp only [List.length_append, List.length_singleton] at hr1 hr2 hr3
        refine ⟨by omega, ?_, ?_⟩
        · intro j hj
          rw [hr2 j (by omega), List.getElem?_append_left hj]
        · intro i s hki him hs
          by_cases hik : i = k
          · subst hik
            rw [hk] at hs
            simp only [Option.some.injEq] at hs
            subst hs
            have hsh := copyElem_shift env nested opts fromType (.struct un ufs)
              ⟨some (zero (.struct un ufs)), true⟩ (indirect ⟨some v, true⟩) tr []
            rw [List.append_nil, hce] at hsh
            cases hc0 : copyElem env nested opts fromType (.struct un ufs)
                ⟨⟨some (zero (.struct un ufs)), true⟩, indirect ⟨some v, true⟩, []⟩ with
            | done st0 =>
              rw [hc0] at hsh
              simp only [ElemOutcome.shift, ElemOutcome.done.injEq] at hsh
              refine ⟨st0, .struct un fvs, x, rfl, ?_, ?_, hx3⟩
              · rw [hsh] at hd
                simp only at hd
                rw [hd]
              · rw [Nat.sub_self, Nat.add_zero, hr2 _ (by omega)]
                simp
            | panic => rw [hc0] at hsh; simp [ElemOutcome.shift] at hsh
            | outOfFuel => rw [hc0] at hsh; simp [ElemOutcome.shift] at hsh
            | failed e st0 => rw [hc0] at hsh; simp [ElemOutcome.shift] at hsh
          · obtain ⟨st0, d0, x0, h1, h2, h3, h4⟩ := hr3 i s (by omega) (by omega) hs
            refine ⟨st0, d0, x0, h1, h2, ?_, h4⟩
            have : dst.elems.length + 1 + (i - (k + 1)) = dst.elems.length + (i - k) := by
              omega
            rw [← this]
            exact h3

theorem Len_eq_elems (v : Value) : v.Len = v.elems.length := by
  cases v with
  | slice e elems => cases elems <;> rfl
  | _ => rfl

/-- C6, as the code has it. Let the source be a collection of structs of type `S`
and the destination a collection with element type `U` or `*U`, `U` a struct type
to which `S` is not assignable. After `Copy` returns nil, for every index `i`
of the source, the single-struct `Copy`, with the same flags, from a pointer to
`s[i]` into a fresh zero `U` returns nil, and the element that the collection
holds after its prior contents at offset `i` is the `U` that call produces (its
address when the element type is `*U`). -/
theorem Copy_slice_elementwise (env : Env) (hp : env.TypePreserving) (root : Value)
    (fromValue : Option Value) (flags : List CopyOption) (elemTy : Ty) (un : String)
    (ufs : List StructField) (prior : Option (List Value)) (sn : String)
    (sfs : List StructField) (selems : List Value) (a : Bool)
    (hto : indirect (ValueOf (some root)) = ⟨some (.slice elemTy prior), true⟩)
    (hfrom : indirect (ValueOf fromValue)
      = ⟨some (.slice (.struct sn sfs) (some selems)), a⟩)
    (helem : elemTy = .struct un ufs ∨ elemTy = .ptr (.struct un ufs))
    (hwt : ∀ v ∈ selems, typeOf v = .struct sn sfs)
    (hna : (Ty.struct sn sfs).AssignableTo (.struct un ufs) = false)
    (root2 : Value) (tr : List Event)
    (hres : Copy env (some root) fromValue flags = .returned none (some root2) tr)
    (i : Nat) (s : Value) (hi : selems[i]? = some s) :
    ∃ d tr1 t2 x,
      Copy env (some (.ptr (.struct un ufs) (some (zero (.struct un ufs)))))
          (some (.ptr (.struct sn sfs) (some s))) flags
        = .returned none (some (.ptr (.struct un ufs) (some d))) tr1
      ∧ indirect (ValueOf (some root2)) = ⟨some t2, true⟩
      ∧ t2.elems[(Value.slice elemTy prior).elems.length + i]? = some x
      ∧ ((elemTy = .struct un ufs ∧ x = d)
          ∨ (elemTy = .ptr (.struct un ufs) ∧ x = .ptr (.struct un ufs) (some d))) := by
  -- the call on the collection
  cases fromValue with
  | none => simp [indirect, ValueOf] at hfrom
  | some fv0 =>
  have hfd : (Value.slice (.struct sn sfs) (some selems)).depth ≤ fv0.depth :=
    indirect_depth (ValueOf (some fv0)) fv0 _ rfl (by rw [hfrom])
  have hsmem : s ∈ selems := List.getElem?_mem hi
  have hsd : s.depth ≤ fv0.depth := by
    have := depthList_mem selems s hsmem
    rw [Value.depth] at hfd
    omega
  have hsty : typeOf s = .struct sn sfs := hwt s hsmem
  have hsk : s.kind ≠ Kind.ptr := by rw [Value.kind, hsty]; simp [Ty.kind]
  unfold Copy at hres
  simp only [fuelFor] at hres
  have hassign2 : (typeOf (Value.slice (.struct sn sfs) (some selems))).AssignableTo
      (typeOf (Value.slice elemTy prior)) = false := by
    simp only [typeOf, Ty.AssignableTo, Ty.beq]
    rcases helem with rfl | rfl
    · exact hna
    · simp [Ty.beq]
  have htt : indirectType (typeOf (Value.slice elemTy prior)) = .struct un ufs := by
    rcases helem with rfl | rfl <;> rfl
  have hkt : (indirectType (typeOf (Value.slice elemTy prior))).kind = Kind.struct := by
    rw [htt]; rfl
  rw [CopyFuel_succ env fv0.depth root (some fv0) flags _ _ a hto hfrom hassign2 rfl hkt]
    at hres
  have hk1 : ((Value.slice elemTy prior).kind == Kind.slice) = true := rfl
  have hk2 : ((Value.slice (.struct sn sfs) (some selems)).kind == Kind.slice) = true := rfl
  have hft : indirectType (typeOf (Value.slice (.struct sn sfs) (some selems)))
      = .struct sn sfs := rfl
  simp only [hk1, hk2, Bool.and_self, if_true, htt, hft, List.range_eq_range'] at hres
  cases hcl : copyLoop env (fun tv fv => CopyFuel env fv0.depth (some tv) (some fv) [])
      (createOptions flags) ⟨some (.slice (.struct sn sfs) (some selems)), a⟩
      (.struct sn sfs) (.struct un ufs) true
      (List.range' 0 (Value.slice (.struct sn sfs) (some selems)).Len)
      (.slice elemTy prior) [] with
  | panic => rw [hcl] at hres; simp [Outcome.rewrap] at hres
  | outOfFuel => rw [hcl] at hres; simp [Outcome.rewrap] at hres
  | returned e tv tr1 =>
    rw [hcl] at hres
    cases tv with
    | none => simp [Outcome.rewrap] at hres
    | some t2 =>
      simp only [Outcome.rewrap, Outcome.returned.injEq, Option.some.injEq] at hres
      obtain ⟨he, hroot, _⟩ := hres
      subst he
      have hilt : i < selems.length := by
        rcases List.getElem?_eq_some_iff.mp hi with ⟨hlt, _⟩
        exact hlt
      obtain ⟨_, _, hel⟩ := copyLoop_slice_elems env hp _ _ _ selems a _ un ufs elemTy helem
        _ 0 (.slice elemTy prior) [] t2 tr1 rfl hcl
      obtain ⟨st, d, x, hce, hdv, hx, hxd⟩ := hel i s (Nat.zero_le _)
        (by simp only [Value.Len]; omega) hi
      have hty2 := (copyLoop_slice_len env hp _ _ _ _ un ufs elemTy helem _
        (.slice elemTy prior) _ none t2 tr1 rfl hcl).1
      have hk : t2.kind ≠ Kind.ptr := by rw [Value.kind, hty2]; simp [Ty.kind]
      rw [indirect_of_not_ptr s true hsk] at hce
      -- the call on the single element
      have hsingle : Copy env (some (.ptr (.struct un ufs) (some (zero (.struct un ufs)))))
          (some (.ptr (.struct sn sfs) (some s))) flags
          = .returned none (some (.ptr (.struct un ufs) (some d))) st.trace := by
        unfold Copy
        have hfuel : fuelFor (some (Value.ptr (.struct sn sfs) (some s))) = s.depth + 1 := rfl
        have hto1 : indirect (ValueOf (some (Value.ptr (.struct un ufs)
            (some (zero (.struct un ufs)))))) = ⟨some (zero (.struct un ufs)), true⟩ := by
          simp [zero, indirect, ValueOf, indirectValue]
        have hfrom1 : indirect (ValueOf (some (Value.ptr (.struct sn sfs) (some s))))
            = ⟨some s, true⟩ := by
          simp only [indirect, ValueOf, indirectValue]
          exact indirectValue_of_not_ptr s true hsk
        have hzk : (zero (.struct un ufs)).kind ≠ Kind.ptr := by
          simp [zero, Value.kind, typeOf, Ty.kind]
        rw [hfuel, CopyFuel_succ env s.depth _ _ flags _ _ true hto1 hfrom1
          (by rw [hsty, typeOf_zero]; exact hna) (by rw [hsty]; rfl)
          (by rw [typeOf_zero]; rfl)]
        have hzs : ((zero (.struct un ufs)).kind == Kind.slice) = false := by
          simp [zero, Value.kind, typeOf, Ty.kind]
        simp only [hzs, Bool.false_and, Bool.false_eq_true, if_false, hsty, typeOf_zero,
          indirectType, zeroFields_map_field]
        have hr1 : List.range 1 = [0] := rfl
        rw [hr1, copyLoop_single env _ _ s _ true _ _ hsk hzk,
          copyElem_congr env _ (fun tv fv => CopyFuel env fv0.depth (some tv) (some fv) [])
            (createOptions flags) (.struct sn sfs) (.struct un ufs) _ s.depth
            (by
              intro tv ff hff
              show CopyFuel env s.depth (some tv) (some ff) []
                = CopyFuel env fv0.depth (some tv) (some ff) []
              rw [CopyFuel_fuel env ff.depth (some tv) ff [] s.depth (le_refl _) (by omega),
                CopyFuel_fuel env ff.depth (some tv) ff [] fv0.depth (le_refl _) (by omega)])
            (by
              intro y hy
              simp only [Option.some.injEq] at hy
              rw [← hy]),
          hce]
        simp only [hdv, Outcome.rewrap, storeIndirect,
          storeIndirect_of_not_ptr (zero (.struct un ufs)) d hzk]
      refine ⟨d, st.trace, t2, x, hsingle, ?_, ?_, hxd⟩
      · rw [← hroot]
        exact indirect_storeIndirect root _ _ true hto hk
      · simpa using hx

theorem Copy_slice_elementwise_witness :
    ∃ d tr1 t2 x,
      Copy noEnv (some (.ptr rowType (some (zero rowType))))
          (some (.ptr userType (some userAnn))) []
        = .returned none (some (.ptr rowType (some d))) tr1
      ∧ indirect (ValueOf (some (Value.ptr (.slice rowType)
            (some (.slice rowType (some [rowAnn, rowAnn, rowAnn]))))))
          = ⟨some t2, true⟩
      ∧ t2.elems[(Value.slice rowType none).elems.length + 1]? = some x
      ∧ ((rowType = rowType ∧ x = d)
          ∨ (rowType = .ptr rowType ∧ x = .ptr rowType (some d))) :=
  Copy_slice_elementwise noEnv noEnv_TypePreserving
    (Value.ptr (.slice rowType) (some (.slice rowType none))) (some usersThree) []
    rowType "Row" [fld "ID" .int, fld "Name" .string, fld "Rank" .int8] none
    "User" [fld "ID" .int, fld "Name" .string, fld "Admin" .bool]
    [userAnn, userAnn, userAnn] false rfl rfl (Or.inl rfl)
    (by intro v hv; simp at hv; rw [hv]; rfl) rfl
    (Value.ptr (.slice rowType) (some (.slice rowType (some [rowAnn, rowAnn, rowAnn])))) []
    rfl 1 userAnn rfl

/-- C6, counterexample. `Account` has a method `Label` declared on `*Account` and
`Card` has a field `Label`. In the collection copy from `[]Account` the element
is addressable, the method is found, and the element produced is
`Card{Owner: "ann", Label: "gold"}`. The single-struct `Copy` from the same
`Account` value passed as it is finds no method on the value and produces
`Card{Owner: "ann", Label: ""}`. -/
theorem Copy_slice_element_differs :
    Copy accountEnv (some (.ptr (.slice cardType) (some (.slice cardType none))))
        (some (.slice accountType (some [accountAnn]))) []
      = .returned none
          (some (.ptr (.slice cardType) (some (.slice cardType (some
            [.struct "Card" [.mk (fld "Owner" .string) (.string "ann"),
              .mk (fld "Label" .string) (.string "gold")]])))))
          [Event.call accountType "Label" []]
    ∧ Copy accountEnv (some (.ptr cardType (some (zero cardType)))) (some accountAnn) []
      = .returned none
          (some (.ptr cardType (some
            (.struct "Card" [.mk (fld "Owner" .string) (.string "ann"),
              .mk (fld "Label" .string) (.string "")]))))
          [] :=
  ⟨rfl, rfl⟩

/-! ## The budget of `Copy` is never exhausted -/

theorem fieldToField_fuel (env : Env) (nested : Value → Value → Outcome)
    (opts : Options) (field : StructField) (st : ElemState) (bound : Nat)
    (hn : ∀ tv ff, ff.depth < bound → nested tv ff ≠ .outOfFuel)
    (hsrc : SourceBound bound st) :
    fieldToField env nested opts field st ≠ .outOfFuel := by
  unfold fieldToField
  split
  · simp
  · simp
  · rename_i index f fromField hl
    have hd : fromField.depth < bound := by
      obtain ⟨n, fvs, hv, _, _⟩ := FieldByName_valid _ _ _ _ _ hl
      have := FieldByName_depth _ _ _ _ _ _ hl hv
      have := hsrc _ hv
      omega
    split
    · simp
    · split
      · simp only
        split
        · simp
        · split
          · simp
          · rename_i hno
            exact absurd hno (hn _ _ hd)
          · split <;> simp
      · simp
    · repeat' split
      all_goals simp

theorem methodToField_fuel (env : Env) (field : StructField) (st : ElemState) :
    methodToField env field st ≠ .outOfFuel := by
  unfold methodToField
  repeat' split
  all_goals simp

theorem forFields_fuel (step : StructField → ElemState → ElemOutcome)
    (P : ElemState → Prop)
    (hkeep : ∀ f st st2, P st → step f st = .done st2 → P st2)
    (hstep : ∀ f st, P st → step f st ≠ .outOfFuel) :
    ∀ (l : List StructField) (st : ElemState), P st → forFields step l st ≠ .outOfFuel
  | [], _, _ => by simp [forFields]
  | f :: l, st, hP => by
    rw [forFields]
    cases hs : step f st with
    | done st1 => exact forFields_fuel step P hkeep hstep l st1 (hkeep f st st1 hP hs)
    | outOfFuel => exact absurd hs (hstep f st hP)
    | panic => simp
    | failed e st1 => simp

theorem copyElem_fuel (env : Env) (nested : Value → Value → Outcome) (opts : Options)
    (fromType toType : Ty) (st : ElemState) (bound : Nat)
    (hn : ∀ tv ff, ff.depth < bound → nested tv ff ≠ .outOfFuel)
    (hsrc : SourceBound bound st) :
    copyElem env nested opts fromType toType st ≠ .outOfFuel := by
  unfold copyElem
  have h1 := forFields_fuel (fieldToField env nested opts) (SourceBound bound)
    (fun f s s2 hs hstep => by
      intro x hx
      rw [fieldToField_source env nested opts f s s2 (Or.inl hstep)] at hx
      exact hs x hx)
    (fun f s hs => fieldToField_fuel env nested opts f s bound hn hs)
    (deepFields fromType) st hsrc
  cases hf : forFields (fieldToField env nested opts) (deepFields fromType) st with
  | done st1 =>
    exact forFields_fuel (methodToField env) (fun _ => True) (fun _ _ _ _ _ => trivial)
      (fun f s _ => methodToField_fuel env f s) (deepFields toType) st1 trivial
  | outOfFuel => exact absurd hf h1
  | panic => simp
  | failed e st1 => simp

theorem copyLoop_fuel (env : Env) (nested : Value → Value → Outcome) (opts : Options)
    (src : RValue) (fromType toType : Ty) (isSlice : Bool) (bound : Nat)
    (hn : ∀ tv ff, ff.depth < bound → nested tv ff ≠ .outOfFuel)
    (hsrc : ∀ f, src.val = some f → f.depth ≤ bound) :
    ∀ (idxs : List Nat) (dst : Value) (tr : List Event),
      copyLoop env nested opts src fromType toType isSlice idxs dst tr ≠ .outOfFuel
  | [], _, _ => by simp [copyLoop]
  | i :: rest, dst, tr => by
    rw [copyLoop]
    cases hst : elemStart src toType isSlice i dst tr with
    | none => simp
    | some st0 =>
      simp only
      have hce := copyElem_fuel env nested opts fromType toType st0 bound hn
        (elemStart_source src toType isSlice i dst tr st0 bound hsrc hst)
      cases hc : copyElem env nested opts fromType toType st0 with
      | panic => simp
      | outOfFuel => exact absurd hc hce
      | failed e st =>
        simp only
        repeat' split
        all_goals simp
      | done st =>
        simp only
        have ih := copyLoop_fuel env nested opts src fromType toType isSlice bound hn hsrc rest
        repeat' split
        all_goals first | exact ih _ _ | simp

theorem rewrap_fuel (root : Value) (o : Outcome) (h : o ≠ .outOfFuel) :
    o.rewrap root ≠ .outOfFuel := by
  cases o with
  | outOfFuel => exact absurd rfl h
  | panic => simp [Outcome.rewrap]
  | returned e tv tr => cases tv <;> simp [Outcome.rewrap]

theorem copyBody_fuel (env : Env) (nested : Value → Value → Outcome)
    (toValue fromValue : Option Value) (flags : List CopyOption) (bound : Nat)
    (hn : ∀ tv ff, ff.depth < bound → nested tv ff ≠ .outOfFuel)
    (hsrc : ∀ f, (indirect (ValueOf fromValue)).val = some f → f.depth ≤ bound) :
    copyBody env nested toValue fromValue flags ≠ .outOfFuel := by
  unfold copyBody
  simp only
  repeat' split
  all_goals first
    | exact rewrap_fuel _ _ (copyLoop_fuel env nested _ _ _ _ _ bound hn hsrc _ _ _)
    | simp

theorem CopyFuel_total (env : Env) : ∀ (k : Nat) (toValue : Option Value) (fv : Value)
    (flags : List CopyOption), fv.depth ≤ k →
    CopyFuel env (k + 1) toValue (some fv) flags ≠ .outOfFuel
  | 0, toValue, fv, flags, hd => by
    rw [CopyFuel]
    apply copyBody_fuel env _ toValue (some fv) flags 0
    · intro tv ff hff; omega
    · intro f hf
      exact le_trans (indirect_depth _ fv f rfl hf) hd
  | k + 1, toValue, fv, flags, hd => by
    rw [CopyFuel]
    apply copyBody_fuel env _ toValue (some fv) flags (k + 1)
    · intro tv ff hff
      exact CopyFuel_total env k (some tv) ff [] (by omega)
    · intro f hf
      exact le_trans (indirect_depth _ fv f rfl hf) hd

/-- The budget that `Copy` gives itself always suffices: `Copy` returns or
panics, it never stops for lack of budget. -/
theorem Copy_total (env : Env) (toValue fromValue : Option Value)
    (flags : List CopyOption) : Copy env toValue fromValue flags ≠ .outOfFuel := by
  unfold Copy
  cases fromValue with
  | none =>
    simp only [fuelFor, CopyFuel]
    apply copyBody_fuel env _ toValue none flags 0
    · intro tv ff hff; omega
    · intro f hf
      simp [indirect, ValueOf] at hf
  | some fv => exact CopyFuel_total env fv.depth toValue fv flags (le_refl _)

/-! ## C15, C16: the silent returns of `Copy` -/

/-- C15. For an addressable destination and a valid source whose types are not
assignable, when the type of either side is not a struct type after stripping
pointer and slice wrapping, `Copy` returns nil, makes no call into user code and
leaves the destination exactly as it was. -/
theorem Copy_not_struct_noop (env : Env) (root : Value) (fromValue : Option Value)
    (flags : List CopyOption) (t f : Value) (a : Bool)
    (hto : indirect (ValueOf (some root)) = ⟨some t, true⟩)
    (hfrom : indirect (ValueOf fromValue) = ⟨some f, a⟩)
    (hassign : (typeOf f).AssignableTo (typeOf t) = false)
    (hk : ¬ ((indirectType (typeOf f)).kind = Kind.struct
            ∧ (indirectType (typeOf t)).kind = Kind.struct)) :
    Copy env (some root) fromValue flags = Outcome.returned none (some root) [] := by
  unfold Copy
  obtain ⟨n, hn⟩ := fuelFor_pos fromValue
  rw [hn]
  exact CopyFuel_not_struct env n root fromValue flags t f a hto hfrom hassign hk

theorem Copy_not_struct_noop_witness :
    Copy noEnv (some (Value.ptr rowType (some rowOld))) (some (Value.int 3)) []
        = Outcome.returned none (some (Value.ptr rowType (some rowOld))) []
      ∧ Copy noEnv (some (Value.ptr (.slice .int) (some (.slice .int none)))) (some userAnn) []
        = Outcome.returned none (some (Value.ptr (.slice .int) (some (.slice .int none)))) [] :=
  ⟨Copy_not_struct_noop noEnv (Value.ptr rowType (some rowOld)) (some (Value.int 3)) []
      rowOld (Value.int 3) false rfl rfl rfl (by decide),
    Copy_not_struct_noop noEnv (Value.ptr (.slice .int) (some (.slice .int none)))
      (some userAnn) [] (.slice .int none) userAnn false rfl rfl rfl (by decide)⟩

/-- C16. For an addressable destination and an invalid source (nil, or a chain of
pointers that ends in nil), `Copy` returns nil, makes no call into user code and
leaves the destination exactly as it was. -/
theorem Copy_invalid_source_noop (env : Env) (toValue fromValue : Option Value)
    (flags : List CopyOption)
    (hto : (indirect (ValueOf toValue)).CanAddr = true)
    (hfrom : (indirect (ValueOf fromValue)).IsValid = false) :
    Copy env toValue fromValue flags = Outcome.returned none toValue [] := by
  unfold Copy
  obtain ⟨n, hn⟩ := fuelFor_pos fromValue
  rw [hn, CopyFuel, copyBody]
  have hv : (indirect (ValueOf fromValue)).val = none := by
    simpa [RValue.IsValid] using hfrom
  simp [hto, hv]

theorem Copy_invalid_source_noop_witness :
    Copy noEnv (some (Value.ptr rowType (some rowOld))) none []
        = Outcome.returned none (some (Value.ptr rowType (some rowOld))) []
      ∧ Copy noEnv (some (Value.ptr rowType (some rowOld)))
          (some (Value.ptr (.ptr userType) (some (.ptr userType none)))) []
        = Outcome.returned none (some (Value.ptr rowType (some rowOld))) [] :=
  ⟨Copy_invalid_source_noop noEnv (some (Value.ptr rowType (some rowOld))) none [] rfl rfl,
    Copy_invalid_source_noop noEnv (some (Value.ptr rowType (some rowOld)))
      (some (Value.ptr (.ptr userType) (some (.ptr userType none)))) [] rfl rfl⟩

/-! ## C17: inputs on which `Copy` does not return -/

/-- C17, as the code has it. `Copy` ends in a run-time panic on inputs of the
supported shapes. A slice of structs copied into a struct destination: `source`
is the slice itself and `FieldByName` is called on it. A slice of pointers with a
nil element copied into a slice destination: `source` is the zero Value and
`FieldByName` is called on it. -/
theorem Copy_panics_on_supported_shapes :
    Copy noEnv (some (Value.ptr rowType (some rowOld))) (some usersTwo) [] = Outcome.panic
      ∧ Copy noEnv (some (Value.ptr (.slice rowType) (some rowsOne))) (some usersNil) []
          = Outcome.panic :=
  ⟨rfl, rfl⟩

/-! ## C19: no rollback -/

/-- C19. `Copy` is not atomic. With destination `Pair{A int; B **T}` (zero, so
`B` is nil) and source `{A: 1, B: U{M: "x"}}`, `Copy` returns the error of the
nested copy of `B`, and the destination the caller sees afterwards has `A`
written and the outer pointer of `B` allocated: it is not the destination of
before the call. -/
theorem Copy_not_atomic :
    Copy noEnv (some (Value.ptr pairType (some (zero pairType)))) (some pairSource) []
        = Outcome.returned (some CopyError.unaddressable)
            (some (Value.ptr pairType (some pairAfter))) []
      ∧ pairAfter.Field 0 = some (Value.int 1)
      ∧ (zero pairType).Field 0 = some (Value.int 0)
      ∧ pairAfter.Field 1 = some (Value.ptr (.ptr innerType) (some (.ptr innerType none)))
      ∧ (zero pairType).Field 1 = some (Value.ptr (.ptr innerType) none)
      ∧ pairAfter ≠ zero pairType := by
  refine ⟨rfl, rfl, rfl, rfl, rfl, ?_⟩
  intro h
  have h0 : pairAfter.Field 0 = (zero pairType).Field 0 := by rw [h]
  have h1 : pairAfter.Field 0 = some (Value.int 1) := rfl
  have h2 : (zero pairType).Field 0 = some (Value.int 0) := rfl
  rw [h1, h2] at h0
  simp at h0

/-! ## C18: what a failed `set` leaves behind -/

theorem allocate_zero (v : Value) : allocate 0 v = v := by
  cases v <;> simp [allocate]

theorem allocate_of_not_ptr (k : Nat) (v : Value) (h : v.kind ≠ Kind.ptr) :
    allocate k v = v := by
  cases k with
  | zero => exact allocate_zero v
  | succ k =>
    cases v with
    | ptr e tgt => simp [Value.kind, typeOf, Ty.kind] at h
    | _ => simp [allocate]

/-- A failing `set` body, given a retry that only allocates when it fails. -/
theorem setBody_fail (env : Env) (src dst : Value) (options : List Options)
    (retry : Value → SetResult)
    (hretry : ∀ inner, (retry inner).ok = false →
      (retry inner).trace = [] ∧ ∃ k, (retry inner).dst = allocate k inner)
    (h : (setBody env src dst options retry).ok = false) :
    (setBody env src dst options retry).trace = []
      ∧ ∃ k, (setBody env src dst options retry).dst = allocate k dst := by
  unfold setBody at h ⊢
  simp only at h ⊢
  split at h
  · simp at h
  · rename_i hc
    simp only [hc, if_false]
    split at h
    · simp at h
    · rename_i hconv
      simp only [hconv, if_false]
      split at h
      · simp at h
      · simp only [Bool.false_eq_true, if_false]
        · split at h
          · rename_i hk
            simp only [hk, if_true] at h ⊢
            obtain ⟨ht, k, hd⟩ := hretry _ h
            refine ⟨ht, ?_⟩
            cases dst with
            | ptr e tgt =>
              cases tgt with
              | none => exact ⟨k + 1, by simp only [hd, allocate]⟩
              | some t => exact ⟨k + 1, by simp only [hd, allocate]⟩
            | _ => exact ⟨k, by simp only [hd]⟩
          · rename_i hk
            simp only [hk, if_false]
            refine ⟨rfl, ?_⟩
            cases dst with
            | ptr e tgt =>
              cases tgt with
              | none => exact ⟨1, by simp [allocate, allocate_zero]⟩
              | some t => exact ⟨1, by simp [allocate, allocate_zero]⟩
            | _ => exact ⟨0, by simp [allocate_zero]⟩

theorem setValid_fail (env : Env) : ∀ (src dst : Value) (options : List Options),
    (setValid env src dst options).ok = false →
    (setValid env src dst options).trace = []
      ∧ ∃ k, (setValid env src dst options).dst = allocate k dst
  | .ptr e (some v), dst, options, h => by
    rw [setValid_eq] at h ⊢
    exact setBody_fail env _ dst options _ (fun inner => setValid_fail env v inner []) h
  | .ptr e none, dst, options, h => by
    rw [setValid_eq] at h ⊢
    exact setBody_fail env _ dst options _ (fun inner hi => by simp at hi) h
  | .bool b, dst, options, h => by
    rw [setValid_eq] at h ⊢
    exact setBody_fail env _ dst options _ (fun inner hi => by simp at hi) h
  | .int i, dst, options, h => by
    rw [setValid_eq] at h ⊢
    exact setBody_fail env _ dst options _ (fun inner hi => by simp at hi) h
  | .int8 i, dst, options, h => by
    rw [setValid_eq] at h ⊢
    exact setBody_fail env _ dst options _ (fun inner hi => by simp at hi) h
  | .string s, dst, options, h => by
    rw [setValid_eq] at h ⊢
    exact setBody_fail env _ dst options _ (fun inner hi => by simp at hi) h
  | .slice e vs, dst, options, h => by
    rw [setValid_eq] at h ⊢
    exact setBody_fail env _ dst options _ (fun inner hi => by simp at hi) h
  | .map k e vs, dst, options, h => by
    rw [setValid_eq] at h ⊢
    exact setBody_fail env _ dst options _ (fun inner hi => by simp at hi) h
  | .struct n fvs, dst, options, h => by
    rw [setValid_eq] at h ⊢
    exact setBody_fail env _ dst options _ (fun inner hi => by simp at hi) h

theorem setBody_fail_allocated (env : Env) (src dst : Value) (options : List Options)
    (retry : Value → SetResult)
    (h : (setBody env src dst options retry).ok = false) (hk : dst.kind = Kind.ptr) :
    (setBody env src dst options retry).dst.IsNil = false := by
  cases dst with
  | ptr e tgt =>
    unfold setBody at h ⊢
    simp only at h ⊢
    split at h
    · simp at h
    · rename_i hc
      simp only [hc, if_false]
      split at h
      · simp at h
      · rename_i hconv
        simp only [hconv, if_false]
        split at h
        · simp at h
        · simp only [Bool.false_eq_true, if_false]
          · split at h
            · rename_i hk2
              simp only [hk2, if_true]
              rfl
            · rename_i hk2
              simp only [hk2, if_false]
              rfl
  | _ => simp [Value.kind, typeOf, Ty.kind] at hk

theorem setValid_fail_allocated (env : Env) (src dst : Value) (options : List Options)
    (h : (setValid env src dst options).ok = false) (hk : dst.kind = Kind.ptr) :
    (setValid env src dst options).dst.IsNil = false := by
  rw [setValid_eq] at h ⊢
  exact setBody_fail_allocated env src dst options _ h hk

/-- C18, as the code has it. When `set` returns false it has made no call into
user code and has assigned no source value; what it has done is allocate: the
destination afterwards is the destination of before with the nil pointers along
its chain of pointers given fresh zero storage. A destination that is not a
pointer holds exactly the value it held before; a destination that is a pointer
is not nil afterwards, also when it was nil before. -/
theorem set_failure_allocates_only (env : Env) (dst : Value) (src : RValue)
    (options : List Options)
    (h : (set env dst src options).ok = false) :
    (set env dst src options).trace = []
      ∧ (∃ k, (set env dst src options).dst = allocate k dst)
      ∧ (dst.kind ≠ Kind.ptr → (set env dst src options).dst = dst)
      ∧ (dst.kind = Kind.ptr → (set env dst src options).dst.IsNil = false) := by
  have key : (set env dst src options).trace = []
      ∧ ∃ k, (set env dst src options).dst = allocate k dst := by
    unfold set at h ⊢
    cases hs : src.val with
    | none => rw [hs] at h; simp at h
    | some v =>
      rw [hs] at h
      exact setValid_fail env v dst options h
  refine ⟨key.1, key.2, fun hk => ?_, fun hk => ?_⟩
  · obtain ⟨k, hd⟩ := key.2
    rw [hd, allocate_of_not_ptr k dst hk]
  · unfold set at h ⊢
    cases hs : src.val with
    | none => rw [hs] at h; simp at h
    | some v =>
      rw [hs] at h
      exact setValid_fail_allocated env v dst options h hk

theorem set_failure_allocates_only_witness :
    (set noEnv (Value.ptr (.ptr innerType) none) ⟨some uRecord, false⟩ []).trace = []
      ∧ (∃ k, (set noEnv (Value.ptr (.ptr innerType) none) ⟨some uRecord, false⟩ []).dst
            = allocate k (Value.ptr (.ptr innerType) none))
      ∧ ((Value.ptr (.ptr innerType) none).kind ≠ Kind.ptr →
          (set noEnv (Value.ptr (.ptr innerType) none) ⟨some uRecord, false⟩ []).dst
            = Value.ptr (.ptr innerType) none)
      ∧ ((Value.ptr (.ptr innerType) none).kind = Kind.ptr →
          (set noEnv (Value.ptr (.ptr innerType) none) ⟨some uRecord, false⟩ []).dst.IsNil
            = false) :=
  set_failure_allocates_only noEnv (Value.ptr (.ptr innerType) none) ⟨some uRecord, false⟩ []
    rfl

/-- C18, counterexample. The destination is a nil `*T` and the source a `U` that
is not convertible to `T`: `set` returns false, and the destination is no longer
nil: it points to a fresh zero `T`. -/
theorem set_allocates_before_failing :
    set noEnv (Value.ptr innerType none) ⟨some uRecord, false⟩ []
        = ⟨false, Value.ptr innerType (some (zero innerType)), []⟩
      ∧ (Value.ptr innerType (some (zero innerType))).IsNil = false
      ∧ (Value.ptr innerType none).IsNil = true :=
  ⟨rfl, rfl, rfl⟩

/-! ## C20: collection mode appends -/

mutual
theorem Ty.eq_of_beq : ∀ a b : Ty, Ty.beq a b = true → a = b
  | .bool, b, h => by cases b <;> simp [Ty.beq] at h ⊢
  | .int, b, h => by cases b <;> simp [Ty.beq] at h ⊢
  | .int8, b, h => by cases b <;> simp [Ty.beq] at h ⊢
  | .string, b, h => by cases b <;> simp [Ty.beq] at h ⊢
  | .ptr e, b, h => by
    cases b with
    | ptr e2 => rw [Ty.beq] at h; rw [Ty.eq_of_beq e e2 h]
    | _ => simp [Ty.beq] at h
  | .slice e, b, h => by
    cases b with
    | slice e2 => rw [Ty.beq] at h; rw [Ty.eq_of_beq e e2 h]
    | _ => simp [Ty.beq] at h
  | .map k e, b, h => by
    cases b with
    | map k2 e2 =>
      rw [Ty.beq, Bool.and_eq_true] at h
      rw [Ty.eq_of_beq k k2 h.1, Ty.eq_of_beq e e2 h.2]
    | _ => simp [Ty.beq] at h
  | .struct n fs, b, h => by
    cases b with
    | struct m gs =>
      rw [Ty.beq, Bool.and_eq_true] at h
      have hn : n = m := by simpa using h.1
      rw [hn, Ty.eq_of_beqFields fs gs h.2]
    | _ => simp [Ty.beq] at h
theorem Ty.eq_of_beqFields : ∀ fs gs : List StructField, Ty.beqFields fs gs = true → fs = gs
  | [], gs, h => by cases gs <;> simp [Ty.beqFields] at h ⊢
  | (.mk n t a) :: fs, gs, h => by
    cases gs with
    | nil => simp [Ty.beqFields] at h
    | cons g gs =>
      cases g with
      | mk m u b =>
        simp only [Ty.beqFields, Bool.and_eq_true, beq_iff_eq] at h
        obtain ⟨⟨⟨h1, h2⟩, h3⟩, h4⟩ := h
        rw [h1, Ty.eq_of_beq t u h2, h3, Ty.eq_of_beqFields fs gs h4]
end

theorem kind_struct_inv (t : Ty) (h : t.kind = Kind.struct) :
    ∃ n fs, t = .struct n fs := by
  cases t with
  | struct n fs => exact ⟨n, fs, rfl⟩
  | _ => simp [Ty.kind] at h

/-- The end of an iteration in collection mode, for any element type: one element
of the element type is appended when that type is `U` or `*U`, nothing
otherwise. -/
theorem appendDest_cases (dst d : Value) (elemTy : Ty) (un : String)
    (ufs : List StructField)
    (hdst : typeOf dst = .slice elemTy) (hd : typeOf d = .struct un ufs) :
    ∃ new, (appendDest dst d).elems = dst.elems ++ new
      ∧ typeOf (appendDest dst d) = .slice elemTy
      ∧ (∀ x ∈ new, typeOf x = elemTy)
      ∧ ((elemTy = .struct un ufs ∨ elemTy = .ptr (.struct un ufs)) → new.length = 1)
      ∧ (elemTy ≠ .struct un ufs → elemTy ≠ .ptr (.struct un ufs) → new = []) := by
  obtain ⟨elems, rfl⟩ := typeOf_slice_inv dst elemTy hdst
  unfold appendDest
  rw [hd]
  have hts : typeOf (Value.slice elemTy elems) = .slice elemTy := rfl
  simp only [hts, Ty.Elem, Ty.AssignableTo]
  by_cases h1 : Ty.beq (.ptr (.struct un ufs)) elemTy = true
  · have he := Ty.eq_of_beq _ _ h1
    simp only [h1, if_true]
    refine ⟨[.ptr (.struct un ufs) (some d)], ?_, ?_, ?_, fun _ => rfl, ?_⟩
    · cases elems <;> simp [appendValue, Value.elems]
    · cases elems <;> simp [appendValue, typeOf]
    · intro x hx
      simp only [List.mem_singleton] at hx
      rw [hx]
      exact he
    · intro _ h; exact absurd he.symm h
  · simp only [h1, if_false]
    by_cases h2 : Ty.beq (.struct un ufs) elemTy = true
    · have he := Ty.eq_of_beq _ _ h2
      simp only [h2, if_true]
      refine ⟨[d], ?_, ?_, ?_, fun _ => rfl, ?_⟩
      · cases elems <;> simp [appendValue, Value.elems]
      · cases elems <;> simp [appendValue, typeOf]
      · intro x hx
        simp only [List.mem_singleton] at hx
        rw [hx, hd]
        exact he
      · intro h _; exact absurd he.symm h
    · simp only [h2, if_false]
      refine ⟨[], by simp, rfl, by simp, ?_, fun _ _ => rfl⟩
      rintro (rfl | rfl)
      · exact absurd (Ty.beq_refl _) h2
      · exact absurd (Ty.beq_refl _) h1

/-- In collection mode the main loop leaves the prior elements where they are and
adds, after them, one element for each index when the element type is `U` or
`*U`, and nothing for any other element type. -/
theorem copyLoop_slice_appended (env : Env) (hp : env.TypePreserving)
    (nested : Value → Value → Outcome) (opts : Options) (src : RValue) (fromType : Ty)
    (un : String) (ufs : List StructField) (elemTy : Ty) :
    ∀ (idxs : List Nat) (dst : Value) (tr : List Event) (dst2 : Value) (tr2 : List Event),
      typeOf dst = .slice elemTy →
      copyLoop env nested opts src fromType (.struct un ufs) true idxs dst tr
        = .returned none (some dst2) tr2 →
      ∃ new, dst2.elems = dst.elems ++ new
        ∧ typeOf dst2 = .slice elemTy
        ∧ (∀ x ∈ new, typeOf x = elemTy)
        ∧ ((elemTy = .struct un ufs ∨ elemTy = .ptr (.struct un ufs)) →
            new.length = idxs.length)
        ∧ (elemTy ≠ .struct un ufs → elemTy ≠ .ptr (.struct un ufs) → new = [])
  | [], dst, tr, dst2, tr2, hty, h => by
    simp only [copyLoop, Outcome.returned.injEq, Option.some.injEq, true_and] at h
    rw [← h.1]
    exact ⟨[], by simp, hty, by simp, fun _ => rfl, fun _ _ => rfl⟩
  | i :: rest, dst, tr, dst2, tr2, hty, h => by
    rw [copyLoop] at h
    cases hst : elemStart src (.struct un ufs) true i dst tr with
    | none => rw [hst] at h; simp at h
    | some st0 =>
      rw [hst] at h
      simp only at h
      obtain ⟨hd0, _⟩ := elemStart_slice src un ufs i dst tr st0 hst
      have hinv0 : DestInv un ufs st0 := ⟨zeroFields ufs, hd0, zeroFields_map_field ufs⟩
      cases hce : copyElem env nested opts fromType (.struct un ufs) st0 with
      | panic => rw [hce] at h; simp at h
      | outOfFuel => rw [hce] at h; simp at h
      | failed e1 st => rw [hce] at h; simp at h
      | done st =>
        rw [hce] at h
        obtain ⟨fvs, hd, hmap⟩ := copyElem_dest env hp nested opts fromType _ un ufs st0
          hinv0 st (Or.inl hce)
        simp only [hd, if_true] at h
        have hdty : typeOf (Value.struct un fvs) = .struct un ufs := by rw [typeOf, hmap]
        obtain ⟨n1, ha1, ha2, ha3, ha4, ha5⟩ := appendDest_cases dst _ elemTy un ufs hty hdty
        obtain ⟨n2, hr1, hr2, hr3, hr4, hr5⟩ := copyLoop_slice_appended env hp nested opts
          src fromType un ufs elemTy rest _ st.trace dst2 tr2 ha2 h
        refine ⟨n1 ++ n2, ?_, hr2, ?_, ?_, ?_⟩
        · rw [hr1, ha1, List.append_assoc]
        · intro x hx
          rcases List.mem_append.1 hx with hx | hx
          · exact ha3 x hx
          · exact hr3 x hx
        · intro he
          rw [List.length_append, ha4 he, hr4 he, List.length_cons]
          omega
        · intro h1 h2
          rw [ha5 h1 h2, hr5 h1 h2]
          rfl

/-- C20. In collection mode `Copy` appends. For an addressable destination slice
with element type `E` and a valid source whose type is not assignable to the
slice type, after `Copy` returns nil the destination is a slice of the same type
whose elements are its prior elements, unchanged and in order, followed by new
elements of type `E`. With `U` the type `E` stripped of pointers and slices: when
`U` and the stripped source type are struct types and `E` is `U` or `*U`, the
number of new elements is the length of the source when it is a slice and one
otherwise; when `E` is neither `U` nor `*U` (as `**U`), nothing is appended. -/
theorem Copy_collection_appends (env : Env) (hp : env.TypePreserving) (root : Value)
    (fromValue : Option Value) (flags : List CopyOption) (elemTy : Ty)
    (prior : Option (List Value)) (f : Value) (a : Bool)
    (hto : indirect (ValueOf (some root)) = ⟨some (.slice elemTy prior), true⟩)
    (hfrom : indirect (ValueOf fromValue) = ⟨some f, a⟩)
    (hassign : (typeOf f).AssignableTo (.slice elemTy) = false)
    (root2 : Value) (tr : List Event)
    (hres : Copy env (some root) fromValue flags = .returned none (some root2) tr) :
    ∃ t2 new, indirect (ValueOf (some root2)) = ⟨some t2, true⟩
      ∧ typeOf t2 = .slice elemTy
      ∧ t2.elems = (Value.slice elemTy prior).elems ++ new
      ∧ (∀ x ∈ new, typeOf x = elemTy)
      ∧ ((indirectType (typeOf f)).kind = Kind.struct →
          (indirectType elemTy).kind = Kind.struct →
          (elemTy = indirectType elemTy ∨ elemTy = .ptr (indirectType elemTy)) →
          new.length = if f.kind = Kind.slice then f.Len else 1)
      ∧ (elemTy ≠ indirectType elemTy → elemTy ≠ .ptr (indirectType elemTy) →
          new = []) := by
  obtain ⟨n, hn⟩ := fuelFor_pos fromValue
  unfold Copy at hres
  rw [hn] at hres
  have hassign2 : (typeOf f).AssignableTo (typeOf (Value.slice elemTy prior)) = false := by
    simpa [typeOf] using hassign
  have hit : indirectType (typeOf (Value.slice elemTy prior)) = indirectType elemTy := rfl
  by_cases hk : (indirectType (typeOf f)).kind = Kind.struct
      ∧ (indirectType (typeOf (Value.slice elemTy prior))).kind = Kind.struct
  · obtain ⟨hkf, hkt⟩ := hk
    obtain ⟨un, ufs, hU⟩ := kind_struct_inv _ hkt
    rw [CopyFuel_succ env n root fromValue flags _ _ a hto hfrom hassign2 hkf hkt] at hres
    have hk1 : ((Value.slice elemTy prior).kind == Kind.slice) = true := rfl
    simp only [hk1, Bool.true_and, hU] at hres
    rw [hit] at hU
    cases hcl : copyLoop env (fun tv fv => CopyFuel env n (some tv) (some fv) [])
        (createOptions flags) ⟨some f, a⟩ (indirectType (typeOf f)) (.struct un ufs) true
        (List.range (if (f.kind == Kind.slice) = true then f.Len else 1))
        (.slice elemTy prior) [] with
    | panic => rw [hcl] at hres; simp [Outcome.rewrap] at hres
    | outOfFuel => rw [hcl] at hres; simp [Outcome.rewrap] at hres
    | returned e tv tr1 =>
      rw [hcl] at hres
      cases tv with
      | none => simp [Outcome.rewrap] at hres
      | some t2 =>
        simp only [Outcome.rewrap, Outcome.returned.injEq, Option.some.injEq] at hres
        obtain ⟨he, hroot, _⟩ := hres
        subst he
        obtain ⟨new, h1, h2, h3, h4, h5⟩ := copyLoop_slice_appended env hp _ _ _ _ un ufs
          elemTy _ (.slice elemTy prior) _ t2 tr1 rfl hcl
        have hk2 : t2.kind = Kind.slice := by rw [Value.kind, h2]; rfl
        refine ⟨t2, new, ?_, h2, h1, h3, ?_, ?_⟩
        · rw [← hroot]
          exact indirect_storeIndirect root _ _ true hto (by rw [hk2]; decide)
        · intro _ _ he
          rw [hU] at he
          rw [h4 he, List.length_range]
          by_cases hs : f.kind = Kind.slice <;> simp [hs]
        · intro e1 e2
          rw [hU] at e1 e2
          exact h5 e1 e2
  · rw [CopyFuel_not_struct env n root fromValue flags _ _ a hto hfrom hassign2 hk] at hres
    simp only [Outcome.returned.injEq, Option.some.injEq, true_and] at hres
    rw [← hres.1]
    refine ⟨.slice elemTy prior, [], hto, rfl, by simp, by simp, ?_, fun _ _ => rfl⟩
    intro h1 h2 _
    exact absurd ⟨h1, by rw [hit]; exact h2⟩ hk

theorem Copy_collection_appends_witness :
    ∃ t2 new,
      indirect (ValueOf (some (Value.ptr (.slice rowType)
          (some (.slice rowType (some [rowOld, rowAnn, rowAnn]))))))
        = ⟨some t2, true⟩
      ∧ typeOf t2 = .slice rowType
      ∧ t2.elems = (Value.slice rowType (some [rowOld])).elems ++ new
      ∧ (∀ x ∈ new, typeOf x = rowType)
      ∧ ((indirectType (typeOf usersTwo)).kind = Kind.struct →
          (indirectType rowType).kind = Kind.struct →
          (rowType = indirectType rowType ∨ rowType = .ptr (indirectType rowType)) →
          new.length = if usersTwo.kind = Kind.slice then usersTwo.Len else 1)
      ∧ (rowType ≠ indirectType rowType → rowType ≠ .ptr (indirectType rowType) →
          new = []) :=
  Copy_collection_appends noEnv noEnv_TypePreserving
    (Value.ptr (.slice rowType) (some rowsOne)) (some usersTwo) [] rowType
    (some [rowOld]) usersTwo false rfl rfl rfl
    (Value.ptr (.slice rowType) (some (.slice rowType (some [rowOld, rowAnn, rowAnn])))) []
    rfl

/-! ## Stores and lookups along index paths -/

theorem Field_some_struct (v : Value) (i : Nat) (u : Value) (h : v.Field i = some u) :
    ∃ n fvs, v = .struct n fvs := by
  cases v with
  | struct n fvs => exact ⟨n, fvs, rfl⟩
  | _ => simp [Value.Field] at h

theorem Field_setField_ne (v : Value) (i j : Nat) (new : Value) (h : i ≠ j) :
    (v.setField i new).Field j = v.Field j := by
  cases v with
  | struct n fvs =>
    obtain ⟨fvs2, h1, _, h3, _⟩ := setField_struct n fvs i new
    rw [h1]
    simp only [Value.Field, List.get?_eq_getElem?, h3 j (Ne.symm h)]
  | _ => rfl

theorem Field_setField_eq (v : Value) (i : Nat) (new u : Value) (h : v.Field i = some u) :
    (v.setField i new).Field i = some new := by
  obtain ⟨n, fvs, rfl⟩ := Field_some_struct v i u h
  obtain ⟨fvs2, h1, _, _, h4⟩ := setField_struct n fvs i new
  simp only [Value.Field, List.get?_eq_getElem?, Option.map_eq_some'] at h
  obtain ⟨fv, hfv, _⟩ := h
  rw [h1]
  simp only [Value.Field, List.get?_eq_getElem?, h4 fv hfv, Option.map_some']
  rfl

theorem setField_is_struct (n : String) (fvs : List FieldValue) (i : Nat) (new : Value) :
    derefEmbedded ((Value.struct n fvs).setField i new)
      = some ((Value.struct n fvs).setField i new) := by
  obtain ⟨fvs2, h1, _⟩ := setField_struct n fvs i new
  rw [h1]
  rfl

/-- The three shapes of a value under `FieldByIndex`: a non-nil pointer to a
struct, a struct, or a value in which no field is found. -/
theorem path_shapes (v : Value) :
    (∃ n fs t, v = .ptr (.struct n fs) (some t))
      ∨ (∃ n fvs, v = .struct n fvs)
      ∨ (∀ (x : Nat) (rest : List Nat) (new : Value),
          storeByIndexRest v (x :: rest) new = v
            ∧ fieldByIndexRest v (x :: rest) = none) := by
  cases v with
  | struct n fvs => exact Or.inr (Or.inl ⟨n, fvs, rfl⟩)
  | ptr e tgt =>
    cases tgt with
    | none =>
      right; right
      intro x rest new
      cases e <;> simp [storeByIndexRest, fieldByIndexRest, derefEmbedded, Value.Field]
    | some t =>
      cases e with
      | struct n fs => exact Or.inl ⟨n, fs, t, rfl⟩
      | _ =>
        right; right
        intro x rest new
        simp [storeByIndexRest, fieldByIndexRest, derefEmbedded, Value.Field]
  | _ =>
    right; right
    intro x rest new
    simp [storeByIndexRest, fieldByIndexRest, derefEmbedded, Value.Field]

theorem storeRest_ptr (n : String) (fs : List StructField) (t : Value) (x : Nat)
    (rest : List Nat) (new : Value) :
    storeByIndexRest (.ptr (.struct n fs) (some t)) (x :: rest) new
      = match t.Field x with
        | some u => .ptr (.struct n fs) (some (t.setField x (storeByIndexRest u rest new)))
        | none => .ptr (.struct n fs) (some t) := by
  cases h : t.Field x <;> simp [storeByIndexRest, h]

theorem storeRest_struct (n : String) (fvs : List FieldValue) (x : Nat)
    (rest : List Nat) (new : Value) :
    storeByIndexRest (.struct n fvs) (x :: rest) new
      = match (Value.struct n fvs).Field x with
        | some u => (Value.struct n fvs).setField x (storeByIndexRest u rest new)
        | none => .struct n fvs := by
  cases h : (Value.struct n fvs).Field x <;> simp [storeByIndexRest, h]

theorem fieldRest_ptr (n : String) (fs : List StructField) (t : Value) (x : Nat)
    (rest : List Nat) :
    fieldByIndexRest (.ptr (.struct n fs) (some t)) (x :: rest)
      = match t.Field x with
        | some u => fieldByIndexRest u rest
        | none => none := by
  simp only [fieldByIndexRest, derefEmbedded]
  cases t.Field x <;> rfl

theorem fieldRest_struct (n : String) (fvs : List FieldValue) (x : Nat)
    (rest : List Nat) :
    fieldByIndexRest (.struct n fvs) (x :: rest)
      = match (Value.struct n fvs).Field x with
        | some u => fieldByIndexRest u rest
        | none => none := by
  simp only [fieldByIndexRest, derefEmbedded]
  cases (Value.struct n fvs).Field x <;> rfl

/-- What is stored at a path is what is found there. -/
theorem fieldRest_storeRest_same : ∀ (p : List Nat) (v old new : Value),
    fieldByIndexRest v p = some old →
    fieldByIndexRest (storeByIndexRest v p new) p = some new
  | [], v, old, new, _ => by simp [storeByIndexRest, fieldByIndexRest]
  | x :: rest, v, old, new, h => by
    rcases path_shapes v with ⟨n, fs, t, rfl⟩ | ⟨n, fvs, rfl⟩ | hnone
    · rw [fieldRest_ptr] at h
      rw [storeRest_ptr]
      cases hf : t.Field x with
      | none => rw [hf] at h; simp at h
      | some u =>
        rw [hf] at h
        simp only at h ⊢
        rw [fieldRest_ptr, Field_setField_eq t x _ u hf]
        exact fieldRest_storeRest_same rest u old new h
    · rw [fieldRest_struct] at h
      rw [storeRest_struct]
      cases hf : (Value.struct n fvs).Field x with
      | none => rw [hf] at h; simp at h
      | some u =>
        rw [hf] at h
        simp only at h ⊢
        obtain ⟨fvs2, h1, _⟩ := setField_struct n fvs x (storeByIndexRest u rest new)
        have h2 := Field_setField_eq (.struct n fvs) x (storeByIndexRest u rest new) u hf
        rw [h1] at h2 ⊢
        rw [fieldRest_struct, h2]
        exact fieldRest_storeRest_same rest u old new h
    · rw [(hnone x rest new).2] at h
      simp at h

/-- A store at a path is not seen at a path that parts ways with it. -/
theorem fieldRest_storeRest_diverge : ∀ (q p : List Nat) (v new : Value),
    diverge q p = true →
    fieldByIndexRest (storeByIndexRest v q new) p = fieldByIndexRest v p
  | [], p, v, new, h => by simp [diverge] at h
  | i :: q, [], v, new, h => by simp [diverge] at h
  | i :: q, j :: p, v, new, h => by
    rcases path_shapes v with ⟨n, fs, t, rfl⟩ | ⟨n, fvs, rfl⟩ | hnone
    · rw [storeRest_ptr]
      cases hf : t.Field i with
      | none => rfl
      | some u =>
        simp only
        rw [fieldRest_ptr, fieldRest_ptr]
        by_cases hij : i = j
        · subst hij
          rw [Field_setField_eq t i _ u hf, hf]
          simp only
          have hd : diverge q p = true := by simpa [diverge] using h
          exact fieldRest_storeRest_diverge q p u new hd
        · rw [Field_setField_ne t i j _ hij]
    · rw [storeRest_struct]
      cases hf : (Value.struct n fvs).Field i with
      | none => rfl
      | some u =>
        simp only
        obtain ⟨fvs2, h1, _⟩ := setField_struct n fvs i (storeByIndexRest u q new)
        by_cases hij : i = j
        · subst hij
          have h2 := Field_setField_eq (.struct n fvs) i (storeByIndexRest u q new) u hf
          rw [h1] at h2 ⊢
          rw [fieldRest_struct, fieldRest_struct, h2, hf]
          simp only
          have hd : diverge q p = true := by simpa [diverge] using h
          exact fieldRest_storeRest_diverge q p u new hd
        · have h2 := Field_setField_ne (.struct n fvs) i j (storeByIndexRest u q new) hij
          rw [h1] at h2 ⊢
          rw [fieldRest_struct, fieldRest_struct, h2]
    · rw [(hnone i q new).1]

theorem FieldByIndex_struct (n : String) (fvs : List FieldValue) (p : List Nat) :
    (Value.struct n fvs).FieldByIndex p = fieldByIndexRest (.struct n fvs) p := by
  cases p with
  | nil => rfl
  | cons x rest =>
    rw [fieldRest_struct]
    simp only [Value.FieldByIndex]
    cases (Value.struct n fvs).Field x <;> rfl

theorem storeByIndex_struct_rest (n : String) (fvs : List FieldValue) (p : List Nat)
    (new : Value) :
    (Value.struct n fvs).storeByIndex p new = storeByIndexRest (.struct n fvs) p new := by
  cases p with
  | nil => rfl
  | cons x rest =>
    rw [storeRest_struct]
    cases h : (Value.struct n fvs).Field x <;> simp [Value.storeByIndex, h]

/-! ## Field lookup by name: what the path leads to -/

theorem embeddedStruct_anonymous (g : StructField) (sub : List StructField)
    (h : embeddedStruct g = some sub) : g.anonymous = true := by
  unfold embeddedStruct at h
  by_cases ha : g.anonymous = true
  · exact ha
  · simp [ha] at h

theorem embeddedStruct_deepFields (g : StructField) (sub : List StructField)
    (h : embeddedStruct g = some sub) : deepFields g.type = deepFieldsLoop sub := by
  unfold embeddedStruct at h
  split at h
  · split at h
    · rename_i n fs ht
      simp only [Option.some.injEq] at h
      rw [ht, deepFields, h]
    · rename_i n fs ht
      simp only [Option.some.injEq] at h
      rw [ht, deepFields, deepFields, h]
    · simp at h
  · simp at h

theorem embeddedAt_append : ∀ (idx : List Nat) (fs sub : List StructField) (i : Nat)
    (g : StructField) (sub2 : List StructField),
    embeddedAt fs idx = some sub → sub[i]? = some g → embeddedStruct g = some sub2 →
    embeddedAt fs (idx ++ [i]) = some sub2
  | [], fs, sub, i, g, sub2, h, hg, he => by
    simp only [embeddedAt, Option.some.injEq] at h
    subst h
    simp [embeddedAt, hg, he]
  | k :: idx, fs, sub, i, g, sub2, h, hg, he => by
    rw [embeddedAt] at h
    rw [List.cons_append, embeddedAt]
    cases hk : fs[k]? with
    | none => rw [hk] at h; simp at h
    | some g0 =>
      rw [hk] at h
      simp only at h ⊢
      cases he0 : embeddedStruct g0 with
      | none => rw [he0] at h; simp at h
      | some sub0 =>
        rw [he0] at h
        simp only at h ⊢
        exact embeddedAt_append idx sub0 sub i g sub2 h hg he

theorem fieldAt_append : ∀ (idx : List Nat) (fs sub : List StructField) (i : Nat),
    embeddedAt fs idx = some sub → fieldAt fs (idx ++ [i]) = sub[i]?
  | [], fs, sub, i, h => by
    simp only [embeddedAt, Option.some.injEq] at h
    subst h
    simp [fieldAt]
  | [k], fs, sub, i, h => by
    rw [embeddedAt] at h
    show fieldAt fs (k :: i :: []) = sub[i]?
    rw [fieldAt]
    cases hk : fs[k]? with
    | none => rw [hk] at h; simp at h
    | some g0 =>
      rw [hk] at h
      simp only at h ⊢
      cases he0 : embeddedStruct g0 with
      | none => rw [he0] at h; simp at h
      | some sub0 =>
        rw [he0] at h
        simp only [embeddedAt, Option.some.injEq] at h
        subst h
        simp [fieldAt]
  | k :: k2 :: idx, fs, sub, i, h => by
    rw [embeddedAt] at h
    show fieldAt fs (k :: k2 :: (idx ++ [i])) = sub[i]?
    rw [fieldAt]
    cases hk : fs[k]? with
    | none => rw [hk] at h; simp at h
    | some g0 =>
      rw [hk] at h
      simp only at h ⊢
      cases he0 : embeddedStruct g0 with
      | none => rw [he0] at h; simp at h
      | some sub0 =>
        rw [he0] at h
        simp only at h ⊢
        exact fieldAt_append (k2 :: idx) sub0 sub i h

theorem scanEmbedded_fields (index : List Nat) :
    ∀ (fs : List StructField) (k : Nat) (s : FieldScan),
      s ∈ scanEmbedded index fs k →
      ∃ i f, s.index = index ++ [k + i] ∧ fs[i]? = some f
        ∧ embeddedStruct f = some s.fields
  | [], _, s, h => by simp [scanEmbedded] at h
  | g :: gs, k, s, h => by
    rw [scanEmbedded, List.mem_append] at h
    rcases h with h | h
    · cases he : embeddedStruct g with
      | none => simp [he] at h
      | some sub =>
        simp only [he, List.mem_singleton] at h
        exact ⟨0, g, by simp [h], by simp, by rw [h]; exact he⟩
    · obtain ⟨i, f, hm, hi, hf⟩ := scanEmbedded_fields index gs (k + 1) s h
      refine ⟨i + 1, f, ?_, by simpa using hi, hf⟩
      rw [hm]
      congr 2
      omega

theorem FieldByNameFunc_at (fs : List StructField) (name : String) :
    ∀ (fuel : Nat) (current : List FieldScan) (r : List Nat × StructField),
      (∀ s ∈ current, embeddedAt fs s.index = some s.fields) →
      FieldByNameFunc name fuel current = some r →
      fieldAt fs r.1 = some r.2 ∧ r.2.name = name
  | 0, _, _, _, h => by simp [FieldByNameFunc] at h
  | fuel + 1, current, r, hcur, h => by
    rw [FieldByNameFunc] at h
    split at h
    · simp at h
    · split at h
      · refine FieldByNameFunc_at fs name fuel _ r ?_ h
        intro s hs
        rw [List.mem_flatMap] at hs
        obtain ⟨c, hc, hs⟩ := hs
        obtain ⟨i, f, hidx, hi, he⟩ := scanEmbedded_fields c.index c.fields 0 s hs
        rw [hidx, Nat.zero_add]
        exact embeddedAt_append _ fs c.fields _ f _ (hcur c hc) hi he
      · rename_i m hm
        simp only [Option.some.injEq] at h
        have hmem : m ∈ current.flatMap (fun s => scanMatches name s.index s.fields 0) := by
          rw [hm]; simp
        rw [List.mem_flatMap] at hmem
        obtain ⟨c, hc, hs⟩ := hmem
        obtain ⟨i, f, hidx, hi, hn⟩ := scanMatches_spec name c.index c.fields 0 m hs
        rw [← h, hidx, Nat.zero_add]
        simp only
        rw [fieldAt_append _ fs c.fields _ (hcur c hc)]
        exact ⟨hi, hn⟩
      · simp at h

/-- What `FieldByName` of a struct type finds: the descriptor at the index path
it returns, which has the name looked up. -/
theorem structFieldByName_at (fs : List StructField) (name : String)
    (index : List Nat) (f : StructField)
    (h : structFieldByName fs name = some (index, f)) :
    fieldAt fs index = some f ∧ f.name = name := by
  unfold structFieldByName at h
  split at h
  · simp at h
  · split at h
    · rename_i m ms hm
      simp only [Option.some.injEq] at h
      have hmem : m ∈ scanMatches name [] fs 0 := by rw [hm]; simp
      obtain ⟨i, g, hidx, hi, hg⟩ := scanMatches_spec name [] fs 0 m hmem
      rw [h] at hidx
      simp only [List.nil_append, zero_add, Prod.mk.injEq] at hidx
      rw [hidx.1, hidx.2]
      exact ⟨by simpa [fieldAt] using hi, hg⟩
    · split at h
      · exact FieldByNameFunc_at fs name _ _ (index, f) (by
          intro s hs
          simp only [List.mem_singleton] at hs
          rw [hs]
          rfl) h
      · simp at h

theorem fieldAt_nil (fs : List StructField) : fieldAt fs [] = none := by
  cases fs <;> rfl

/-- The indices of a path before the last select embedded members. -/
theorem fieldAt_inner : ∀ (q : List Nat) (fs : List StructField) (j : Nat) (r : List Nat)
    (g : StructField), q ≠ [] → fieldAt fs (q ++ j :: r) = some g →
    ∃ h, fieldAt fs q = some h ∧ h.anonymous = true
  | [], _, _, _, _, hq, _ => absurd rfl hq
  | [i], fs, j, r, g, _, h => by
    show ∃ h, fieldAt fs [i] = some h ∧ h.anonymous = true
    have h2 : fieldAt fs (i :: j :: r) = some g := h
    rw [fieldAt] at h2
    cases hk : fs[i]? with
    | none => rw [hk] at h2; simp at h2
    | some g0 =>
      rw [hk] at h2
      simp only at h2
      cases he0 : embeddedStruct g0 with
      | none => rw [he0] at h2; simp at h2
      | some sub0 =>
        refine ⟨g0, ?_, embeddedStruct_anonymous g0 sub0 he0⟩
        simp [fieldAt, hk]
  | i :: i2 :: q, fs, j, r, g, _, h => by
    have h2 : fieldAt fs (i :: i2 :: (q ++ j :: r)) = some g := h
    rw [fieldAt] at h2
    cases hk : fs[i]? with
    | none => rw [hk] at h2; simp at h2
    | some g0 =>
      rw [hk] at h2
      simp only at h2
      cases he0 : embeddedStruct g0 with
      | none => rw [he0] at h2; simp at h2
      | some sub0 =>
        rw [he0] at h2
        simp only at h2
        obtain ⟨h0, hh0, ha0⟩ := fieldAt_inner (i2 :: q) sub0 j r g (by simp) h2
        refine ⟨h0, ?_, ha0⟩
        rw [fieldAt, hk]
        simp only [he0]
        exact hh0

/-- Two index paths part ways, or one goes on from the other. -/
theorem diverge_or_prefix : ∀ (q p : List Nat),
    diverge q p = true ∨ (∃ r, p = q ++ r) ∨ (∃ r, q = p ++ r)
  | [], p => Or.inr (Or.inl ⟨p, rfl⟩)
  | i :: q, [] => Or.inr (Or.inr ⟨i :: q, rfl⟩)
  | i :: q, j :: p => by
    by_cases hij : i = j
    · subst hij
      rcases diverge_or_prefix q p with h | ⟨r, h⟩ | ⟨r, h⟩
      · left; simp [diverge, h]
      · right; left; exact ⟨r, by rw [h]; rfl⟩
      · right; right; exact ⟨r, by rw [h]; rfl⟩
    · left; simp [diverge, hij]

/-- The path of a field that is not an embedded member parts ways with the path
of every field that has not its name nor the name of an embedded member on the
way to it. -/
theorem fieldAt_diverge (fs : List StructField) (p q : List Nat) (f g : StructField)
    (hp : fieldAt fs p = some f) (hna : f.anonymous = false)
    (hq : fieldAt fs q = some g)
    (hnames : ∀ (q0 : List Nat) (h : StructField), q0 <+: p → fieldAt fs q0 = some h →
      h.name ≠ g.name) :
    diverge q p = true := by
  rcases diverge_or_prefix q p with h | ⟨r, h⟩ | ⟨r, h⟩
  · exact h
  · exact absurd rfl (hnames q g ⟨r, h.symm⟩ hq)
  · cases r with
    | nil =>
      rw [List.append_nil] at h
      exact absurd rfl (hnames q g ⟨[], by rw [h, List.append_nil]⟩ hq)
    | cons j r =>
      have hpne : p ≠ [] := by
        intro h0
        rw [h0, fieldAt_nil] at hp
        simp at hp
      rw [h] at hq
      obtain ⟨h0, hh0, ha0⟩ := fieldAt_inner p fs j r g hpne hq
      rw [hp] at hh0
      simp only [Option.some.injEq] at hh0
      rw [hh0, ha0] at hna
      simp at hna

theorem mem_deepFieldsLoop_plain : ∀ (fs : List StructField) (f : StructField),
    f ∈ fs → f.anonymous = false → f ∈ deepFieldsLoop fs
  | [], f, h, _ => by simp at h
  | (.mk n t a) :: fs, f, h, hna => by
    rw [deepFieldsLoop, List.mem_append]
    rw [List.mem_cons] at h
    rcases h with h | h
    · left
      rw [h] at hna
      have ha : a = false := hna
      rw [ha, h]
      simp [ha]
    · right
      exact mem_deepFieldsLoop_plain fs f h hna

theorem deepFieldsLoop_embedded : ∀ (fs : List StructField) (g : StructField),
    g ∈ fs → g.anonymous = true → ∀ f ∈ deepFields g.type, f ∈ deepFieldsLoop fs
  | [], g, h, _, _, _ => by simp at h
  | (.mk n t a) :: fs, g, h, ha, f, hf => by
    rw [deepFieldsLoop, List.mem_append]
    rw [List.mem_cons] at h
    rcases h with h | h
    · left
      rw [h] at ha hf
      have ha2 : a = true := ha
      rw [ha2]
      simpa using hf
    · right
      exact deepFieldsLoop_embedded fs g h ha f hf

/-- A field at an index path that is not an embedded member is among the
flattened fields. -/
theorem fieldAt_mem_deepFields : ∀ (p : List Nat) (fs : List StructField)
    (f : StructField), fieldAt fs p = some f → f.anonymous = false →
    f ∈ deepFieldsLoop fs
  | [], fs, f, h, _ => by rw [fieldAt_nil] at h; simp at h
  | [i], fs, f, h, hna => by
    have h2 : fs[i]? = some f := by simpa [fieldAt] using h
    exact mem_deepFieldsLoop_plain fs f (List.getElem?_mem h2) hna
  | i :: j :: rest, fs, f, h, hna => by
    rw [fieldAt] at h
    cases hk : fs[i]? with
    | none => rw [hk] at h; simp at h
    | some g0 =>
      rw [hk] at h
      simp only at h
      cases he0 : embeddedStruct g0 with
      | none => rw [he0] at h; simp at h
      | some sub0 =>
        rw [he0] at h
        simp only at h
        have := fieldAt_mem_deepFields (j :: rest) sub0 f h hna
        rw [← embeddedStruct_deepFields g0 sub0 he0] at this
        exact deepFieldsLoop_embedded fs g0 (List.getElem?_mem hk)
          (embeddedStruct_anonymous g0 sub0 he0) f this

/-! ## What an iteration leaves alone along an index path -/

theorem PathFrame_store_diverge (dn : String) (fs : List StructField) (p : List Nat)
    (x : Value) (sTy : Ty) (a : Bool) (st : ElemState)
    (hinv : PathFrame dn fs p x sTy a st)
    (name : String) (index : List Nat) (f : StructField)
    (hlook : structFieldByName fs name = some (index, f))
    (hdiv : diverge index p = true) (v : Value) (tr : List Event) (src2 : RValue)
    (ha2 : src2.flagAddr = a) (hs2 : ∀ s, src2.val = some s → typeOf s = sTy) :
    PathFrame dn fs p x sTy a ⟨st.dest.store index v, src2, tr⟩ := by
  obtain ⟨⟨fvs, hd, hmap, hx⟩, _, _⟩ := hinv
  obtain ⟨i, rest, g, hidx, _, _⟩ := structFieldByName_head fs name index f hlook
  obtain ⟨fvs2, h1, h2, _, _⟩ := storeByIndex_struct dn fvs i rest v
  refine ⟨⟨fvs2, ?_, by rw [h2, hmap], ?_⟩, ha2, hs2⟩
  · simp only [RValue.store, hd, Option.map_some', hidx, h1]
  · rw [← h1, ← hidx, storeByIndex_struct_rest, ← hx, FieldByIndex_struct dn fvs p,
      ← fieldRest_storeRest_diverge index p (.struct dn fvs) v hdiv]
    rw [← storeByIndex_struct_rest, hidx, h1]
    exact FieldByIndex_struct dn fvs2 p

/-- The body of the first loop for a name whose destination field, if any, lies
on a path that parts ways with `p`, when no destination method has that name:
what `p` leads to stays. -/
theorem fieldToField_pathframe (env : Env) (nested : Value → Value → Outcome)
    (opts : Options) (dn : String) (fs : List StructField) (p : List Nat) (x : Value)
    (sTy : Ty) (a : Bool) (field : StructField) (st : ElemState)
    (hinv : PathFrame dn fs p x sTy a st)
    (hdiv : ∀ q g, structFieldByName fs field.name = some (q, g) → diverge q p = true)
    (hsetter : methodByName env (.struct dn fs) true field.name = none)
    (st2 : ElemState)
    (h : fieldToField env nested opts field st = .done st2
          ∨ ∃ e, fieldToField env nested opts field st = .failed e st2) :
    PathFrame dn fs p x sTy a st2 := by
  have hinv0 := hinv
  obtain ⟨⟨fvs, hd, hmap, hx⟩, ha, hs⟩ := hinv
  unfold fieldToField at h
  split at h
  · simp at h
  · simp only [ElemOutcome.done.injEq, reduceCtorEq, exists_false, or_false] at h
    rw [← h]; exact hinv0
  · split at h
    · simp at h
    · rename_i index f toField hlook
      obtain ⟨n, fvs1, hv, hsf, _⟩ := FieldByName_valid _ _ _ _ _ hlook
      rw [hd] at hv
      simp only [Option.some.injEq, Value.struct.injEq] at hv
      rw [← hv.2, hmap] at hsf
      have hdv := hdiv index f hsf
      split at h
      · simp only at h
        split at h
        · simp only [ElemOutcome.done.injEq, reduceCtorEq, exists_false, or_false] at h
          rw [← h]
          exact PathFrame_store_diverge dn fs p x sTy a st hinv0 field.name index f hsf hdv
            _ _ st.source ha hs
        · split at h
          · simp at h
          · simp at h
          · split at h
            · simp only [reduceCtorEq, ElemOutcome.failed.injEq, false_or] at h
              obtain ⟨e, _, h⟩ := h
              rw [← h]
              exact PathFrame_store_diverge dn fs p x sTy a st hinv0 field.name index f hsf
                hdv _ _ st.source ha hs
            · simp only [ElemOutcome.done.injEq, reduceCtorEq, exists_false, or_false] at h
              rw [← h]
              exact PathFrame_store_diverge dn fs p x sTy a st hinv0 field.name index f hsf
                hdv _ _ st.source ha hs
      · simp only [ElemOutcome.done.injEq, reduceCtorEq, exists_false, or_false] at h
        rw [← h]; exact hinv0
    · split at h
      · simp at h
      · rename_i d hdv
        rw [hd] at hdv
        simp only [Option.some.injEq] at hdv
        have hty : typeOf d = .struct dn fs := by rw [← hdv, typeOf, hmap]
        have hca : st.dest.CanAddr = true := by rw [hd]; rfl
        rw [hty, hca, hsetter] at h
        simp only [ElemOutcome.done.injEq, reduceCtorEq, exists_false, or_false] at h
        rw [← h]; exact hinv0

/-- The body of the second loop for a name that is not a zero-argument
single-result method of the source, or whose destination field lies on a path
that parts ways with `p`: what `p` leads to stays. -/
theorem methodToField_pathframe (env : Env) (hp : env.TypePreserving)
    (dn : String) (fs : List StructField) (p : List Nat) (x : Value)
    (sTy : Ty) (a : Bool) (field : StructField) (st : ElemState)
    (hinv : PathFrame dn fs p x sTy a st)
    (hdiv : ∀ m, methodByName env sTy a field.name = some m →
      (m.ins.length = 0 ∧ m.numOut = 1) →
      ∀ q g, structFieldByName fs field.name = some (q, g) → diverge q p = true)
    (st2 : ElemState)
    (h : methodToField env field st = .done st2
          ∨ ∃ e, methodToField env field st = .failed e st2) :
    PathFrame dn fs p x sTy a st2 := by
  have hinv0 := hinv
  obtain ⟨⟨fvs, hd, hmap, hx⟩, ha, hs⟩ := hinv
  unfold methodToField at h
  split at h
  · simp at h
  · rename_i s hsv
    have hsty := hs s hsv
    split at h
    · rename_i m hm
      split at h
      · rename_i hsig
        have hca : st.source.CanAddr = a := ha
        rw [hsty, hca] at hm
        have hdv := hdiv m hm (by simpa using hsig)
        have hm2 : ∀ args, typeOf (m.body s args).1 = sTy := fun args =>
          hp sTy m s args (methodByName_mem env _ _ _ m hm) hsty
        split at h
        · simp at h
        · rename_i index f toField hlook
          obtain ⟨n, fvs1, hv, hsf, _⟩ := FieldByName_valid _ _ _ _ _ hlook
          rw [hd] at hv
          simp only [Option.some.injEq, Value.struct.injEq] at hv
          rw [← hv.2, hmap] at hsf
          split at h
          · simp only at h
            split at h
            · simp only [ElemOutcome.done.injEq, reduceCtorEq, exists_false, or_false] at h
              rw [← h]
              refine PathFrame_store_diverge dn fs p x sTy a st hinv0 field.name index f
                hsf (hdv index f hsf) _ _ _ ha ?_
              intro s2 hs2
              simp only [Option.some.injEq] at hs2
              rw [← hs2]; exact hm2 []
            · simp only [ElemOutcome.done.injEq, reduceCtorEq, exists_false, or_false] at h
              rw [← h]
              refine ⟨⟨fvs, hd, hmap, hx⟩, ha, ?_⟩
              intro s2 hs2
              simp only [Option.some.injEq] at hs2
              rw [← hs2]; exact hm2 []
          · simp only [ElemOutcome.done.injEq, reduceCtorEq, exists_false, or_false] at h
            rw [← h]; exact hinv0
        · simp only [ElemOutcome.done.injEq, reduceCtorEq, exists_false, or_false] at h
          rw [← h]; exact hinv0
      · simp only [ElemOutcome.done.injEq, reduceCtorEq, exists_false, or_false] at h
        rw [← h]; exact hinv0
    · simp only [ElemOutcome.done.injEq, reduceCtorEq, exists_false, or_false] at h
      rw [← h]; exact hinv0

/-- The two inner loops leave alone what the path `p` leads to, when every name
they look up in the destination resolves to a path that parts ways with `p` and
no destination method is named after a flattened source field. -/
theorem copyElem_pathframe (env : Env) (hp : env.TypePreserving)
    (nested : Value → Value → Outcome) (opts : Options) (fromType toType : Ty)
    (dn : String) (fs : List StructField) (p : List Nat) (x : Value)
    (sTy : Ty) (a : Bool) (st : ElemState)
    (hinv : PathFrame dn fs p x sTy a st)
    (hdiv1 : ∀ fd ∈ deepFields fromType, ∀ q g,
      structFieldByName fs fd.name = some (q, g) → diverge q p = true)
    (hsetter : ∀ fd ∈ deepFields fromType,
      methodByName env (.struct dn fs) true fd.name = none)
    (hdiv2 : ∀ fd ∈ deepFields toType, ∀ m, methodByName env sTy a fd.name = some m →
      (m.ins.length = 0 ∧ m.numOut = 1) →
      ∀ q g, structFieldByName fs fd.name = some (q, g) → diverge q p = true)
    (st2 : ElemState)
    (h : copyElem env nested opts fromType toType st = .done st2
          ∨ ∃ e, copyElem env nested opts fromType toType st = .failed e st2) :
    PathFrame dn fs p x sTy a st2 := by
  have h1 := forFields_inv (fieldToField env nested opts) (PathFrame dn fs p x sTy a)
    (deepFields fromType)
    (fun fd hfd s hs s2 hstep =>
      fieldToField_pathframe env nested opts dn fs p x sTy a fd s hs (hdiv1 fd hfd)
        (hsetter fd hfd) s2 hstep) st hinv
  have h2 := forFields_inv (methodToField env) (PathFrame dn fs p x sTy a)
    (deepFields toType)
    (fun fd hfd s hs s2 hstep =>
      methodToField_pathframe env hp dn fs p x sTy a fd s hs (hdiv2 fd hfd) s2 hstep)
  unfold copyElem at h
  cases hf : forFields (fieldToField env nested opts) (deepFields fromType) st with
  | panic => rw [hf] at h; simp at h
  | outOfFuel => rw [hf] at h; simp at h
  | failed e st1 =>
    rw [hf] at h
    simp only [reduceCtorEq, ElemOutcome.failed.injEq, false_or] at h
    obtain ⟨e2, _, h⟩ := h
    rw [← h]
    exact h1 st1 (Or.inr ⟨e, hf⟩)
  | done st1 =>
    rw [hf] at h
    exact h2 st1 (h1 st1 (Or.inl hf)) st2 h

/-! ## C4: the frame of a single-struct `Copy` -/

/-- C4, as the code has it. In a single-struct `Copy` (the destination is a struct,
the types are not assignable) whose destination has no method named after a
flattened source field, so that no destination setter is invoked: let `p` be
the index path of a destination field, declared in the struct or reached
through embedded members, that is not itself an embedded member. If neither the
name of that field nor the name of an embedded member on the way to it is the
name of a flattened source field or of a zero-argument single-result method of
the source, then after `Copy` returns (with nil or with an error) the
destination is a struct of the same type and the field holds exactly the value
it held before. -/
theorem Copy_struct_frame (env : Env) (hp : env.TypePreserving) (root : Value)
    (fromValue : Option Value) (flags : List CopyOption) (dn : String)
    (dfvs : List FieldValue) (f : Value) (a : Bool)
    (hto : indirect (ValueOf (some root)) = ⟨some (.struct dn dfvs), true⟩)
    (hfrom : indirect (ValueOf fromValue) = ⟨some f, a⟩)
    (hassign : (typeOf f).AssignableTo (typeOf (.struct dn dfvs)) = false)
    (hsetter : ∀ fd ∈ deepFields (indirectType (typeOf f)),
      methodByName env (typeOf (.struct dn dfvs)) true fd.name = none)
    (p : List Nat) (g : StructField) (x : Value)
    (hfield : fieldAt (dfvs.map FieldValue.field) p = some g)
    (hna : g.anonymous = false)
    (hx : (Value.struct dn dfvs).FieldByIndex p = some x)
    (hnames : ∀ (q : List Nat) (h : StructField), q <+: p →
      fieldAt (dfvs.map FieldValue.field) q = some h →
      (∀ fd ∈ deepFields (indirectType (typeOf f)), fd.name ≠ h.name)
        ∧ (∀ m, methodByName env (typeOf f) a h.name = some m →
            ¬ (m.ins.length = 0 ∧ m.numOut = 1)))
    (err : Option CopyError) (root2 : Value) (tr : List Event)
    (hres : Copy env (some root) fromValue flags = .returned err (some root2) tr) :
    ∃ dfvs2, indirect (ValueOf (some root2)) = ⟨some (.struct dn dfvs2), true⟩
      ∧ dfvs2.map FieldValue.field = dfvs.map FieldValue.field
      ∧ (Value.struct dn dfvs2).FieldByIndex p = some x := by
  obtain ⟨n, hn⟩ := fuelFor_pos fromValue
  unfold Copy at hres
  rw [hn] at hres
  have hfk : f.kind ≠ Kind.ptr := indirect_kind _ f a hfrom
  have htk : (Value.struct dn dfvs).kind ≠ Kind.ptr := by
    simp [Value.kind, typeOf, Ty.kind]
  by_cases hk : (indirectType (typeOf f)).kind = Kind.struct
      ∧ (indirectType (typeOf (Value.struct dn dfvs))).kind = Kind.struct
  · rw [CopyFuel_succ env n root fromValue flags _ f a hto hfrom hassign hk.1 hk.2] at hres
    have hsl : ((Value.struct dn dfvs).kind == Kind.slice) = false := by
      simp [Value.kind, typeOf, Ty.kind]
    simp only [hsl, Bool.false_and, Bool.false_eq_true, if_false] at hres
    have hr1 : List.range 1 = [0] := rfl
    rw [hr1, copyLoop_single env _ _ f _ a _ _ hfk htk] at hres
    have hinv : PathFrame dn (dfvs.map FieldValue.field) p x (typeOf f) a
        ⟨⟨some (.struct dn dfvs), true⟩, ⟨some f, a⟩, []⟩ :=
      ⟨⟨dfvs, rfl, rfl, hx⟩, rfl, fun s hs => by
        simp only [Option.some.injEq] at hs; rw [← hs]⟩
    have hdiv : ∀ (name : String),
        (∀ (q : List Nat) (h : StructField), q <+: p →
          fieldAt (dfvs.map FieldValue.field) q = some h → h.name ≠ name) →
        ∀ q g2, structFieldByName (dfvs.map FieldValue.field) name = some (q, g2) →
          diverge q p = true := by
      intro name hne q g2 hq
      obtain ⟨hq1, hq2⟩ := structFieldByName_at _ _ _ _ hq
      exact fieldAt_diverge _ p q g g2 hfield hna hq1
        (fun q0 h hpre hh => by rw [hq2]; exact hne q0 h hpre hh)
    have hframe := copyElem_pathframe env hp
      (fun tv fv => CopyFuel env n (some tv) (some fv) []) (createOptions flags)
      (indirectType (typeOf f)) (indirectType (typeOf (Value.struct dn dfvs)))
      dn (dfvs.map FieldValue.field) p x (typeOf f) a _ hinv
      (fun fd hfd => hdiv fd.name (fun q0 h hpre hh =>
        ((hnames q0 h hpre hh).1 fd hfd).symm))
      hsetter
      (fun fd _ m hm hsig => hdiv fd.name (fun q0 h hpre hh hname =>
        (hnames q0 h hpre hh).2 m (by rw [hname]; exact hm) hsig))
    have hfin : ∀ st : ElemState,
        PathFrame dn (dfvs.map FieldValue.field) p x (typeOf f) a st →
        ∀ d, st.dest.val = some d → root2 = storeIndirect root d →
        ∃ dfvs2, indirect (ValueOf (some root2)) = ⟨some (.struct dn dfvs2), true⟩
          ∧ dfvs2.map FieldValue.field = dfvs.map FieldValue.field
          ∧ (Value.struct dn dfvs2).FieldByIndex p = some x := by
      intro st hst d hd hroot
      obtain ⟨⟨fvs, hdest, hmap, hxx⟩, _, _⟩ := hst
      rw [hdest] at hd
      simp only [Option.some.injEq] at hd
      refine ⟨fvs, ?_, hmap, hxx⟩
      rw [hroot, ← hd]
      exact indirect_storeIndirect root _ _ true hto (by simp [Value.kind, typeOf, Ty.kind])
    cases hce : copyElem env (fun tv fv => CopyFuel env n (some tv) (some fv) [])
        (createOptions flags) (indirectType (typeOf f))
        (indirectType (typeOf (Value.struct dn dfvs)))
        ⟨⟨some (.struct dn dfvs), true⟩, ⟨some f, a⟩, []⟩ with
    | panic => rw [hce] at hres; simp [Outcome.rewrap] at hres
    | outOfFuel => rw [hce] at hres; simp [Outcome.rewrap] at hres
    | failed e st =>
      rw [hce] at hres
      have hst := hframe st (Or.inr ⟨e, hce⟩)
      obtain ⟨⟨fvs, hdest, _, _⟩, _, _⟩ := id hst
      simp only [hdest, Outcome.rewrap, Outcome.returned.injEq, Option.some.injEq] at hres
      exact hfin st hst _ (by rw [hdest]) hres.2.1.symm
    | done st =>
      rw [hce] at hres
      have hst := hframe st (Or.inl hce)
      obtain ⟨⟨fvs, hdest, _, _⟩, _, _⟩ := id hst
      simp only [hdest, Outcome.rewrap, Outcome.returned.injEq, Option.some.injEq] at hres
      exact hfin st hst _ (by rw [hdest]) hres.2.1.symm
  · rw [CopyFuel_not_struct env n root fromValue flags _ f a hto hfrom hassign hk] at hres
    simp only [Outcome.returned.injEq, Option.some.injEq] at hres
    refine ⟨dfvs, ?_, rfl, hx⟩
    rw [← hres.2.1]
    exact hto

theorem Copy_struct_frame_witness :
    (∃ dfvs2, indirect (ValueOf (some (Value.ptr docType (some docKeepSeven))))
        = ⟨some (.struct "Doc" dfvs2), true⟩
      ∧ dfvs2.map FieldValue.field
        = [StructField.mk "Meta" metaType true, fld "Title" .string]
      ∧ (Value.struct "Doc" dfvs2).FieldByIndex [0, 1] = some (Value.string "keep"))
    ∧ Copy noEnv (some (Value.ptr docType (some docKeep))) (some keyValue) []
        = .returned none (some (Value.ptr docType (some docKeepSeven))) [] :=
  ⟨Copy_struct_frame noEnv noEnv_TypePreserving (Value.ptr docType (some docKeep))
      (some keyValue) [] "Doc"
      [.mk (StructField.mk "Meta" metaType true)
          (.struct "Meta"
            [.mk (StructField.mk "Audit" auditType true)
                (.struct "Audit" [.mk (fld "ID" .int) (.int 0)]),
              .mk (fld "Tag" .string) (.string "keep")]),
        .mk (fld "Title" .string) (.string "old")]
      keyValue false rfl rfl rfl
      (by intro fd _; simp [methodByName, noEnv])
      [0, 1] (fld "Tag" .string) (Value.string "keep") rfl rfl rfl
      (by
        intro q h hpre hq
        refine ⟨?_, by intro m hm; simp [methodByName, noEnv] at hm⟩
        intro fd hfd
        rw [show deepFields (indirectType (typeOf keyValue)) = [fld "ID" .int8] from rfl] at hfd
        simp only [List.mem_singleton] at hfd
        rw [hfd]
        obtain ⟨t, ht⟩ := hpre
        cases q with
        | nil => rw [fieldAt_nil] at hq; simp at hq
        | cons i q =>
          simp only [List.cons_append, List.cons.injEq] at ht
          obtain ⟨hi, ht⟩ := ht
          subst hi
          cases q with
          | nil =>
            have : h = StructField.mk "Meta" metaType true := by
              simpa [fieldAt] using hq.symm
            rw [this]
            decide
          | cons j q =>
            simp only [List.cons_append, List.cons.injEq, List.append_eq_nil] at ht
            obtain ⟨hj, hq0, _⟩ := ht
            subst hj hq0
            have : h = fld "Tag" .string := by
              have h2 : (some (fld "Tag" .string) : Option StructField) = some h := hq
              simpa using h2.symm
            rw [this]
            decide)
      none (Value.ptr docType (some docKeepSeven)) [] rfl,
    rfl⟩

/-- C4, counterexample. Four destination fields whose names are neither fields
nor methods of the source, and which `Copy` changes. First, `Employee{Role}` is
copied into a `Staff` that has the method `Role(string)` and no field `Role`: the
method writes the field `SuperRole`. Second, `Key{ID: 7}` is copied into a `Doc`
that embeds `Meta`, which embeds `Audit{ID}`: the field `Meta` of `Doc` changes
because the promoted `ID` is written inside it. Third, `Crate{Slot: Slot{X: nil}}`
is copied into `Shelf{Slot{X: &5}}`, which embeds `Slot`: the member is assigned
as a whole and its field `X` becomes nil. Fourth, `Key{ID: 7}`, with the method
`func (k Key) Meta() Meta`, is copied into `Wrap{Meta{Audit{ID: 0}, Tag: "keep"},
Sub{Meta: "s"}}` of `type Wrap struct { Meta; Sub }`: the flattened destination
name `Meta`, which comes from `Sub`, resolves to the embedded member `Meta`,
the second loop assigns the result of the method to it, and its field `Tag`
becomes empty. -/
theorem Copy_changes_other_fields :
    (Copy staffEnv (some (.ptr staffType (some (zero staffType)))) (some employeeAdmin) []
        = .returned none
            (some (.ptr staffType (some (.struct "Staff"
              [.mk (fld "SuperRole" .string) (.string "Super admin")]))))
            [Event.call staffType "Role" [.string "admin"]]
      ∧ (deepFields employeeType).map StructField.name = ["Role"]
      ∧ staffEnv.methods employeeType = []
      ∧ zero staffType = .struct "Staff" [.mk (fld "SuperRole" .string) (.string "")])
    ∧ (Copy noEnv (some (Value.ptr docType (some docKeep))) (some keyValue) []
          = .returned none (some (Value.ptr docType (some docKeepSeven))) []
        ∧ (deepFields (typeOf keyValue)).map StructField.name = ["ID"]
        ∧ docKeep.Field 0 = some (.struct "Meta"
            [.mk (StructField.mk "Audit" auditType true)
                (.struct "Audit" [.mk (fld "ID" .int) (.int 0)]),
              .mk (fld "Tag" .string) (.string "keep")])
        ∧ docKeepSeven.Field 0 = some (.struct "Meta"
            [.mk (StructField.mk "Audit" auditType true)
                (.struct "Audit" [.mk (fld "ID" .int) (.int 7)]),
              .mk (fld "Tag" .string) (.string "keep")]))
    ∧ (Copy noEnv (some (Value.ptr (typeOf shelfFive) (some shelfFive))) (some crateNil) []
          = .returned none (some (Value.ptr (typeOf shelfFive) (some shelfNil))) []
        ∧ (deepFields (typeOf crateNil)).map StructField.name = ["Slot"]
        ∧ shelfFive.FieldByIndex [0, 0] = some (Value.ptr .int (some (.int 5)))
        ∧ shelfNil.FieldByIndex [0, 0] = some (Value.ptr .int none))
    ∧ (Copy keyMetaEnv (some (Value.ptr wrapType (some wrapValue))) (some keyValue) []
          = .returned none (some (Value.ptr wrapType (some wrapReset)))
              [Event.call (typeOf keyValue) "Meta" []]
        ∧ (deepFields (typeOf keyValue)).map StructField.name = ["ID"]
        ∧ (keyMetaEnv.methods (typeOf keyValue)).map Method.name = ["Meta"]
        ∧ (deepFields wrapType).map StructField.name = ["ID", "Tag", "Meta"]
        ∧ wrapValue.FieldByIndex [0, 1] = some (Value.string "keep")
        ∧ wrapReset.FieldByIndex [0, 1] = some (Value.string "")) :=
  ⟨⟨rfl, rfl, rfl, rfl⟩, ⟨rfl, rfl, rfl, rfl⟩, ⟨rfl, rfl, rfl, rfl⟩,
    ⟨rfl, rfl, rfl, rfl, rfl, rfl⟩⟩

/-! ## C14: where an error comes from -/

/-- The recursion of `Copy`, without the budget: `Copy` is its body with itself as
the nested call. -/
theorem Copy_unfold (env : Env) (toValue fromValue : Option Value)
    (flags : List CopyOption) :
    Copy env toValue fromValue flags
      = copyBody env (fun tv fv => Copy env (some tv) (some fv) []) toValue fromValue
          flags := by
  unfold Copy
  cases fromValue with
  | none =>
    simp only [fuelFor]
    rw [CopyFuel]
    apply copyBody_congr env _ _ toValue none flags 0
    · intro tv ff hff; omega
    · intro f hf
      simp [indirect, ValueOf] at hf
  | some fv =>
    simp only [fuelFor]
    rw [CopyFuel]
    apply copyBody_congr env _ _ toValue (some fv) flags fv.depth
    · intro tv ff hff
      exact CopyFuel_fuel env ff.depth (some tv) ff [] fv.depth (le_refl _) (by omega)
    · intro f hf
      exact indirect_depth _ fv f rfl hf

theorem CopyError.eq_all (e1 e2 : CopyError) : e1 = e2 := by
  cases e1; cases e2; rfl

/-- A failure of the body of the first loop is the failure of the nested copy
it made, after `set` returned false on the two fields found by name. -/
theorem fieldToField_failed (env : Env) (nested : Value → Value → Outcome)
    (opts : Options) (field : StructField) (st : ElemState) (e : CopyError)
    (st2 : ElemState)
    (h : fieldToField env nested opts field st = .failed e st2) :
    ∃ (i1 : List Nat) (f1 : StructField) (fromField : Value)
      (i2 : List Nat) (f2 : StructField) (toField : Value),
      st.source.FieldByName field.name = .valid i1 f1 fromField
      ∧ st.dest.FieldByName field.name = .valid i2 f2 toField
      ∧ (st.dest.CanAddr && exported f2.name) = true
      ∧ (set env toField ⟨some fromField, false⟩ [opts]).ok = false
      ∧ ∃ tv tr,
          nested (.ptr (typeOf (set env toField ⟨some fromField, false⟩ [opts]).dst)
              (some (set env toField ⟨some fromField, false⟩ [opts]).dst)) fromField
            = .returned (some e) tv tr := by
  unfold fieldToField at h
  cases hs : st.source.FieldByName field.name with
  | panic => rw [hs] at h; simp at h
  | invalid => rw [hs] at h; simp at h
  | valid i1 f1 fromField =>
    rw [hs] at h
    simp only at h
    cases hd : st.dest.FieldByName field.name with
    | panic => rw [hd] at h; simp at h
    | invalid =>
      rw [hd] at h
      simp only at h
      split at h
      · simp at h
      · split at h
        · split at h
          · split at h <;> simp at h
          · simp at h
        · simp at h
    | valid i2 f2 toField =>
      rw [hd] at h
      simp only at h
      by_cases hc : (st.dest.CanAddr && exported f2.name) = true
      · rw [if_pos hc] at h
        by_cases hok : (set env toField ⟨some fromField, false⟩ [opts]).ok = true
        · rw [if_pos hok] at h; simp at h
        · rw [if_neg hok] at h
          have hok2 : (set env toField ⟨some fromField, false⟩ [opts]).ok = false := by
            simpa using hok
          cases hn : nested (.ptr (typeOf (set env toField ⟨some fromField, false⟩ [opts]).dst)
              (some (set env toField ⟨some fromField, false⟩ [opts]).dst)) fromField with
          | panic => rw [hn] at h; simp at h
          | outOfFuel => rw [hn] at h; simp at h
          | returned err tv tr =>
            rw [hn] at h
            cases err with
            | none => simp at h
            | some e1 =>
              rw [CopyError.eq_all e1 e] at hn
              exact ⟨i1, f1, fromField, i2, f2, toField, rfl, rfl, hc, hok2, tv, tr, hn⟩
      · rw [if_neg hc] at h; simp at h

theorem methodToField_not_failed (env : Env) (field : StructField) (st : ElemState)
    (e : CopyError) (st2 : ElemState) : methodToField env field st ≠ .failed e st2 := by
  unfold methodToField
  intro h
  split at h
  · simp at h
  · split at h
    · split at h
      · split at h
        · simp at h
        · split at h
          · split at h <;> simp at h
          · simp at h
        · simp at h
      · simp at h
    · simp at h

/-- A loop over field descriptors that ends with an error: the descriptors before
the failing one were completed. -/
theorem forFields_failed (step : StructField → ElemState → ElemOutcome) :
    ∀ (l : List StructField) (st : ElemState) (e : CopyError) (st2 : ElemState),
      forFields step l st = .failed e st2 →
      ∃ pre field post st1, l = pre ++ field :: post
        ∧ forFields step pre st = .done st1 ∧ step field st1 = .failed e st2
  | [], st, e, st2, h => by simp [forFields] at h
  | f :: l, st, e, st2, h => by
    rw [forFields] at h
    cases hs : step f st with
    | done st1 =>
      rw [hs] at h
      obtain ⟨pre, g, post, s1, hl, hpre, hgs⟩ := forFields_failed step l st1 e st2 h
      refine ⟨f :: pre, g, post, s1, by rw [hl]; rfl, ?_, hgs⟩
      rw [forFields, hs]
      exact hpre
    | failed e1 s1 =>
      rw [hs] at h
      simp only [ElemOutcome.failed.injEq] at h
      exact ⟨[], f, l, st, rfl, rfl, by rw [hs, h.2, CopyError.eq_all e1 e]⟩
    | panic => rw [hs] at h; simp at h
    | outOfFuel => rw [hs] at h; simp at h

theorem forFields_not_failed (step : StructField → ElemState → ElemOutcome)
    (hstep : ∀ f st e st2, step f st ≠ .failed e st2) :
    ∀ (l : List StructField) (st : ElemState) (e : CopyError) (st2 : ElemState),
      forFields step l st ≠ .failed e st2 := by
  intro l st e st2 h
  obtain ⟨_, g, _, s1, _, _, hg⟩ := forFields_failed step l st e st2 h
  exact hstep g s1 e st2 hg

theorem copyElem_failed (env : Env) (nested : Value → Value → Outcome) (opts : Options)
    (fromType toType : Ty) (st : ElemState) (e : CopyError) (st2 : ElemState)
    (h : copyElem env nested opts fromType toType st = .failed e st2) :
    ∃ pre field post st1, deepFields fromType = pre ++ field :: post
      ∧ forFields (fieldToField env nested opts) pre st = .done st1
      ∧ ∃ s2, fieldToField env nested opts field st1 = .failed e s2 := by
  unfold copyElem at h
  cases h1 : forFields (fieldToField env nested opts) (deepFields fromType) st with
  | done st1 =>
    rw [h1] at h
    simp only at h
    exact absurd h (forFields_not_failed _ (methodToField_not_failed env) _ _ _ _)
  | failed e1 s1 =>
    rw [CopyError.eq_all e1 e] at h1
    obtain ⟨pre, g, post, s0, hl, hpre, hg⟩ := forFields_failed _ _ _ _ _ h1
    exact ⟨pre, g, post, s0, hl, hpre, s1, hg⟩
  | panic => rw [h1] at h; simp at h
  | outOfFuel => rw [h1] at h; simp at h

theorem elemStart_slice_dst (src : RValue) (toType : Ty) (i : Nat) (dst1 dst2 : Value)
    (tr : List Event) :
    elemStart src toType true i dst1 tr = elemStart src toType true i dst2 tr := by
  unfold elemStart
  simp only [if_true]

/-- An error returned by the main loop comes from an iteration that this loop
started, at one of its indices. -/
theorem copyLoop_failed (env : Env) (nested : Value → Value → Outcome) (opts : Options)
    (src : RValue) (fromType toType : Ty) (isSlice : Bool) (t : Value) :
    ∀ (idxs : List Nat) (dst : Value) (tr : List Event) (e : CopyError)
      (tv : Option Value) (tr2 : List Event),
      (isSlice = false → idxs.length ≤ 1 ∧ dst = t) →
      copyLoop env nested opts src fromType toType isSlice idxs dst tr
        = .returned (some e) tv tr2 →
      ∃ i tr0 st0 pre field post st1, i ∈ idxs
        ∧ elemStart src toType isSlice i t tr0 = some st0
        ∧ deepFields fromType = pre ++ field :: post
        ∧ forFields (fieldToField env nested opts) pre st0 = .done st1
        ∧ ∃ s2, fieldToField env nested opts field st1 = .failed e s2
  | [], dst, tr, e, tv, tr2, _, h => by simp [copyLoop] at h
  | i :: rest, dst, tr, e, tv, tr2, hs, h => by
    rw [copyLoop] at h
    cases hst : elemStart src toType isSlice i dst tr with
    | none => rw [hst] at h; simp at h
    | some st0 =>
      rw [hst] at h
      simp only at h
      have hst2 : elemStart src toType isSlice i t tr = some st0 := by
        cases isSlice with
        | true => rw [elemStart_slice_dst src toType i t dst tr]; exact hst
        | false => rw [← (hs rfl).2]; exact hst
      have hrec : ∀ dst2 tr3,
          copyLoop env nested opts src fromType toType isSlice rest dst2 tr3
            = .returned (some e) tv tr2 →
          ∃ i2 tr0 st0 pre field post st1, i2 ∈ i :: rest
            ∧ elemStart src toType isSlice i2 t tr0 = some st0
            ∧ deepFields fromType = pre ++ field :: post
            ∧ forFields (fieldToField env nested opts) pre st0 = .done st1
            ∧ ∃ s2, fieldToField env nested opts field st1 = .failed e s2 := by
        intro dst2 tr3 h3
        cases isSlice with
        | true =>
          obtain ⟨i2, tr0, s0, pre, g, post, s1, hi2, r⟩ :=
            copyLoop_failed env nested opts src fromType toType true t rest dst2 tr3 e tv
              tr2 (by intro hf; simp at hf) h3
          exact ⟨i2, tr0, s0, pre, g, post, s1, by simp [hi2], r⟩
        | false =>
          have hlen := (hs rfl).1
          have hrest : rest = [] := by
            cases rest with
            | nil => rfl
            | cons _ _ => simp at hlen
          rw [hrest] at h3
          simp [copyLoop] at h3
      cases hce : copyElem env nested opts fromType toType st0 with
      | panic => rw [hce] at h; simp at h
      | outOfFuel => rw [hce] at h; simp at h
      | failed e1 st =>
        rw [CopyError.eq_all e1 e] at hce
        obtain ⟨pre, g, post, s1, hl, hpre, hg⟩ :=
          copyElem_failed env nested opts fromType toType st0 e st hce
        exact ⟨i, tr, st0, pre, g, post, s1, by simp, hst2, hl, hpre, hg⟩
      | done st =>
        rw [hce] at h
        simp only at h
        split at h
        · split at h
          · simp at h
          · exact hrec _ _ h
        · split at h
          · exact hrec _ _ h
          · exact hrec _ _ h

theorem rewrap_error (root : Value) (o : Outcome) (e : CopyError) (tv : Option Value)
    (tr : List Event) (h : o.rewrap root = .returned (some e) tv tr) :
    ∃ tv1, o = .returned (some e) tv1 tr := by
  cases o with
  | panic => simp [Outcome.rewrap] at h
  | outOfFuel => simp [Outcome.rewrap] at h
  | returned e1 t1 tr1 =>
    cases t1 with
    | none =>
      simp only [Outcome.rewrap, Outcome.returned.injEq] at h
      exact ⟨none, by rw [h.1, h.2.2]⟩
    | some t =>
      simp only [Outcome.rewrap, Outcome.returned.injEq] at h
      exact ⟨some t, by rw [h.1, h.2.2]⟩

/-- An error returned by the body of `Copy`, whatever the nested call does: the
destination is not addressable, or the error was returned by a nested copy
that the body made. -/
theorem copyBody_error (env : Env) (nested : Value → Value → Outcome)
    (toValue fromValue : Option Value) (flags : List CopyOption) (e : CopyError)
    (tv : Option Value) (tr : List Event)
    (h : copyBody env nested toValue fromValue flags = .returned (some e) tv tr) :
    (indirect (ValueOf toValue)).CanAddr = false
      ∨ FailedNested env nested toValue fromValue flags e := by
  by_cases ha : (indirect (ValueOf toValue)).CanAddr = false
  · exact Or.inl ha
  · right
    have ha2 : (indirect (ValueOf toValue)).CanAddr = true := by simpa using ha
    unfold copyBody at h
    simp only [ha2, Bool.not_true, Bool.false_eq_true, if_false] at h
    cases hsv : indirect (ValueOf fromValue) with
    | mk sv a =>
      rw [hsv] at h
      simp only at h
      cases sv with
      | none => simp at h
      | some f =>
        simp only at h
        cases hdv : indirect (ValueOf toValue) with
        | mk dv b =>
          rw [hdv] at h ha2
          have hb : b = true := ha2
          subst hb
          cases dv with
          | none => cases toValue <;> simp at h
          | some t =>
            cases toValue with
            | none => simp at h
            | some root =>
              simp only at h
              split at h
              · simp at h
              · split at h
                · simp at h
                · obtain ⟨tv1, h1⟩ := rewrap_error _ _ _ _ _ h
                  obtain ⟨i, tr0, st0, pre, g, post, s1, hi, hst, hl, hpre, s2, hg⟩ :=
                    copyLoop_failed env nested _ _ _ _ _ t _ _ _ e tv1 tr
                      (by
                        intro hsl
                        simp [hsl]) h1
                  obtain ⟨i1, f1, ff, i2, f2, tf, h3, h4, h5, h6, h7⟩ :=
                    fieldToField_failed env nested _ g s1 e s2 hg
                  exact ⟨g.name, t, f, a, i, tr0, st0, pre, post, g, s1, i1, f1, ff, i2, f2,
                    tf, rfl, hdv, hsv, by simpa using hi, hst, hl, hpre, h3, h4, h5, h6, h7⟩

theorem forFields_source (env : Env) (nested : Value → Value → Outcome) (opts : Options)
    (l : List StructField) (st st2 : ElemState)
    (h : forFields (fieldToField env nested opts) l st = .done st2) :
    st2.source = st.source :=
  forFields_inv (fieldToField env nested opts) (fun s => s.source = st.source) l
    (fun f _ s hs s2 hstep => by
      show s2.source = st.source
      rw [fieldToField_source env nested opts f s s2 hstep]; exact hs)
    st rfl st2 (Or.inl h)

/-- C14, as the code has it. An error that `Copy` returns has one of two origins:
the destination is not addressable, or a nested field-to-field copy that this
call made, after `set` had returned false on the two fields, returned that
error. So when the destination is addressable and no such nested copy fails,
`Copy` does not return an error: it returns nil, or it does not return at all.
The last part is the defect: a slice of structs copied into an addressable
struct makes no nested copy, no call of `set` fails, and `Copy` ends in a
run-time panic instead of returning nil. -/
theorem Copy_error_origin :
    (∀ (env : Env) (toValue fromValue : Option Value) (flags : List CopyOption)
        (e : CopyError) (tv : Option Value) (tr : List Event),
        Copy env toValue fromValue flags = .returned (some e) tv tr →
        (indirect (ValueOf toValue)).CanAddr = false
          ∨ FailedNested env (fun tv fv => Copy env (some tv) (some fv) [])
              toValue fromValue flags e)
    ∧ (∀ (env : Env) (toValue fromValue : Option Value) (flags : List CopyOption),
        (indirect (ValueOf toValue)).CanAddr = true →
        (∀ e, ¬ FailedNested env (fun tv fv => Copy env (some tv) (some fv) [])
            toValue fromValue flags e) →
        Copy env toValue fromValue flags = .panic
          ∨ ∃ tv tr, Copy env toValue fromValue flags = .returned none tv tr)
    ∧ ((indirect (ValueOf (some (Value.ptr rowType (some rowOld))))).CanAddr = true
        ∧ (∀ e, ¬ FailedNested noEnv (fun tv fv => Copy noEnv (some tv) (some fv) [])
            (some (Value.ptr rowType (some rowOld))) (some usersTwo) [] e)
        ∧ Copy noEnv (some (Value.ptr rowType (some rowOld))) (some usersTwo) []
            = .panic) := by
  have h1 : ∀ (env : Env) (toValue fromValue : Option Value) (flags : List CopyOption)
      (e : CopyError) (tv : Option Value) (tr : List Event),
      Copy env toValue fromValue flags = .returned (some e) tv tr →
      (indirect (ValueOf toValue)).CanAddr = false
        ∨ FailedNested env (fun tv fv => Copy env (some tv) (some fv) [])
            toValue fromValue flags e := by
    intro env toValue fromValue flags e tv tr h
    rw [Copy_unfold] at h
    exact copyBody_error env _ toValue fromValue flags e tv tr h
  refine ⟨h1, ?_, rfl, ?_, rfl⟩
  · intro env toValue fromValue flags ha hno
    cases hc : Copy env toValue fromValue flags with
    | panic => exact Or.inl rfl
    | outOfFuel => exact absurd hc (Copy_total env toValue fromValue flags)
    | returned err tv tr =>
      cases err with
      | none => exact Or.inr ⟨tv, tr, rfl⟩
      | some e =>
        rcases h1 env toValue fromValue flags e tv tr hc with h | h
        · rw [ha] at h; simp at h
        · exact absurd h (hno e)
  · intro e h
    obtain ⟨name, t, f, a, i, tr0, st0, pre, post, g, st, i1, f1, ff, i2, f2, tf,
      _, hto, hfrom, _, hst, _, hpre, hsrc, _⟩ := h
    have hf : f = usersTwo ∧ a = false := by
      have h0 : indirect (ValueOf (some usersTwo)) = ⟨some usersTwo, false⟩ := rfl
      rw [h0] at hfrom
      simp only [RValue.mk.injEq, Option.some.injEq] at hfrom
      exact ⟨hfrom.1.symm, hfrom.2.symm⟩
    have ht : t = rowOld := by
      have h0 : indirect (ValueOf (some (Value.ptr rowType (some rowOld))))
          = ⟨some rowOld, true⟩ := rfl
      rw [h0] at hto
      simp only [RValue.mk.injEq, Option.some.injEq, and_true] at hto
      exact hto.symm
    rw [hf.1, hf.2, ht] at hst
    have hs0 : st0.source = ⟨some usersTwo, false⟩ := by
      have h0 : elemStart ⟨some usersTwo, false⟩ (indirectType (typeOf rowOld))
          (rowOld.kind == Kind.slice) i rowOld tr0
          = some ⟨⟨some rowOld, true⟩, ⟨some usersTwo, false⟩, tr0⟩ := rfl
      rw [h0] at hst
      simp only [Option.some.injEq] at hst
      rw [← hst]
    have hs1 := forFields_source _ _ _ pre st0 st hpre
    rw [hs1, hs0] at hsrc
    simp [RValue.FieldByName, usersTwo] at hsrc

theorem Copy_error_origin_witness :
    Copy noEnv (some (Value.ptr pairType (some (zero pairType)))) (some pairSource) []
        = .returned (some CopyError.unaddressable)
            (some (Value.ptr pairType (some pairAfter))) []
      ∧ FailedNested noEnv (fun tv fv => Copy noEnv (some tv) (some fv) [])
          (some (Value.ptr pairType (some (zero pairType)))) (some pairSource) []
          CopyError.unaddressable :=
  ⟨rfl,
    (Copy_error_origin.1 noEnv (some (Value.ptr pairType (some (zero pairType))))
      (some pairSource) [] CopyError.unaddressable
      (some (Value.ptr pairType (some pairAfter))) [] rfl).resolve_left
      (fun h => by
        have h2 : (indirect (ValueOf (some (Value.ptr pairType (some (zero pairType)))))).CanAddr
            = true := rfl
        rw [h2] at h
        cases h)⟩

/-! ## C13: destination setter methods -/

theorem setBody_methods (m1 m2 : Ty → List Method)
    (sc : Ty → Option (Value → Value → Value)) (src dst : Value) (options : List Options)
    (r1 r2 : Value → SetResult) (h : ∀ inner, r1 inner = r2 inner) :
    setBody ⟨m1, sc⟩ src dst options r1 = setBody ⟨m2, sc⟩ src dst options r2 := by
  have : r1 = r2 := funext h
  subst this
  rfl

/-- Function `set` does not look at the methods of the environment. -/
theorem setValid_methods (m1 m2 : Ty → List Method)
    (sc : Ty → Option (Value → Value → Value)) :
    ∀ (src dst : Value) (options : List Options),
      setValid ⟨m1, sc⟩ src dst options = setValid ⟨m2, sc⟩ src dst options
  | .ptr e (some v), dst, options => by
    rw [setValid_eq, setValid_eq]
    exact setBody_methods m1 m2 sc _ dst options _ _
      (fun inner => setValid_methods m1 m2 sc v inner [])
  | .ptr e none, dst, options => by
    rw [setValid_eq, setValid_eq]
    exact setBody_methods m1 m2 sc _ dst options _ _ (fun _ => rfl)
  | .bool b, dst, options => by
    rw [setValid_eq, setValid_eq]
    exact setBody_methods m1 m2 sc _ dst options _ _ (fun _ => rfl)
  | .int i, dst, options => by
    rw [setValid_eq, setValid_eq]
    exact setBody_methods m1 m2 sc _ dst options _ _ (fun _ => rfl)
  | .int8 i, dst, options => by
    rw [setValid_eq, setValid_eq]
    exact setBody_methods m1 m2 sc _ dst options _ _ (fun _ => rfl)
  | .string s, dst, options => by
    rw [setValid_eq, setValid_eq]
    exact setBody_methods m1 m2 sc _ dst options _ _ (fun _ => rfl)
  | .slice e vs, dst, options => by
    rw [setValid_eq, setValid_eq]
    exact setBody_methods m1 m2 sc _ dst options _ _ (fun _ => rfl)
  | .map k e vs, dst, options => by
    rw [setValid_eq, setValid_eq]
    exact setBody_methods m1 m2 sc _ dst options _ _ (fun _ => rfl)
  | .struct n fvs, dst, options => by
    rw [setValid_eq, setValid_eq]
    exact setBody_methods m1 m2 sc _ dst options _ _ (fun _ => rfl)

theorem set_methods (m1 m2 : Ty → List Method)
    (sc : Ty → Option (Value → Value → Value)) (dst : Value) (src : RValue)
    (options : List Options) :
    set ⟨m1, sc⟩ dst src options = set ⟨m2, sc⟩ dst src options := by
  unfold set
  cases src.val with
  | none => rfl
  | some v => exact setValid_methods m1 m2 sc v dst options

/-- The body of the first loop for one occurrence of a name `F` in the flattened
source fields, when the lookup of `F` in the source finds the value `x`. If the destination has no field `F` and has a method `F`
with exactly one parameter, to whose type the type of `x` is assignable, the
method is invoked once, on the destination, with `x` as its argument, and this
is all the body does. If the destination has no field `F` and no such method
(none of that name, or another arity, or a parameter type that does not accept
`x`), the body does nothing. If the destination has a field `F`, what the body
does is the same whatever methods exist: no method of the destination is
looked up or invoked. -/
theorem fieldToField_setter_step (env : Env) (nested : Value → Value → Outcome)
    (opts : Options) (field : StructField) (st : ElemState) (d : Value)
    (i1 : List Nat) (f1 : StructField) (x : Value)
    (hs : st.source.FieldByName field.name = .valid i1 f1 x)
    (hd : st.dest.val = some d) :
    (st.dest.FieldByName field.name = .invalid →
      ∀ (m : Method) (in0 : Ty),
        methodByName env (typeOf d) st.dest.CanAddr field.name = some m →
        m.ins = [in0] → (typeOf x).AssignableTo in0 = true →
        fieldToField env nested opts field st
          = .done ⟨⟨some (m.body d [x]).1, st.dest.flagAddr⟩, st.source,
              st.trace ++ [Event.call (typeOf d) field.name [x]]⟩)
    ∧ (st.dest.FieldByName field.name = .invalid →
        (methodByName env (typeOf d) st.dest.CanAddr field.name = none
          ∨ ∃ m, methodByName env (typeOf d) st.dest.CanAddr field.name = some m
              ∧ (m.ins.length ≠ 1
                  ∨ ∃ in0, m.ins = [in0] ∧ (typeOf x).AssignableTo in0 = false)) →
        fieldToField env nested opts field st = .done st)
    ∧ (∀ (i2 : List Nat) (f2 : StructField) (toField : Value),
        st.dest.FieldByName field.name = .valid i2 f2 toField →
        ∀ methods2 : Ty → List Method,
          fieldToField env nested opts field st
            = fieldToField ⟨methods2, env.scanner⟩ nested opts field st) := by
  refine ⟨?_, ?_, ?_⟩
  · intro hinv m in0 hm hins hass
    unfold fieldToField
    simp only [hs, hinv, hd, hm, hins, hass, if_true]
  · intro hinv hcase
    unfold fieldToField
    simp only [hs, hinv, hd]
    rcases hcase with hnone | ⟨m, hm, hlen | ⟨in0, hins, hass⟩⟩
    · simp only [hnone]
    · simp only [hm]
      split
      · rename_i in0 hins
        rw [hins] at hlen
        simp at hlen
      · rfl
    · simp only [hm, hins, hass, Bool.false_eq_true, if_false]
  · intro i2 f2 toField hdst methods2
    unfold fieldToField
    simp only [hs, hdst]
    cases env with
    | mk m1 sc =>
      simp only
      rw [set_methods m1 methods2 sc toField ⟨some x, false⟩ [opts]]

theorem setBody_scans (env : Env) (src dst : Value) (options : List Options)
    (retry : Value → SetResult)
    (h : ∀ inner, ∀ ev ∈ (retry inner).trace, isScan ev = true) :
    ∀ ev ∈ (setBody env src dst options retry).trace, isScan ev = true := by
  unfold setBody
  simp only
  split
  · simp
  · split
    · simp
    · split
      · intro ev hev
        simp only [List.mem_singleton] at hev
        rw [hev]; rfl
      · split
        · exact h _
        · simp

/-- The calls that `set` makes are calls of `Scan`. -/
theorem setValid_scans (env : Env) : ∀ (src dst : Value) (options : List Options),
    ∀ ev ∈ (setValid env src dst options).trace, isScan ev = true
  | .ptr e (some v), dst, options => by
    rw [setValid_eq]
    exact setBody_scans env _ dst options _ (fun inner => setValid_scans env v inner [])
  | .ptr e none, dst, options => by
    rw [setValid_eq]
    exact setBody_scans env _ dst options _ (fun inner => by simp)
  | .bool b, dst, options => by
    rw [setValid_eq]
    exact setBody_scans env _ dst options _ (fun inner => by simp)
  | .int i, dst, options => by
    rw [setValid_eq]
    exact setBody_scans env _ dst options _ (fun inner => by simp)
  | .int8 i, dst, options => by
    rw [setValid_eq]
    exact setBody_scans env _ dst options _ (fun inner => by simp)
  | .string s, dst, options => by
    rw [setValid_eq]
    exact setBody_scans env _ dst options _ (fun inner => by simp)
  | .slice e vs, dst, options => by
    rw [setValid_eq]
    exact setBody_scans env _ dst options _ (fun inner => by simp)
  | .map k e vs, dst, options => by
    rw [setValid_eq]
    exact setBody_scans env _ dst options _ (fun inner => by simp)
  | .struct n fvs, dst, options => by
    rw [setValid_eq]
    exact setBody_scans env _ dst options _ (fun inner => by simp)

theorem set_scans (env : Env) (dst : Value) (src : RValue) (options : List Options) :
    ∀ ev ∈ (set env dst src options).trace, isScan ev = true := by
  unfold set
  cases src.val with
  | none => simp
  | some v => exact setValid_scans env v dst options

theorem isSetterCall_scan (recv : Ty) (name : String) (ev : Event)
    (h : isScan ev = true) : isSetterCall recv name ev = false := by
  cases ev with
  | scan d s => rfl
  | call r n args => simp [isScan] at h

theorem setterCalls_append (recv : Ty) (name : String) (tr added : List Event) :
    setterCalls recv name (tr ++ added)
      = setterCalls recv name tr + setterCalls recv name added := by
  simp [setterCalls, List.countP_append]

theorem setterCalls_none (recv : Ty) (name : String) (added : List Event)
    (h : ∀ ev ∈ added, isSetterCall recv name ev = false) :
    setterCalls recv name added = 0 := by
  simp only [setterCalls, List.countP_eq_zero]
  intro ev hev
  rw [h ev hev]
  simp

theorem FieldByName_dest (dn : String) (fs : List StructField) (st : ElemState)
    (hinv : DestInv dn fs st) (name : String) :
    (st.dest.FieldByName name = .invalid ↔ structFieldByName fs name = none) := by
  obtain ⟨fvs, hd, hmap⟩ := hinv
  unfold RValue.FieldByName
  simp only [hd, hmap]
  cases h : structFieldByName fs name with
  | none => simp
  | some p =>
    obtain ⟨index, f⟩ := p
    simp only
    cases (Value.struct dn fvs).FieldByIndex index <;> simp

/-- The calls one pass of the body of the first loop adds to the trace, when
the nested calls are muted: calls of `Scan`, or one call of the destination
method named after the field, with the source value of that name, made when
the destination has no such field and the method has one parameter that
accepts the value. -/
theorem fieldToField_calls (env : Env) (nested : Value → Value → Outcome)
    (opts : Options) (field : StructField) (dn : String) (fs : List StructField)
    (st st2 : ElemState) (hinv : DestInv dn fs st)
    (h : fieldToField env (muted nested) opts field st = .done st2) :
    ∃ added, st2.trace = st.trace ++ added
      ∧ ∀ ev ∈ added, isScan ev = true
          ∨ (structFieldByName fs field.name = none
              ∧ ∃ i1 f1 x m in0, st.source.FieldByName field.name = .valid i1 f1 x
                  ∧ methodByName env (.struct dn fs) true field.name = some m
                  ∧ m.ins = [in0] ∧ (typeOf x).AssignableTo in0 = true
                  ∧ ev = Event.call (.struct dn fs) field.name [x]) := by
  have hiff := FieldByName_dest dn fs st hinv field.name
  obtain ⟨fvs, hd, hmap⟩ := hinv
  unfold fieldToField at h
  split at h
  · simp at h
  · simp only [ElemOutcome.done.injEq] at h
    exact ⟨[], by rw [← h]; simp, by simp⟩
  · rename_i i1 f1 x hsrc
    split at h
    · simp at h
    · split at h
      · simp only at h
        split at h
        · simp only [ElemOutcome.done.injEq] at h
          refine ⟨_, by rw [← h], ?_⟩
          intro ev hev
          exact Or.inl (set_scans env _ _ _ ev hev)
        · simp only [muted] at h
          split at h
          · simp at h
          · simp at h
          · rename_i err tv tr hn
            have htr : tr = [] := by
              cases ho : nested _ x with
              | panic => rw [ho] at hn; simp [Outcome.mute] at hn
              | outOfFuel => rw [ho] at hn; simp [Outcome.mute] at hn
              | returned e2 tv2 tr2 =>
                rw [ho] at hn
                simp only [Outcome.mute, Outcome.returned.injEq] at hn
                exact hn.2.2.symm
            split at h
            · simp at h
            · simp only [ElemOutcome.done.injEq] at h
              refine ⟨_, by rw [← h, htr, List.append_nil], ?_⟩
              intro ev hev
              exact Or.inl (set_scans env _ _ _ ev hev)
      · simp only [ElemOutcome.done.injEq] at h
        exact ⟨[], by rw [← h]; simp, by simp⟩
    · rename_i hdest
      have hnone := hiff.mp hdest
      split at h
      · simp at h
      · rename_i d hdv
        have hty : typeOf d = .struct dn fs := by
          rw [hd] at hdv
          simp only [Option.some.injEq] at hdv
          rw [← hdv, typeOf, hmap]
        have hca : st.dest.CanAddr = true := by rw [hd]; rfl
        split at h
        · rename_i m hm
          split at h
          · rename_i in0 hins
            split at h
            · rename_i hass
              simp only [ElemOutcome.done.injEq] at h
              refine ⟨_, by rw [← h], ?_⟩
              intro ev hev
              simp only [List.mem_singleton] at hev
              refine Or.inr ⟨hnone, i1, f1, x, m, in0, hsrc, ?_, hins, hass, ?_⟩
              · rw [← hty, ← hca]; exact hm
              · rw [hev, hty]
            · simp only [ElemOutcome.done.injEq] at h
              exact ⟨[], by rw [← h]; simp, by simp⟩
          · simp only [ElemOutcome.done.injEq] at h
            exact ⟨[], by rw [← h]; simp, by simp⟩
        · simp only [ElemOutcome.done.injEq] at h
          exact ⟨[], by rw [← h]; simp, by simp⟩

/-- The calls one pass of the body of the second loop adds to the trace: one
call without arguments of a source method, and calls of `Scan`. -/
theorem methodToField_calls (env : Env) (field : StructField) (st st2 : ElemState)
    (h : methodToField env field st = .done st2) :
    ∃ added, st2.trace = st.trace ++ added
      ∧ ∀ ev ∈ added, ∀ recv name, isSetterCall recv name ev = false := by
  unfold methodToField at h
  split at h
  · simp at h
  · split at h
    · split at h
      · split at h
        · simp at h
        · split at h
          · simp only at h
            split at h
            · simp only [ElemOutcome.done.injEq] at h
              refine ⟨_, by rw [← h, List.append_assoc], ?_⟩
              intro ev hev recv name
              rw [List.mem_append] at hev
              rcases hev with hev | hev
              · simp only [List.mem_singleton] at hev
                rw [hev]; rfl
              · exact isSetterCall_scan recv name ev (set_scans env _ _ _ ev hev)
            · simp only [ElemOutcome.done.injEq] at h
              refine ⟨_, by rw [← h], ?_⟩
              intro ev hev recv name
              simp only [List.mem_singleton] at hev
              rw [hev]; rfl
          · simp only [ElemOutcome.done.injEq] at h
            exact ⟨[], by rw [← h]; simp, by simp⟩
        · simp only [ElemOutcome.done.injEq] at h
          exact ⟨[], by rw [← h]; simp, by simp⟩
      · simp only [ElemOutcome.done.injEq] at h
        exact ⟨[], by rw [← h]; simp, by simp⟩
    · simp only [ElemOutcome.done.injEq] at h
      exact ⟨[], by rw [← h]; simp, by simp⟩

theorem isSetterCall_self (recv : Ty) (name : String) (x : Value) :
    isSetterCall recv name (Event.call recv name [x]) = true := by
  simp [isSetterCall, Ty.beq_refl]

theorem isSetterCall_name (recv r : Ty) (name n : String) (args : List Value)
    (h : n ≠ name) : isSetterCall recv name (Event.call r n args) = false := by
  unfold isSetterCall
  split
  · rename_i r2 n2 a heq
    simp only [Event.call.injEq] at heq
    rw [← heq.2.1]
    simp [h]
  · rfl

/-- The first loop of an iteration calls the setter once for each occurrence of
the name among the field descriptors it ranges over. -/
theorem forFields_setter_count (env : Env) (hp : env.TypePreserving)
    (nested : Value → Value → Outcome) (opts : Options) (dn : String)
    (fs : List StructField) (F : String) (src : RValue) (i1 : List Nat)
    (f1 : StructField) (x : Value) (m : Method) (in0 : Ty)
    (hsrc : src.FieldByName F = .valid i1 f1 x)
    (hnof : structFieldByName fs F = none)
    (hm : methodByName env (.struct dn fs) true F = some m)
    (hins : m.ins = [in0]) (hass : (typeOf x).AssignableTo in0 = true) :
    ∀ (l : List StructField) (st st2 : ElemState), DestInv dn fs st → st.source = src →
      forFields (fieldToField env (muted nested) opts) l st = .done st2 →
      setterCalls (.struct dn fs) F st2.trace
          = setterCalls (.struct dn fs) F st.trace + occurrences F l
        ∧ ∀ ev ∈ st2.trace, isSetterCall (.struct dn fs) F ev = true →
            ev ∈ st.trace ∨ ev = Event.call (.struct dn fs) F [x]
  | [], st, st2, _, _, h => by
    simp only [forFields, ElemOutcome.done.injEq] at h
    rw [← h]
    exact ⟨by simp [occurrences], fun ev hev _ => Or.inl hev⟩
  | fd :: l, st, st2, hinv, hs, h => by
    rw [forFields] at h
    cases hstep : fieldToField env (muted nested) opts fd st with
    | panic => rw [hstep] at h; simp at h
    | outOfFuel => rw [hstep] at h; simp at h
    | failed e st1 => rw [hstep] at h; simp at h
    | done st1 =>
      rw [hstep] at h
      simp only at h
      have hinv1 := fieldToField_dest env hp (muted nested) opts dn fs fd st hinv st1
        (Or.inl hstep)
      have hs1 : st1.source = src := by
        rw [fieldToField_source env (muted nested) opts fd st st1 (Or.inl hstep)]; exact hs
      obtain ⟨hcount, hev⟩ := forFields_setter_count env hp nested opts dn fs F src i1 f1 x
        m in0 hsrc hnof hm hins hass l st1 st2 hinv1 hs1 h
      by_cases hname : fd.name = F
      · have hiff := FieldByName_dest dn fs st hinv fd.name
        obtain ⟨fvs, hd, hmap⟩ := hinv
        have hdv : st.dest.val = some (.struct dn fvs) := by rw [hd]
        have hty : typeOf (Value.struct dn fvs) = .struct dn fs := by rw [typeOf, hmap]
        have hca : st.dest.CanAddr = true := by rw [hd]; rfl
        have hone := (fieldToField_setter_step env (muted nested) opts fd st _ i1 f1 x
          (by rw [hs, hname]; exact hsrc) hdv).1 (hiff.mpr (by rw [hname]; exact hnof)) m in0
          (by rw [hty, hca, hname]; exact hm) hins hass
        rw [hone] at hstep
        simp only [ElemOutcome.done.injEq] at hstep
        have htr : st1.trace = st.trace ++ [Event.call (.struct dn fs) F [x]] := by
          rw [← hstep, hty, hname]
        refine ⟨?_, ?_⟩
        · rw [hcount, htr, setterCalls_append]
          have h1 : setterCalls (.struct dn fs) F [Event.call (.struct dn fs) F [x]] = 1 := by
            simp [setterCalls, isSetterCall_self]
          have h2 : occurrences F (fd :: l) = occurrences F l + 1 := by
            simp [occurrences, hname]
          rw [h1, h2]; omega
        · intro ev hmem hsc
          rcases hev ev hmem hsc with h3 | h3
          · rw [htr, List.mem_append] at h3
            rcases h3 with h3 | h3
            · exact Or.inl h3
            · simp only [List.mem_singleton] at h3
              exact Or.inr h3
          · exact Or.inr h3
      · obtain ⟨added, htr, hadd⟩ := fieldToField_calls env nested opts fd dn fs st st1 hinv
          hstep
        have hnone : ∀ ev ∈ added, isSetterCall (.struct dn fs) F ev = false := by
          intro ev hmem
          rcases hadd ev hmem with h3 | ⟨_, _, _, x2, _, _, _, _, _, _, h3⟩
          · exact isSetterCall_scan _ _ ev h3
          · rw [h3]; exact isSetterCall_name _ _ _ _ _ hname
        refine ⟨?_, ?_⟩
        · rw [hcount, htr, setterCalls_append, setterCalls_none _ _ added hnone]
          have h2 : occurrences F (fd :: l) = occurrences F l := by
            simp [occurrences, hname]
          rw [h2]; omega
        · intro ev hmem hsc
          rcases hev ev hmem hsc with h3 | h3
          · rw [htr, List.mem_append] at h3
            rcases h3 with h3 | h3
            · exact Or.inl h3
            · rw [hnone ev h3] at hsc
              simp at hsc
          · exact Or.inr h3

/-- The first loop of an iteration does not call the setter when the destination
has a field of the name, or the source has none, or the destination has no
method of the name, or the method does not take exactly one parameter, or its
parameter does not accept the source value. -/
theorem forFields_setter_none (env : Env) (hp : env.TypePreserving)
    (nested : Value → Value → Outcome) (opts : Options) (dn : String)
    (fs : List StructField) (F : String) (src : RValue)
    (hno : structFieldByName fs F ≠ none
      ∨ src.FieldByName F = .invalid
      ∨ methodByName env (.struct dn fs) true F = none
      ∨ ∃ m, methodByName env (.struct dn fs) true F = some m
          ∧ (m.ins.length ≠ 1
              ∨ ∃ in0 i1 f1 x, m.ins = [in0] ∧ src.FieldByName F = .valid i1 f1 x
                  ∧ (typeOf x).AssignableTo in0 = false)) :
    ∀ (l : List StructField) (st st2 : ElemState), DestInv dn fs st → st.source = src →
      forFields (fieldToField env (muted nested) opts) l st = .done st2 →
      setterCalls (.struct dn fs) F st2.trace = setterCalls (.struct dn fs) F st.trace
  | [], st, st2, _, _, h => by
    simp only [forFields, ElemOutcome.done.injEq] at h
    rw [← h]
  | fd :: l, st, st2, hinv, hs, h => by
    rw [forFields] at h
    cases hstep : fieldToField env (muted nested) opts fd st with
    | panic => rw [hstep] at h; simp at h
    | outOfFuel => rw [hstep] at h; simp at h
    | failed e st1 => rw [hstep] at h; simp at h
    | done st1 =>
      rw [hstep] at h
      simp only at h
      have hinv1 := fieldToField_dest env hp (muted nested) opts dn fs fd st hinv st1
        (Or.inl hstep)
      have hs1 : st1.source = src := by
        rw [fieldToField_source env (muted nested) opts fd st st1 (Or.inl hstep)]; exact hs
      have hcount := forFields_setter_none env hp nested opts dn fs F src hno l st1 st2
        hinv1 hs1 h
      obtain ⟨added, htr, hadd⟩ := fieldToField_calls env nested opts fd dn fs st st1 hinv
        hstep
      have hnone : ∀ ev ∈ added, isSetterCall (.struct dn fs) F ev = false := by
        intro ev hmem
        rcases hadd ev hmem with h3 | ⟨hnf, i1, f1, x, m, in0, hsrc, hm, hins, hass, h3⟩
        · exact isSetterCall_scan _ _ ev h3
        · by_cases hname : fd.name = F
          · exfalso
            rw [hname] at hnf hm hsrc
            rw [hs] at hsrc
            rcases hno with h4 | h4 | h4 | ⟨m2, hm2, h4 | ⟨in2, i2, f2, x2, hins2, hsrc2, hass2⟩⟩
            · exact h4 hnf
            · rw [h4] at hsrc; simp at hsrc
            · rw [h4] at hm; simp at hm
            · rw [hm2] at hm
              simp only [Option.some.injEq] at hm
              rw [hm, hins] at h4
              simp at h4
            · rw [hm2] at hm
              simp only [Option.some.injEq] at hm
              rw [hsrc2] at hsrc
              simp only [FieldLookup.valid.injEq] at hsrc
              rw [hm, hins] at hins2
              simp only [List.cons.injEq, and_true] at hins2
              rw [← hsrc.2.2, hins2, hass2] at hass
              simp at hass
          · rw [h3]; exact isSetterCall_name _ _ _ _ _ hname
      rw [hcount, htr, setterCalls_append, setterCalls_none _ _ added hnone]
      omega

/-- The second loop of an iteration calls no method with one argument. -/
theorem forFields_method_calls (env : Env) (recv : Ty) (name : String) :
    ∀ (l : List StructField) (st st2 : ElemState),
      forFields (methodToField env) l st = .done st2 →
      setterCalls recv name st2.trace = setterCalls recv name st.trace
        ∧ ∀ ev ∈ st2.trace, isSetterCall recv name ev = true → ev ∈ st.trace
  | [], st, st2, h => by
    simp only [forFields, ElemOutcome.done.injEq] at h
    rw [← h]
    exact ⟨rfl, fun ev hev _ => hev⟩
  | fd :: l, st, st2, h => by
    rw [forFields] at h
    cases hstep : methodToField env fd st with
    | panic => rw [hstep] at h; simp at h
    | outOfFuel => rw [hstep] at h; simp at h
    | failed e st1 => rw [hstep] at h; simp at h
    | done st1 =>
      rw [hstep] at h
      simp only at h
      obtain ⟨hcount, hev⟩ := forFields_method_calls env recv name l st1 st2 h
      obtain ⟨added, htr, hadd⟩ := methodToField_calls env fd st st1 hstep
      refine ⟨?_, ?_⟩
      · rw [hcount, htr, setterCalls_append,
          setterCalls_none _ _ added (fun ev hmem => hadd ev hmem recv name)]
        omega
      · intro ev hmem hsc
        have h3 := hev ev hmem hsc
        rw [htr, List.mem_append] at h3
        rcases h3 with h3 | h3
        · exact h3
        · rw [hadd ev h3 recv name] at hsc
          simp at hsc

/-! ### The muted run does what the real run does -/

theorem fieldToField_erase (env : Env) (nested : Value → Value → Outcome)
    (opts : Options) (field : StructField) (d s : RValue) (t1 t2 : List Event) :
    (fieldToField env (muted nested) opts field ⟨d, s, t1⟩).erase
      = (fieldToField env nested opts field ⟨d, s, t2⟩).erase := by
  unfold fieldToField
  simp only
  cases s.FieldByName field.name with
  | panic => rfl
  | invalid => rfl
  | valid i f x =>
    simp only
    cases d.FieldByName field.name with
    | panic => rfl
    | valid index f2 toField =>
      simp only
      split
      · split
        · rfl
        · simp only [muted]
          cases nested _ x with
          | panic => rfl
          | outOfFuel => rfl
          | returned err tv tr => cases err <;> rfl
      · rfl
    | invalid =>
      simp only
      cases d.val with
      | none => rfl
      | some dv =>
        simp only
        split
        · split
          · split <;> rfl
          · rfl
        · rfl

theorem methodToField_erase (env : Env) (field : StructField) (d s : RValue)
    (t1 t2 : List Event) :
    (methodToField env field ⟨d, s, t1⟩).erase
      = (methodToField env field ⟨d, s, t2⟩).erase := by
  unfold methodToField
  simp only
  cases s.val with
  | none => rfl
  | some sv =>
    simp only
    split
    · split
      · cases d.FieldByName field.name with
        | panic => rfl
        | invalid => rfl
        | valid index f toField =>
          simp only
          split
          · split <;> rfl
          · rfl
      · rfl
    · rfl

theorem forFields_erase (step1 step2 : StructField → ElemState → ElemOutcome)
    (hstep : ∀ f d s t1 t2, (step1 f ⟨d, s, t1⟩).erase = (step2 f ⟨d, s, t2⟩).erase) :
    ∀ (l : List StructField) (d s : RValue) (t1 t2 : List Event),
      (forFields step1 l ⟨d, s, t1⟩).erase = (forFields step2 l ⟨d, s, t2⟩).erase
  | [], _, _, _, _ => rfl
  | f :: l, d, s, t1, t2 => by
    rw [forFields, forFields]
    have h := hstep f d s t1 t2
    cases h1 : step1 f ⟨d, s, t1⟩ with
    | panic =>
      rw [h1] at h
      cases h2 : step2 f ⟨d, s, t2⟩ <;> rw [h2] at h <;> simp [ElemOutcome.erase] at h ⊢
    | outOfFuel =>
      rw [h1] at h
      cases h2 : step2 f ⟨d, s, t2⟩ <;> rw [h2] at h <;> simp [ElemOutcome.erase] at h ⊢
    | failed e st1 =>
      rw [h1] at h
      cases h2 : step2 f ⟨d, s, t2⟩ <;> rw [h2] at h <;> simp [ElemOutcome.erase] at h ⊢
      exact h
    | done st1 =>
      rw [h1] at h
      cases h2 : step2 f ⟨d, s, t2⟩ with
      | panic => rw [h2] at h; simp [ElemOutcome.erase] at h
      | outOfFuel => rw [h2] at h; simp [ElemOutcome.erase] at h
      | failed e st2 => rw [h2] at h; simp [ElemOutcome.erase] at h
      | done st2 =>
        rw [h2] at h
        simp only [ElemOutcome.erase, ElemOutcome.done.injEq, ElemState.mk.injEq,
          and_true] at h
        obtain ⟨d1, s1, tr1⟩ := st1
        obtain ⟨d2, s2, tr2⟩ := st2
        simp only at h
        obtain ⟨hd, hs⟩ := h
        subst hd; subst hs
        exact forFields_erase step1 step2 hstep l d1 s1 tr1 tr2

theorem copyElem_erase (env : Env) (nested : Value → Value → Outcome) (opts : Options)
    (fromType toType : Ty) (d s : RValue) (t1 t2 : List Event) :
    (copyElem env (muted nested) opts fromType toType ⟨d, s, t1⟩).erase
      = (copyElem env nested opts fromType toType ⟨d, s, t2⟩).erase := by
  unfold copyElem
  have h := forFields_erase (fieldToField env (muted nested) opts)
    (fieldToField env nested opts) (fieldToField_erase env nested opts)
    (deepFields fromType) d s t1 t2
  cases h1 : forFields (fieldToField env (muted nested) opts) (deepFields fromType)
      ⟨d, s, t1⟩ with
  | panic =>
    rw [h1] at h
    cases h2 : forFields (fieldToField env nested opts) (deepFields fromType) ⟨d, s, t2⟩ <;>
      rw [h2] at h <;> simp [ElemOutcome.erase] at h ⊢
  | outOfFuel =>
    rw [h1] at h
    cases h2 : forFields (fieldToField env nested opts) (deepFields fromType) ⟨d, s, t2⟩ <;>
      rw [h2] at h <;> simp [ElemOutcome.erase] at h ⊢
  | failed e st1 =>
    rw [h1] at h
    cases h2 : forFields (fieldToField env nested opts) (deepFields fromType) ⟨d, s, t2⟩ <;>
      rw [h2] at h <;> simp [ElemOutcome.erase] at h ⊢
    exact h
  | done st1 =>
    rw [h1] at h
    cases h2 : forFields (fieldToField env nested opts) (deepFields fromType)
        ⟨d, s, t2⟩ with
    | panic => rw [h2] at h; simp [ElemOutcome.erase] at h
    | outOfFuel => rw [h2] at h; simp [ElemOutcome.erase] at h
    | failed e st2 => rw [h2] at h; simp [ElemOutcome.erase] at h
    | done st2 =>
      rw [h2] at h
      simp only [ElemOutcome.erase, ElemOutcome.done.injEq, ElemState.mk.injEq,
        and_true] at h
      obtain ⟨d1, s1, tr1⟩ := st1
      obtain ⟨d2, s2, tr2⟩ := st2
      simp only at h
      obtain ⟨hd, hs⟩ := h
      subst hd; subst hs
      exact forFields_erase (methodToField env) (methodToField env)
        (methodToField_erase env) (deepFields toType) d1 s1 tr1 tr2

theorem elemStart_trace (src : RValue) (toType : Ty) (isSlice : Bool) (i : Nat)
    (dst : Value) (t : List Event) :
    elemStart src toType isSlice i dst t
      = (elemStart src toType isSlice i dst []).map (fun st => ⟨st.dest, st.source, t⟩) := by
  unfold elemStart
  simp only [Option.map_map]
  rfl

theorem copyLoop_mute (env : Env) (nested : Value → Value → Outcome) (opts : Options)
    (src : RValue) (fromType toType : Ty) (isSlice : Bool) :
    ∀ (idxs : List Nat) (dst : Value) (t1 t2 : List Event),
      (copyLoop env (muted nested) opts src fromType toType isSlice idxs dst t1).mute
        = (copyLoop env nested opts src fromType toType isSlice idxs dst t2).mute
  | [], _, _, _ => rfl
  | i :: rest, dst, t1, t2 => by
    rw [copyLoop, copyLoop, elemStart_trace src toType isSlice i dst t1,
      elemStart_trace src toType isSlice i dst t2]
    cases elemStart src toType isSlice i dst [] with
    | none => rfl
    | some st0 =>
      simp only [Option.map_some']
      have h := copyElem_erase env nested opts fromType toType st0.dest st0.source t1 t2
      cases h1 : copyElem env (muted nested) opts fromType toType
          ⟨st0.dest, st0.source, t1⟩ with
      | panic =>
        rw [h1] at h
        cases h2 : copyElem env nested opts fromType toType ⟨st0.dest, st0.source, t2⟩ <;>
          rw [h2] at h <;> simp [ElemOutcome.erase] at h ⊢
      | outOfFuel =>
        rw [h1] at h
        cases h2 : copyElem env nested opts fromType toType ⟨st0.dest, st0.source, t2⟩ <;>
          rw [h2] at h <;> simp [ElemOutcome.erase] at h ⊢
      | failed e st1 =>
        rw [h1] at h
        cases h2 : copyElem env nested opts fromType toType
            ⟨st0.dest, st0.source, t2⟩ with
        | panic => rw [h2] at h; simp [ElemOutcome.erase] at h
        | outOfFuel => rw [h2] at h; simp [ElemOutcome.erase] at h
        | done st2 => rw [h2] at h; simp [ElemOutcome.erase] at h
        | failed e2 st2 =>
          rw [h2] at h
          simp only [ElemOutcome.erase, ElemOutcome.failed.injEq, ElemState.mk.injEq,
            and_true] at h
          obtain ⟨he, hd, hs⟩ := h
          simp only [he, hd]
          cases isSlice with
          | true => rfl
          | false =>
            simp only [Bool.false_eq_true, if_false]
            cases st2.dest.val <;> rfl
      | done st1 =>
        rw [h1] at h
        cases h2 : copyElem env nested opts fromType toType
            ⟨st0.dest, st0.source, t2⟩ with
        | panic => rw [h2] at h; simp [ElemOutcome.erase] at h
        | outOfFuel => rw [h2] at h; simp [ElemOutcome.erase] at h
        | failed e2 st2 => rw [h2] at h; simp [ElemOutcome.erase] at h
        | done st2 =>
          rw [h2] at h
          simp only [ElemOutcome.erase, ElemOutcome.done.injEq, ElemState.mk.injEq,
            and_true] at h
          obtain ⟨hd, hs⟩ := h
          simp only [hd]
          cases st2.dest.val with
          | none =>
            simp only
            cases isSlice with
            | true => rfl
            | false =>
              simp only [Bool.false_eq_true, if_false]
              exact copyLoop_mute env nested opts src fromType toType false rest dst _ _
          | some dv =>
            simp only
            cases isSlice with
            | true =>
              simp only [if_true]
              exact copyLoop_mute env nested opts src fromType toType true rest _ _ _
            | false =>
              simp only [Bool.false_eq_true, if_false]
              exact copyLoop_mute env nested opts src fromType toType false rest _ _ _

theorem rewrap_mute (root : Value) (o1 o2 : Outcome) (h : o1.mute = o2.mute) :
    (o1.rewrap root).mute = (o2.rewrap root).mute := by
  cases o1 with
  | panic => cases o2 <;> simp [Outcome.mute] at h ⊢
  | outOfFuel => cases o2 <;> simp [Outcome.mute] at h ⊢
  | returned e1 t1 tr1 =>
    cases o2 with
    | panic => simp [Outcome.mute] at h
    | outOfFuel => simp [Outcome.mute] at h
    | returned e2 t2 tr2 =>
      simp only [Outcome.mute, Outcome.returned.injEq, and_true] at h
      obtain ⟨he, ht⟩ := h
      subst he; subst ht
      cases t1 <;> rfl

/-- The body of `Copy` run with muted nested calls returns the same error and
leaves the same destination as with the nested calls themselves. -/
theorem copyBody_mute (env : Env) (nested : Value → Value → Outcome)
    (toValue fromValue : Option Value) (flags : List CopyOption) :
    (copyBody env (muted nested) toValue fromValue flags).mute
      = (copyBody env nested toValue fromValue flags).mute := by
  unfold copyBody
  simp only
  split
  · rfl
  · split
    · rfl
    · split
      · split
        · rfl
        · split
          · rfl
          · exact rewrap_mute _ _ _ (copyLoop_mute env nested _ _ _ _ _ _ _ _ _)
      · rfl

/-- One iteration of the main loop, with muted nested calls: the number of calls
of the destination method `F` with one argument that the iteration adds. -/
theorem copyElem_setter_calls (env : Env) (hp : env.TypePreserving)
    (nested : Value → Value → Outcome) (opts : Options) (fromType toType : Ty)
    (dn : String) (fs : List StructField) (F : String) (st st2 : ElemState)
    (hinv : DestInv dn fs st)
    (h : copyElem env (muted nested) opts fromType toType st = .done st2) :
    (∀ i1 f1 x m in0, st.source.FieldByName F = .valid i1 f1 x →
        structFieldByName fs F = none →
        methodByName env (.struct dn fs) true F = some m →
        m.ins = [in0] → (typeOf x).AssignableTo in0 = true →
        setterCalls (.struct dn fs) F st2.trace
            = setterCalls (.struct dn fs) F st.trace + occurrences F (deepFields fromType)
          ∧ ∀ ev ∈ st2.trace, isSetterCall (.struct dn fs) F ev = true →
              ev ∈ st.trace ∨ ev = Event.call (.struct dn fs) F [x])
      ∧ ((structFieldByName fs F ≠ none
            ∨ st.source.FieldByName F = .invalid
            ∨ methodByName env (.struct dn fs) true F = none
            ∨ ∃ m, methodByName env (.struct dn fs) true F = some m
                ∧ (m.ins.length ≠ 1
                    ∨ ∃ in0 i1 f1 x, m.ins = [in0]
                        ∧ st.source.FieldByName F = .valid i1 f1 x
                        ∧ (typeOf x).AssignableTo in0 = false)) →
          setterCalls (.struct dn fs) F st2.trace
            = setterCalls (.struct dn fs) F st.trace) := by
  unfold copyElem at h
  cases h1 : forFields (fieldToField env (muted nested) opts) (deepFields fromType) st with
  | panic => rw [h1] at h; simp at h
  | outOfFuel => rw [h1] at h; simp at h
  | failed e st1 => rw [h1] at h; simp at h
  | done st1 =>
    rw [h1] at h
    simp only at h
    obtain ⟨hc2, hev2⟩ := forFields_method_calls env (.struct dn fs) F (deepFields toType)
      st1 st2 h
    refine ⟨?_, ?_⟩
    · intro i1 f1 x m in0 hsrc hnof hm hins hass
      obtain ⟨hc1, hev1⟩ := forFields_setter_count env hp nested opts dn fs F st.source
        i1 f1 x m in0 hsrc hnof hm hins hass (deepFields fromType) st st1 hinv rfl h1
      exact ⟨by rw [hc2, hc1], fun ev hmem hsc => hev1 ev (hev2 ev hmem hsc) hsc⟩
    · intro hno
      rw [hc2]
      exact forFields_setter_none env hp nested opts dn fs F st.source hno
        (deepFields fromType) st st1 hinv rfl h1

theorem FieldByName_valid_struct (f : Value) (a : Bool) (name : String) (i : List Nat)
    (g : StructField) (x : Value)
    (h : RValue.FieldByName ⟨some f, a⟩ name = .valid i g x) :
    (indirectType (typeOf f)).kind = Kind.struct := by
  obtain ⟨n, fvs, hv, _, _⟩ := FieldByName_valid _ _ _ _ _ h
  simp only [Option.some.injEq] at hv
  rw [hv]
  rfl

/-- A whole call of `Copy` into a single struct that returns nil: the number of
calls of the destination method `F` with one argument that the call itself
makes. -/
theorem CopyDirect_setter_calls (env : Env) (hp : env.TypePreserving) (root : Value)
    (fromValue : Option Value) (flags : List CopyOption) (dn : String)
    (dfvs : List FieldValue) (f : Value) (a : Bool) (F : String)
    (tv : Option Value) (tr : List Event)
    (hto : indirect (ValueOf (some root)) = ⟨some (.struct dn dfvs), true⟩)
    (hfrom : indirect (ValueOf fromValue) = ⟨some f, a⟩)
    (hassign : (typeOf f).AssignableTo (typeOf (.struct dn dfvs)) = false)
    (hres : CopyDirect env (some root) fromValue flags = .returned none tv tr) :
    (∀ i1 f1 x m in0, RValue.FieldByName ⟨some f, a⟩ F = .valid i1 f1 x →
        structFieldByName (dfvs.map FieldValue.field) F = none →
        methodByName env (typeOf (.struct dn dfvs)) true F = some m →
        m.ins = [in0] → (typeOf x).AssignableTo in0 = true →
        setterCalls (typeOf (.struct dn dfvs)) F tr
            = occurrences F (deepFields (indirectType (typeOf f)))
          ∧ ∀ ev ∈ tr, isSetterCall (typeOf (.struct dn dfvs)) F ev = true →
              ev = Event.call (typeOf (.struct dn dfvs)) F [x])
      ∧ ((structFieldByName (dfvs.map FieldValue.field) F ≠ none
            ∨ RValue.FieldByName ⟨some f, a⟩ F = .invalid
            ∨ methodByName env (typeOf (.struct dn dfvs)) true F = none
            ∨ ∃ m, methodByName env (typeOf (.struct dn dfvs)) true F = some m
                ∧ (m.ins.length ≠ 1
                    ∨ ∃ in0 i1 f1 x, m.ins = [in0]
                        ∧ RValue.FieldByName ⟨some f, a⟩ F = .valid i1 f1 x
                        ∧ (typeOf x).AssignableTo in0 = false)) →
          setterCalls (typeOf (.struct dn dfvs)) F tr = 0) := by
  have hfk : f.kind ≠ Kind.ptr := indirect_kind _ f a hfrom
  have htk : (Value.struct dn dfvs).kind ≠ Kind.ptr := by simp [Value.kind, typeOf, Ty.kind]
  have hsl : ((Value.struct dn dfvs).kind == Kind.slice) = false := by
    simp [Value.kind, typeOf, Ty.kind]
  have hkt : (indirectType (typeOf (Value.struct dn dfvs))).kind = Kind.struct := rfl
  have hty : typeOf (Value.struct dn dfvs) = .struct dn (dfvs.map FieldValue.field) := rfl
  unfold CopyDirect copyBody at hres
  simp only [hto, hfrom, RValue.CanAddr, hassign, Bool.not_true, Bool.false_eq_true,
    if_false, hkt] at hres
  by_cases hkf : (indirectType (typeOf f)).kind = Kind.struct
  · simp only [hkf, bne_self_eq_false, Bool.or_self, Bool.false_eq_true, if_false, hsl,
      Bool.false_and] at hres
    have hr1 : List.range 1 = [0] := rfl
    rw [hr1, copyLoop_single env _ _ _ _ a _ _ hfk htk] at hres
    cases hce : copyElem env
        (muted (fun tv fv => Copy env (some tv) (some fv) [])) (createOptions flags)
        (indirectType (typeOf f)) (indirectType (typeOf (Value.struct dn dfvs)))
        ⟨⟨some (.struct dn dfvs), true⟩, ⟨some f, a⟩, []⟩ with
    | panic => rw [hce] at hres; simp [Outcome.rewrap] at hres
    | outOfFuel => rw [hce] at hres; simp [Outcome.rewrap] at hres
    | failed e st =>
      rw [hce] at hres
      cases hd : st.dest.val <;> simp [hd, Outcome.rewrap] at hres
    | done st =>
      rw [hce] at hres
      have htr : st.trace = tr := by
        cases hd : st.dest.val <;> simp [hd, Outcome.rewrap] at hres <;> exact hres.2
      obtain ⟨hyes, hno⟩ := copyElem_setter_calls env hp _ (createOptions flags) _ _ dn
        (dfvs.map FieldValue.field) F _ st ⟨dfvs, rfl, rfl⟩ hce
      rw [hty, ← htr]
      refine ⟨?_, ?_⟩
      · intro i1 f1 x m in0 h1 h2 h3 h4 h5
        obtain ⟨hc, hev⟩ := hyes i1 f1 x m in0 h1 h2 h3 h4 h5
        refine ⟨by rw [hc]; simp [setterCalls], ?_⟩
        intro ev hmem hsc
        rcases hev ev hmem hsc with h6 | h6
        · simp at h6
        · exact h6
      · intro h1
        rw [hno h1]
        simp [setterCalls]
  · have hb : ((indirectType (typeOf f)).kind != Kind.struct) = true := by simp [hkf]
    simp only [hb, Bool.true_or, if_true, Outcome.returned.injEq, true_and] at hres
    rw [← hres.2]
    refine ⟨?_, fun _ => by simp [setterCalls]⟩
    intro i1 f1 x m in0 h1
    exact absurd (FieldByName_valid_struct f a F i1 f1 x h1) hkf

theorem tallyEnv_TypePreserving : tallyEnv.TypePreserving := by
  intro ty m recv args hm hty
  simp only [tallyEnv] at hm
  split at hm
  · simp only [List.mem_singleton] at hm
    rw [hm]
    simp only [methodA]
    split
    · rw [← hty]
      rfl
    · exact hty
  · simp at hm

/-- C13, as the code has it. The calls of a destination setter are counted in
the trace of `Copy` run with muted nested calls, which returns the same error
and leaves the same destination as `Copy` and records the calls this call of
`Copy` makes itself. For one copied element whose copy completes, and a name
`F`: when the lookup of `F` in the source finds a value `x`, the destination
struct has no field `F`, and the destination has a method `F` with exactly one
parameter to whose type the type of `x` is assignable, the method `F` is called
with one argument once for each occurrence of the name `F` among the flattened
source fields, and each of these calls passes `x`. When the destination has a
field `F`, or the source has no field `F`, or the destination has no method
`F`, or the method does not take exactly one parameter, or its parameter type
does not accept `x`, the method `F` is not called with one argument at all. The
same holds for a whole call of `Copy` into a single struct that returns nil:
the number of calls is the number of occurrences of `F`, or zero. -/
theorem Copy_setter_calls (env : Env) (hp : env.TypePreserving) :
    (∀ toValue fromValue flags,
        (CopyDirect env toValue fromValue flags).mute
          = (Copy env toValue fromValue flags).mute)
    ∧ (∀ (nested : Value → Value → Outcome) (opts : Options) (fromType toType : Ty)
        (dn : String) (fs : List StructField) (F : String) (st st2 : ElemState),
        DestInv dn fs st →
        copyElem env (muted nested) opts fromType toType st = .done st2 →
        (∀ i1 f1 x m in0, st.source.FieldByName F = .valid i1 f1 x →
            structFieldByName fs F = none →
            methodByName env (.struct dn fs) true F = some m →
            m.ins = [in0] → (typeOf x).AssignableTo in0 = true →
            setterCalls (.struct dn fs) F st2.trace
                = setterCalls (.struct dn fs) F st.trace
                    + occurrences F (deepFields fromType)
              ∧ ∀ ev ∈ st2.trace, isSetterCall (.struct dn fs) F ev = true →
                  ev ∈ st.trace ∨ ev = Event.call (.struct dn fs) F [x])
          ∧ ((structFieldByName fs F ≠ none
                ∨ st.source.FieldByName F = .invalid
                ∨ methodByName env (.struct dn fs) true F = none
                ∨ ∃ m, methodByName env (.struct dn fs) true F = some m
                    ∧ (m.ins.length ≠ 1
                        ∨ ∃ in0 i1 f1 x, m.ins = [in0]
                            ∧ st.source.FieldByName F = .valid i1 f1 x
                            ∧ (typeOf x).AssignableTo in0 = false)) →
              setterCalls (.struct dn fs) F st2.trace
                = setterCalls (.struct dn fs) F st.trace))
    ∧ (∀ (root : Value) (fromValue : Option Value) (flags : List CopyOption)
        (dn : String) (dfvs : List FieldValue) (f : Value) (a : Bool) (F : String)
        (tv : Option Value) (tr : List Event),
        indirect (ValueOf (some root)) = ⟨some (.struct dn dfvs), true⟩ →
        indirect (ValueOf fromValue) = ⟨some f, a⟩ →
        (typeOf f).AssignableTo (typeOf (.struct dn dfvs)) = false →
        CopyDirect env (some root) fromValue flags = .returned none tv tr →
        (∀ i1 f1 x m in0, RValue.FieldByName ⟨some f, a⟩ F = .valid i1 f1 x →
            structFieldByName (dfvs.map FieldValue.field) F = none →
            methodByName env (typeOf (.struct dn dfvs)) true F = some m →
            m.ins = [in0] → (typeOf x).AssignableTo in0 = true →
            setterCalls (typeOf (.struct dn dfvs)) F tr
                = occurrences F (deepFields (indirectType (typeOf f)))
              ∧ ∀ ev ∈ tr, isSetterCall (typeOf (.struct dn dfvs)) F ev = true →
                  ev = Event.call (typeOf (.struct dn dfvs)) F [x])
          ∧ ((structFieldByName (dfvs.map FieldValue.field) F ≠ none
                ∨ RValue.FieldByName ⟨some f, a⟩ F = .invalid
                ∨ methodByName env (typeOf (.struct dn dfvs)) true F = none
                ∨ ∃ m, methodByName env (typeOf (.struct dn dfvs)) true F = some m
                    ∧ (m.ins.length ≠ 1
                        ∨ ∃ in0 i1 f1 x, m.ins = [in0]
                            ∧ RValue.FieldByName ⟨some f, a⟩ F = .valid i1 f1 x
                            ∧ (typeOf x).AssignableTo in0 = false)) →
              setterCalls (typeOf (.struct dn dfvs)) F tr = 0)) :=
  ⟨fun toValue fromValue flags => by
      rw [Copy_unfold env toValue fromValue flags]
      exact copyBody_mute env _ toValue fromValue flags,
    fun nested opts fromType toType dn fs F st st2 hinv h =>
      copyElem_setter_calls env hp nested opts fromType toType dn fs F st st2 hinv h,
    fun root fromValue flags dn dfvs f a F tv tr hto hfrom hassign hres =>
      CopyDirect_setter_calls env hp root fromValue flags dn dfvs f a F tv tr hto hfrom
        hassign hres⟩

theorem Copy_setter_calls_witness :
    tallyEnv.TypePreserving
      ∧ CopyDirect tallyEnv (some (Value.ptr tallyType (some (zero tallyType))))
          (some outerOne) []
        = .returned none
            (some (Value.ptr tallyType (some (.struct "Tally"
              [.mk (fld "Calls" .int) (.int 2), .mk (fld "Sum" .int) (.int 2)]))))
            [Event.call tallyType "A" [Value.int 1], Event.call tallyType "A" [Value.int 1]]
      ∧ occurrences "A" (deepFields (indirectType (typeOf outerOne))) = 2
      ∧ (setterCalls (typeOf (zero tallyType)) "A"
            [Event.call tallyType "A" [Value.int 1], Event.call tallyType "A" [Value.int 1]]
          = occurrences "A" (deepFields (indirectType (typeOf outerOne)))
        ∧ ∀ ev ∈ [Event.call tallyType "A" [Value.int 1],
              Event.call tallyType "A" [Value.int 1]],
            isSetterCall (typeOf (zero tallyType)) "A" ev = true →
              ev = Event.call (typeOf (zero tallyType)) "A" [Value.int 1]) :=
  ⟨tallyEnv_TypePreserving, rfl, rfl,
    ((Copy_setter_calls tallyEnv tallyEnv_TypePreserving).2.2
      (Value.ptr tallyType (some (zero tallyType))) (some outerOne) [] "Tally"
      [.mk (fld "Calls" .int) (.int 0), .mk (fld "Sum" .int) (.int 0)] outerOne false "A"
      (some (Value.ptr tallyType (some (.struct "Tally"
        [.mk (fld "Calls" .int) (.int 2), .mk (fld "Sum" .int) (.int 2)]))))
      [Event.call tallyType "A" [Value.int 1], Event.call tallyType "A" [Value.int 1]]
      rfl rfl rfl rfl).1 [0] (fld "A" .int) (Value.int 1) methodA .int rfl rfl rfl rfl rfl⟩

/-- C13, counterexample. The source `Outer{A: 1, Base{A: "in"}}` has the name `A`
twice in its flattened fields; the destination `Tally` has no field `A` and a
method `A(int)`. One element is copied and the method is invoked twice, both
times with the value 1 of the outer field `A`: `Calls` ends at 2. -/
theorem Copy_setter_invoked_twice :
    deepFields (typeOf outerOne) = [fld "A" .int, fld "A" .string]
      ∧ Copy tallyEnv (some (Value.ptr tallyType (some (zero tallyType)))) (some outerOne) []
        = .returned none
            (some (Value.ptr tallyType (some (.struct "Tally"
              [.mk (fld "Calls" .int) (.int 2), .mk (fld "Sum" .int) (.int 2)]))))
            [Event.call tallyType "A" [Value.int 1], Event.call tallyType "A" [Value.int 1]] :=
  ⟨rfl, rfl⟩

/-! ## C11: a field contributed by an embedded member -/

theorem convert_typeOf (v : Value) (t : Ty)
    (h : (typeOf v).ConvertibleTo t = true) : typeOf (convert v t) = t := by
  cases t with
  | struct n fs =>
    cases v with
    | struct m fvs =>
      have hkk : (Kind.struct == Kind.ptr) = false := rfl
      simp only [Ty.ConvertibleTo, typeOf, Ty.kind, Kind.isInt, haveIdenticalUnderlyingType,
        Bool.false_and, Bool.false_or, Bool.or_false, hkk] at h
      simp only [convert, typeOf]
      rw [Ty.eq_of_beqFields _ _ h]
    | _ => simp [Ty.ConvertibleTo, typeOf, Ty.kind, Kind.isInt, haveIdenticalUnderlyingType,
        Ty.beq] at h
  | ptr e =>
    cases v <;>
      simp [Ty.ConvertibleTo, typeOf, Ty.kind, Kind.isInt, haveIdenticalUnderlyingType,
        Ty.beq, convert] at h ⊢
  | slice e =>
    cases v with
    | slice e2 vs =>
      have hkk : (Kind.slice == Kind.ptr) = false := rfl
      simp only [Ty.ConvertibleTo, typeOf, Ty.kind, Kind.isInt, haveIdenticalUnderlyingType,
        Ty.beq, Bool.false_and, Bool.false_or, Bool.or_false, hkk] at h
      simp only [convert, typeOf]
      rw [Ty.eq_of_beq _ _ h]
    | _ => simp [Ty.ConvertibleTo, typeOf, Ty.kind, Kind.isInt, haveIdenticalUnderlyingType,
        Ty.beq] at h
  | map k e =>
    cases v with
    | map k2 e2 vs =>
      have hkk : (Kind.map == Kind.ptr) = false := rfl
      simp only [Ty.ConvertibleTo, typeOf, Ty.kind, Kind.isInt, haveIdenticalUnderlyingType,
        Bool.false_and, Bool.false_or, Bool.or_false, hkk] at h
      simp only [convert, typeOf]
      rw [Ty.eq_of_beq _ _ h]
    | _ => simp [Ty.ConvertibleTo, typeOf, Ty.kind, Kind.isInt, haveIdenticalUnderlyingType,
        Ty.beq] at h
  | bool =>
    cases v <;>
      simp [Ty.ConvertibleTo, typeOf, Ty.kind, Kind.isInt, haveIdenticalUnderlyingType,
        Ty.beq, convert] at h ⊢
  | int =>
    cases v <;>
      simp [Ty.ConvertibleTo, typeOf, Ty.kind, Kind.isInt, haveIdenticalUnderlyingType,
        Ty.beq, convert] at h ⊢
  | int8 =>
    cases v <;>
      simp [Ty.ConvertibleTo, typeOf, Ty.kind, Kind.isInt, haveIdenticalUnderlyingType,
        Ty.beq, convert] at h ⊢
  | string =>
    cases v <;>
      simp [Ty.ConvertibleTo, typeOf, Ty.kind, Kind.isInt, haveIdenticalUnderlyingType,
        Ty.beq, convert] at h ⊢

theorem PathFrame_lookup (dn : String) (fs : List StructField) (p : List Nat)
    (v : Value) (sTy : Ty) (a : Bool) (st : ElemState)
    (hinv : PathFrame dn fs p v sTy a st) (name : String) (g : StructField)
    (hlook : structFieldByName fs name = some (p, g)) :
    st.dest.FieldByName name = .valid p g v := by
  obtain ⟨⟨fvs, hd, hmap, hx⟩, _, _⟩ := hinv
  unfold RValue.FieldByName
  simp only [hd, hmap, hlook, hx]

/-- A store at the path `p` itself: `p` leads to the stored value. -/
theorem PathFrame_store_same (dn : String) (fs : List StructField) (p : List Nat)
    (v : Value) (sTy : Ty) (a : Bool) (st : ElemState)
    (hinv : PathFrame dn fs p v sTy a st) (name : String) (g : StructField)
    (hlook : structFieldByName fs name = some (p, g)) (w : Value) (tr : List Event)
    (src2 : RValue) (ha2 : src2.flagAddr = a)
    (hs2 : ∀ s, src2.val = some s → typeOf s = sTy) :
    PathFrame dn fs p w sTy a ⟨st.dest.store p w, src2, tr⟩ := by
  obtain ⟨⟨fvs, hd, hmap, hx⟩, _, _⟩ := hinv
  obtain ⟨j, rest, g2, hidx, _, _⟩ := structFieldByName_head fs name p g hlook
  obtain ⟨fvs2, h1, h2, _, _⟩ := storeByIndex_struct dn fvs j rest w
  refine ⟨⟨fvs2, ?_, by rw [h2, hmap], ?_⟩, ha2, hs2⟩
  · simp only [RValue.store, hd, Option.map_some', hidx, h1]
  · rw [← h1, ← hidx, storeByIndex_struct_rest]
    have hold2 : fieldByIndexRest (.struct dn fvs) p = some v := by
      rw [← FieldByIndex_struct]; exact hx
    have := fieldRest_storeRest_same p (.struct dn fvs) v w hold2
    rw [← this, ← storeByIndex_struct_rest, hidx, h1]
    exact FieldByIndex_struct dn fvs2 _

/-- The body of the first loop for the name of a settable destination field at
the path `p` whose value has a type that is not a pointer and to which the type
of the source value converts: it completes and `p` leads to the converted
source value. -/
theorem fieldToField_path_set (env : Env) (nested : Value → Value → Outcome)
    (opts : Options) (dn : String) (fs : List StructField) (p : List Nat) (v : Value)
    (sTy : Ty) (a : Bool) (field : StructField) (st : ElemState)
    (hinv : PathFrame dn fs p v sTy a st)
    (i1 : List Nat) (f1 : StructField) (x : Value)
    (hsrc : st.source.FieldByName field.name = .valid i1 f1 x)
    (g : StructField) (hlook : structFieldByName fs field.name = some (p, g))
    (hex : exported g.name = true) (hk : v.kind ≠ Kind.ptr)
    (hc : (typeOf x).ConvertibleTo (typeOf v) = true) :
    ∃ st2, fieldToField env nested opts field st = .done st2
      ∧ PathFrame dn fs p (convert x (typeOf v)) sTy a st2
      ∧ st2.source = st.source := by
  have hdst := PathFrame_lookup dn fs p v sTy a st hinv field.name g hlook
  have hinv0 := hinv
  obtain ⟨⟨fvs, hd, hmap, hx⟩, ha, hs⟩ := hinv
  have hca : st.dest.CanAddr = true := by rw [hd]; rfl
  refine ⟨⟨st.dest.store p (convert x (typeOf v)), st.source, st.trace ++ []⟩, ?_, ?_, rfl⟩
  · unfold fieldToField
    simp only [hsrc, hdst, hca, hex, Bool.and_self, if_true,
      convert_target x v env false [opts] hk hc]
  · exact PathFrame_store_same dn fs p v sTy a st hinv0 field.name g hlook _ _ _ ha hs

theorem kind_of_typeOf (v w : Value) (h : typeOf v = typeOf w) (hk : w.kind ≠ Kind.ptr) :
    v.kind ≠ Kind.ptr := by
  simp only [Value.kind] at hk ⊢
  rw [h]; exact hk

/-- The first loop keeps at the path `p` a value of the type `T`, when `T` is not
a pointer type and the type of the source value of the name `X` converts to it,
`X` resolves to `p`, every other name resolves to a path that parts ways with
`p`, and no destination method is named after a field the loop ranges over. -/
theorem forFields_path_typed (env : Env) (nested : Value → Value → Outcome)
    (opts : Options) (dn : String) (fs : List StructField) (p : List Nat)
    (sTy : Ty) (a : Bool) (src : RValue) (X : String) (T : Ty)
    (i1 : List Nat) (f1 : StructField) (x : Value)
    (hsrc : src.FieldByName X = .valid i1 f1 x)
    (g : StructField) (hlook : structFieldByName fs X = some (p, g))
    (hex : exported g.name = true) (hk : T.kind ≠ Kind.ptr)
    (hc : (typeOf x).ConvertibleTo T = true)
    (l : List StructField)
    (hsetter : ∀ fd ∈ l, methodByName env (.struct dn fs) true fd.name = none)
    (hdiv : ∀ fd ∈ l, fd.name ≠ X → ∀ q h,
      structFieldByName fs fd.name = some (q, h) → diverge q p = true)
    (st : ElemState)
    (hinv : st.source = src ∧ ∃ v, typeOf v = T ∧ PathFrame dn fs p v sTy a st)
    (st2 : ElemState)
    (h : forFields (fieldToField env nested opts) l st = .done st2
          ∨ ∃ e, forFields (fieldToField env nested opts) l st = .failed e st2) :
    st2.source = src ∧ ∃ v, typeOf v = T ∧ PathFrame dn fs p v sTy a st2 := by
  refine forFields_inv (fieldToField env nested opts)
    (fun s => s.source = src ∧ ∃ v, typeOf v = T ∧ PathFrame dn fs p v sTy a s) l ?_
    st hinv st2 h
  intro fd hfd s hs s2 hstep
  obtain ⟨hsrc1, v, hv, hpf⟩ := hs
  have hsrc2 : s2.source = src := by
    rw [fieldToField_source env nested opts fd s s2 hstep]; exact hsrc1
  refine ⟨hsrc2, ?_⟩
  by_cases hname : fd.name = X
  · have hkv : v.kind ≠ Kind.ptr := by simp only [Value.kind]; rw [hv]; exact hk
    obtain ⟨s3, h3, hpf3, _⟩ := fieldToField_path_set env nested opts dn fs p v sTy a fd s
      hpf i1 f1 x (by rw [hsrc1, hname]; exact hsrc) g (by rw [hname]; exact hlook) hex hkv
      (by rw [hv]; exact hc)
    rw [h3] at hstep
    simp only [ElemOutcome.done.injEq, reduceCtorEq, exists_false, or_false] at hstep
    rw [← hstep]
    exact ⟨_, convert_typeOf x (typeOf v) (by rw [hv]; exact hc) |>.trans hv, hpf3⟩
  · exact ⟨v, hv, fieldToField_pathframe env nested opts dn fs p v sTy a fd s hpf
      (hdiv fd hfd hname) (hsetter fd hfd) s2 hstep⟩

/-- The first loop, once the converted source value is at the path `p`, keeps it
there. -/
theorem forFields_path_kept (env : Env) (nested : Value → Value → Outcome)
    (opts : Options) (dn : String) (fs : List StructField) (p : List Nat)
    (sTy : Ty) (a : Bool) (src : RValue) (X : String) (T : Ty)
    (i1 : List Nat) (f1 : StructField) (x : Value)
    (hsrc : src.FieldByName X = .valid i1 f1 x)
    (g : StructField) (hlook : structFieldByName fs X = some (p, g))
    (hex : exported g.name = true) (hk : T.kind ≠ Kind.ptr)
    (hc : (typeOf x).ConvertibleTo T = true)
    (l : List StructField)
    (hsetter : ∀ fd ∈ l, methodByName env (.struct dn fs) true fd.name = none)
    (hdiv : ∀ fd ∈ l, fd.name ≠ X → ∀ q h,
      structFieldByName fs fd.name = some (q, h) → diverge q p = true)
    (st : ElemState)
    (hinv : st.source = src ∧ PathFrame dn fs p (convert x T) sTy a st)
    (st2 : ElemState)
    (h : forFields (fieldToField env nested opts) l st = .done st2
          ∨ ∃ e, forFields (fieldToField env nested opts) l st = .failed e st2) :
    st2.source = src ∧ PathFrame dn fs p (convert x T) sTy a st2 := by
  refine forFields_inv (fieldToField env nested opts)
    (fun s => s.source = src ∧ PathFrame dn fs p (convert x T) sTy a s) l ?_
    st hinv st2 h
  intro fd hfd s hs s2 hstep
  obtain ⟨hsrc1, hpf⟩ := hs
  have hsrc2 : s2.source = src := by
    rw [fieldToField_source env nested opts fd s s2 hstep]; exact hsrc1
  refine ⟨hsrc2, ?_⟩
  have hv : typeOf (convert x T) = T := convert_typeOf x T hc
  by_cases hname : fd.name = X
  · have hkv : (convert x T).kind ≠ Kind.ptr := by simp only [Value.kind]; rw [hv]; exact hk
    obtain ⟨s3, h3, hpf3, _⟩ := fieldToField_path_set env nested opts dn fs p (convert x T)
      sTy a fd s hpf i1 f1 x (by rw [hsrc1, hname]; exact hsrc) g
      (by rw [hname]; exact hlook) hex hkv (by rw [hv]; exact hc)
    rw [h3] at hstep
    simp only [ElemOutcome.done.injEq, reduceCtorEq, exists_false, or_false] at hstep
    rw [← hstep]
    rw [hv] at hpf3
    exact hpf3
  · exact fieldToField_pathframe env nested opts dn fs p (convert x T) sTy a fd s hpf
      (hdiv fd hfd hname) (hsetter fd hfd) s2 hstep

/-- The first loop, when it completes and the name `X` is among the fields it
ranges over, leaves the converted source value at the path `p`. -/
theorem forFields_path_value (env : Env) (nested : Value → Value → Outcome)
    (opts : Options) (dn : String) (fs : List StructField) (p : List Nat)
    (sTy : Ty) (a : Bool) (src : RValue) (X : String) (T : Ty)
    (i1 : List Nat) (f1 : StructField) (x : Value)
    (hsrc : src.FieldByName X = .valid i1 f1 x)
    (g : StructField) (hlook : structFieldByName fs X = some (p, g))
    (hex : exported g.name = true) (hk : T.kind ≠ Kind.ptr)
    (hc : (typeOf x).ConvertibleTo T = true)
    (l : List StructField) (hX : ∃ fd ∈ l, fd.name = X)
    (hsetter : ∀ fd ∈ l, methodByName env (.struct dn fs) true fd.name = none)
    (hdiv : ∀ fd ∈ l, fd.name ≠ X → ∀ q h,
      structFieldByName fs fd.name = some (q, h) → diverge q p = true)
    (st : ElemState)
    (hinv : st.source = src ∧ ∃ v, typeOf v = T ∧ PathFrame dn fs p v sTy a st)
    (st2 : ElemState)
    (h : forFields (fieldToField env nested opts) l st = .done st2) :
    st2.source = src ∧ PathFrame dn fs p (convert x T) sTy a st2 := by
  obtain ⟨fd, hfd, hname⟩ := hX
  obtain ⟨pre, post, hsplit⟩ := List.append_of_mem hfd
  rw [hsplit, forFields_append] at h
  have hpre : ∀ g2 ∈ pre, g2 ∈ l := fun g2 hg => by rw [hsplit]; simp [hg]
  have hpost : ∀ g2 ∈ post, g2 ∈ l := fun g2 hg => by rw [hsplit]; simp [hg]
  cases h1 : forFields (fieldToField env nested opts) pre st with
  | panic => rw [h1] at h; simp at h
  | outOfFuel => rw [h1] at h; simp at h
  | failed e s1 => rw [h1] at h; simp at h
  | done s1 =>
    rw [h1] at h
    simp only at h
    obtain ⟨hs1, v, hv, hpf⟩ := forFields_path_typed env nested opts dn fs p sTy a src X T
      i1 f1 x hsrc g hlook hex hk hc pre (fun g2 hg => hsetter g2 (hpre g2 hg))
      (fun g2 hg => hdiv g2 (hpre g2 hg)) st hinv s1 (Or.inl h1)
    rw [forFields] at h
    have hkv : v.kind ≠ Kind.ptr := by simp only [Value.kind]; rw [hv]; exact hk
    obtain ⟨s3, h3, hpf3, hs3⟩ := fieldToField_path_set env nested opts dn fs p v sTy a fd
      s1 hpf i1 f1 x (by rw [hs1, hname]; exact hsrc) g (by rw [hname]; exact hlook) hex hkv
      (by rw [hv]; exact hc)
    rw [h3] at h
    simp only at h
    rw [hv] at hpf3
    exact forFields_path_kept env nested opts dn fs p sTy a src X T i1 f1 x hsrc g hlook hex
      hk hc post (fun g2 hg => hsetter g2 (hpost g2 hg))
      (fun g2 hg => hdiv g2 (hpost g2 hg)) s3 ⟨by rw [hs3]; exact hs1, hpf3⟩ st2 (Or.inl h)

/-- A single-struct `Copy` past its entry checks, in terms of the one iteration
of its main loop. -/
theorem copyBody_single (env : Env) (nested : Value → Value → Outcome) (root : Value)
    (fromValue : Option Value) (flags : List CopyOption) (dn : String)
    (dfvs : List FieldValue) (f : Value) (a : Bool)
    (hto : indirect (ValueOf (some root)) = ⟨some (.struct dn dfvs), true⟩)
    (hfrom : indirect (ValueOf fromValue) = ⟨some f, a⟩)
    (hassign : (typeOf f).AssignableTo (typeOf (.struct dn dfvs)) = false)
    (hkf : (indirectType (typeOf f)).kind = Kind.struct) :
    copyBody env nested (some root) fromValue flags
      = (match copyElem env nested (createOptions flags) (indirectType (typeOf f))
            (indirectType (typeOf (Value.struct dn dfvs)))
            ⟨⟨some (.struct dn dfvs), true⟩, ⟨some f, a⟩, []⟩ with
        | .panic => Outcome.panic
        | .outOfFuel => Outcome.outOfFuel
        | .failed e st =>
          match st.dest.val with
          | some d => Outcome.returned (some e) (some d) st.trace
          | none => Outcome.returned (some e) (some (.struct dn dfvs)) st.trace
        | .done st =>
          match st.dest.val with
          | some d => Outcome.returned none (some d) st.trace
          | none => Outcome.returned none (some (.struct dn dfvs)) st.trace).rewrap root := by
  have hfk : f.kind ≠ Kind.ptr := indirect_kind _ f a hfrom
  have htk : (Value.struct dn dfvs).kind ≠ Kind.ptr := by simp [Value.kind, typeOf, Ty.kind]
  have hsl : ((Value.struct dn dfvs).kind == Kind.slice) = false := by
    simp [Value.kind, typeOf, Ty.kind]
  have hkt : (indirectType (typeOf (Value.struct dn dfvs))).kind = Kind.struct := rfl
  unfold copyBody
  simp only [hto, hfrom, RValue.CanAddr, hassign, Bool.not_true, Bool.false_eq_true,
    if_false, hkt, hkf, bne_self_eq_false, Bool.or_self, hsl, Bool.false_and]
  have hr1 : List.range 1 = [0] := rfl
  rw [hr1]
  refine congrArg (Outcome.rewrap root) ((copyLoop_single env _ _ _ _ a _ _ hfk htk).trans ?_)
  generalize copyElem env nested (createOptions flags) (indirectType (typeOf f))
    (indirectType (typeOf (Value.struct dn dfvs)))
    ⟨⟨some (.struct dn dfvs), true⟩, ⟨some f, a⟩, []⟩ = o
  cases o with
  | panic => rfl
  | outOfFuel => rfl
  | failed e st => cases h : st.dest.val <;> simp only [h]
  | done st => cases h : st.dest.val <;> simp only [h]

theorem copyBody_single_nil (env : Env) (nested : Value → Value → Outcome) (root : Value)
    (fromValue : Option Value) (flags : List CopyOption) (dn : String)
    (dfvs : List FieldValue) (f : Value) (a : Bool)
    (hto : indirect (ValueOf (some root)) = ⟨some (.struct dn dfvs), true⟩)
    (hfrom : indirect (ValueOf fromValue) = ⟨some f, a⟩)
    (hassign : (typeOf f).AssignableTo (typeOf (.struct dn dfvs)) = false)
    (hkf : (indirectType (typeOf f)).kind = Kind.struct)
    (root2 : Value) (tr : List Event)
    (h : copyBody env nested (some root) fromValue flags = .returned none (some root2) tr) :
    ∃ st, copyElem env nested (createOptions flags) (indirectType (typeOf f))
          (indirectType (typeOf (Value.struct dn dfvs)))
          ⟨⟨some (.struct dn dfvs), true⟩, ⟨some f, a⟩, []⟩ = .done st
      ∧ st.trace = tr ∧ ∀ d, st.dest.val = some d → root2 = storeIndirect root d := by
  rw [copyBody_single env nested root fromValue flags dn dfvs f a hto hfrom hassign hkf] at h
  cases hce : copyElem env nested (createOptions flags) (indirectType (typeOf f))
      (indirectType (typeOf (Value.struct dn dfvs)))
      ⟨⟨some (.struct dn dfvs), true⟩, ⟨some f, a⟩, []⟩ with
  | panic => rw [hce] at h; simp [Outcome.rewrap] at h
  | outOfFuel => rw [hce] at h; simp [Outcome.rewrap] at h
  | failed e st =>
    rw [hce] at h
    cases hd : st.dest.val <;> simp [hd, Outcome.rewrap] at h
  | done st =>
    rw [hce] at h
    refine ⟨st, rfl, ?_, ?_⟩
    · cases hd : st.dest.val <;> simp [hd, Outcome.rewrap] at h <;> exact h.2
    · intro d hd
      simp [hd, Outcome.rewrap] at h
      exact h.1.symm

theorem copyBody_single_done (env : Env) (nested : Value → Value → Outcome) (root : Value)
    (fromValue : Option Value) (flags : List CopyOption) (dn : String)
    (dfvs : List FieldValue) (f : Value) (a : Bool)
    (hto : indirect (ValueOf (some root)) = ⟨some (.struct dn dfvs), true⟩)
    (hfrom : indirect (ValueOf fromValue) = ⟨some f, a⟩)
    (hassign : (typeOf f).AssignableTo (typeOf (.struct dn dfvs)) = false)
    (hkf : (indirectType (typeOf f)).kind = Kind.struct)
    (st : ElemState) (d : Value)
    (hce : copyElem env nested (createOptions flags) (indirectType (typeOf f))
          (indirectType (typeOf (Value.struct dn dfvs)))
          ⟨⟨some (.struct dn dfvs), true⟩, ⟨some f, a⟩, []⟩ = .done st)
    (hd : st.dest.val = some d) :
    copyBody env nested (some root) fromValue flags
      = .returned none (some (storeIndirect root d)) st.trace := by
  rw [copyBody_single env nested root fromValue flags dn dfvs f a hto hfrom hassign hkf, hce]
  simp only [hd, Outcome.rewrap]

/-- The field at the path `p` after a single-struct `Copy` that returns nil: the
converted source value of the name `X`. -/
theorem structCopy_embedded_value (env : Env) (hp : env.TypePreserving) (root : Value)
    (fromValue : Option Value) (flags : List CopyOption) (dn : String)
    (dfvs : List FieldValue) (f : Value) (a : Bool)
    (hto : indirect (ValueOf (some root)) = ⟨some (.struct dn dfvs), true⟩)
    (hfrom : indirect (ValueOf fromValue) = ⟨some f, a⟩)
    (hassign : (typeOf f).AssignableTo (typeOf (.struct dn dfvs)) = false)
    (X : String) (i1 : List Nat) (f1 : StructField) (x : Value)
    (hsrc : RValue.FieldByName ⟨some f, a⟩ X = .valid i1 f1 x)
    (hX : ∃ fd ∈ deepFields (indirectType (typeOf f)), fd.name = X)
    (p : List Nat) (g : StructField) (old : Value)
    (hlook : structFieldByName (dfvs.map FieldValue.field) X = some (p, g))
    (hold : (Value.struct dn dfvs).FieldByIndex p = some old)
    (hex : exported g.name = true) (hk : old.kind ≠ Kind.ptr)
    (hc : (typeOf x).ConvertibleTo (typeOf old) = true)
    (hsetter : ∀ fd ∈ deepFields (indirectType (typeOf f)),
      methodByName env (typeOf (.struct dn dfvs)) true fd.name = none)
    (hdiv1 : ∀ fd ∈ deepFields (indirectType (typeOf f)), fd.name ≠ X → ∀ q h,
      structFieldByName (dfvs.map FieldValue.field) fd.name = some (q, h) →
      diverge q p = true)
    (hdiv2 : ∀ fd ∈ deepFields (indirectType (typeOf (Value.struct dn dfvs))), ∀ m,
      methodByName env (typeOf f) a fd.name = some m →
      (m.ins.length = 0 ∧ m.numOut = 1) →
      ∀ q h, structFieldByName (dfvs.map FieldValue.field) fd.name = some (q, h) →
        diverge q p = true)
    (root2 : Value) (tr : List Event)
    (hres : Copy env (some root) fromValue flags = .returned none (some root2) tr) :
    ∃ dfvs2, indirect (ValueOf (some root2)) = ⟨some (.struct dn dfvs2), true⟩
      ∧ dfvs2.map FieldValue.field = dfvs.map FieldValue.field
      ∧ (Value.struct dn dfvs2).FieldByIndex p = some (convert x (typeOf old)) := by
  have hkf := FieldByName_valid_struct f a X i1 f1 x hsrc
  rw [Copy_unfold] at hres
  obtain ⟨st, hce, _, hroot⟩ := copyBody_single_nil env _ root fromValue flags dn dfvs f a
    hto hfrom hassign hkf root2 tr hres
  unfold copyElem at hce
  have hkT : (typeOf old).kind ≠ Kind.ptr := hk
  cases h1 : forFields (fieldToField env (fun tv fv => Copy env (some tv) (some fv) [])
      (createOptions flags)) (deepFields (indirectType (typeOf f)))
      ⟨⟨some (.struct dn dfvs), true⟩, ⟨some f, a⟩, []⟩ with
  | panic => rw [h1] at hce; simp at hce
  | outOfFuel => rw [h1] at hce; simp at hce
  | failed e s1 => rw [h1] at hce; simp at hce
  | done s1 =>
    rw [h1] at hce
    simp only at hce
    obtain ⟨_, hpf1⟩ := forFields_path_value env _ (createOptions flags) dn
      (dfvs.map FieldValue.field) p (typeOf f) a ⟨some f, a⟩ X (typeOf old) i1 f1 x hsrc g
      hlook hex hkT hc _ hX hsetter hdiv1 _
      ⟨rfl, old, rfl, ⟨dfvs, rfl, rfl, hold⟩, rfl, fun s hs => by
        simp only [Option.some.injEq] at hs; rw [← hs]⟩ s1 h1
    have hpf2 := forFields_inv (methodToField env)
      (PathFrame dn (dfvs.map FieldValue.field) p (convert x (typeOf old)) (typeOf f) a)
      (deepFields (indirectType (typeOf (Value.struct dn dfvs))))
      (fun fd hfd s hs s2 hstep =>
        methodToField_pathframe env hp dn _ p _ (typeOf f) a fd s hs (hdiv2 fd hfd) s2 hstep)
      s1 hpf1 st (Or.inl hce)
    obtain ⟨⟨fvs, hdest, hmap, hxx⟩, _, _⟩ := hpf2
    refine ⟨fvs, ?_, hmap, hxx⟩
    rw [hroot (.struct dn fvs) (by rw [hdest])]
    exact indirect_storeIndirect root _ _ true hto (by simp [Value.kind, typeOf, Ty.kind])

/-- An error returned by a single-struct `Copy` is not caused by the field at the
path `p`: it comes from a nested copy for a field of another name. -/
theorem structCopy_embedded_error (env : Env) (root : Value)
    (fromValue : Option Value) (flags : List CopyOption) (dn : String)
    (dfvs : List FieldValue) (f : Value) (a : Bool)
    (hto : indirect (ValueOf (some root)) = ⟨some (.struct dn dfvs), true⟩)
    (hfrom : indirect (ValueOf fromValue) = ⟨some f, a⟩)
    (X : String) (i1 : List Nat) (f1 : StructField) (x : Value)
    (hsrc : RValue.FieldByName ⟨some f, a⟩ X = .valid i1 f1 x)
    (p : List Nat) (g : StructField) (old : Value)
    (hlook : structFieldByName (dfvs.map FieldValue.field) X = some (p, g))
    (hold : (Value.struct dn dfvs).FieldByIndex p = some old)
    (hex : exported g.name = true) (hk : old.kind ≠ Kind.ptr)
    (hc : (typeOf x).ConvertibleTo (typeOf old) = true)
    (hsetter : ∀ fd ∈ deepFields (indirectType (typeOf f)),
      methodByName env (typeOf (.struct dn dfvs)) true fd.name = none)
    (hdiv1 : ∀ fd ∈ deepFields (indirectType (typeOf f)), fd.name ≠ X → ∀ q h,
      structFieldByName (dfvs.map FieldValue.field) fd.name = some (q, h) →
      diverge q p = true)
    (e : CopyError) (tv : Option Value) (tr : List Event)
    (hres : Copy env (some root) fromValue flags = .returned (some e) tv tr) :
    ∃ name, name ≠ X
      ∧ FailedNestedAt env (fun tv fv => Copy env (some tv) (some fv) []) (some root)
          fromValue flags e name := by
  rw [Copy_unfold] at hres
  rcases copyBody_error env _ (some root) fromValue flags e tv tr hres with h | h
  · rw [hto] at h; simp [RValue.CanAddr] at h
  · obtain ⟨name, hF⟩ := h
    refine ⟨name, ?_, hF⟩
    intro hname
    obtain ⟨t, f2, a2, i, tr0, st0, pre, post, field, st, j1, g1, ff, j2, g2, tf,
      hfn, hto2, hfrom2, _, hst, hl, hpre, hs1, hd1, _, hok, _⟩ := hF
    rw [hto] at hto2
    rw [hfrom] at hfrom2
    simp only [RValue.mk.injEq, Option.some.injEq, and_true] at hto2
    simp only [RValue.mk.injEq, Option.some.injEq] at hfrom2
    obtain ⟨hf2, ha2⟩ := hfrom2
    subst hto2; subst hf2; subst ha2
    have hfk : f.kind ≠ Kind.ptr := indirect_kind _ f a hfrom
    have htk : (Value.struct dn dfvs).kind ≠ Kind.ptr := by
      simp [Value.kind, typeOf, Ty.kind]
    have hsl : ((Value.struct dn dfvs).kind == Kind.slice) = false := by
      simp [Value.kind, typeOf, Ty.kind]
    have hst0 : st0 = ⟨⟨some (.struct dn dfvs), true⟩, ⟨some f, a⟩, tr0⟩ := by
      simp only [elemStart, hsl, Bool.false_eq_true, if_false, indirect_of_not_ptr f a hfk,
        indirect_of_not_ptr _ true htk, Option.map_some', Option.some.injEq] at hst
      exact hst.symm
    have hkT : (typeOf old).kind ≠ Kind.ptr := hk
    have hmem : ∀ fd ∈ pre, fd ∈ deepFields (indirectType (typeOf f)) := by
      intro fd hfd; rw [hl]; simp [hfd]
    obtain ⟨hsrc1, v, hv, hpf⟩ := forFields_path_typed env _ (createOptions flags) dn
      (dfvs.map FieldValue.field) p (typeOf f) a ⟨some f, a⟩ X (typeOf old) i1 f1 x hsrc g
      hlook hex hkT hc pre (fun fd hfd => hsetter fd (hmem fd hfd))
      (fun fd hfd => hdiv1 fd (hmem fd hfd)) st0
      (by
        rw [hst0]
        exact ⟨rfl, old, rfl, ⟨dfvs, rfl, rfl, hold⟩, rfl, fun s hs => by
          simp only [Option.some.injEq] at hs; rw [← hs]⟩) st (Or.inl hpre)
    rw [hfn, hname, hsrc1, hsrc] at hs1
    rw [hfn, hname, PathFrame_lookup dn _ p v (typeOf f) a st hpf X g hlook] at hd1
    simp only [FieldLookup.valid.injEq] at hs1 hd1
    rw [← hs1.2.2, ← hd1.2.2] at hok
    have hkv : v.kind ≠ Kind.ptr := by simp only [Value.kind]; rw [hv]; exact hk
    rw [convert_target x v env false _ hkv (by rw [hv]; exact hc)] at hok
    simp at hok

/-- Two index paths that lead to fields that are not embedded members are the
same path or part ways. -/
theorem fieldAt_apart (fs : List StructField) (q1 q2 : List Nat) (h1 h2 : StructField)
    (hq1 : fieldAt fs q1 = some h1) (hn1 : h1.anonymous = false)
    (hq2 : fieldAt fs q2 = some h2) (hn2 : h2.anonymous = false) :
    q1 = q2 ∨ diverge q1 q2 = true := by
  have hne1 : q1 ≠ [] := by
    intro h0; rw [h0, fieldAt_nil] at hq1; simp at hq1
  have hne2 : q2 ≠ [] := by
    intro h0; rw [h0, fieldAt_nil] at hq2; simp at hq2
  rcases diverge_or_prefix q1 q2 with h | ⟨r, h⟩ | ⟨r, h⟩
  · exact Or.inr h
  · cases r with
    | nil => left; rw [h, List.append_nil]
    | cons j r =>
      rw [h] at hq2
      obtain ⟨hh, hh1, hh2⟩ := fieldAt_inner q1 fs j r h2 hne1 hq2
      rw [hq1] at hh1
      simp only [Option.some.injEq] at hh1
      rw [← hh1, hn1] at hh2
      simp at hh2
  · cases r with
    | nil => left; rw [h, List.append_nil]
    | cons j r =>
      rw [h] at hq1
      obtain ⟨hh, hh1, hh2⟩ := fieldAt_inner q2 fs j r h1 hne2 hq1
      rw [hq2] at hh1
      simp only [Option.some.injEq] at hh1
      rw [← hh1, hn2] at hh2
      simp at hh2

/-- A store at a field that is not an embedded member keeps every such field
reachable; the types are kept when the stored value has the type of the value
it replaces. -/
theorem FieldsKept_store (dn : String) (fs : List StructField) (d0 : Value) (typed : Bool)
    (st : ElemState) (hinv : FieldsKept dn fs d0 typed st)
    (q : List Nat) (h : StructField) (hq : fieldAt fs q = some h)
    (hna : h.anonymous = false)
    (name : String) (v : Value) (hcur : st.dest.FieldByName name = .valid q h v)
    (w : Value) (hw : typed = true → typeOf w = typeOf v)
    (src2 : RValue) (tr : List Event) :
    FieldsKept dn fs d0 typed ⟨st.dest.store q w, src2, tr⟩ := by
  obtain ⟨fvs, hd, hmap, hall⟩ := hinv
  obtain ⟨n, fvs1, hv1, _, hx⟩ := FieldByName_valid _ _ _ _ _ hcur
  rw [hd] at hv1
  simp only [Option.some.injEq, Value.struct.injEq] at hv1
  obtain ⟨hn, hf⟩ := hv1
  subst hn; subst hf
  cases q with
  | nil => rw [fieldAt_nil] at hq; simp at hq
  | cons i rest =>
    obtain ⟨fvs2, h1, h2, _, _⟩ := storeByIndex_struct dn fvs i rest w
    refine ⟨fvs2, ?_, by rw [h2, hmap], ?_⟩
    · simp only [RValue.store, hd, Option.map_some', h1]
    · intro q2 g2 v0 hq2 hna2 hv0
      obtain ⟨v2, hv2, ht2⟩ := hall q2 g2 v0 hq2 hna2 hv0
      rcases fieldAt_apart fs (i :: rest) q2 h g2 hq hna hq2 hna2 with heq | hdv
      · subst heq
        refine ⟨w, ?_, ?_⟩
        · rw [← h1, storeByIndex_struct_rest]
          have hold2 : fieldByIndexRest (.struct dn fvs) (i :: rest) = some v := by
            rw [← FieldByIndex_struct]; exact hx
          have := fieldRest_storeRest_same (i :: rest) (.struct dn fvs) v w hold2
          rw [← this, ← storeByIndex_struct_rest, h1]
          exact FieldByIndex_struct dn fvs2 _
        · intro ht
          rw [hx] at hv2
          simp only [Option.some.injEq] at hv2
          rw [hw ht, hv2]
          exact ht2 ht
      · refine ⟨v2, ?_, ht2⟩
        rw [← h1, storeByIndex_struct_rest, ← hv2, FieldByIndex_struct dn fvs q2,
          ← fieldRest_storeRest_diverge (i :: rest) q2 (.struct dn fvs) w hdv]
        rw [← storeByIndex_struct_rest, h1]
        exact FieldByIndex_struct dn fvs2 q2

theorem FieldsKept_untyped (dn : String) (fs : List StructField) (d0 : Value)
    (st : ElemState) (hinv : FieldsKept dn fs d0 true st) :
    FieldsKept dn fs d0 false st := by
  obtain ⟨fvs, hd, hmap, hall⟩ := hinv
  refine ⟨fvs, hd, hmap, ?_⟩
  intro q h v0 hq hna hv0
  obtain ⟨v, hv, _⟩ := hall q h v0 hq hna hv0
  exact ⟨v, hv, fun hf => by simp at hf⟩

/-- The body of the first loop completes when the source lookup does not panic,
no destination method has the name, and the destination field of that name, if
any, is reachable, is not an embedded member, and is either not settable or has
a type that is not a pointer and to which the type of the source value
converts. -/
theorem fieldToField_kept (env : Env) (nested : Value → Value → Outcome)
    (opts : Options) (dn : String) (fs : List StructField) (d0 : Value)
    (field : StructField) (st : ElemState)
    (hinv : FieldsKept dn fs d0 true st)
    (hsetter : methodByName env (.struct dn fs) true field.name = none)
    (hsrc : st.source.FieldByName field.name ≠ .panic)
    (hdst : ∀ q h i2 f2 y, structFieldByName fs field.name = some (q, h) →
      st.source.FieldByName field.name = .valid i2 f2 y →
      h.anonymous = false ∧ ∃ v0, d0.FieldByIndex q = some v0
        ∧ (exported h.name = true →
            v0.kind ≠ Kind.ptr ∧ (typeOf y).ConvertibleTo (typeOf v0) = true)) :
    ∃ st2, fieldToField env nested opts field st = .done st2
      ∧ FieldsKept dn fs d0 true st2 ∧ st2.source = st.source := by
  have hinv0 := hinv
  obtain ⟨fvs, hd, hmap, hall⟩ := hinv
  have hdv : st.dest.val = some (.struct dn fvs) := by rw [hd]
  have hty : typeOf (Value.struct dn fvs) = .struct dn fs := by rw [typeOf, hmap]
  have hca : st.dest.CanAddr = true := by rw [hd]; rfl
  unfold fieldToField
  cases hs : st.source.FieldByName field.name with
  | panic => exact absurd hs hsrc
  | invalid => exact ⟨st, rfl, hinv0, rfl⟩
  | valid i2 f2 y =>
    simp only
    cases hl : structFieldByName fs field.name with
    | none =>
      have hfb : st.dest.FieldByName field.name = .invalid :=
        (FieldByName_dest dn fs st ⟨fvs, hd, hmap⟩ field.name).mpr hl
      simp only [hfb, hdv, hty, hca, hsetter]
      exact ⟨st, rfl, hinv0, rfl⟩
    | some qh =>
      obtain ⟨q, h⟩ := qh
      obtain ⟨hna, v0, hv0, hcond⟩ := hdst q h i2 f2 y hl hs
      obtain ⟨hq, _⟩ := structFieldByName_at fs field.name q h hl
      obtain ⟨v, hv, htv⟩ := hall q h v0 hq hna hv0
      have hfb : st.dest.FieldByName field.name = .valid q h v := by
        unfold RValue.FieldByName
        simp only [hd, hmap, hl, hv]
      simp only [hfb, hca, Bool.true_and]
      by_cases hexp : exported h.name = true
      · obtain ⟨hk0, hc0⟩ := hcond hexp
        have hkv : v.kind ≠ Kind.ptr := by
          simp only [Value.kind] at hk0 ⊢
          rw [htv rfl]; exact hk0
        have hcv : (typeOf y).ConvertibleTo (typeOf v) = true := by
          rw [htv rfl]; exact hc0
        simp only [hexp, if_true, convert_target y v env false [opts] hkv hcv]
        exact ⟨_, rfl, FieldsKept_store dn fs d0 true st hinv0 q h hq hna field.name v hfb _
          (fun _ => convert_typeOf y (typeOf v) hcv) _ _, rfl⟩
      · simp only [hexp, Bool.false_eq_true, if_false]
        exact ⟨st, rfl, hinv0, rfl⟩

/-- The body of the second loop completes when the destination field it would
set is reachable and is not an embedded member. -/
theorem methodToField_kept (env : Env) (hp : env.TypePreserving) (dn : String)
    (fs : List StructField) (d0 : Value) (sTy : Ty) (a : Bool)
    (field : StructField) (st : ElemState)
    (hinv : FieldsKept dn fs d0 false st
      ∧ (∃ s, st.source.val = some s ∧ typeOf s = sTy) ∧ st.source.flagAddr = a)
    (hdst : ∀ m, methodByName env sTy a field.name = some m →
      (m.ins.length = 0 ∧ m.numOut = 1) →
      ∀ q h, structFieldByName fs field.name = some (q, h) →
        h.anonymous = false ∧ ∃ v0, d0.FieldByIndex q = some v0) :
    ∃ st2, methodToField env field st = .done st2
      ∧ (FieldsKept dn fs d0 false st2
        ∧ (∃ s, st2.source.val = some s ∧ typeOf s = sTy) ∧ st2.source.flagAddr = a) := by
  have hinv0 := hinv
  obtain ⟨⟨fvs, hd, hmap, hall⟩, ⟨s, hs, hsty⟩, ha⟩ := hinv
  have hca : st.dest.CanAddr = true := by rw [hd]; rfl
  have hsa : st.source.CanAddr = a := ha
  unfold methodToField
  simp only [hs, hsty, hsa]
  cases hm : methodByName env sTy a field.name with
  | none => exact ⟨st, rfl, hinv0⟩
  | some m =>
    simp only
    by_cases hsig : (m.ins.length == 0 && m.numOut == 1) = true
    · simp only [hsig, if_true]
      have hsig2 : m.ins.length = 0 ∧ m.numOut = 1 := by simpa using hsig
      cases hl : structFieldByName fs field.name with
      | none =>
        have hfb : st.dest.FieldByName field.name = .invalid :=
          (FieldByName_dest dn fs st ⟨fvs, hd, hmap⟩ field.name).mpr hl
        simp only [hfb]
        exact ⟨st, rfl, hinv0⟩
      | some qh =>
        obtain ⟨q, h⟩ := qh
        obtain ⟨hna, v0, hv0⟩ := hdst m hm hsig2 q h hl
        obtain ⟨hq, _⟩ := structFieldByName_at fs field.name q h hl
        obtain ⟨v, hv, _⟩ := hall q h v0 hq hna hv0
        have hfb : st.dest.FieldByName field.name = .valid q h v := by
          unfold RValue.FieldByName
          simp only [hd, hmap, hl, hv]
        have hty2 : typeOf (m.body s []).1 = sTy := by
          rw [← hsty]
          exact hp (typeOf s) m s [] (methodByName_mem env _ _ _ m (by rw [hsty]; exact hm)) rfl
        simp only [hfb, hca, Bool.true_and]
        by_cases hexp : exported h.name = true
        · simp only [hexp, if_true]
          cases hres : (m.body s []).2 with
          | nil =>
            simp only
            exact ⟨_, rfl, ⟨fvs, hd, hmap, hall⟩, ⟨_, rfl, hty2⟩, ha⟩
          | cons r rs =>
            simp only
            exact ⟨_, rfl, FieldsKept_store dn fs d0 false st hinv0.1 q h hq hna field.name v
              hfb _ (fun hf => by simp at hf) _ _, ⟨_, rfl, hty2⟩, ha⟩
        · simp only [hexp, Bool.false_eq_true, if_false]
          exact ⟨st, rfl, hinv0⟩
    · simp only [hsig, Bool.false_eq_true, if_false]
      exact ⟨st, rfl, hinv0⟩

theorem forFields_total (step : StructField → ElemState → ElemOutcome)
    (P : ElemState → Prop) :
    ∀ (l : List StructField),
      (∀ fd ∈ l, ∀ st, P st → ∃ st2, step fd st = .done st2 ∧ P st2) →
      ∀ st, P st → ∃ st2, forFields step l st = .done st2 ∧ P st2
  | [], _, st, hP => ⟨st, rfl, hP⟩
  | fd :: l, hstep, st, hP => by
    obtain ⟨st1, h1, hP1⟩ := hstep fd (by simp) st hP
    obtain ⟨st2, h2, hP2⟩ := forFields_total step P l
      (fun g hg => hstep g (by simp [hg])) st1 hP1
    exact ⟨st2, by rw [forFields, h1]; exact h2, hP2⟩

/-- A single-struct `Copy` returns nil when no lookup panics and `set` handles
every pair of fields: no destination method is named after a flattened source
field; every lookup of a flattened source name in the source finds a field or
none; every destination field found under such a name is reachable in the
destination, is not an embedded member, and is either not settable or of a type
that is not a pointer and to which the type of the source field converts; and
every destination field that the second loop would set is reachable and is not
an embedded member. -/
theorem structCopy_returns (env : Env) (hp : env.TypePreserving) (root : Value)
    (fromValue : Option Value) (flags : List CopyOption) (dn : String)
    (dfvs : List FieldValue) (f : Value) (a : Bool)
    (hto : indirect (ValueOf (some root)) = ⟨some (.struct dn dfvs), true⟩)
    (hfrom : indirect (ValueOf fromValue) = ⟨some f, a⟩)
    (hassign : (typeOf f).AssignableTo (typeOf (.struct dn dfvs)) = false)
    (hkf : (indirectType (typeOf f)).kind = Kind.struct)
    (hsetter : ∀ fd ∈ deepFields (indirectType (typeOf f)),
      methodByName env (typeOf (.struct dn dfvs)) true fd.name = none)
    (hsrcok : ∀ fd ∈ deepFields (indirectType (typeOf f)),
      RValue.FieldByName ⟨some f, a⟩ fd.name ≠ .panic)
    (hfields : ∀ fd ∈ deepFields (indirectType (typeOf f)), ∀ q h i2 f2 y,
      structFieldByName (dfvs.map FieldValue.field) fd.name = some (q, h) →
      RValue.FieldByName ⟨some f, a⟩ fd.name = .valid i2 f2 y →
      h.anonymous = false ∧ ∃ v0, (Value.struct dn dfvs).FieldByIndex q = some v0
        ∧ (exported h.name = true →
            v0.kind ≠ Kind.ptr ∧ (typeOf y).ConvertibleTo (typeOf v0) = true))
    (hgetters : ∀ fd ∈ deepFields (indirectType (typeOf (Value.struct dn dfvs))), ∀ m,
      methodByName env (typeOf f) a fd.name = some m →
      (m.ins.length = 0 ∧ m.numOut = 1) →
      ∀ q h, structFieldByName (dfvs.map FieldValue.field) fd.name = some (q, h) →
        h.anonymous = false ∧ ∃ v0, (Value.struct dn dfvs).FieldByIndex q = some v0) :
    ∃ root2 tr, Copy env (some root) fromValue flags = .returned none (some root2) tr := by
  have hk0 : FieldsKept dn (dfvs.map FieldValue.field) (.struct dn dfvs) true
      ⟨⟨some (.struct dn dfvs), true⟩, ⟨some f, a⟩, []⟩ :=
    ⟨dfvs, rfl, rfl, fun q h v0 _ _ hv0 => ⟨v0, hv0, fun _ => rfl⟩⟩
  obtain ⟨st1, h1, hk1, hs1⟩ := forFields_total
    (fieldToField env (fun tv fv => Copy env (some tv) (some fv) []) (createOptions flags))
    (fun s => FieldsKept dn (dfvs.map FieldValue.field) (.struct dn dfvs) true s
      ∧ s.source = ⟨some f, a⟩)
    (deepFields (indirectType (typeOf f)))
    (fun fd hfd s hs => by
      obtain ⟨hk, hsrc⟩ := hs
      obtain ⟨s2, h2, hk2, hs2⟩ := fieldToField_kept env _ (createOptions flags) dn _
        (.struct dn dfvs) fd s hk (hsetter fd hfd) (by rw [hsrc]; exact hsrcok fd hfd)
        (fun q h i2 f2 y hl hy => hfields fd hfd q h i2 f2 y hl (by rw [← hsrc]; exact hy))
      exact ⟨s2, h2, hk2, by rw [hs2]; exact hsrc⟩)
    _ ⟨hk0, rfl⟩
  obtain ⟨st2, h2, hk2, _, _⟩ := forFields_total (methodToField env)
    (fun s => FieldsKept dn (dfvs.map FieldValue.field) (.struct dn dfvs) false s
      ∧ (∃ s0, s.source.val = some s0 ∧ typeOf s0 = typeOf f) ∧ s.source.flagAddr = a)
    (deepFields (indirectType (typeOf (Value.struct dn dfvs))))
    (fun fd hfd s hs =>
      methodToField_kept env hp dn _ (.struct dn dfvs) (typeOf f) a fd s hs (hgetters fd hfd))
    st1 ⟨FieldsKept_untyped dn _ _ st1 hk1, ⟨f, by rw [hs1], rfl⟩, by rw [hs1]⟩
  obtain ⟨fvs, hd, _, _⟩ := hk2
  refine ⟨storeIndirect root (.struct dn fvs), st2.trace, ?_⟩
  rw [Copy_unfold]
  refine copyBody_single_done env _ root fromValue flags dn dfvs f a hto hfrom hassign hkf st2
    _ ?_ (by rw [hd])
  unfold copyElem
  rw [h1]
  exact h2

/-- C11, as the code has it. In a single-struct `Copy` (the destination is a
struct, the types are not assignable), let the lookup of the name `X` in the
source find the value `x`, with `X` among the flattened source fields, as it is
for a top-level field; and let the lookup of `X` in the destination type lead,
by the index path `p` through embedded members, to a settable field that holds
a value of a type that is not a pointer and to which the type of `x` converts.
Assume that no destination method is named after a flattened source field, so
that no setter is invoked, and that every other name the two loops look up in
the destination resolves to a path that parts ways with `p`. Then: when `Copy`
returns nil, the field at `p` holds the converted `x`; when `Copy` returns an
error, the error comes from a nested copy for a field of another name; and
`Copy` does return nil when, moreover, no lookup in the source panics and every
other destination field that a loop would set is reachable, is not an embedded
member and, in the first loop, is either not settable or of a type that is not
a pointer and to which the type of the source field converts. -/
theorem Copy_embedded_field (env : Env) (hp : env.TypePreserving) (root : Value)
    (fromValue : Option Value) (flags : List CopyOption) (dn : String)
    (dfvs : List FieldValue) (f : Value) (a : Bool)
    (hto : indirect (ValueOf (some root)) = ⟨some (.struct dn dfvs), true⟩)
    (hfrom : indirect (ValueOf fromValue) = ⟨some f, a⟩)
    (hassign : (typeOf f).AssignableTo (typeOf (.struct dn dfvs)) = false)
    (X : String) (i1 : List Nat) (f1 : StructField) (x : Value)
    (hsrc : RValue.FieldByName ⟨some f, a⟩ X = .valid i1 f1 x)
    (hX : ∃ fd ∈ deepFields (indirectType (typeOf f)), fd.name = X)
    (p : List Nat) (g : StructField) (old : Value)
    (hlook : structFieldByName (dfvs.map FieldValue.field) X = some (p, g))
    (hold : (Value.struct dn dfvs).FieldByIndex p = some old)
    (hex : exported g.name = true) (hk : old.kind ≠ Kind.ptr)
    (hc : (typeOf x).ConvertibleTo (typeOf old) = true)
    (hsetter : ∀ fd ∈ deepFields (indirectType (typeOf f)),
      methodByName env (typeOf (.struct dn dfvs)) true fd.name = none)
    (hdiv1 : ∀ fd ∈ deepFields (indirectType (typeOf f)), fd.name ≠ X → ∀ q h,
      structFieldByName (dfvs.map FieldValue.field) fd.name = some (q, h) →
      diverge q p = true)
    (hdiv2 : ∀ fd ∈ deepFields (indirectType (typeOf (Value.struct dn dfvs))), ∀ m,
      methodByName env (typeOf f) a fd.name = some m →
      (m.ins.length = 0 ∧ m.numOut = 1) →
      ∀ q h, structFieldByName (dfvs.map FieldValue.field) fd.name = some (q, h) →
        diverge q p = true) :
    (∀ root2 tr, Copy env (some root) fromValue flags = .returned none (some root2) tr →
        ∃ dfvs2, indirect (ValueOf (some root2)) = ⟨some (.struct dn dfvs2), true⟩
          ∧ dfvs2.map FieldValue.field = dfvs.map FieldValue.field
          ∧ (Value.struct dn dfvs2).FieldByIndex p = some (convert x (typeOf old)))
    ∧ (∀ e tv tr, Copy env (some root) fromValue flags = .returned (some e) tv tr →
        ∃ name, name ≠ X
          ∧ FailedNestedAt env (fun tv fv => Copy env (some tv) (some fv) []) (some root)
              fromValue flags e name)
    ∧ (g.anonymous = false →
        (∀ fd ∈ deepFields (indirectType (typeOf f)),
          RValue.FieldByName ⟨some f, a⟩ fd.name ≠ .panic) →
        (∀ fd ∈ deepFields (indirectType (typeOf f)), fd.name ≠ X → ∀ q h i2 f2 y,
          structFieldByName (dfvs.map FieldValue.field) fd.name = some (q, h) →
          RValue.FieldByName ⟨some f, a⟩ fd.name = .valid i2 f2 y →
          h.anonymous = false ∧ ∃ v0, (Value.struct dn dfvs).FieldByIndex q = some v0
            ∧ (exported h.name = true →
                v0.kind ≠ Kind.ptr ∧ (typeOf y).ConvertibleTo (typeOf v0) = true)) →
        (∀ fd ∈ deepFields (indirectType (typeOf (Value.struct dn dfvs))), ∀ m,
          methodByName env (typeOf f) a fd.name = some m →
          (m.ins.length = 0 ∧ m.numOut = 1) →
          ∀ q h, structFieldByName (dfvs.map FieldValue.field) fd.name = some (q, h) →
            h.anonymous = false ∧ ∃ v0, (Value.struct dn dfvs).FieldByIndex q = some v0) →
        ∃ root2 tr,
          Copy env (some root) fromValue flags = .returned none (some root2) tr) := by
  refine ⟨fun root2 tr hres =>
      structCopy_embedded_value env hp root fromValue flags dn dfvs f a hto hfrom hassign X
        i1 f1 x hsrc hX p g old hlook hold hex hk hc hsetter hdiv1 hdiv2 root2 tr hres,
    fun e tv tr hres =>
      structCopy_embedded_error env root fromValue flags dn dfvs f a hto hfrom X i1 f1 x
        hsrc p g old hlook hold hex hk hc hsetter hdiv1 e tv tr hres, ?_⟩
  intro hna hsrcok hothers hgetters
  refine structCopy_returns env hp root fromValue flags dn dfvs f a hto hfrom hassign
    (FieldByName_valid_struct f a X i1 f1 x hsrc) hsetter hsrcok ?_ hgetters
  intro fd hfd q h i2 f2 y hl hy
  by_cases hname : fd.name = X
  · rw [hname, hlook] at hl
    simp only [Option.some.injEq, Prod.mk.injEq] at hl
    rw [hname, hsrc] at hy
    simp only [FieldLookup.valid.injEq] at hy
    rw [← hl.1, ← hl.2, ← hy.2.2]
    exact ⟨hna, old, hold, fun _ => ⟨hk, hc⟩⟩
  · exact hothers fd hfd hname q h i2 f2 y hl hy

theorem memoEnv_TypePreserving : memoEnv.TypePreserving := by
  intro ty m recv args hm hty
  simp only [memoEnv] at hm
  split at hm
  · simp only [List.mem_singleton] at hm
    rw [hm]
    exact hty
  · simp at hm

theorem Copy_embedded_field_witness :
    (∃ dfvs2, indirect (ValueOf (some (Value.ptr docType (some docNote))))
        = ⟨some (.struct "Doc" dfvs2), true⟩
      ∧ dfvs2.map FieldValue.field
        = [StructField.mk "Meta" metaType true, fld "Title" .string]
      ∧ (Value.struct "Doc" dfvs2).FieldByIndex [0, 0, 0]
          = some (convert (Value.int8 7) .int))
    ∧ (∃ root2 tr,
        Copy memoEnv (some (Value.ptr docType (some (zero docType)))) (some memoValue) []
          = .returned none (some root2) tr)
    ∧ Copy memoEnv (some (Value.ptr docType (some (zero docType)))) (some memoValue) []
        = .returned none (some (Value.ptr docType (some docNote)))
            [Event.call memoType "Tag" []]
    ∧ deepFields memoType = [fld "ID" .int8, fld "Title" .string, fld "Sec" .int] := by
  have hl : deepFields (indirectType (typeOf memoValue))
      = [fld "ID" .int8, fld "Title" .string, fld "Sec" .int] := rfl
  have hd : deepFields (indirectType (typeOf (Value.struct "Doc"
      (zeroFields [StructField.mk "Meta" metaType true, fld "Title" .string]))))
      = [fld "ID" .int, fld "Tag" .string, fld "Title" .string] := rfl
  have H := Copy_embedded_field memoEnv memoEnv_TypePreserving
    (Value.ptr docType (some (zero docType))) (some memoValue) [] "Doc"
    (zeroFields [StructField.mk "Meta" metaType true, fld "Title" .string])
    memoValue false rfl rfl rfl
    "ID" [0] (fld "ID" .int8) (.int8 7) rfl ⟨fld "ID" .int8, by rw [hl]; simp, rfl⟩
    [0, 0, 0] (fld "ID" .int) (.int 0) rfl rfl rfl (by decide) rfl
    (by
      intro fd hfd
      rw [hl] at hfd
      simp only [List.mem_cons, List.mem_singleton, List.not_mem_nil, or_false] at hfd
      rcases hfd with rfl | rfl | rfl <;> rfl)
    (by
      intro fd hfd hne q h hq
      rw [hl] at hfd
      simp only [List.mem_cons, List.mem_singleton, List.not_mem_nil, or_false] at hfd
      rcases hfd with rfl | rfl | rfl
      · exact absurd rfl hne
      · have h1 : structFieldByName
            [StructField.mk "Meta" metaType true, fld "Title" .string] "Title"
            = some ([1], fld "Title" .string) := rfl
        have hq2 : some ([1], fld "Title" .string) = some (q, h) := h1.symm.trans hq
        simp only [Option.some.injEq, Prod.mk.injEq] at hq2
        rw [← hq2.1]
        rfl
      · have h1 : structFieldByName
            [StructField.mk "Meta" metaType true, fld "Title" .string] "Sec" = none := rfl
        have hq2 : (none : Option (List Nat × StructField)) = some (q, h) := h1.symm.trans hq
        simp at hq2)
    (by
      intro fd hfd m hm _ q h hq
      rw [hd] at hfd
      simp only [List.mem_cons, List.mem_singleton, List.not_mem_nil, or_false] at hfd
      rcases hfd with rfl | rfl | rfl
      · have h1 : methodByName memoEnv (typeOf memoValue) false "ID" = none := rfl
        have hm2 : (none : Option Method) = some m := h1.symm.trans hm
        simp at hm2
      · have h1 : structFieldByName
            [StructField.mk "Meta" metaType true, fld "Title" .string] "Tag"
            = some ([0, 1], fld "Tag" .string) := rfl
        have hq2 : some ([0, 1], fld "Tag" .string) = some (q, h) := h1.symm.trans hq
        simp only [Option.some.injEq, Prod.mk.injEq] at hq2
        rw [← hq2.1]
        rfl
      · have h1 : methodByName memoEnv (typeOf memoValue) false "Title" = none := rfl
        have hm2 : (none : Option Method) = some m := h1.symm.trans hm
        simp at hm2)
  refine ⟨H.1 (Value.ptr docType (some docNote)) [Event.call memoType "Tag" []] rfl,
    H.2.2 rfl ?_ ?_ ?_, rfl, rfl⟩
  · intro fd hfd
    rw [hl] at hfd
    simp only [List.mem_cons, List.mem_singleton, List.not_mem_nil, or_false] at hfd
    rcases hfd with rfl | rfl | rfl
    · have h1 : RValue.FieldByName ⟨some memoValue, false⟩ "ID"
          = .valid [0] (fld "ID" .int8) (.int8 7) := rfl
      intro h2
      have h3 := h1.symm.trans h2
      simp at h3
    · have h1 : RValue.FieldByName ⟨some memoValue, false⟩ "Title"
          = .valid [1] (fld "Title" .string) (.string "t") := rfl
      intro h2
      have h3 := h1.symm.trans h2
      simp at h3
    · have h1 : RValue.FieldByName ⟨some memoValue, false⟩ "Sec"
          = .valid [2, 0] (fld "Sec" .int) (.int 5) := rfl
      intro h2
      have h3 := h1.symm.trans h2
      simp at h3
  · intro fd hfd hne q h i2 f2 y hq hy
    rw [hl] at hfd
    simp only [List.mem_cons, List.mem_singleton, List.not_mem_nil, or_false] at hfd
    rcases hfd with rfl | rfl | rfl
    · exact absurd rfl hne
    · have h1 : structFieldByName
          [StructField.mk "Meta" metaType true, fld "Title" .string] "Title"
          = some ([1], fld "Title" .string) := rfl
      have hq2 : some ([1], fld "Title" .string) = some (q, h) := h1.symm.trans hq
      simp only [Option.some.injEq, Prod.mk.injEq] at hq2
      have h2 : RValue.FieldByName ⟨some memoValue, false⟩ "Title"
          = .valid [1] (fld "Title" .string) (.string "t") := rfl
      have hy2 := h2.symm.trans hy
      simp only [FieldLookup.valid.injEq] at hy2
      rw [← hq2.1, ← hq2.2, ← hy2.2.2]
      exact ⟨rfl, .string "", rfl, fun _ => ⟨by decide, rfl⟩⟩
    · have h1 : structFieldByName
          [StructField.mk "Meta" metaType true, fld "Title" .string] "Sec" = none := rfl
      have hq2 : (none : Option (List Nat × StructField)) = some (q, h) := h1.symm.trans hq
      simp at hq2
  · intro fd hfd m hm _ q h hq
    rw [hd] at hfd
    simp only [List.mem_cons, List.mem_singleton, List.not_mem_nil, or_false] at hfd
    rcases hfd with rfl | rfl | rfl
    · have h1 : methodByName memoEnv (typeOf memoValue) false "ID" = none := rfl
      have hm2 : (none : Option Method) = some m := h1.symm.trans hm
      simp at hm2
    · have h1 : structFieldByName
          [StructField.mk "Meta" metaType true, fld "Title" .string] "Tag"
          = some ([0, 1], fld "Tag" .string) := rfl
      have hq2 : some ([0, 1], fld "Tag" .string) = some (q, h) := h1.symm.trans hq
      simp only [Option.some.injEq, Prod.mk.injEq] at hq2
      rw [← hq2.1, ← hq2.2]
      exact ⟨rfl, .string "", rfl⟩
    · have h1 : methodByName memoEnv (typeOf memoValue) false "Title" = none := rfl
      have hm2 : (none : Option Method) = some m := h1.symm.trans hm
      simp at hm2

/-- C11, counterexample. First, a field of pointer type: the destination
`Shelf{Slot{X: &5}}` has the embedded member `Slot`, which contributes the
settable field `X *int`, and declares no other `X`; the source `Pick{X: nil}`
has the top-level field `X` of the same type; `Copy` returns nil and the
embedded field still points to 5: it does not hold the nil of the source. The
other parts show what else the statement has to exclude, each with the
destination `Doc`, whose field `ID` comes from the member `Audit` embedded in
the embedded member `Meta`, and a source with the top-level field `ID: 7`.
A destination setter: `Wipe{ID: 7, Clear: true}` with
`func (d *Doc) Clear(b bool) { d.ID = -1 }` leaves `ID` at -1. A source field
named after the embedded member: `Swap{ID: 7, Meta: Meta{Audit{ID: 0}, Tag: "m"}}`
leaves `ID` at 0, because `Meta` is copied as a whole after `ID`. A source
method named after the embedded member: with `type Wrap struct { Meta; Sub }`,
`type Sub struct { Meta string }` and `func (k Key) Meta() Meta`, the second
loop replaces the member `Meta` and `ID` ends at 0. A lookup that panics:
`Lazy{ID: 7, Stamp: nil}` with the embedded `*Stamp` nil makes `Copy` panic, and
so does `Tick{ID: 7, Sec: 5}` copied into `Rack{Audit{ID: 0}, nil}` of
`type Rack struct { Audit; *Stamp }`, whose field `Sec` is not reachable.
Another field whose copy fails: `HoldSrc{ID: 7, B: U{M: "x"}}` into
`Hold{Audit; B **T}` sets `ID` and returns the error of the nested copy of `B`. -/
theorem Copy_embedded_field_not_set :
    (Copy noEnv (some (Value.ptr (typeOf shelfFive) (some shelfFive))) (some pickNil) []
        = .returned none (some (Value.ptr (typeOf shelfFive) (some shelfFive))) []
      ∧ structFieldByName [StructField.mk "Slot" slotType true] "X"
          = some ([0, 0], fld "X" (.ptr .int))
      ∧ shelfFive.FieldByIndex [0, 0] = some (Value.ptr .int (some (.int 5)))
      ∧ pickNil.Field 0 = some (Value.ptr .int none)
      ∧ (Ty.ptr .int).ConvertibleTo (.ptr .int) = true)
    ∧ (Copy clearEnv (some (Value.ptr docType (some docKeep))) (some wipeValue) []
        = .returned none (some (Value.ptr docType (some docCleared)))
            [Event.call docType "Clear" [Value.bool true]]
      ∧ docCleared.FieldByIndex [0, 0, 0] = some (Value.int (-1)))
    ∧ (Copy noEnv (some (Value.ptr docType (some docKeep))) (some swapValue) []
        = .returned none (some (Value.ptr docType (some docSwapped))) []
      ∧ docSwapped.FieldByIndex [0, 0, 0] = some (Value.int 0))
    ∧ (Copy keyEnv (some (Value.ptr wrapType (some wrapValue))) (some keyValue) []
        = .returned none (some (Value.ptr wrapType (some wrapReset)))
            [Event.call (typeOf keyValue) "Tag" [], Event.call (typeOf keyValue) "Meta" []]
      ∧ deepFields wrapType = [fld "ID" .int, fld "Tag" .string, fld "Meta" .string]
      ∧ wrapReset.FieldByIndex [0, 0, 0] = some (Value.int 0))
    ∧ Copy noEnv (some (Value.ptr docType (some docKeep))) (some lazyValue) [] = .panic
    ∧ Copy noEnv (some (Value.ptr (typeOf rackValue) (some rackValue))) (some tickValue) []
        = .panic
    ∧ (Copy noEnv (some (Value.ptr holdType (some (zero holdType)))) (some holdSource) []
        = .returned (some CopyError.unaddressable)
            (some (Value.ptr holdType (some holdAfter))) []
      ∧ holdAfter.FieldByIndex [0, 0] = some (Value.int 7)) :=
  ⟨⟨rfl, rfl, rfl, rfl, rfl⟩, ⟨rfl, rfl⟩, ⟨rfl, rfl⟩, ⟨rfl, rfl, rfl⟩, rfl, rfl, rfl, rfl⟩

/-! ## C12: a destination field filled from a source method -/

/-- The body of the first loop keeps at the path `p` a value of its type, when
the name resolves in the destination to a path that parts ways with `p` and the
destination methods keep the type at `p`. -/
theorem fieldToField_pathtyped (env : Env) (hp : env.TypePreserving)
    (nested : Value → Value → Outcome) (opts : Options) (dn : String)
    (fs : List StructField) (p : List Nat) (T : Ty) (sTy : Ty) (a : Bool)
    (field : StructField) (st : ElemState)
    (hkeep : env.KeepsTypeAt (.struct dn fs) p)
    (hinv : ∃ v, typeOf v = T ∧ PathFrame dn fs p v sTy a st)
    (hdiv : ∀ q g, structFieldByName fs field.name = some (q, g) → diverge q p = true)
    (st2 : ElemState)
    (h : fieldToField env nested opts field st = .done st2
          ∨ ∃ e, fieldToField env nested opts field st = .failed e st2) :
    ∃ v, typeOf v = T ∧ PathFrame dn fs p v sTy a st2 := by
  obtain ⟨v, hv, hinv0⟩ := hinv
  obtain ⟨⟨fvs, hd, hmap, hx⟩, ha, hs⟩ := id hinv0
  unfold fieldToField at h
  split at h
  · simp at h
  · simp only [ElemOutcome.done.injEq, reduceCtorEq, exists_false, or_false] at h
    rw [← h]; exact ⟨v, hv, hinv0⟩
  · rename_i i1 f1 x hsrc
    split at h
    · simp at h
    · rename_i index f toField hlook
      obtain ⟨n, fvs1, hv1, hsf, _⟩ := FieldByName_valid _ _ _ _ _ hlook
      rw [hd] at hv1
      simp only [Option.some.injEq, Value.struct.injEq] at hv1
      rw [← hv1.2, hmap] at hsf
      have hdv := hdiv index f hsf
      split at h
      · simp only at h
        split at h
        · simp only [ElemOutcome.done.injEq, reduceCtorEq, exists_false, or_false] at h
          rw [← h]
          exact ⟨v, hv, PathFrame_store_diverge dn fs p v sTy a st hinv0 field.name index f
            hsf hdv _ _ st.source ha hs⟩
        · split at h
          · simp at h
          · simp at h
          · split at h
            · simp only [reduceCtorEq, ElemOutcome.failed.injEq, false_or] at h
              obtain ⟨e, _, h⟩ := h
              rw [← h]
              exact ⟨v, hv, PathFrame_store_diverge dn fs p v sTy a st hinv0 field.name
                index f hsf hdv _ _ st.source ha hs⟩
            · simp only [ElemOutcome.done.injEq, reduceCtorEq, exists_false, or_false] at h
              rw [← h]
              exact ⟨v, hv, PathFrame_store_diverge dn fs p v sTy a st hinv0 field.name
                index f hsf hdv _ _ st.source ha hs⟩
      · simp only [ElemOutcome.done.injEq, reduceCtorEq, exists_false, or_false] at h
        rw [← h]; exact ⟨v, hv, hinv0⟩
    · split at h
      · simp at h
      · rename_i d hdv
        rw [hd] at hdv
        simp only [Option.some.injEq] at hdv
        have hty : typeOf d = .struct dn fs := by rw [← hdv, typeOf, hmap]
        split at h
        · rename_i m hm
          have hmem : m ∈ env.methods (.struct dn fs) := by
            rw [← hty]; exact methodByName_mem env _ _ _ m hm
          split at h
          · split at h
            · simp only [ElemOutcome.done.injEq, reduceCtorEq, exists_false, or_false] at h
              rw [← h]
              have hb := hp (.struct dn fs) m d [x] hmem hty
              obtain ⟨fvs2, hb1, hb2⟩ := typeOf_struct_inv _ dn fs hb
              obtain ⟨v2, hv2, htv2⟩ := hkeep m d [x] v hmem hty (by rw [← hdv]; exact hx)
              refine ⟨v2, htv2.trans hv, ⟨fvs2, ?_, hb2, ?_⟩, ha, hs⟩
              · simp only [hb1, hd]
              · rw [← hb1]; exact hv2
            · simp only [ElemOutcome.done.injEq, reduceCtorEq, exists_false, or_false] at h
              rw [← h]; exact ⟨v, hv, hinv0⟩
          · simp only [ElemOutcome.done.injEq, reduceCtorEq, exists_false, or_false] at h
            rw [← h]; exact ⟨v, hv, hinv0⟩
        · simp only [ElemOutcome.done.injEq, reduceCtorEq, exists_false, or_false] at h
          rw [← h]; exact ⟨v, hv, hinv0⟩

/-- The body of the second loop for the name of a settable destination field at
the path `p` whose value has a type that is not a pointer, when the source has a
zero-argument single-result method of that name that leaves the source as it is
and whose result converts to that type: `p` leads to the converted result. -/
theorem methodToField_path_getter (env : Env) (dn : String) (fs : List StructField)
    (p : List Nat) (v0 : Value) (a : Bool) (field : StructField) (st : ElemState)
    (f : Value) (hinv : PathFrame dn fs p v0 (typeOf f) a st)
    (hsrc : st.source = ⟨some f, a⟩)
    (g : StructField) (hlook : structFieldByName fs field.name = some (p, g))
    (hex : exported g.name = true)
    (m : Method) (hm : methodByName env (typeOf f) a field.name = some m)
    (hins : m.ins.length = 0) (hout : m.numOut = 1)
    (hpure : (m.body f []).1 = f)
    (v : Value) (rest : List Value) (hv : (m.body f []).2 = v :: rest)
    (hk : v0.kind ≠ Kind.ptr) (hc : (typeOf v).ConvertibleTo (typeOf v0) = true) :
    ∃ st2, methodToField env field st = .done st2
      ∧ PathFrame dn fs p (convert v (typeOf v0)) (typeOf f) a st2
      ∧ st2.source = ⟨some f, a⟩ := by
  have hdst := PathFrame_lookup dn fs p v0 (typeOf f) a st hinv field.name g hlook
  have hinv0 := hinv
  obtain ⟨⟨fvs, hd, hmap, hx⟩, ha, hs⟩ := hinv
  have hca : st.dest.flagAddr = true := by rw [hd]
  refine ⟨⟨st.dest.store p (convert v (typeOf v0)), ⟨some f, a⟩,
    st.trace ++ [Event.call (typeOf f) field.name []] ++ []⟩, ?_, ?_, rfl⟩
  · unfold methodToField
    simp only [hsrc, RValue.CanAddr, hm, hins, hout, beq_self_eq_true, Bool.and_self,
      if_true, hdst, hca, hex, hv, hpure, convert_target v v0 env false [] hk hc]
  · exact PathFrame_store_same dn fs p v0 (typeOf f) a st hinv0 field.name g hlook _ _ _ rfl
      (fun s hs2 => by simp only [Option.some.injEq] at hs2; rw [← hs2])

/-- The body of the second loop keeps the source when the zero-argument methods
of the source leave their receiver as it is. -/
theorem methodToField_source_pure (env : Env) (field : StructField) (st : ElemState)
    (s : Value) (a : Bool) (hsrc : st.source = ⟨some s, a⟩)
    (hpure : ∀ m ∈ env.methods (typeOf s), (m.body s []).1 = s)
    (st2 : ElemState) (h : methodToField env field st = .done st2) :
    st2.source = ⟨some s, a⟩ := by
  unfold methodToField at h
  rw [hsrc] at h
  simp only at h
  split at h
  · rename_i m hm
    have hb := hpure m (methodByName_mem env _ _ _ m hm)
    split at h
    · split at h
      · simp at h
      · split at h
        · split at h
          · simp only [ElemOutcome.done.injEq] at h
            rw [← h, hb]
          · simp only [ElemOutcome.done.injEq] at h
            rw [← h, hb]
        · simp only [ElemOutcome.done.injEq] at h
          rw [← h, hsrc]
      · simp only [ElemOutcome.done.injEq] at h
        rw [← h, hsrc]
    · simp only [ElemOutcome.done.injEq] at h
      rw [← h, hsrc]
  · simp only [ElemOutcome.done.injEq] at h
    rw [← h, hsrc]

/-- The second loop keeps at the path `p` a value of the type `T`, and keeps the
source, when the zero-argument methods of the source leave it as it is. -/
theorem forFields_getter_typed (env : Env) (hp : env.TypePreserving) (dn : String)
    (fs : List StructField) (p : List Nat) (a : Bool) (f : Value) (Y : String) (T : Ty)
    (g : StructField) (hlook : structFieldByName fs Y = some (p, g))
    (hex : exported g.name = true)
    (m : Method) (hm : methodByName env (typeOf f) a Y = some m)
    (hins : m.ins.length = 0) (hout : m.numOut = 1)
    (hpure : ∀ m2 ∈ env.methods (typeOf f), (m2.body f []).1 = f)
    (v : Value) (rest : List Value) (hv : (m.body f []).2 = v :: rest)
    (hk : T.kind ≠ Kind.ptr) (hc : (typeOf v).ConvertibleTo T = true)
    (l : List StructField)
    (hdiv : ∀ fd ∈ l, fd.name ≠ Y → ∀ m2, methodByName env (typeOf f) a fd.name = some m2 →
      (m2.ins.length = 0 ∧ m2.numOut = 1) →
      ∀ q h, structFieldByName fs fd.name = some (q, h) → diverge q p = true)
    (st : ElemState)
    (hinv : st.source = ⟨some f, a⟩ ∧ ∃ v0, typeOf v0 = T ∧ PathFrame dn fs p v0 (typeOf f) a st)
    (st2 : ElemState)
    (h : forFields (methodToField env) l st = .done st2
          ∨ ∃ e, forFields (methodToField env) l st = .failed e st2) :
    st2.source = ⟨some f, a⟩ ∧ ∃ v0, typeOf v0 = T ∧ PathFrame dn fs p v0 (typeOf f) a st2 := by
  refine forFields_inv (methodToField env)
    (fun s => s.source = ⟨some f, a⟩
      ∧ ∃ v0, typeOf v0 = T ∧ PathFrame dn fs p v0 (typeOf f) a s) l ?_ st hinv st2 h
  intro fd hfd s hs s2 hstep
  obtain ⟨hsrc1, v0, hv0, hpf⟩ := hs
  rcases hstep with hstep | ⟨e, hstep⟩
  · by_cases hname : fd.name = Y
    · have hkv : v0.kind ≠ Kind.ptr := by simp only [Value.kind]; rw [hv0]; exact hk
      obtain ⟨s3, h3, hpf3, hs3⟩ := methodToField_path_getter env dn fs p v0 a fd s f hpf
        hsrc1 g (by rw [hname]; exact hlook) hex m (by rw [hname]; exact hm) hins hout
        (hpure m (methodByName_mem env _ _ _ m hm)) v rest hv hkv (by rw [hv0]; exact hc)
      rw [h3] at hstep
      simp only [ElemOutcome.done.injEq] at hstep
      rw [← hstep]
      exact ⟨hs3, _, (convert_typeOf v (typeOf v0) (by rw [hv0]; exact hc)).trans hv0, hpf3⟩
    · exact ⟨methodToField_source_pure env fd s f a hsrc1 hpure s2 hstep, v0, hv0,
        methodToField_pathframe env hp dn fs p v0 (typeOf f) a fd s hpf
          (hdiv fd hfd hname) s2 (Or.inl hstep)⟩
  · exact absurd hstep (methodToField_not_failed env fd s e s2)

/-- The second loop, once the converted result is at the path `p`, keeps it
there. -/
theorem forFields_getter_kept (env : Env) (hp : env.TypePreserving) (dn : String)
    (fs : List StructField) (p : List Nat) (a : Bool) (f : Value) (Y : String) (T : Ty)
    (g : StructField) (hlook : structFieldByName fs Y = some (p, g))
    (hex : exported g.name = true)
    (m : Method) (hm : methodByName env (typeOf f) a Y = some m)
    (hins : m.ins.length = 0) (hout : m.numOut = 1)
    (hpure : ∀ m2 ∈ env.methods (typeOf f), (m2.body f []).1 = f)
    (v : Value) (rest : List Value) (hv : (m.body f []).2 = v :: rest)
    (hk : T.kind ≠ Kind.ptr) (hc : (typeOf v).ConvertibleTo T = true)
    (l : List StructField)
    (hdiv : ∀ fd ∈ l, fd.name ≠ Y → ∀ m2, methodByName env (typeOf f) a fd.name = some m2 →
      (m2.ins.length = 0 ∧ m2.numOut = 1) →
      ∀ q h, structFieldByName fs fd.name = some (q, h) → diverge q p = true)
    (st : ElemState)
    (hinv : st.source = ⟨some f, a⟩ ∧ PathFrame dn fs p (convert v T) (typeOf f) a st)
    (st2 : ElemState)
    (h : forFields (methodToField env) l st = .done st2
          ∨ ∃ e, forFields (methodToField env) l st = .failed e st2) :
    st2.source = ⟨some f, a⟩ ∧ PathFrame dn fs p (convert v T) (typeOf f) a st2 := by
  refine forFields_inv (methodToField env)
    (fun s => s.source = ⟨some f, a⟩ ∧ PathFrame dn fs p (convert v T) (typeOf f) a s)
    l ?_ st hinv st2 h
  intro fd hfd s hs s2 hstep
  obtain ⟨hsrc1, hpf⟩ := hs
  have hvT : typeOf (convert v T) = T := convert_typeOf v T hc
  rcases hstep with hstep | ⟨e, hstep⟩
  · by_cases hname : fd.name = Y
    · have hkv : (convert v T).kind ≠ Kind.ptr := by
        simp only [Value.kind]; rw [hvT]; exact hk
      obtain ⟨s3, h3, hpf3, hs3⟩ := methodToField_path_getter env dn fs p (convert v T) a fd
        s f hpf hsrc1 g (by rw [hname]; exact hlook) hex m (by rw [hname]; exact hm) hins
        hout (hpure m (methodByName_mem env _ _ _ m hm)) v rest hv hkv
        (by rw [hvT]; exact hc)
      rw [h3] at hstep
      simp only [ElemOutcome.done.injEq] at hstep
      rw [← hstep]
      rw [hvT] at hpf3
      exact ⟨hs3, hpf3⟩
    · exact ⟨methodToField_source_pure env fd s f a hsrc1 hpure s2 hstep,
        methodToField_pathframe env hp dn fs p (convert v T) (typeOf f) a fd s hpf
          (hdiv fd hfd hname) s2 (Or.inl hstep)⟩
  · exact absurd hstep (methodToField_not_failed env fd s e s2)

/-- The second loop, when the name `Y` is among the fields it ranges over,
leaves the converted result of the method `Y` at the path `p`. -/
theorem forFields_getter_value (env : Env) (hp : env.TypePreserving) (dn : String)
    (fs : List StructField) (p : List Nat) (a : Bool) (f : Value) (Y : String) (T : Ty)
    (g : StructField) (hlook : structFieldByName fs Y = some (p, g))
    (hex : exported g.name = true)
    (m : Method) (hm : methodByName env (typeOf f) a Y = some m)
    (hins : m.ins.length = 0) (hout : m.numOut = 1)
    (hpure : ∀ m2 ∈ env.methods (typeOf f), (m2.body f []).1 = f)
    (v : Value) (rest : List Value) (hv : (m.body f []).2 = v :: rest)
    (hk : T.kind ≠ Kind.ptr) (hc : (typeOf v).ConvertibleTo T = true)
    (l : List StructField) (hY : ∃ fd ∈ l, fd.name = Y)
    (hdiv : ∀ fd ∈ l, fd.name ≠ Y → ∀ m2, methodByName env (typeOf f) a fd.name = some m2 →
      (m2.ins.length = 0 ∧ m2.numOut = 1) →
      ∀ q h, structFieldByName fs fd.name = some (q, h) → diverge q p = true)
    (st : ElemState)
    (hinv : st.source = ⟨some f, a⟩ ∧ ∃ v0, typeOf v0 = T ∧ PathFrame dn fs p v0 (typeOf f) a st)
    (st2 : ElemState)
    (h : forFields (methodToField env) l st = .done st2) :
    PathFrame dn fs p (convert v T) (typeOf f) a st2 := by
  obtain ⟨fd, hfd, hname⟩ := hY
  obtain ⟨pre, post, hsplit⟩ := List.append_of_mem hfd
  rw [hsplit, forFields_append] at h
  have hpre : ∀ g2 ∈ pre, g2 ∈ l := fun g2 hg => by rw [hsplit]; simp [hg]
  have hpost : ∀ g2 ∈ post, g2 ∈ l := fun g2 hg => by rw [hsplit]; simp [hg]
  cases h1 : forFields (methodToField env) pre st with
  | panic => rw [h1] at h; simp at h
  | outOfFuel => rw [h1] at h; simp at h
  | failed e s1 => rw [h1] at h; simp at h
  | done s1 =>
    rw [h1] at h
    simp only at h
    obtain ⟨hs1, v0, hv0, hpf⟩ := forFields_getter_typed env hp dn fs p a f Y T g hlook hex m
      hm hins hout hpure v rest hv hk hc pre (fun g2 hg => hdiv g2 (hpre g2 hg)) st hinv s1
      (Or.inl h1)
    rw [forFields] at h
    have hkv : v0.kind ≠ Kind.ptr := by simp only [Value.kind]; rw [hv0]; exact hk
    obtain ⟨s3, h3, hpf3, hs3⟩ := methodToField_path_getter env dn fs p v0 a fd s1 f hpf hs1
      g (by rw [hname]; exact hlook) hex m (by rw [hname]; exact hm) hins hout
      (hpure m (methodByName_mem env _ _ _ m hm)) v rest hv hkv (by rw [hv0]; exact hc)
    rw [h3] at h
    simp only at h
    rw [hv0] at hpf3
    exact (forFields_getter_kept env hp dn fs p a f Y T g hlook hex m hm hins hout hpure v
      rest hv hk hc post (fun g2 hg => hdiv g2 (hpost g2 hg)) s3 ⟨hs3, hpf3⟩ st2
      (Or.inl h)).2

/-- The field at the path `p` after a single-struct `Copy` that returns nil: the
converted result of the source method `Y`. -/
theorem structCopy_getter_value (env : Env) (hp : env.TypePreserving) (root : Value)
    (fromValue : Option Value) (flags : List CopyOption) (dn : String)
    (dfvs : List FieldValue) (f : Value) (a : Bool)
    (hto : indirect (ValueOf (some root)) = ⟨some (.struct dn dfvs), true⟩)
    (hfrom : indirect (ValueOf fromValue) = ⟨some f, a⟩)
    (hassign : (typeOf f).AssignableTo (typeOf (.struct dn dfvs)) = false)
    (hkf : (indirectType (typeOf f)).kind = Kind.struct)
    (Y : String) (p : List Nat) (g : StructField) (old : Value)
    (hlook : structFieldByName (dfvs.map FieldValue.field) Y = some (p, g))
    (hna : g.anonymous = false)
    (hold : (Value.struct dn dfvs).FieldByIndex p = some old)
    (hex : exported g.name = true) (hk : old.kind ≠ Kind.ptr)
    (m : Method) (hm : methodByName env (typeOf f) a Y = some m)
    (hins : m.ins.length = 0) (hout : m.numOut = 1)
    (hpure : ∀ m2 ∈ env.methods (typeOf f), (m2.body f []).1 = f)
    (v : Value) (rest : List Value) (hv : (m.body f []).2 = v :: rest)
    (hc : (typeOf v).ConvertibleTo (typeOf old) = true)
    (hkeep : env.KeepsTypeAt (typeOf (.struct dn dfvs)) p)
    (hdiv1 : ∀ fd ∈ deepFields (indirectType (typeOf f)), ∀ q h,
      structFieldByName (dfvs.map FieldValue.field) fd.name = some (q, h) →
      diverge q p = true)
    (hdiv2 : ∀ fd ∈ deepFields (indirectType (typeOf (Value.struct dn dfvs))),
      fd.name ≠ Y → ∀ m2, methodByName env (typeOf f) a fd.name = some m2 →
      (m2.ins.length = 0 ∧ m2.numOut = 1) →
      ∀ q h, structFieldByName (dfvs.map FieldValue.field) fd.name = some (q, h) →
        diverge q p = true)
    (root2 : Value) (tr : List Event)
    (hres : Copy env (some root) fromValue flags = .returned none (some root2) tr) :
    ∃ dfvs2, indirect (ValueOf (some root2)) = ⟨some (.struct dn dfvs2), true⟩
      ∧ dfvs2.map FieldValue.field = dfvs.map FieldValue.field
      ∧ (Value.struct dn dfvs2).FieldByIndex p = some (convert v (typeOf old)) := by
  rw [Copy_unfold] at hres
  obtain ⟨st, hce, _, hroot⟩ := copyBody_single_nil env _ root fromValue flags dn dfvs f a
    hto hfrom hassign hkf root2 tr hres
  unfold copyElem at hce
  have hkT : (typeOf old).kind ≠ Kind.ptr := hk
  cases h1 : forFields (fieldToField env (fun tv fv => Copy env (some tv) (some fv) [])
      (createOptions flags)) (deepFields (indirectType (typeOf f)))
      ⟨⟨some (.struct dn dfvs), true⟩, ⟨some f, a⟩, []⟩ with
  | panic => rw [h1] at hce; simp at hce
  | outOfFuel => rw [h1] at hce; simp at hce
  | failed e s1 => rw [h1] at hce; simp at hce
  | done s1 =>
    rw [h1] at hce
    simp only at hce
    have hsrc1 : s1.source = ⟨some f, a⟩ := forFields_source env _ _ _ _ s1 h1
    have hpf1 := forFields_inv
      (fieldToField env (fun tv fv => Copy env (some tv) (some fv) []) (createOptions flags))
      (fun s => ∃ v0, typeOf v0 = typeOf old
        ∧ PathFrame dn (dfvs.map FieldValue.field) p v0 (typeOf f) a s)
      (deepFields (indirectType (typeOf f)))
      (fun fd hfd s hs s2 hstep =>
        fieldToField_pathtyped env hp _ (createOptions flags) dn _ p (typeOf old) (typeOf f)
          a fd s hkeep hs (hdiv1 fd hfd) s2 hstep)
      _ ⟨old, rfl, ⟨dfvs, rfl, rfl, hold⟩, rfl, fun s hs => by
        simp only [Option.some.injEq] at hs; rw [← hs]⟩ s1 (Or.inl h1)
    obtain ⟨hfield, hgname⟩ := structFieldByName_at _ Y p g hlook
    have hY : ∃ fd ∈ deepFields (indirectType (typeOf (Value.struct dn dfvs))), fd.name = Y := by
      refine ⟨g, ?_, hgname⟩
      simp only [typeOf, indirectType, deepFields]
      exact fieldAt_mem_deepFields p _ g hfield hna
    have hpf2 := forFields_getter_value env hp dn (dfvs.map FieldValue.field) p a f Y
      (typeOf old) g hlook hex m hm hins hout hpure v rest hv hkT hc _ hY hdiv2 s1
      ⟨hsrc1, hpf1⟩ st hce
    obtain ⟨⟨fvs, hdest, hmap, hxx⟩, _, _⟩ := hpf2
    refine ⟨fvs, ?_, hmap, hxx⟩
    rw [hroot (.struct dn fvs) (by rw [hdest])]
    exact indirect_storeIndirect root _ _ true hto (by simp [Value.kind, typeOf, Ty.kind])

/-- C12, as the code has it. In a single-struct `Copy` (the destination is a
struct, the source is a struct after indirection, the types are not
assignable), let the lookup of the name `Y` in the destination type lead, by
the index path `p`, possibly through embedded members, to a settable field that
is not itself an embedded member and holds a value of a type that is not a
pointer; and let the source have a zero-argument single-result method `Y`
(found through the address of the source when it is addressable) whose result
converts to that type. Assume that the zero-argument methods of the source
leave it unchanged, that every flattened source name resolves in the
destination to a path that parts ways with `p`, which holds in particular when
the source has no field `Y` and the destination has no embedded member, and
that every other destination name for which the source has such a method
resolves to a path that parts ways with `p`. Destination setters may exist and
be invoked. Then after `Copy` returns nil the field at `p` holds the result of
`source.Y()` converted to the type of the field. And an error that `Copy`
returns comes from a nested copy of the first loop: the second loop, which
ignores what `set` returns, never makes `Copy` return an error. -/
theorem Copy_getter_field (env : Env) (hp : env.TypePreserving) (root : Value)
    (fromValue : Option Value) (flags : List CopyOption) (dn : String)
    (dfvs : List FieldValue) (f : Value) (a : Bool)
    (hto : indirect (ValueOf (some root)) = ⟨some (.struct dn dfvs), true⟩)
    (hfrom : indirect (ValueOf fromValue) = ⟨some f, a⟩)
    (hassign : (typeOf f).AssignableTo (typeOf (.struct dn dfvs)) = false)
    (hkf : (indirectType (typeOf f)).kind = Kind.struct)
    (Y : String) (p : List Nat) (g : StructField) (old : Value)
    (hlook : structFieldByName (dfvs.map FieldValue.field) Y = some (p, g))
    (hna : g.anonymous = false)
    (hold : (Value.struct dn dfvs).FieldByIndex p = some old)
    (hex : exported g.name = true) (hk : old.kind ≠ Kind.ptr)
    (m : Method) (hm : methodByName env (typeOf f) a Y = some m)
    (hins : m.ins.length = 0) (hout : m.numOut = 1)
    (hpure : ∀ m2 ∈ env.methods (typeOf f), (m2.body f []).1 = f)
    (v : Value) (rest : List Value) (hv : (m.body f []).2 = v :: rest)
    (hc : (typeOf v).ConvertibleTo (typeOf old) = true)
    (hkeep : env.KeepsTypeAt (typeOf (.struct dn dfvs)) p)
    (hdiv1 : ∀ fd ∈ deepFields (indirectType (typeOf f)), ∀ q h,
      structFieldByName (dfvs.map FieldValue.field) fd.name = some (q, h) →
      diverge q p = true)
    (hdiv2 : ∀ fd ∈ deepFields (indirectType (typeOf (Value.struct dn dfvs))),
      fd.name ≠ Y → ∀ m2, methodByName env (typeOf f) a fd.name = some m2 →
      (m2.ins.length = 0 ∧ m2.numOut = 1) →
      ∀ q h, structFieldByName (dfvs.map FieldValue.field) fd.name = some (q, h) →
        diverge q p = true) :
    (∀ root2 tr, Copy env (some root) fromValue flags = .returned none (some root2) tr →
        ∃ dfvs2, indirect (ValueOf (some root2)) = ⟨some (.struct dn dfvs2), true⟩
          ∧ dfvs2.map FieldValue.field = dfvs.map FieldValue.field
          ∧ (Value.struct dn dfvs2).FieldByIndex p = some (convert v (typeOf old)))
    ∧ (∀ e tv tr, Copy env (some root) fromValue flags = .returned (some e) tv tr →
        FailedNested env (fun tv fv => Copy env (some tv) (some fv) []) (some root)
          fromValue flags e) := by
  refine ⟨fun root2 tr hres =>
      structCopy_getter_value env hp root fromValue flags dn dfvs f a hto hfrom hassign hkf Y
        p g old hlook hna hold hex hk m hm hins hout hpure v rest hv hc hkeep hdiv1 hdiv2
        root2 tr hres, ?_⟩
  intro e tv tr hres
  rw [Copy_unfold] at hres
  rcases copyBody_error env _ (some root) fromValue flags e tv tr hres with h | h
  · rw [hto] at h; simp [RValue.CanAddr] at h
  · exact h

theorem memoSecEnv_TypePreserving : memoSecEnv.TypePreserving := by
  intro ty m recv args hm hty
  simp only [memoSecEnv] at hm
  split at hm
  · simp only [List.mem_singleton] at hm
    rw [hm]
    exact hty
  · split at hm
    · simp only [List.mem_singleton] at hm
      rw [hm]
      simp only [methodSec]
      split
      · rw [← hty]
        rfl
      · exact hty
    · simp at hm

theorem memoSecEnv_KeepsTypeAt : memoSecEnv.KeepsTypeAt docType [0, 1] := by
  intro m recv args v hm hty hv
  have hm2 : m ∈ [methodSec] := hm
  simp only [List.mem_singleton] at hm2
  rw [hm2]
  simp only [methodSec]
  split
  · exact ⟨v, hv, rfl⟩
  · exact ⟨v, hv, rfl⟩

theorem Copy_getter_field_witness :
    (∃ dfvs2, indirect (ValueOf (some (Value.ptr docType (some docSec))))
        = ⟨some (.struct "Doc" dfvs2), true⟩
      ∧ dfvs2.map FieldValue.field
        = [StructField.mk "Meta" metaType true, fld "Title" .string]
      ∧ (Value.struct "Doc" dfvs2).FieldByIndex [0, 1]
          = some (convert (Value.string "g") .string))
    ∧ Copy memoSecEnv (some (Value.ptr docType (some (zero docType)))) (some memoValue) []
        = .returned none (some (Value.ptr docType (some docSec)))
            [Event.call docType "Sec" [Value.int 5], Event.call memoType "Tag" []] := by
  have hl : deepFields (indirectType (typeOf memoValue))
      = [fld "ID" .int8, fld "Title" .string, fld "Sec" .int] := rfl
  have hd : deepFields (indirectType (typeOf (Value.struct "Doc"
      (zeroFields [StructField.mk "Meta" metaType true, fld "Title" .string]))))
      = [fld "ID" .int, fld "Tag" .string, fld "Title" .string] := rfl
  have H := Copy_getter_field memoSecEnv memoSecEnv_TypePreserving
    (Value.ptr docType (some (zero docType))) (some memoValue) [] "Doc"
    (zeroFields [StructField.mk "Meta" metaType true, fld "Title" .string])
    memoValue false rfl rfl rfl rfl
    "Tag" [0, 1] (fld "Tag" .string) (.string "") rfl rfl rfl rfl (by decide)
    methodTag rfl rfl rfl
    (by
      intro m2 hm2
      have h : m2 ∈ [methodTag] := hm2
      simp only [List.mem_singleton] at h
      rw [h]
      rfl)
    (.string "g") [] rfl rfl memoSecEnv_KeepsTypeAt
    (by
      intro fd hfd q h hq
      rw [hl] at hfd
      simp only [List.mem_cons, List.mem_singleton, List.not_mem_nil, or_false] at hfd
      rcases hfd with rfl | rfl | rfl
      · have h1 : structFieldByName
            [StructField.mk "Meta" metaType true, fld "Title" .string] "ID"
            = some ([0, 0, 0], fld "ID" .int) := rfl
        have hq2 : some ([0, 0, 0], fld "ID" .int) = some (q, h) := h1.symm.trans hq
        simp only [Option.some.injEq, Prod.mk.injEq] at hq2
        rw [← hq2.1]
        rfl
      · have h1 : structFieldByName
            [StructField.mk "Meta" metaType true, fld "Title" .string] "Title"
            = some ([1], fld "Title" .string) := rfl
        have hq2 : some ([1], fld "Title" .string) = some (q, h) := h1.symm.trans hq
        simp only [Option.some.injEq, Prod.mk.injEq] at hq2
        rw [← hq2.1]
        rfl
      · have h1 : structFieldByName
            [StructField.mk "Meta" metaType true, fld "Title" .string] "Sec" = none := rfl
        have hq2 : (none : Option (List Nat × StructField)) = some (q, h) := h1.symm.trans hq
        simp at hq2)
    (by
      intro fd hfd hne m2 hm2 _ q h hq
      rw [hd] at hfd
      simp only [List.mem_cons, List.mem_singleton, List.not_mem_nil, or_false] at hfd
      rcases hfd with rfl | rfl | rfl
      · have h1 : methodByName memoSecEnv (typeOf memoValue) false "ID" = none := rfl
        have hm3 : (none : Option Method) = some m2 := h1.symm.trans hm2
        simp at hm3
      · exact absurd rfl hne
      · have h1 : methodByName memoSecEnv (typeOf memoValue) false "Title" = none := rfl
        have hm3 : (none : Option Method) = some m2 := h1.symm.trans hm2
        simp at hm3)
  exact ⟨H.1 (Value.ptr docType (some docSec))
    [Event.call docType "Sec" [Value.int 5], Event.call memoType "Tag" []] rfl, rfl⟩

/-- C12, counterexample. First, a field of pointer type: the destination
`Box{Y: &5}` has the settable field `Y *int`; the source `Probe` has no field
`Y` and a method `Y() *int`, of the same type, that returns nil. After `Copy`,
which returns nil, `Y` still points to 5: it does not hold the nil that
`source.Y()` returned. Second, another source method whose name resolves to an
embedded member on the way to the field: with `type Wrap struct { Meta; Sub }`,
`type Sub struct { Meta string }`, and the methods `func (k Key) Tag() string`,
which returns `"g"`, and `func (k Key) Meta() Meta`, the second loop sets the
promoted field `Tag` to `"g"` and then replaces the member `Meta`; `Copy`
returns nil and `Tag` holds `""`. Third, a field that is an embedded member:
`Doc` embeds `Meta`, a settable field named `Meta`, and `Key` has the method
`Meta() Meta`, which returns the zero `Meta`; the flattened destination names
are `ID`, `Tag` and `Title`, the method `Meta` is never called, and after `Copy`,
which returns nil, the field `Meta` does not hold the zero `Meta`. -/
theorem Copy_getter_field_not_set :
    (Copy probeNilEnv (some (Value.ptr (typeOf boxFive) (some boxFive))) (some probeValue) []
        = .returned none (some (Value.ptr (typeOf boxFive) (some boxFive)))
            [Event.call probeType "Y" []]
      ∧ (methodYNil.body probeValue []).2 = [Value.ptr .int none]
      ∧ (typeOf (Value.ptr .int none)).ConvertibleTo (.ptr .int) = true
      ∧ boxFive.Field 0 = some (Value.ptr .int (some (.int 5)))
      ∧ (deepFields (typeOf probeValue)).map StructField.name = ["Z"])
    ∧ (Copy keyEnv (some (Value.ptr wrapType (some wrapValue))) (some keyValue) []
        = .returned none (some (Value.ptr wrapType (some wrapReset)))
            [Event.call (typeOf keyValue) "Tag" [], Event.call (typeOf keyValue) "Meta" []]
      ∧ deepFields wrapType = [fld "ID" .int, fld "Tag" .string, fld "Meta" .string]
      ∧ structFieldByName
          [StructField.mk "Meta" metaType true, StructField.mk "Sub" subType true] "Tag"
          = some ([0, 1], fld "Tag" .string)
      ∧ (methodTag.body keyValue []).2 = [Value.string "g"]
      ∧ wrapReset.FieldByIndex [0, 1] = some (Value.string ""))
    ∧ (Copy keyEnv (some (Value.ptr docType (some docKeep))) (some keyValue) []
        = .returned none (some (Value.ptr docType (some docKeyed)))
            [Event.call (typeOf keyValue) "Tag" []]
      ∧ (deepFields docType).map StructField.name = ["ID", "Tag", "Title"]
      ∧ structFieldByName [StructField.mk "Meta" metaType true, fld "Title" .string] "Meta"
          = some ([0], StructField.mk "Meta" metaType true)
      ∧ (methodMeta.body keyValue []).2 = [zero metaType]
      ∧ docKeyed.Field 0 = some (.struct "Meta"
          [.mk (StructField.mk "Audit" auditType true)
              (.struct "Audit" [.mk (fld "ID" .int) (.int 7)]),
            .mk (fld "Tag" .string) (.string "g")])
      ∧ zero metaType = .struct "Meta"
          [.mk (StructField.mk "Audit" auditType true)
              (.struct "Audit" [.mk (fld "ID" .int) (.int 0)]),
            .mk (fld "Tag" .string) (.string "")]) :=
  ⟨⟨rfl, rfl, rfl, rfl, rfl⟩, ⟨rfl, rfl, rfl, rfl, rfl⟩, rfl, rfl, rfl, rfl, rfl, rfl⟩


end Copier
